import Mathlib

/-! # TriC: buffered Bloom-filter triangle counting (`bhashfastric.hpp`)

A shallow embedding of `Bloomfilter` and `TriangulateAggrBufferedHashPush`
together with the properties of the specification that concern them.

Conventions of the embedding
* `GraphElem` values that index vertices and edges are natural numbers; the
  counters that the code decrements or compares with a signed value
  (`bufsize_`, `out_nghosts_`, `in_nghosts_`, `vcount_`, `sbuf_ctr_`) and the
  bookmarks `prev_m_` and `prev_k_`, which take the value `-1`, are integers.
* `std::vector` and raw arrays are lists; a read outside a list yields a
  default value and a write outside a list is dropped.
* `MurmurHash3_x64_128` is not part of the sources; the two 64-bit lanes it
  produces for a 16-byte key are a parameter `H : Hash128`.
* every `for` loop is a structurally recursive function whose first argument
  bounds the number of iterations that remain.
-/

namespace TriC

/-! ## Bloomfilter -/

/-- The two 64-bit lanes written by `MurmurHash3_x64_128(&key, 16, 0, out)` for
the key `{lhs, rhs}`.  `MurmurHash3` is not among the sources: the hash is a
parameter of every definition that calls it. -/
abbrev Hash128 := Nat → Nat → Nat × Nat

/-- State of a `Bloomfilter` object: `n_`, `m_`, `k_`, the byte vector `bits_`
and the scratch vector `hashes_` (`p_` is only read by the constructors). -/
structure Bloomfilter where
  n_ : Nat
  m_ : Nat
  k_ : Nat
  bits_ : List Char
  hashes_ : List Nat
  deriving DecidableEq, Repr, Inhabited

/-- Class invariant established by both constructors: `bits_` has `m_` entries
and `hashes_` has `k_` entries. -/
def Bloomfilter.WF (bf : Bloomfilter) : Prop :=
  bf.bits_.length = bf.m_ ∧ bf.hashes_.length = bf.k_

instance (bf : Bloomfilter) : Decidable bf.WF := by
  unfold Bloomfilter.WF; infer_instance

/-- The loop `for (n = 0; n < k_; n += 2)` of `Bloomfilter::hash` (lines 149-154)
on the vector `hashes_`.  `MurmurHash3_x64_128(..., &hashes_[n])` stores 16 bytes,
the entries `n` and `n + 1`; when entry `n + 1` is past the end of the vector (an
odd `k_`) the store leaves the object: no result.  `hashes_[n] % m_` with
`m_ = 0` divides by zero: no result.  With `fuel = k_` the loop ends before the
fuel does. -/
def Bloomfilter.hash_loop (H : Hash128) (m_ k_ lhs rhs : Nat) :
    Nat → Nat → List Nat → Option (List Nat)
  | 0, n, hs => if n < k_ then none else some hs
  | fuel + 1, n, hs =>
    if n < k_ then
      if n + 1 < hs.length then
        if m_ = 0 then none
        else
          let out := H lhs rhs
          let hs1 := (hs.set n out.1).set (n + 1) out.2
          let hs2 := hs1.set n (hs1.getD n 0 % m_)
          let hs3 := hs2.set (n + 1) (hs2.getD (n + 1) 0 % m_)
          Bloomfilter.hash_loop H m_ k_ lhs rhs fuel (n + 2) hs3
      else none
    else some hs

/-- `Bloomfilter::hash(lhs, rhs)`; no result when a store of the loop leaves
`hashes_` or `m_` is 0. -/
def Bloomfilter.hash (H : Hash128) (bf : Bloomfilter) (lhs rhs : Nat) : Option Bloomfilter :=
  match Bloomfilter.hash_loop H bf.m_ bf.k_ lhs rhs bf.k_ 0 bf.hashes_ with
  | none => none
  | some hs => some { bf with hashes_ := hs }

/-- The loop `for (k = 0; k < k_; k++) bits_[hashes_[k]] = '1'` of `insert` over
the remaining values of `k`; an index outside `hashes_` or outside `bits_` gives
no result. -/
def Bloomfilter.set_bits (hashes : List Nat) : List Nat → List Char → Option (List Char)
  | [], bits => some bits
  | k :: ks, bits =>
    match hashes[k]? with
    | none => none
    | some h =>
      if h < bits.length then Bloomfilter.set_bits hashes ks (bits.set h '1') else none

/-- `Bloomfilter::insert(i, j)` (lines 94-99): hash, then `bits_[hashes_[k]] = '1'`
for `k < k_`. -/
def Bloomfilter.insert (H : Hash128) (bf : Bloomfilter) (i j : Nat) : Option Bloomfilter :=
  match bf.hash H i j with
  | none => none
  | some bf1 =>
    match Bloomfilter.set_bits bf1.hashes_ (List.range bf1.k_) bf1.bits_ with
    | none => none
    | some bits => some { bf1 with bits_ := bits }

/-- The loop of `contains` over the remaining values of `k`: false at the first
`k` with `bits_[hashes_[k]] == '0'`, true when there is none; an index outside
`hashes_` or outside `bits_` gives no result. -/
def Bloomfilter.test_bits (hashes : List Nat) (bits : List Char) : List Nat → Option Bool
  | [] => some true
  | k :: ks =>
    match hashes[k]? with
    | none => none
    | some h =>
      match bits[h]? with
      | none => none
      | some c => if c == '0' then some false else Bloomfilter.test_bits hashes bits ks

/-- `Bloomfilter::contains(i, j)` (lines 117-126): hash, then the loop over `k`.
Every read of the scratch `hashes_` is preceded by a call of `hash` that
overwrites all `k_` slots, so the updated scratch is not returned. -/
def Bloomfilter.contains (H : Hash128) (bf : Bloomfilter) (i j : Nat) : Option Bool :=
  match bf.hash H i j with
  | none => none
  | some bf1 => Bloomfilter.test_bits bf1.hashes_ bf1.bits_ (List.range bf1.k_)

/-- A sequence of `insert` calls; no result as soon as one call has none. -/
def Bloomfilter.insert_all (H : Hash128) : List (Nat × Nat) → Bloomfilter → Option Bloomfilter
  | [], bf => some bf
  | p :: ps, bf =>
    match bf.insert H p.1 p.2 with
    | none => none
    | some b => Bloomfilter.insert_all H ps b

/-- The filters on which `hash` has a result (given the class invariant): `k_` is
even, so that no store leaves `hashes_`, and `m_ > 0` unless the loop is empty. -/
def Bloomfilter.HashDefined (bf : Bloomfilter) : Prop :=
  bf.k_ % 2 = 0 ∧ (0 < bf.k_ → 0 < bf.m_)

instance (bf : Bloomfilter) : Decidable bf.HashDefined := by
  unfold Bloomfilter.HashDefined; infer_instance

/-- The scratch vector that the loop of `hash` leaves when it has a result
(`Bloomfilter.hash_loop_eq`): the same loop without the two tests. -/
def Bloomfilter.safe_hash_loop (H : Hash128) (m_ k_ lhs rhs : Nat) :
    Nat → Nat → List Nat → List Nat
  | 0, _, hs => hs
  | fuel + 1, n, hs =>
    if n < k_ then
      let out := H lhs rhs
      let hs1 := (hs.set n out.1).set (n + 1) out.2
      let hs2 := hs1.set n (hs1.getD n 0 % m_)
      let hs3 := hs2.set (n + 1) (hs2.getD (n + 1) 0 % m_)
      Bloomfilter.safe_hash_loop H m_ k_ lhs rhs fuel (n + 2) hs3
    else hs

/-- The filter that `hash(lhs, rhs)` leaves when it has a result
(`Bloomfilter.hash_eq`). -/
def Bloomfilter.safe_hash (H : Hash128) (bf : Bloomfilter) (lhs rhs : Nat) : Bloomfilter :=
  { bf with hashes_ := Bloomfilter.safe_hash_loop H bf.m_ bf.k_ lhs rhs bf.k_ 0 bf.hashes_ }

/-- The filter that `insert(i, j)` leaves when it has a result
(`Bloomfilter.insert_eq`).  The definitions of the engine use this form of the
call: they describe the runs in which every call on a filter returns. -/
def Bloomfilter.safe_insert (H : Hash128) (bf : Bloomfilter) (i j : Nat) : Bloomfilter :=
  let bf1 := bf.safe_hash H i j
  let bits := (List.range bf1.k_).foldl
    (fun bits k => bits.set (bf1.hashes_.getD k 0) '1') bf1.bits_
  { bf1 with bits_ := bits }

/-- The value that `contains(i, j)` returns when it has a result
(`Bloomfilter.contains_eq_safe`).  The definitions of the engine use this form of
the call. -/
def Bloomfilter.safe_contains (H : Hash128) (bf : Bloomfilter) (i j : Nat) : Bool :=
  let bf1 := bf.safe_hash H i j
  (List.range bf1.k_).all (fun k => !(bf1.bits_.getD (bf1.hashes_.getD k 0) '0' == '0'))

/-- `Bloomfilter::nbits()`. -/
def Bloomfilter.nbits (bf : Bloomfilter) : Nat := bf.m_

/-- `Bloomfilter::copy_from(dest)`: `memcpy(dest, bits_.data(), m_)`; the result
is the destination buffer afterwards. -/
def Bloomfilter.copy_from (bf : Bloomfilter) (dest : List Char) : List Char :=
  bf.bits_.take bf.m_ ++ dest.drop bf.m_

/-- `Bloomfilter::copy_to(source)`: `memcpy(bits_.data(), source, m_)`. -/
def Bloomfilter.copy_to (bf : Bloomfilter) (source : List Char) : Bloomfilter :=
  { bf with bits_ := source.take bf.m_ ++ bf.bits_.drop bf.m_ }

/-- `Bloomfilter::zfill()`. -/
def Bloomfilter.zfill (bf : Bloomfilter) : Bloomfilter :=
  { bf with bits_ := bf.bits_.map (fun _ => '0') }

/-- The floating-point expressions of the `Bloomfilter` constructors, which are
not integer arithmetic and are therefore parameters of the embedding:
`pow2_ceil_log2 n` is `pow(2, std::ceil(log(n)/log(2)))`, `nbits n_` is
`std::ceil((n_ * log(p_)) / log(1 / pow(2, log(2))))` and `round_mul_log2 q` is
`std::round(q * log(2))`, each converted to `GraphElem`. -/
structure FloatOps where
  pow2_ceil_log2 : Nat → Nat
  nbits : Nat → Nat
  round_mul_log2 : Nat → Nat

/-- `Bloomfilter::Bloomfilter(GraphElem n, GraphWeight p)`.  For `n ≤ 0` the
logarithm is infinite or NaN and the integer quotient `m_ / n_` divides by zero:
no object is produced.  Otherwise `k_ == 0` throws `std::invalid_argument`. -/
def Bloomfilter.mk1 (F : FloatOps) (n : Int) : Option Bloomfilter :=
  if n ≤ 0 then none
  else
    let n_ := F.pow2_ceil_log2 n.toNat
    let m_ := F.nbits n_
    if n_ = 0 then none
    else
      let k_ := F.round_mul_log2 (m_ / n_)
      if k_ = 0 then none
      else some { n_ := n_, m_ := m_, k_ := k_,
                  bits_ := List.replicate m_ '0', hashes_ := List.replicate k_ 0 }

/-! ## Graph collaborator -/

/-- Modelled from the spec: the distributed `Graph` of `graph.hpp`, which is not
among the sources.  Following spec §3 and §6 the vertices `0 .. nv-1` are split
into contiguous blocks, rank `r` owning `[parts[r], parts[r+1])`; `adj[v]` is the
adjacency (list of tails) of global vertex `v`.  Each process stores the
adjacencies of its own vertices contiguously (CSR), which fixes `edge_range` and
`get_edge`. -/
structure Graph where
  parts : List Nat
  adj : List (List Nat)
  deriving DecidableEq, Repr, Inhabited

namespace Graph

/-- Modelled from the spec: `Graph::get_nv()`. -/
def get_nv (g : Graph) : Nat := g.adj.length

/-- Modelled from the spec: number of processes of the communicator. -/
def get_size (g : Graph) : Nat := g.parts.length - 1

/-- Modelled from the spec: `Graph::get_base(rank)`. -/
def get_base (g : Graph) (rank : Nat) : Nat := g.parts.getD rank 0

/-- Modelled from the spec: `Graph::get_lnv()` on process `rank`. -/
def get_lnv (g : Graph) (rank : Nat) : Nat := g.parts.getD (rank + 1) 0 - g.parts.getD rank 0

/-- Modelled from the spec: `Graph::get_owner(v)`: the rank whose block contains `v`. -/
def get_owner (g : Graph) (v : Nat) : Nat := g.parts.countP (fun b => decide (b ≤ v)) - 1

/-- Modelled from the spec: `Graph::local_to_global(i)` on process `rank`. -/
def local_to_global (g : Graph) (rank i : Nat) : Nat := i + g.get_base rank

/-- Modelled from the spec: `Graph::global_to_local(v)` on process `rank`. -/
def global_to_local (g : Graph) (rank v : Nat) : Nat := v - g.get_base rank

/-- Modelled from the spec: adjacencies of the vertices owned by `rank`, in local order. -/
def local_adj (g : Graph) (rank : Nat) : List (List Nat) :=
  (g.adj.drop (g.get_base rank)).take (g.get_lnv rank)

/-- Modelled from the spec: the CSR edge array of process `rank` (tails only). -/
def edge_list (g : Graph) (rank : Nat) : List Nat := (g.local_adj rank).flatten

/-- Modelled from the spec: `Graph::edge_range(i, e0, e1)` on process `rank`. -/
def edge_range (g : Graph) (rank i : Nat) : Nat × Nat :=
  let e0 := (((g.local_adj rank).take i).map List.length).sum
  (e0, e0 + ((g.local_adj rank).getD i []).length)

/-- Modelled from the spec: `Graph::get_edge(e).tail_` on process `rank`. -/
def get_edge (g : Graph) (rank e : Nat) : Nat := (g.edge_list rank).getD e 0

end Graph

/-! ## TriangulateAggrBufferedHashPush: state -/

/-- Body of `edge_above_min(x, y)` for the table `erange_`. -/
def above_min (erange : List Nat) (x y : Nat) : Bool :=
  if y ≥ erange.getD (x * 2) 0 then true else false

/-- Body of `edge_within_max(x, y)` for the table `erange_`. -/
def within_max (erange : List Nat) (x y : Nat) : Bool :=
  if y ≤ erange.getD (x * 2 + 1) 0 then true else false


/-- Fields of a `TriangulateAggrBufferedHashPush` object on one process.
`active_` holds the `EdgeStat::active_` flags of the local half-edges and `sreq_`
tells which send handles are active (not `MPI_REQUEST_NULL`).  The last two
fields are ghost state that no code reads: `sent_` is the sequence of messages
posted by `MPI_Isend` (destination, payload) and `inserted_` the sequence of
`insert` calls issued by `lookup_edges` (slot, source edge `m`, neighbour
position `n`). -/
structure TriangulateAggrBufferedHashPush where
  rank_ : Nat
  size_ : Nat
  ntriangles_ : Nat
  bufsize_ : Int
  pdegree_ : Nat
  out_nghosts_ : Int
  in_nghosts_ : Int
  sbuf_ctr_ : List Int
  prev_k_ : List Int
  prev_m_ : List Int
  erange_ : List Nat
  vcount_ : List Int
  sebf_ : List Bloomfilter
  rebf_ : Bloomfilter
  sbuf_ : List Char
  rbuf_ : List Char
  stat_ : List Char
  targets_ : List Nat
  sreq_ : List Bool
  pindex_ : List (Nat × Nat)
  active_ : List Bool
  sent_ : List (Nat × List Char)
  inserted_ : List (Nat × Nat × Nat)
  deriving DecidableEq, Repr, Inhabited

namespace TriangulateAggrBufferedHashPush

/-- `pindex_[owner]`: `std::unordered_map::operator[]` yields `0` for a key that
is not present. -/
def pindex (e : TriangulateAggrBufferedHashPush) (owner : Nat) : Nat :=
  (e.pindex_.lookup owner).getD 0

/-- `edge_above_min(x, y)`. -/
def edge_above_min (e : TriangulateAggrBufferedHashPush) (x y : Nat) : Bool :=
  above_min e.erange_ x y

/-- `edge_within_max(x, y)`. -/
def edge_within_max (e : TriangulateAggrBufferedHashPush) (x y : Nat) : Bool :=
  within_max e.erange_ x y

/-- `edge_between_range(x, y)`. -/
def edge_between_range (e : TriangulateAggrBufferedHashPush) (x y : Nat) : Bool :=
  if y ≥ e.erange_.getD (x * 2) 0 ∧ y ≤ e.erange_.getD (x * 2 + 1) 0 then true else false

/-- The loop of `check_edgelist`: scan `[e, e + fuel)` for the tail `t1`, leaving
at the first tail that is greater. -/
def check_edgelist_loop (g : Graph) (rank t1 : Nat) : Nat → Nat → Bool
  | 0, _ => false
  | fuel + 1, e =>
    let tail := g.get_edge rank e
    if t1 = tail then true
    else if tail > t1 then false
    else check_edgelist_loop g rank t1 fuel (e + 1)

/-- `check_edgelist(tup)`. -/
def check_edgelist (g : Graph) (e : TriangulateAggrBufferedHashPush) (tup0 tup1 : Nat) : Bool :=
  let lv := g.global_to_local e.rank_ tup0
  let r := g.edge_range e.rank_ lv
  check_edgelist_loop g e.rank_ tup1 (r.2 - r.1) r.1

/-- `nbsend(owner)`: when the slot's fill counter is positive, copy the filter
bytes into the slot's region of `sbuf_` and post `MPI_Isend` for that region. -/
def nbsend (e : TriangulateAggrBufferedHashPush) (owner : Nat) : TriangulateAggrBufferedHashPush :=
  let pidx := e.pindex owner
  if e.sbuf_ctr_.getD pidx 0 > 0 then
    let bf := e.sebf_.getD pidx default
    let count := bf.nbits
    let off := pidx * count
    let sbuf := e.sbuf_.take off ++ bf.copy_from (e.sbuf_.drop off)
    { e with sbuf_ := sbuf
             sreq_ := e.sreq_.set pidx true
             sent_ := e.sent_ ++ [(owner, (sbuf.drop off).take count)] }
  else e

/-- `nbsend()`: `nbsend(p)` for every `p` of `targets_`. -/
def nbsend_all (e : TriangulateAggrBufferedHashPush) : TriangulateAggrBufferedHashPush :=
  e.targets_.foldl nbsend e

/-! ### lookup_edges -/

/-- The loop over `n` of `lookup_edges` (source lines 508-532) for the source
edge `m` of local vertex `i`, whose tail `tail_m` belongs to `owner` with slot
`pidx`.  The call `sebf_[pidx]->insert(...)` of line 528 is taken in its
`safe_insert` form: the filters of the engine come from its constructor and keep
their `m_` and `k_`, and where these make `hash` defined the two forms agree on
every state that the driver reaches (`filter_calls_defined`). -/
def lookup_n_loop (g : Graph) (H : Hash128) (i m owner pidx tail_m : Nat) :
    Nat → Nat → TriangulateAggrBufferedHashPush → TriangulateAggrBufferedHashPush
  | 0, _, e => e
  | fuel + 1, n, e =>
    let tail_n := g.get_edge e.rank_ n
    if !e.edge_within_max tail_m tail_n then e
    else if !e.edge_above_min tail_m tail_n || !e.edge_above_min tail_n tail_m then
      lookup_n_loop g H i m owner pidx tail_m fuel (n + 1) e
    else if e.sbuf_ctr_.getD pidx 0 = e.bufsize_ then
      nbsend { e with prev_m_ := e.prev_m_.set pidx (m : Int)
                      prev_k_ := e.prev_k_.set pidx (n : Int)
                      stat_ := e.stat_.set pidx '1' } owner
    else
      lookup_n_loop g H i m owner pidx tail_m fuel (n + 1)
        { e with sebf_ := e.sebf_.set pidx ((e.sebf_.getD pidx default).safe_insert H tail_m tail_n)
                 sbuf_ctr_ := e.sbuf_ctr_.set pidx (e.sbuf_ctr_.getD pidx 0 + 2)
                 out_nghosts_ := e.out_nghosts_ - 1
                 vcount_ := e.vcount_.set i (e.vcount_.getD i 0 - 1)
                 inserted_ := e.inserted_ ++ [(pidx, m, n)] }

/-- Body of the loop over `m` of `lookup_edges` (source lines 486-548); `e1` is
the end of the edge range of local vertex `i`. -/
def lookup_m_body (g : Graph) (H : Hash128) (i e1 m : Nat)
    (e : TriangulateAggrBufferedHashPush) : TriangulateAggrBufferedHashPush :=
  let tail_m := g.get_edge e.rank_ m
  let owner := g.get_owner tail_m
  let pidx := e.pindex owner
  if owner ≠ e.rank_ ∧ e.active_.getD m true = true then
    if e.stat_.getD pidx '0' = '1' then e
    else if (m : Int) ≥ e.prev_m_.getD pidx (-1) then
      if e.sbuf_ctr_.getD pidx 0 = e.bufsize_ then
        nbsend { e with prev_m_ := e.prev_m_.set pidx (m : Int)
                        prev_k_ := e.prev_k_.set pidx (-1)
                        stat_ := e.stat_.set pidx '1' } owner
      else
        let n0 := if e.prev_k_.getD pidx (-1) = -1 then m + 1 else (e.prev_k_.getD pidx (-1)).toNat
        let e' := lookup_n_loop g H i m owner pidx tail_m (e1 - n0) n0 e
        if e'.stat_.getD pidx '0' = '0' then
          let e2 := { e' with prev_m_ := e'.prev_m_.set pidx (m : Int)
                              prev_k_ := e'.prev_k_.set pidx (-1)
                              active_ := e'.active_.set m false }
          if e2.sbuf_ctr_.getD pidx 0 = e2.bufsize_ then
            nbsend { e2 with stat_ := e2.stat_.set pidx '1' } owner
          else e2
        else e'
    else e
  else e

/-- The loop `for (m = e0; m < e1-1; m++)` of `lookup_edges`. -/
def lookup_m_loop (g : Graph) (H : Hash128) (i e1 : Nat) :
    Nat → Nat → TriangulateAggrBufferedHashPush → TriangulateAggrBufferedHashPush
  | 0, _, e => e
  | fuel + 1, m, e => lookup_m_loop g H i e1 fuel (m + 1) (lookup_m_body g H i e1 m e)

/-- Body of the loop over the local vertices of `lookup_edges`. -/
def lookup_i_body (g : Graph) (H : Hash128) (i : Nat)
    (e : TriangulateAggrBufferedHashPush) : TriangulateAggrBufferedHashPush :=
  if e.vcount_.getD i 0 = 0 then e
  else
    let r := g.edge_range e.rank_ i
    if r.1 + 1 = r.2 then e
    else lookup_m_loop g H i r.2 (r.2 - 1 - r.1) r.1 e

/-- `lookup_edges()`: one pass over the local vertices. -/
def lookup_edges (g : Graph) (H : Hash128)
    (e : TriangulateAggrBufferedHashPush) : TriangulateAggrBufferedHashPush :=
  (List.range (g.get_lnv e.rank_)).foldl (fun e i => lookup_i_body g H i e) e

/-! ### process_messages -/

/-- The loop over `m` in the probe of `process_messages` (source lines 398-403);
the call `rebf_->contains(...)` is taken in its `safe_contains` form, as `insert`
in `lookup_n_loop`. -/
def probe_m_loop (g : Graph) (H : Hash128) (rank i : Nat) (rebf : Bloomfilter) :
    Nat → Nat → Nat → Nat
  | 0, _, nt => nt
  | fuel + 1, m, nt =>
    probe_m_loop g H rank i rebf fuel (m + 1)
      (if rebf.safe_contains H (g.local_to_global rank i) (g.get_edge rank m) then nt + 1 else nt)

/-- Body of the loop over the local vertices in `process_messages`. -/
def probe_i_body (g : Graph) (H : Hash128) (rank : Nat) (rebf : Bloomfilter)
    (i nt : Nat) : Nat :=
  let r := g.edge_range rank i
  if r.1 + 1 = r.2 then nt
  else probe_m_loop g H rank i rebf (r.2 - r.1) r.1 nt

/-- `process_messages()`.  `msg` is the outcome of `MPI_Iprobe` and `MPI_Recv`:
`none` when no `DATA` message is available, otherwise the payload received. -/
def process_messages (g : Graph) (H : Hash128) (msg : Option (List Char))
    (e : TriangulateAggrBufferedHashPush) : TriangulateAggrBufferedHashPush :=
  match msg with
  | none => e
  | some payload =>
    let cnt := e.rebf_.nbits
    let rbuf := payload.take cnt ++ e.rbuf_.drop (min payload.length cnt)
    let inn := if e.in_nghosts_ ≥ e.bufsize_ then e.in_nghosts_ - e.bufsize_ else 0
    let rebf := e.rebf_.copy_to rbuf
    let nt := (List.range (g.get_lnv e.rank_)).foldl
      (fun nt i => probe_i_body g H e.rank_ rebf i nt) e.ntriangles_
    { e with rbuf_ := rbuf, in_nghosts_ := inn, rebf_ := rebf, ntriangles_ := nt }

/-! ### count -/

/-- Locals of `count()` that live across iterations of its `while` loop. -/
structure CountLocals where
  done : Bool
  nbar_active : Bool
  sends_done : Bool
  deriving DecidableEq, Repr, Inhabited

/-- What the message layer reports to one iteration of the driver loop: the
message found by `MPI_Iprobe` (if any), the indices `inds` that `MPI_Testsome`
reports complete, and the flag that `MPI_Test` returns for the barrier request. -/
structure MPIEvents where
  probe : Option (List Char)
  testsome : List Nat
  nbar_test : Bool
  deriving DecidableEq, Repr, Inhabited

/-- The recycle loop after `MPI_Testsome` (source lines 434-439) for the reported
indices; `MPI_Testsome` also resets the completed handles. -/
def recycle (inds : List Nat) (e : TriangulateAggrBufferedHashPush) :
    TriangulateAggrBufferedHashPush :=
  inds.foldl (fun e i =>
    { e with sbuf_ctr_ := e.sbuf_ctr_.set i 0
             stat_ := e.stat_.set i '0'
             sebf_ := e.sebf_.set i (e.sebf_.getD i default).zfill
             sreq_ := e.sreq_.set i false }) e

/-- The first three steps of an iteration of the `while (!done)` loop of `count()`
(source lines 417-440): flush or enumerate, receive, recycle completed sends.
The second component is `sends_done`.  `MPI_Testsome` reports only active
handles, and `MPI_UNDEFINED` when there is none. -/
def count_iter_work (g : Graph) (H : Hash128) (ev : MPIEvents)
    (st : TriangulateAggrBufferedHashPush × CountLocals) :
    TriangulateAggrBufferedHashPush × Bool :=
  let e := st.1
  let c := st.2
  let s1 : TriangulateAggrBufferedHashPush × Bool :=
    if e.out_nghosts_ = 0 then
      (if !c.sends_done then (e.nbsend_all, true) else (e, c.sends_done))
    else (lookup_edges g H e, c.sends_done)
  let e2 := process_messages g H ev.probe s1.1
  let inds := ev.testsome.filter (fun i => e2.sreq_.getD i false)
  let e3 := if e2.sreq_.any id then recycle inds e2 else e2
  (e3, s1.2)

/-- One iteration of the `while (!done)` loop of `count()`: the work above, then
the barrier logic (source lines 442-455). -/
def count_iter (g : Graph) (H : Hash128) (ev : MPIEvents)
    (st : TriangulateAggrBufferedHashPush × CountLocals) :
    TriangulateAggrBufferedHashPush × CountLocals :=
  let w := count_iter_work g H ev st
  if st.2.nbar_active then
    (w.1, { done := ev.nbar_test, nbar_active := true, sends_done := w.2 })
  else if w.1.in_nghosts_ = 0 then
    (w.1, { done := st.2.done, nbar_active := true, sends_done := w.2 })
  else (w.1, { done := st.2.done, nbar_active := false, sends_done := w.2 })

/-! ### constructor -/

/-- The edge-range rows written by process `rank` (source lines 186-197) into its
zero-initialised table of `2 * nv` entries. -/
def erange_local (g : Graph) (rank : Nat) : List Nat :=
  (List.range (g.get_lnv rank)).foldl
    (fun t i =>
      let r := g.edge_range rank i
      let base := g.get_base rank
      (t.set ((i + base) * 2) (g.get_edge rank r.1)).set ((i + base) * 2 + 1)
        (g.get_edge rank (r.2 - 1)))
    (List.replicate (g.get_nv * 2) 0)

/-- `MPI_Allreduce(MPI_IN_PLACE, erange_, nv*2, MPI_GRAPH_TYPE, MPI_SUM, comm_)`:
the entrywise sum of the tables of all processes. -/
def erange_allreduce (g : Graph) : List Nat :=
  (List.range (g.get_nv * 2)).map
    (fun j => ((List.range g.get_size).map (fun q => (erange_local g q).getD j 0)).sum)

/-- The object on process `rank` when the counting pass of the constructor starts.
The `active_` flags of the half-edges start out set. -/
def ctor_init (g : Graph) (rank : Nat) : TriangulateAggrBufferedHashPush :=
  { (default : TriangulateAggrBufferedHashPush) with
    rank_ := rank
    size_ := g.get_size
    vcount_ := List.replicate (g.get_lnv rank) 0
    erange_ := erange_allreduce g
    active_ := List.replicate (g.edge_list rank).length true }

/-- The loop over `n` for a ghost source edge in the constructor (source lines
225-237); the second component is the local vector `send_count`. -/
def ctor_ghost_loop (g : Graph) (i owner tail_m : Nat) :
    Nat → Nat → TriangulateAggrBufferedHashPush × List Int →
      TriangulateAggrBufferedHashPush × List Int
  | 0, _, s => s
  | fuel + 1, n, s =>
    let tail_n := g.get_edge s.1.rank_ n
    if !s.1.edge_within_max tail_m tail_n then s
    else if !s.1.edge_above_min tail_m tail_n || !s.1.edge_above_min tail_n tail_m then
      ctor_ghost_loop g i owner tail_m fuel (n + 1) s
    else
      ctor_ghost_loop g i owner tail_m fuel (n + 1)
        ({ s.1 with vcount_ := s.1.vcount_.set i (s.1.vcount_.getD i 0 + 1)
                    out_nghosts_ := s.1.out_nghosts_ + 1 },
         s.2.set owner (s.2.getD owner 0 + 1))

/-- The loop over `n` for a locally owned source edge in the constructor (source
lines 245-252). -/
def ctor_local_loop (g : Graph) (tail_m : Nat) :
    Nat → Nat → TriangulateAggrBufferedHashPush → TriangulateAggrBufferedHashPush
  | 0, _, e => e
  | fuel + 1, n, e =>
    ctor_local_loop g tail_m fuel (n + 1)
      (if e.check_edgelist g tail_m (g.get_edge e.rank_ n)
       then { e with ntriangles_ := e.ntriangles_ + 1 } else e)

/-- Body of the loop over `m` in the constructor (source lines 214-254). -/
def ctor_m_body (g : Graph) (i e1 m : Nat)
    (s : TriangulateAggrBufferedHashPush × List Int) :
    TriangulateAggrBufferedHashPush × List Int :=
  let tail_m := g.get_edge s.1.rank_ m
  let owner := g.get_owner tail_m
  if owner ≠ s.1.rank_ then
    let e' := if owner ∈ s.1.targets_ then s.1
              else { s.1 with targets_ := s.1.targets_ ++ [owner] }
    if m < e1 - 1 then ctor_ghost_loop g i owner tail_m (e1 - (m + 1)) (m + 1) (e', s.2)
    else (e', s.2)
  else
    if m < e1 - 1 then (ctor_local_loop g tail_m (e1 - (m + 1)) (m + 1) s.1, s.2)
    else s

/-- The loop `for (m = e0; m < e1; m++)` of the constructor. -/
def ctor_m_loop (g : Graph) (i e1 : Nat) :
    Nat → Nat → TriangulateAggrBufferedHashPush × List Int →
      TriangulateAggrBufferedHashPush × List Int
  | 0, _, s => s
  | fuel + 1, m, s => ctor_m_loop g i e1 fuel (m + 1) (ctor_m_body g i e1 m s)

/-- Body of the loop over the local vertices in the constructor (source lines
206-255). -/
def ctor_i_body (g : Graph) (i : Nat)
    (s : TriangulateAggrBufferedHashPush × List Int) :
    TriangulateAggrBufferedHashPush × List Int :=
  let r := g.edge_range s.1.rank_ i
  if r.1 + 1 = r.2 then s
  else ctor_m_loop g i r.2 (r.2 - r.1) r.1 s

/-- The counting pass of the constructor on process `rank` (source lines 204-256):
the object and the vector `send_count` afterwards. -/
def ctor_pass (g : Graph) (rank : Nat) : TriangulateAggrBufferedHashPush × List Int :=
  (List.range (g.get_lnv rank)).foldl (fun s i => ctor_i_body g i s)
    (ctor_init g rank, List.replicate g.get_size 0)

/-- Conversion of a 64-bit sum to `int` (two's complement, 32 bits). -/
def wrap32 (x : Int) : Int := (x + 2 ^ 31) % 2 ^ 32 - 2 ^ 31

/-- `std::accumulate(first, last, 0)`: the accumulator has the type of the
initial value, `int`. -/
def accumulate_int (l : List Int) : Int := l.foldl (fun acc c => wrap32 (acc + c)) 0

/-- `recv_count` on process `rank` after `MPI_Alltoall`: entry `q` is entry `rank`
of the `send_count` of process `q`. -/
def ctor_recv_count (g : Graph) (rank : Nat) : List Int :=
  (List.range g.get_size).map (fun q => (ctor_pass g q).2.getD rank 0)

/-- The value of `bufsize_` on process `rank` before the all-reduce (source line
275). -/
def ctor_bufsize_local (g : Graph) (bufsize : Int) (rank : Nat) : Int :=
  let in_nghosts := accumulate_int (ctor_recv_count g rank)
  let nghosts := (ctor_pass g rank).1.out_nghosts_ + in_nghosts
  if nghosts * 2 < bufsize then nghosts * 2 else bufsize

/-- `bufsize_` after `MPI_Allreduce(..., MPI_MAX, ...)` and rounding up to even
(source lines 276-278). -/
def ctor_bufsize (g : Graph) (bufsize : Int) : Int :=
  let l := (List.range g.get_size).map (ctor_bufsize_local g bufsize)
  let b := l.foldl max (l.headD 0)
  if b % 2 ≠ 0 then b + 1 else b

/-- `TriangulateAggrBufferedHashPush(g, bufsize)` on process `rank`; `none` when a
`Bloomfilter` constructor does not return. -/
def ctor (g : Graph) (F : FloatOps) (bufsize : Int) (rank : Nat) :
    Option TriangulateAggrBufferedHashPush :=
  let e := (ctor_pass g rank).1
  let bs := ctor_bufsize g bufsize
  let pdegree := e.targets_.length
  match Bloomfilter.mk1 F bs with
  | none => none
  | some bf =>
    some { e with
      in_nghosts_ := accumulate_int (ctor_recv_count g rank)
      bufsize_ := bs
      pdegree_ := pdegree
      pindex_ := (List.range pdegree).map (fun i => (e.targets_.getD i 0, i))
      sebf_ := List.replicate pdegree bf
      rebf_ := bf
      sbuf_ := List.replicate (pdegree * bf.nbits) (Char.ofNat 0)
      rbuf_ := List.replicate bf.nbits (Char.ofNat 0)
      sbuf_ctr_ := List.replicate pdegree 0
      prev_m_ := List.replicate pdegree (-1)
      prev_k_ := List.replicate pdegree (-1)
      stat_ := List.replicate pdegree '0'
      sreq_ := List.replicate pdegree false }

end TriangulateAggrBufferedHashPush

/-! ## Execution of the processes together -/

/-- All processes of one run: the object and the `count()` locals of every rank,
and for every rank the `DATA` messages that have been sent to it and not yet
received, in order of sending. -/
structure World where
  procs : List (TriangulateAggrBufferedHashPush × TriangulateAggrBufferedHashPush.CountLocals)
  mail : List (List (List Char))
  deriving DecidableEq, Repr, Inhabited

namespace World

open TriangulateAggrBufferedHashPush

/-- Process `r` runs one iteration of its driver loop.  The message layer is
resolved as follows: `MPI_Iprobe` finds the oldest undelivered message for `r`,
every send posted so far is reported complete by `MPI_Testsome`, and the barrier
request tests complete exactly when every process has started the barrier. -/
def step (g : Graph) (H : Hash128) (w : World) (r : Nat) : World :=
  let st := w.procs.getD r default
  if st.2.done then w
  else
    let inbox := w.mail.getD r []
    let ev : MPIEvents :=
      { probe := inbox.head?
        testsome := List.range st.1.pdegree_
        nbar_test := w.procs.all (fun p => p.2.nbar_active) }
    let st' := count_iter g H ev st
    let posted := st'.1.sent_.drop st.1.sent_.length
    let mail := posted.foldl (fun ml msg => ml.set msg.1 (ml.getD msg.1 [] ++ [msg.2]))
      (w.mail.set r inbox.tail)
    { procs := w.procs.set r st', mail := mail }

/-- Every process runs one iteration, in rank order. -/
def round (g : Graph) (H : Hash128) (w : World) : World :=
  (List.range w.procs.length).foldl (step g H) w

/-- `fuel` rounds. -/
def run (g : Graph) (H : Hash128) : Nat → World → World
  | 0, w => w
  | fuel + 1, w => run g H fuel (round g H w)

/-- All constructors have returned: the state in which `count()` is entered. -/
def init (g : Graph) (F : FloatOps) (bufsize : Int) : Option World :=
  let cs := (List.range g.get_size).map (ctor g F bufsize)
  if cs.all Option.isSome then
    some { procs := cs.map (fun c => (c.getD default,
                      { done := false, nbar_active := false, sends_done := false }))
           mail := List.replicate g.get_size [] }
  else none

/-- The operand of the final `MPI_Reduce`: the sum of `ntriangles_` over all
processes. -/
def ttc (w : World) : Nat := (w.procs.map (fun p => p.1.ntriangles_)).sum

/-- The value `ttc/3` that `count()` returns on rank 0, once every driver loop
has been left. -/
def result (w : World) : Option Nat :=
  if w.procs.all (fun p => p.2.done) then some (w.ttc / 3) else none

end World

/-- Outcome of constructing the objects and calling `count()` on every process:
the value returned on rank 0, if the constructors return and all driver loops
end within `fuel` rounds. -/
def run_count (g : Graph) (F : FloatOps) (H : Hash128) (bufsize : Int) (fuel : Nat) :
    Option Nat :=
  match World.init g F bufsize with
  | none => none
  | some w => (World.run g H fuel w).result

/-! ## Reference notions -/

/-- Whether `v` is a tail in the adjacency of `u`. -/
def Graph.has_edge (g : Graph) (u v : Nat) : Bool := (g.adj.getD u []).contains v

/-- Number of triangles of the graph: triples `x < y < z` with all three edges. -/
def Graph.triangles (g : Graph) : Nat :=
  ((List.range g.get_nv).map (fun x =>
    ((List.range g.get_nv).map (fun y =>
      (List.range g.get_nv).countP (fun z =>
        decide (x < y) && decide (y < z) &&
          g.has_edge x y && g.has_edge x z && g.has_edge y z))).sum)).sum

/-- Smallest power of two that is at least `n`, searched among `2^0 .. 2^fuel`. -/
def pow2_ge (n : Nat) : Nat → Nat → Nat
  | 0, p => p
  | fuel + 1, p => if n ≤ p then p else pow2_ge n fuel (2 * p)

/-- The values that the floating-point expressions of the `Bloomfilter`
constructor take in IEEE double arithmetic for the default tolerance `1E-09`,
for capacities up to 1024. -/
def ieee_1e_09 : FloatOps where
  pow2_ceil_log2 n := pow2_ge n 10 1
  nbits n_ := (n_ * 43132762698 + 999999999) / 1000000000
  round_mul_log2 q := (q * 693147181 + 500000000) / 1000000000

/-- A hash without collisions on vertex pairs below 16: both lanes are the code
`16 * lhs + rhs` of the pair. -/
def pair_hash : Hash128 := fun lhs rhs => (16 * lhs + rhs, 16 * lhs + rhs)

/-- The index that `hash` leaves in slot `j`: lane `j % 2` of the hash, modulo `m_`. -/
def Bloomfilter.slot_index (H : Hash128) (m_ lhs rhs j : Nat) : Nat :=
  (if j % 2 = 0 then (H lhs rhs).1 else (H lhs rhs).2) % m_

/-- Example filter: 4 bits, 2 hash slots, bit 1 set. -/
def bf_example_A : Bloomfilter :=
  { n_ := 1, m_ := 4, k_ := 2, bits_ := ['0', '1', '0', '0'], hashes_ := [0, 0] }

/-- Example filter: 4 bits, 2 hash slots, all bits set. -/
def bf_example_B : Bloomfilter :=
  { n_ := 1, m_ := 4, k_ := 2, bits_ := ['1', '1', '1', '1'], hashes_ := [3, 3] }

/-- Input condition of the engine (spec §3): `parts` describes a contiguous
partition of the vertices `0 .. nv-1` over at least one process; every tail is a
vertex; every adjacency is strictly ascending (sorted, no parallel edges); there
are no self-loops; and the adjacencies are symmetric. -/
def Graph.Valid (g : Graph) : Prop :=
  2 ≤ g.parts.length ∧ g.parts.head? = some 0 ∧ g.parts.getLast? = some g.get_nv ∧
  g.parts.Pairwise (· ≤ ·) ∧
  (∀ l ∈ g.adj, l.Pairwise (· < ·)) ∧
  (∀ u < g.get_nv, ∀ v ∈ g.adj.getD u [], v < g.get_nv ∧ v ≠ u ∧ u ∈ g.adj.getD v [])

instance (g : Graph) : Decidable g.Valid := by
  unfold Graph.Valid; infer_instance

/-- The same graph with all vertices owned by a single process. -/
def Graph.on_one_process (g : Graph) : Graph := { g with parts := [0, g.get_nv] }

/-- Two triangles `{0,2,3}` and `{1,2,3}` sharing the edge `2-3`, on two
processes: rank 0 owns `0, 1` and rank 1 owns `2, 3`. -/
def graph_shared_edge : Graph :=
  { parts := [0, 2, 4], adj := [[2, 3], [2, 3], [0, 1, 3], [0, 1, 2]] }

/-- The triangle `K3`, one vertex per process. -/
def graph_k3_three : Graph :=
  { parts := [0, 1, 2, 3], adj := [[1, 2], [0, 2], [0, 1]] }

/-- A triangle-free graph on two processes (rank 0 owns `0, 1, 2`, rank 1 owns
`3, 4, 5`) in which rank 0 has two candidate pairs for rank 1 and rank 1 has none
for rank 0. -/
def graph_one_way : Graph :=
  { parts := [0, 3, 6], adj := [[3, 4], [3, 4], [], [0, 1, 5], [0, 1], [3]] }

/-- Events of a driver iteration in which the message layer reports nothing. -/
def TriangulateAggrBufferedHashPush.no_events : TriangulateAggrBufferedHashPush.MPIEvents :=
  { probe := none, testsome := [], nbar_test := false }

/-- The `count()` locals on entry. -/
def TriangulateAggrBufferedHashPush.locals_init : TriangulateAggrBufferedHashPush.CountLocals :=
  { done := false, nbar_active := false, sends_done := false }

/-- The object of rank 1 for `graph_one_way` with buffer hint 2, as constructed. -/
def engine_one_way_rank1 : TriangulateAggrBufferedHashPush :=
  (TriangulateAggrBufferedHashPush.ctor graph_one_way ieee_1e_09 2 1).getD default

/-! ## Candidate positions and the control view of `lookup_edges` -/

/-- The neighbour positions in `[n, n + fuel)` that pass the guards of source
lines 512-515 (equally 229-232) for the source tail `tail_m`, in order: the
scan ends at the first tail beyond `edge_within_max`, and positions failing
`edge_above_min` in either direction are left out. -/
def cand_n (g : Graph) (rank : Nat) (erange : List Nat) (tail_m : Nat) : Nat → Nat → List Nat
  | 0, _ => []
  | fuel + 1, n =>
    let tail_n := g.get_edge rank n
    if !within_max erange tail_m tail_n then []
    else if !above_min erange tail_m tail_n || !above_min erange tail_n tail_m then
      cand_n g rank erange tail_m fuel (n + 1)
    else n :: cand_n g rank erange tail_m fuel (n + 1)

/-- The candidate positions of source edge `m` in a vertex whose edge range ends
at `e1`: empty unless the tail of `m` is owned by another process. -/
def cand_edge (g : Graph) (rank : Nat) (erange : List Nat) (e1 m : Nat) : List Nat :=
  if g.get_owner (g.get_edge rank m) ≠ rank then
    cand_n g rank erange (g.get_edge rank m) (e1 - (m + 1)) (m + 1)
  else []

/-- The fields of the object that decide the control flow of `lookup_edges` and
of the recycle loop, and the ghost history of inserts. -/
structure LView where
  rank_ : Nat
  erange_ : List Nat
  bufsize_ : Int
  pindex_ : List (Nat × Nat)
  out_nghosts_ : Int
  vcount_ : List Int
  sbuf_ctr_ : List Int
  prev_m_ : List Int
  prev_k_ : List Int
  stat_ : List Char
  active_ : List Bool
  inserted_ : List (Nat × Nat × Nat)
  deriving DecidableEq, Repr, Inhabited

/-- The control view of an object. -/
def TriangulateAggrBufferedHashPush.view (e : TriangulateAggrBufferedHashPush) : LView :=
  { rank_ := e.rank_, erange_ := e.erange_, bufsize_ := e.bufsize_, pindex_ := e.pindex_
    out_nghosts_ := e.out_nghosts_, vcount_ := e.vcount_, sbuf_ctr_ := e.sbuf_ctr_
    prev_m_ := e.prev_m_, prev_k_ := e.prev_k_, stat_ := e.stat_, active_ := e.active_
    inserted_ := e.inserted_ }

namespace LView

/-- `pindex_[owner]` on the view. -/
def pindex (v : LView) (owner : Nat) : Nat := (v.pindex_.lookup owner).getD 0

/-- Effect on the view of one insert (source lines 528-531) for source edge `m`
of vertex `i`, slot `pidx`, neighbour position `n`. -/
def emit (v : LView) (i m pidx n : Nat) : LView :=
  { v with sbuf_ctr_ := v.sbuf_ctr_.set pidx (v.sbuf_ctr_.getD pidx 0 + 2)
           out_nghosts_ := v.out_nghosts_ - 1
           vcount_ := v.vcount_.set i (v.vcount_.getD i 0 - 1)
           inserted_ := v.inserted_ ++ [(pidx, m, n)] }

/-- Effect on the view of a pause (source lines 499-501 and 519-521). -/
def pause (v : LView) (m : Nat) (pidx : Nat) (k : Int) : LView :=
  { v with prev_m_ := v.prev_m_.set pidx (m : Int)
           prev_k_ := v.prev_k_.set pidx k
           stat_ := v.stat_.set pidx '1' }

/-- The loop over `n` of `lookup_edges` on the view, run over the candidate
positions only: pause at the first candidate that finds the slot full,
otherwise insert. -/
def emit_loop (i m pidx : Nat) : List Nat → LView → LView
  | [], v => v
  | n :: rest, v =>
    if v.sbuf_ctr_.getD pidx 0 = v.bufsize_ then v.pause m pidx (n : Int)
    else emit_loop i m pidx rest (v.emit i m pidx n)

/-- Body of the loop over `m` of `lookup_edges` on the view. -/
def m_body (g : Graph) (i e1 m : Nat) (v : LView) : LView :=
  let tail_m := g.get_edge v.rank_ m
  let owner := g.get_owner tail_m
  let pidx := v.pindex owner
  if owner ≠ v.rank_ ∧ v.active_.getD m true = true then
    if v.stat_.getD pidx '0' = '1' then v
    else if (m : Int) ≥ v.prev_m_.getD pidx (-1) then
      if v.sbuf_ctr_.getD pidx 0 = v.bufsize_ then v.pause m pidx (-1)
      else
        let n0 := if v.prev_k_.getD pidx (-1) = -1 then m + 1 else (v.prev_k_.getD pidx (-1)).toNat
        let v' := emit_loop i m pidx (cand_n g v.rank_ v.erange_ tail_m (e1 - n0) n0) v
        if v'.stat_.getD pidx '0' = '0' then
          let v2 := { v' with prev_m_ := v'.prev_m_.set pidx (m : Int)
                              prev_k_ := v'.prev_k_.set pidx (-1)
                              active_ := v'.active_.set m false }
          if v2.sbuf_ctr_.getD pidx 0 = v2.bufsize_ then
            { v2 with stat_ := v2.stat_.set pidx '1' }
          else v2
        else v'
    else v
  else v

/-- The loop over `m` of `lookup_edges` on the view. -/
def m_loop (g : Graph) (i e1 : Nat) : Nat → Nat → LView → LView
  | 0, _, v => v
  | fuel + 1, m, v => m_loop g i e1 fuel (m + 1) (m_body g i e1 m v)

/-- Body of the loop over the local vertices of `lookup_edges` on the view. -/
def i_body (g : Graph) (i : Nat) (v : LView) : LView :=
  if v.vcount_.getD i 0 = 0 then v
  else
    let r := g.edge_range v.rank_ i
    if r.1 + 1 = r.2 then v
    else m_loop g i r.2 (r.2 - 1 - r.1) r.1 v

/-- `lookup_edges()` on the view. -/
def lookup_edges (g : Graph) (v : LView) : LView :=
  (List.range (g.get_lnv v.rank_)).foldl (fun v i => i_body g i v) v

/-- The recycle loop on the view. -/
def recycle (inds : List Nat) (v : LView) : LView :=
  inds.foldl (fun v i =>
    { v with sbuf_ctr_ := v.sbuf_ctr_.set i 0
             stat_ := v.stat_.set i '0' }) v

end LView

/-- The edge-range table is correctly populated for the graph: every tail in the
adjacency of `u` lies between `erange[2u]` and `erange[2u+1]`. -/
def RangeTableOK (g : Graph) (erange : List Nat) : Prop :=
  ∀ u < g.get_nv, ∀ v ∈ g.adj.getD u [], erange.getD (u * 2) 0 ≤ v ∧ v ≤ erange.getD (u * 2 + 1) 0

instance (g : Graph) (erange : List Nat) : Decidable (RangeTableOK g erange) := by
  unfold RangeTableOK; infer_instance

/-- Whether the pair (`a`, tail at position `n`) closes: the tail is in the
adjacency of `a`. -/
def Graph.closes (g : Graph) (rank a n : Nat) : Bool := g.has_edge a (g.get_edge rank n)

/-- The neighbour positions inserted between the states `e` and `e'`, in order. -/
def TriangulateAggrBufferedHashPush.new_positions (e e' : TriangulateAggrBufferedHashPush) :
    List Nat :=
  (e'.inserted_.drop e.inserted_.length).map (fun x => x.2.2)

/-- Where the loop over `n` stopped scanning: at the bookmark `prev_k_` if it left
the slot paused, else at the end `e1` of the edge range. -/
def TriangulateAggrBufferedHashPush.scan_stop (e' : TriangulateAggrBufferedHashPush)
    (pidx e1 : Nat) : Nat :=
  if e'.stat_.getD pidx '0' = '1' then (e'.prev_k_.getD pidx (-1)).toNat else e1

/-- The enumeration with the guards removed: every position of `[n0, stop)`. -/
def unguarded_positions (n0 stop : Nat) : List Nat := List.range' n0 (stop - n0)

/-- The object of rank 1 for `graph_shared_edge` with buffer hint 1000, as
constructed. -/
def engine_shared_edge_rank1 : TriangulateAggrBufferedHashPush :=
  (TriangulateAggrBufferedHashPush.ctor graph_shared_edge ieee_1e_09 1000 1).getD default

/-- Number of pairs `(a, b)` of a list, `a` before `b`, with `E a b`. -/
def pairs_count (E : Nat → Nat → Bool) : List Nat → Nat
  | [] => 0
  | a :: t => t.countP (E a) + pairs_count E t

/-- Indicator of a triangle listed in ascending order: `x < y < z` with all three
edges. -/
def Graph.tri (g : Graph) (x y z : Nat) : Nat :=
  if x < y ∧ y < z ∧ g.has_edge x y = true ∧ g.has_edge x z = true ∧ g.has_edge y z = true
  then 1 else 0

/-! ## Invariant of the enumerator -/

namespace LView

/-- The neighbour positions inserted so far for source edge `m`, in order of
insertion. -/
def done (v : LView) (m : Nat) : List Nat :=
  (v.inserted_.filter (fun x => decide (x.2.1 = m))).map (fun x => x.2.2)

/-- The slot of the peer that owns the tail of source edge `m`. -/
def slot (g : Graph) (v : LView) (m : Nat) : Nat :=
  v.pindex (g.get_owner (g.get_edge v.rank_ m))

/-- The candidate positions of source edge `m` of local vertex `i`: what the
counting pass of the constructor counts for `m`. -/
def cands (g : Graph) (v : LView) (i m : Nat) : List Nat :=
  cand_edge g v.rank_ v.erange_ (g.edge_range v.rank_ i).2 m

/-- Edge position `m` belongs to local vertex `i`. -/
def in_range (g : Graph) (v : LView) (i m : Nat) : Prop :=
  (g.edge_range v.rank_ i).1 ≤ m ∧ m < (g.edge_range v.rank_ i).2

/-- Whether the pair `(m, n)` lies before the bookmark `(prev_m_[p], prev_k_[p])`
of slot `p`; a bookmark `(m, -1)` stands behind every pair of edge `m`. -/
def before (v : LView) (p m n : Nat) : Bool :=
  decide ((m : Int) < v.prev_m_.getD p (-1)) ||
    (decide ((m : Int) = v.prev_m_.getD p (-1)) &&
      (decide (v.prev_k_.getD p (-1) = -1) || decide ((n : Int) < v.prev_k_.getD p (-1))))

/-- Number of candidate pairs of local vertex `i` that are still to be inserted. -/
def pending (g : Graph) (v : LView) (i : Nat) : Nat :=
  ((List.range' (g.edge_range v.rank_ i).1
      ((g.edge_range v.rank_ i).2 - (g.edge_range v.rank_ i).1)).map
    (fun m => (cands g v i m).length - (v.done m).length)).sum

/-- Order of insertion within a slot: by source edge, then by neighbour position. -/
def entry_lt (x y : Nat × Nat × Nat) : Prop :=
  x.2.1 < y.2.1 ∨ (x.2.1 = y.2.1 ∧ x.2.2 < y.2.2)

/-- Invariant of the control view between two passes of `lookup_edges`. -/
structure Inv (g : Graph) (v : LView) : Prop where
  len_vcount : v.vcount_.length = g.get_lnv v.rank_
  len_pm : v.prev_m_.length = v.stat_.length
  len_pk : v.prev_k_.length = v.stat_.length
  len_ctr : v.sbuf_ctr_.length = v.stat_.length
  len_active : ∀ i < g.get_lnv v.rank_, ∀ m, in_range g v i m → m < v.active_.length
  buf_ne : v.bufsize_ ≠ 0
  stat_char : ∀ p < v.stat_.length, v.stat_.getD p '0' = '0' ∨ v.stat_.getD p '0' = '1'
  slot_lt : ∀ i < g.get_lnv v.rank_, ∀ m, in_range g v i m →
    m + 1 < (g.edge_range v.rank_ i).2 → g.get_owner (g.get_edge v.rank_ m) ≠ v.rank_ →
    slot g v m < v.stat_.length
  d0 : ∀ x ∈ v.inserted_, ∃ i < g.get_lnv v.rank_, in_range g v i x.2.1 ∧ x.1 = slot g v x.2.1
  d1 : ∀ i < g.get_lnv v.rank_, ∀ m, in_range g v i m →
    v.done m = (cands g v i m).filter (v.before (slot g v m) m)
  d2 : ∀ p < v.stat_.length, v.prev_k_.getD p (-1) ≠ -1 →
    ∃ i < g.get_lnv v.rank_, ∃ m0 n0 : Nat, v.prev_m_.getD p (-1) = (m0 : Int) ∧
      v.prev_k_.getD p (-1) = (n0 : Int) ∧ in_range g v i m0 ∧ slot g v m0 = p ∧
      v.active_.getD m0 true = true ∧ n0 ∈ cands g v i m0
  d3 : ∀ p < v.stat_.length, v.stat_.getD p '0' = '0' → v.sbuf_ctr_.getD p 0 ≠ v.bufsize_
  d4 : ∀ i < g.get_lnv v.rank_, v.vcount_.getD i 0 = (pending g v i : Int)
  d4o : v.out_nghosts_ = v.vcount_.sum
  d5 : ∀ p < v.stat_.length, v.prev_k_.getD p (-1) = -1 →
    ∀ m : Nat, (m : Int) = v.prev_m_.getD p (-1) → v.active_.getD m true = false
  d6 : ∀ i < g.get_lnv v.rank_, ∀ m, in_range g v i m → cands g v i m ≠ [] →
    v.active_.getD m true = false → (m : Int) ≤ v.prev_m_.getD (slot g v m) (-1)
  d7 : ∀ p, (v.inserted_.filter (fun x => decide (x.1 = p))).Pairwise entry_lt

/-- Part of the invariant that holds during a pass, before edge position `pos` is
visited: an idle slot has no candidate pair behind its bookmark among the edges
already passed, and a resumable bookmark lies ahead. -/
def Ahead (g : Graph) (v : LView) (pos : Nat) : Prop :=
  ∀ p < v.stat_.length, v.stat_.getD p '0' = '0' →
    (v.prev_k_.getD p (-1) = -1 →
      ∀ i < g.get_lnv v.rank_, ∀ m, in_range g v i m → slot g v m = p →
        v.prev_m_.getD p (-1) < (m : Int) → m < pos → cands g v i m = []) ∧
    (v.prev_k_.getD p (-1) ≠ -1 → (pos : Int) ≤ v.prev_m_.getD p (-1))

end LView

/-- Where the loop over `n` starts for source edge `m` (source line 508). -/
def LView.resume_at (v : LView) (pidx m : Nat) : Nat :=
  if v.prev_k_.getD pidx (-1) = -1 then m + 1 else (v.prev_k_.getD pidx (-1)).toNat

/-- The bookkeeping after the loop over `n` (source lines 534-546) on the view. -/
def LView.finish (m pidx : Nat) (v' : LView) : LView :=
  if v'.stat_.getD pidx '0' = '0' then
    let v2 := { v' with prev_m_ := v'.prev_m_.set pidx (m : Int)
                        prev_k_ := v'.prev_k_.set pidx (-1)
                        active_ := v'.active_.set m false }
    if v2.sbuf_ctr_.getD pidx 0 = v2.bufsize_ then
      { v2 with stat_ := v2.stat_.set pidx '1' }
    else v2
  else v'

/-- The part of `LView.m_body` that runs the loop over `n` and the bookkeeping
after it (source lines 508-546), for a source edge whose slot is idle, not full,
and not behind the bookmark. -/
def LView.work (g : Graph) (i e1 m : Nat) (v : LView) : LView :=
  LView.finish m (v.pindex (g.get_owner (g.get_edge v.rank_ m)))
    (LView.emit_loop i m (v.pindex (g.get_owner (g.get_edge v.rank_ m)))
      (cand_n g v.rank_ v.erange_ (g.get_edge v.rank_ m)
        (e1 - v.resume_at (v.pindex (g.get_owner (g.get_edge v.rank_ m))) m)
        (v.resume_at (v.pindex (g.get_owner (g.get_edge v.rank_ m))) m)) v)

/-- The fields that no step of the enumerator changes. -/
def LView.SameStatic (v v' : LView) : Prop :=
  v'.rank_ = v.rank_ ∧ v'.erange_ = v.erange_ ∧ v'.pindex_ = v.pindex_ ∧
    v'.bufsize_ = v.bufsize_

/-- A productive visit of source edge `m` of local vertex `i`, from view `v` to
view `v'`: the candidates of `m` not yet inserted are `pre ++ post`, the visit
inserts `pre`, and either exhausts them (`post = []`: the bookmark becomes
`(m, -1)` and the edge inactive) or pauses the slot at the head of `post`. -/
structure LView.Visit (g : Graph) (v v' : LView) (i m : Nat) (pre post : List Nat) : Prop where
  inv : LView.Inv g v
  hi : i < g.get_lnv v.rank_
  hr : LView.in_range g v i m
  hp : LView.slot g v m < v.stat_.length
  hact : v.active_.getD m true = true
  hsplit : LView.cands g v i m = v.done m ++ (pre ++ post)
  hbetween : ∀ i' < g.get_lnv v.rank_, ∀ m', LView.in_range g v i' m' →
    LView.slot g v m' = LView.slot g v m → m' ≠ m → ∀ n ∈ LView.cands g v i' m',
      v.before (LView.slot g v m) m' n = decide ((m' : Int) < (m : Int))
  hge : v.prev_m_.getD (LView.slot g v m) (-1) ≤ (m : Int)
  same : LView.SameStatic v v'
  ins : v'.inserted_ = v.inserted_ ++ pre.map (fun n => (LView.slot g v m, m, n))
  out : v'.out_nghosts_ = v.out_nghosts_ + (-(pre.length : Int))
  vc : v'.vcount_ = v.vcount_.set i (v.vcount_.getD i 0 + (-(pre.length : Int)))
  pm : v'.prev_m_ = v.prev_m_.set (LView.slot g v m) (m : Int)
  ctr : ∃ c, v'.sbuf_ctr_ = v.sbuf_ctr_.set (LView.slot g v m) c ∧
    (v'.stat_.getD (LView.slot g v m) '0' = '0' → c ≠ v.bufsize_)
  st : v'.stat_ = v.stat_ ∨ v'.stat_ = v.stat_.set (LView.slot g v m) '1'
  nil : post = [] → v'.prev_k_ = v.prev_k_.set (LView.slot g v m) (-1) ∧
    v'.active_ = v.active_.set m false
  cons : ∀ x rest, post = x :: rest →
    v'.prev_k_ = v.prev_k_.set (LView.slot g v m) (x : Int) ∧ v'.active_ = v.active_ ∧
      v'.stat_ = v.stat_.set (LView.slot g v m) '1'

/-- View `v'` is a later view of the same object as `v`: the static fields agree
and the log of inserts of `v'` extends that of `v`. -/
def LView.Ext (v v' : LView) : Prop :=
  LView.SameStatic v v' ∧ ∃ new, v'.inserted_ = v.inserted_ ++ new

/-- Relation between two states of the counting pass of the constructor while it
works on local vertex `i`: `c` candidate pairs were counted for `i`, the fields
that the enumerator reads are unchanged, and `targets_` only grew. -/
def TriangulateAggrBufferedHashPush.CtorStep (i : Nat) (c : Int)
    (e e' : TriangulateAggrBufferedHashPush) : Prop :=
  e'.rank_ = e.rank_ ∧ e'.erange_ = e.erange_ ∧ e'.active_ = e.active_ ∧
    e'.inserted_ = e.inserted_ ∧ e'.vcount_.length = e.vcount_.length ∧
    (∀ j, e'.vcount_.getD j 0 = e.vcount_.getD j 0 + (if j = i then c else 0)) ∧
    e'.out_nghosts_ - e'.vcount_.sum = e.out_nghosts_ - e.vcount_.sum ∧
    (∀ x ∈ e.targets_, x ∈ e'.targets_)

/-- Number of candidate pairs of the source edges `[m, m + fuel)` of a vertex whose
edge range ends at `e1`. -/
def cand_total (g : Graph) (rank : Nat) (erange : List Nat) (e1 fuel m : Nat) : Nat :=
  ((List.range' m fuel).map (fun m => (cand_edge g rank erange e1 m).length)).sum

/-- The steps by which `count()` acts on the object: a pass of `lookup_edges()`
(source line 424), the flush `nbsend()` (line 420), the receipt of a message by
`process_messages()` (line 427), and the recycle loop for the indices that
`MPI_Testsome` reports (lines 434-439). -/
inductive DriverEvent where
  | pass
  | flush
  | receive (payload : List Char)
  | recycle (inds : List Nat)
  deriving DecidableEq, Repr

/-- Effect of one step of `count()` on the object. -/
def DriverEvent.apply (g : Graph) (H : Hash128) :
    DriverEvent → TriangulateAggrBufferedHashPush → TriangulateAggrBufferedHashPush
  | DriverEvent.pass, e => TriangulateAggrBufferedHashPush.lookup_edges g H e
  | DriverEvent.flush, e => e.nbsend_all
  | DriverEvent.receive payload, e =>
    TriangulateAggrBufferedHashPush.process_messages g H (some payload) e
  | DriverEvent.recycle inds, e => TriangulateAggrBufferedHashPush.recycle inds e

/-- The object after a sequence of steps of `count()`, in any order. -/
def TriangulateAggrBufferedHashPush.drive (g : Graph) (H : Hash128) (evs : List DriverEvent)
    (e : TriangulateAggrBufferedHashPush) : TriangulateAggrBufferedHashPush :=
  evs.foldl (fun e ev => ev.apply g H e) e

/-- The object of rank 0 for `graph_one_way` with buffer hint 2, as constructed. -/
def engine_one_way_rank0 : TriangulateAggrBufferedHashPush :=
  (TriangulateAggrBufferedHashPush.ctor graph_one_way ieee_1e_09 2 0).getD default

/-- The complete graph on four vertices, vertex 0 on rank 0 and the others on
rank 1: the first source edge of vertex 0 has two candidate pairs. -/
def graph_k4_split : Graph :=
  { parts := [0, 1, 4], adj := [[1, 2, 3], [0, 2, 3], [0, 1, 3], [0, 1, 2]] }

/-- The object of rank 0 for `graph_k4_split` with buffer hint 2, as constructed. -/
def engine_k4_rank0 : TriangulateAggrBufferedHashPush :=
  (TriangulateAggrBufferedHashPush.ctor graph_k4_split ieee_1e_09 2 0).getD default

/-- Entry `idx` of the table that process `q` has written after the first `k` of
its local vertices (source lines 186-197): the first tail of vertex `idx / 2` at an
even index, its last tail at an odd one, and `0` outside the rows written. -/
def erange_entry (g : Graph) (q k idx : Nat) : Nat :=
  if g.get_base q ≤ idx / 2 ∧ idx / 2 < g.get_base q + k ∧ idx < g.get_nv * 2 then
    (if idx % 2 = 0 then g.get_edge q (g.edge_range q (idx / 2 - g.get_base q)).1
     else g.get_edge q ((g.edge_range q (idx / 2 - g.get_base q)).2 - 1))
  else 0

/-- The enumerator of the owner of vertex `w` has, in the edge range of `w`, the
candidate pair with tails `(a, b)`: a source edge `m` with tail `a` and a candidate
position `n` of `m` with tail `b`, in the table that the constructor builds.
`lookup_edges` inserts the pair into the filter of the slot of the owner of `a`
(source lines 489-491 and 528), so the owner of `a` is the process that tests it. -/
def Graph.sends (g : Graph) (w a b : Nat) : Prop :=
  ∃ m n, (g.edge_range (g.get_owner w) (w - g.get_base (g.get_owner w))).1 ≤ m ∧
    m < (g.edge_range (g.get_owner w) (w - g.get_base (g.get_owner w))).2 ∧
    g.get_edge (g.get_owner w) m = a ∧ g.get_edge (g.get_owner w) n = b ∧
    n ∈ cand_edge g (g.get_owner w) (TriangulateAggrBufferedHashPush.erange_allreduce g)
      (g.edge_range (g.get_owner w) (w - g.get_base (g.get_owner w))).2 m

/-! ## Outcomes of the `Bloomfilter` constructors -/

/-- How a call of a `Bloomfilter` constructor ends.  `ok` is normal return;
`invalid_argument` is the `throw std::invalid_argument` of source lines 74-75 and
90-91; `length_error` is the `std::length_error` that `std::vector::resize` throws
for a negative count (converted to `size_type` it exceeds `max_size()`); `fault`
stands for undefined behaviour of the C++ abstract machine: the integer division
`m_ / n_` with `n_ == 0` (line 68) and the conversion of a NaN to `GraphElem`. -/
inductive CtorOutcome where
  | ok (bf : Bloomfilter)
  | invalid_argument
  | length_error
  | fault
  deriving DecidableEq, Repr

/-- The object produced, if any. -/
def CtorOutcome.toOption : CtorOutcome → Option Bloomfilter
  | CtorOutcome.ok bf => some bf
  | _ => none

/-- `Bloomfilter::Bloomfilter(GraphElem n, GraphWeight p)` (lines 64-76) with its
ways of ending.  For `n < 0` the value `log(n)` is NaN; for `n = 0` it is `-inf`,
so `n_ = pow(2, -inf) = 0` and `m_ = 0`, and line 68 divides `0 / 0` in
`GraphElem`.  For `n ≥ 1` the floating-point expressions are those of `F`; the
vectors are resized and filled before `k_ == 0` is tested. -/
def Bloomfilter.construct1 (F : FloatOps) (n : Int) : CtorOutcome :=
  if n ≤ 0 then CtorOutcome.fault
  else
    let n_ := F.pow2_ceil_log2 n.toNat
    let m_ := F.nbits n_
    if n_ = 0 then CtorOutcome.fault
    else
      let k_ := F.round_mul_log2 (m_ / n_)
      if k_ = 0 then CtorOutcome.invalid_argument
      else CtorOutcome.ok { n_ := n_, m_ := m_, k_ := k_,
                            bits_ := List.replicate m_ '0', hashes_ := List.replicate k_ 0 }

/-- `Bloomfilter::Bloomfilter(GraphElem n, GraphElem k, GraphWeight p)` (lines
78-92) with its ways of ending: `k_` is rounded up to even, `hashes_.resize(k_)`
throws for a negative `k_`, and `k_ == 0` is rejected after the vectors have been
resized.  There is no division here: `n = 0` gives `n_ = 0` and `m_ = 0`. -/
def Bloomfilter.construct2 (F : FloatOps) (n k : Int) : CtorOutcome :=
  if n < 0 then CtorOutcome.fault
  else
    let n_ := if n = 0 then 0 else F.pow2_ceil_log2 n.toNat
    let m_ := if n_ = 0 then 0 else F.nbits n_
    let k_ := if k % 2 ≠ 0 then k + 1 else k
    if k_ < 0 then CtorOutcome.length_error
    else if k_ = 0 then CtorOutcome.invalid_argument
    else CtorOutcome.ok { n_ := n_, m_ := m_, k_ := k_.toNat,
                          bits_ := List.replicate m_ '0',
                          hashes_ := List.replicate k_.toNat 0 }

/-- The entries of `hashes_` that the loop of `Bloomfilter::hash` (lines 149-154)
writes: `MurmurHash3_x64_128` stores 16 bytes at `&hashes_[n]`, which are the
entries `n` and `n + 1`, for `n = 0, 2, 4, ... < k_`. -/
def Bloomfilter.hash_write_indices (k_ : Nat) : Nat → Nat → List Nat
  | 0, _ => []
  | fuel + 1, n =>
    if n < k_ then n :: (n + 1) :: Bloomfilter.hash_write_indices k_ fuel (n + 2) else []

/-- The values that the floating-point expressions of the `Bloomfilter`
constructors take in IEEE double arithmetic for the tolerance `p = 0.5`, for
capacities up to 1024: `log(0.5) / log(1 / pow(2, log(2)))` is
`1.4426950408889632`. -/
def ieee_0_5 : FloatOps where
  pow2_ceil_log2 n := pow2_ge n 10 1
  nbits n_ := (n_ * 1442695041 + 999999999) / 1000000000
  round_mul_log2 q := (q * 693147181 + 500000000) / 1000000000

/-! ## `Triangulate::check_edgelist` (`tric.hpp`) -/

/-- The loop of `Triangulate::check_edgelist` (`tric.hpp` lines 173-181): a scan of
the whole range `[e, e + fuel)` for the tail `p1`, without early exit. -/
def Triangulate.check_edgelist_loop (g : Graph) (rank p1 : Nat) : Nat → Nat → Bool
  | 0, _ => false
  | fuel + 1, e =>
    if g.get_edge rank e = p1 then true
    else Triangulate.check_edgelist_loop g rank p1 fuel (e + 1)

/-- `Triangulate::check_edgelist(pair)` on process `rank` with local counter `nt`:
the value returned and the counter afterwards (a hit increments `ntriangles_`). -/
def Triangulate.check_edgelist (g : Graph) (rank nt p0 p1 : Nat) : Bool × Nat :=
  let lv := g.global_to_local rank p0
  let r := g.edge_range rank lv
  if Triangulate.check_edgelist_loop g rank p1 (r.2 - r.1) r.1 then (true, nt + 1)
  else (false, nt)

/-! ## Termination of the driver loops: invariants and measure -/

section Termination

open TriangulateAggrBufferedHashPush

/-- Number of candidate pairs, among the source edges `[m, m + fuel)` of a vertex
whose edge range ends at `e1`, whose source tail is owned by process `R`. -/
def peer_cands (g : Graph) (rank : Nat) (erange : List Nat) (R e1 fuel m : Nat) : Nat :=
  ((List.range' m fuel).map (fun m =>
    if g.get_owner (g.get_edge rank m) = R then (cand_edge g rank erange e1 m).length
    else 0)).sum

/-- Number of candidate pairs that process `rank` addresses to process `R`: the
entry `send_count[R]` after the counting pass of the constructor. -/
def peer_total (g : Graph) (rank R : Nat) : Nat :=
  ((List.range (g.get_lnv rank)).map (fun i =>
    peer_cands g rank (erange_allreduce g) R (g.edge_range rank i).2
      ((g.edge_range rank i).2 - (g.edge_range rank i).1) (g.edge_range rank i).1)).sum

namespace TriangulateAggrBufferedHashPush

/-- The elementary changes that a pass of `lookup_edges()` makes to the object:
`emit` is one insert into the filter of slot `p` (source lines 528-531), `mark`
an update of the bookmarks and of the `active_` flags, and `send` the pause of a
full slot followed by `nbsend(owner)` (lines 499-502, 519-522, 541-544). -/
inductive Atom : TriangulateAggrBufferedHashPush → TriangulateAggrBufferedHashPush → Prop where
  | emit (e : TriangulateAggrBufferedHashPush) (owner p i m n : Nat) (sebf : List Bloomfilter)
      (hl : e.pindex_.lookup owner = some p) (hp : p < e.sbuf_ctr_.length)
      (hc : e.sbuf_ctr_.getD p 0 ≠ e.bufsize_) (hs : e.stat_.getD p '0' ≠ '1') :
      Atom e { e with sebf_ := sebf
                      sbuf_ctr_ := e.sbuf_ctr_.set p (e.sbuf_ctr_.getD p 0 + 2)
                      out_nghosts_ := e.out_nghosts_ - 1
                      vcount_ := e.vcount_.set i (e.vcount_.getD i 0 - 1)
                      inserted_ := e.inserted_ ++ [(p, m, n)] }
  | mark (e : TriangulateAggrBufferedHashPush) (pm pk : List Int) (act : List Bool) :
      Atom e { e with prev_m_ := pm, prev_k_ := pk, active_ := act }
  | send (e : TriangulateAggrBufferedHashPush) (owner p : Nat)
      (hl : e.pindex_.lookup owner = some p) (hq : p < e.sreq_.length)
      (ht : p < e.stat_.length) (hc : e.sbuf_ctr_.getD p 0 = e.bufsize_)
      (hb : 0 < e.bufsize_) (hs : e.stat_.getD p '0' ≠ '1') :
      Atom e (nbsend { e with stat_ := e.stat_.set p '1' } owner)

/-- State `e'` is reached from `e` by elementary changes of a pass. -/
def Reach (e e' : TriangulateAggrBufferedHashPush) : Prop := Relation.ReflTransGen Atom e e'

/-- The fill counters are even numbers between `0` and the capacity `bufsize_`,
which is even and positive, and a paused slot is full. -/
def CtrInv (e : TriangulateAggrBufferedHashPush) : Prop :=
  0 < e.bufsize_ ∧ e.bufsize_ % 2 = 0 ∧
    (∀ p, 0 ≤ e.sbuf_ctr_.getD p 0 ∧ e.sbuf_ctr_.getD p 0 ≤ e.bufsize_ ∧
      e.sbuf_ctr_.getD p 0 % 2 = 0) ∧
    (∀ p, e.stat_.getD p '0' = '1' → e.sbuf_ctr_.getD p 0 = e.bufsize_)

/-- What a pass of `lookup_edges()` and the flush `nbsend()` preserve, and how
they move the counters, the log of inserts, the send handles and the list of
posted messages. -/
structure PassRel (e e' : TriangulateAggrBufferedHashPush) : Prop where
  rank : e'.rank_ = e.rank_
  erange : e'.erange_ = e.erange_
  pindex : e'.pindex_ = e.pindex_
  bufsize : e'.bufsize_ = e.bufsize_
  pdegree : e'.pdegree_ = e.pdegree_
  targets : e'.targets_ = e.targets_
  inn : e'.in_nghosts_ = e.in_nghosts_
  nt : e'.ntriangles_ = e.ntriangles_
  len_stat : e'.stat_.length = e.stat_.length
  len_sreq : e'.sreq_.length = e.sreq_.length
  len_ctr : e'.sbuf_ctr_.length = e.sbuf_ctr_.length
  log : ∃ new, e'.inserted_ = e.inserted_ ++ new ∧
    (∀ p, e'.sbuf_ctr_.getD p 0 = e.sbuf_ctr_.getD p 0 +
      2 * ((new.countP (fun x => decide (x.1 = p)) : Nat) : Int)) ∧
    e'.out_nghosts_ = e.out_nghosts_ - (new.length : Int)
  sent : ∃ posted, e'.sent_ = e.sent_ ++ posted ∧
    ∀ p, e'.sreq_.getD p false = true →
      e.sreq_.getD p false = true ∨ ∃ msg ∈ posted, e.pindex_.lookup msg.1 = some p
  paused : ∀ p, e'.stat_.getD p '0' = '1' →
    e.stat_.getD p '0' = '1' ∨ e'.sreq_.getD p false = true
  sreq_mono : ∀ p, e.sreq_.getD p false = true → e'.sreq_.getD p false = true
  ctr_inv : CtrInv e → CtrInv e'

/-- What holds of a pass of `lookup_edges()` in addition: a paused slot stays
paused, and every send of the pass belongs to a slot that the pass has paused. -/
structure PauseRel (e e' : TriangulateAggrBufferedHashPush) : Prop where
  rel : PassRel e e'
  stat_mono : ∀ p, e.stat_.getD p '0' = '1' → e'.stat_.getD p '0' = '1'
  fresh : ∀ p, e'.sreq_.getD p false = true → e.sreq_.getD p false = true ∨
    (e'.stat_.getD p '0' = '1' ∧ e.stat_.getD p '0' ≠ '1')
  posted : ∀ msg ∈ e'.sent_.drop e.sent_.length,
    ∃ p, e'.stat_.getD p '0' = '1' ∧ e.stat_.getD p '0' ≠ '1'

/-- What `lookup_edges()` relies on: every ghost source edge that a pass visits
has a slot, and the capacity is positive. -/
def PassHyp (g : Graph) (e : TriangulateAggrBufferedHashPush) : Prop :=
  0 < e.bufsize_ ∧
    ∀ i < g.get_lnv e.rank_, ∀ m, (g.edge_range e.rank_ i).1 ≤ m →
      m + 1 < (g.edge_range e.rank_ i).2 → g.get_owner (g.get_edge e.rank_ m) ≠ e.rank_ →
      ∃ p, e.pindex_.lookup (g.get_owner (g.get_edge e.rank_ m)) = some p ∧
        p < e.sbuf_ctr_.length ∧ p < e.sreq_.length ∧ p < e.stat_.length

end TriangulateAggrBufferedHashPush

namespace TriangulateAggrBufferedHashPush

/-- Number of inserted pairs whose source tail is owned by process `R`. -/
def logged (g : Graph) (e : TriangulateAggrBufferedHashPush) (R : Nat) : Nat :=
  e.inserted_.countP (fun x => decide (g.get_owner (g.get_edge e.rank_ x.2.1) = R))

/-- Fill of the slot of peer `R` that is not yet sent: the fill counter unless a
send of the slot is active; `0` when `R` has no slot. -/
def unsent (e : TriangulateAggrBufferedHashPush) (R : Nat) : Int :=
  match e.pindex_.lookup R with
  | some p => if e.sreq_.getD p false = true then 0 else e.sbuf_ctr_.getD p 0
  | none => 0

/-- What the process still holds for peer `R`, in units of the fill counter: two
for every candidate pair addressed to `R` that is not yet inserted, plus the
unsent fill of the slot of `R`. -/
def owed (g : Graph) (e : TriangulateAggrBufferedHashPush) (R : Nat) : Int :=
  2 * ((peer_total g e.rank_ R : Int) - (logged g e R : Int)) + unsent e R

/-- The value of `in_nghosts_` after `process_messages()` (source lines 385-389),
from the value `inn` before: a received message takes `B` from it, or what is
left of it. -/
def in_after (B inn : Int) (probe : Option (List Char)) : Int :=
  match probe with
  | none => inn
  | some _ => if inn ≥ B then inn - B else 0

/-- Effect of the recycle loop for the indices `inds`. -/
structure Recycled (inds : List Nat) (e e' : TriangulateAggrBufferedHashPush) : Prop where
  rank : e'.rank_ = e.rank_
  erange : e'.erange_ = e.erange_
  pindex : e'.pindex_ = e.pindex_
  bufsize : e'.bufsize_ = e.bufsize_
  pdegree : e'.pdegree_ = e.pdegree_
  targets : e'.targets_ = e.targets_
  inn : e'.in_nghosts_ = e.in_nghosts_
  out : e'.out_nghosts_ = e.out_nghosts_
  inserted : e'.inserted_ = e.inserted_
  sent : e'.sent_ = e.sent_
  len_stat : e'.stat_.length = e.stat_.length
  len_sreq : e'.sreq_.length = e.sreq_.length
  len_ctr : e'.sbuf_ctr_.length = e.sbuf_ctr_.length
  ctr : ∀ p, e'.sbuf_ctr_.getD p 0 = if p ∈ inds then 0 else e.sbuf_ctr_.getD p 0
  stat : ∀ p, e'.stat_.getD p '0' = if p ∈ inds then '0' else e.stat_.getD p '0'
  sreq : ∀ p, e'.sreq_.getD p false = if p ∈ inds then false else e.sreq_.getD p false

/-- State of the object of process `r` between two iterations of the driver
loop: the invariant of the enumerator holds, every peer of `targets_` has its own
slot, the fill counters are within the capacity `B`, and a paused slot has an
active send. -/
structure Steady (g : Graph) (B : Int) (r : Nat) (e : TriangulateAggrBufferedHashPush) :
    Prop where
  inv : LView.Inv g e.view
  rank : e.rank_ = r
  buf : e.bufsize_ = B
  erange : e.erange_ = erange_allreduce g
  len_stat : e.stat_.length = e.pdegree_
  len_sreq : e.sreq_.length = e.pdegree_
  len_tg : e.targets_.length = e.pdegree_
  hyp : PassHyp g e
  pi : ∀ o p, e.pindex_.lookup o = some p → p < e.pdegree_ ∧ e.targets_.getD p 0 = o
  tg : ∀ p < e.pdegree_, e.pindex_.lookup (e.targets_.getD p 0) = some p
  ctr : CtrInv e
  flight : ∀ p, e.stat_.getD p '0' = '1' → e.sreq_.getD p false = true

/-- State of process `r` between two iterations of the driver loop: the object
is steady; before the flush every active send belongs to a paused slot; after
the flush no pair is left and every slot is empty or being sent; and `done` is
set only after the barrier was started. -/
def Loc (g : Graph) (B : Int) (r : Nat)
    (st : TriangulateAggrBufferedHashPush × CountLocals) : Prop :=
  Steady g B r st.1 ∧
    (st.2.sends_done = false → ∀ p, st.1.sreq_.getD p false = true →
      st.1.stat_.getD p '0' = '1') ∧
    (st.2.sends_done = true → st.1.out_nghosts_ = 0 ∧
      ∀ p, st.1.sreq_.getD p false = true ∨ st.1.sbuf_ctr_.getD p 0 = 0) ∧
    (st.2.done = true → st.2.nbar_active = true)

end TriangulateAggrBufferedHashPush

namespace TriangulateAggrBufferedHashPush

/-- The send part of an iteration of the driver loop (source lines 417-426): the
flush, a pass of the enumerator, or nothing.  The second component is
`sends_done`. -/
def send_part (g : Graph) (H : Hash128)
    (st : TriangulateAggrBufferedHashPush × CountLocals) :
    TriangulateAggrBufferedHashPush × Bool :=
  if st.1.out_nghosts_ = 0 then
    (if !st.2.sends_done then (st.1.nbsend_all, true) else (st.1, st.2.sends_done))
  else (lookup_edges g H st.1, st.2.sends_done)

/-- Work that the send side of a process has left: the pairs to insert, and the
final flush. -/
def work_left (st : TriangulateAggrBufferedHashPush × CountLocals) : Nat :=
  st.1.out_nghosts_.toNat + (if st.2.sends_done then 0 else 1)

end TriangulateAggrBufferedHashPush

namespace World

/-- What the message layer does during one iteration of the driver loop of a
process.  `see`: `MPI_Iprobe` finds one of the messages waiting for the process,
and `pick` says which.  `complete p`: `MPI_Testsome` reports the send of slot `p`
complete if it is active.  `bar`: `MPI_Test` reports the barrier complete if
every process has started it.  `settle`: `MPI_Testsome` reports every active
send whose destination has no message waiting. -/
structure Oracle where
  see : Bool
  pick : Nat
  complete : Nat → Bool
  bar : Bool
  settle : Bool

/-- The message layer does all it can: a waiting message is found, the sends
whose messages were received are reported complete, and so is the barrier once
every process has started it. -/
def Oracle.prompt (o : Oracle) : Bool := o.see && o.bar && o.settle

/-- The mailboxes after an iteration of process `r`: a message that `MPI_Iprobe`
finds is taken out of the mailbox of `r`, and the messages that the iteration
posts are appended to the mailboxes of their destinations. -/
def mail_after (g : Graph) (H : Hash128) (w : World) (r : Nat) (o : Oracle) :
    List (List (List Char)) :=
  let st := w.procs.getD r default
  let inbox := w.mail.getD r []
  let rest := if o.see then inbox.eraseIdx (o.pick % inbox.length) else inbox
  let posted := (send_part g H st).1.sent_.drop st.1.sent_.length
  posted.foldl (fun ml msg => ml.set msg.1 (ml.getD msg.1 [] ++ [msg.2])) (w.mail.set r rest)

/-- What the message layer reports to an iteration of process `r` when it acts
as `o` says. -/
def events (g : Graph) (H : Hash128) (w : World) (r : Nat) (o : Oracle) : MPIEvents :=
  let st := w.procs.getD r default
  let inbox := w.mail.getD r []
  { probe := if o.see then inbox.get? (o.pick % inbox.length) else none
    testsome := (List.range st.1.pdegree_).filter (fun p =>
      o.complete p ||
        (o.settle && ((mail_after g H w r o).getD (st.1.targets_.getD p 0) []).isEmpty))
    nbar_test := o.bar && w.procs.all (fun p => p.2.nbar_active) }

/-- Process `r` runs one iteration of its driver loop, the message layer acting
as `o` says. -/
def step_with (g : Graph) (H : Hash128) (w : World) (r : Nat) (o : Oracle) : World :=
  let st := w.procs.getD r default
  if st.2.done then w
  else
    { procs := w.procs.set r (count_iter g H (events g H w r o) st)
      mail := mail_after g H w r o }

/-- The processes run their iterations in the order given by a list of rounds,
each round a list of ranks with what the message layer does. -/
def run_with (g : Graph) (H : Hash128) : List (List (Nat × Oracle)) → World → World
  | [], w => w
  | rd :: rest, w => run_with g H rest (rd.foldl (fun w x => step_with g H w x.1 x.2) w)

/-- Send-side work left on all processes. -/
def work (w : World) : Nat :=
  ((List.range w.procs.length).map (fun q => work_left (w.procs.getD q default))).sum

/-- Number of messages sent and not yet received. -/
def waiting (w : World) : Nat :=
  ((List.range w.mail.length).map (fun R => (w.mail.getD R []).length)).sum

/-- Number of active sends of one process. -/
def active (e : TriangulateAggrBufferedHashPush) : Nat :=
  ((List.range e.pdegree_).map (fun p => if e.sreq_.getD p false then 1 else 0)).sum

/-- Number of active sends of all processes. -/
def flying (w : World) : Nat :=
  ((List.range w.procs.length).map (fun q => active (w.procs.getD q default).1)).sum

/-- Number of processes that have not started the barrier. -/
def unstarted (w : World) : Nat :=
  ((List.range w.procs.length).map
    (fun q => if (w.procs.getD q default).2.nbar_active then 0 else 1)).sum

/-- Number of processes whose driver loop is still running. -/
def running (w : World) : Nat :=
  ((List.range w.procs.length).map
    (fun q => if (w.procs.getD q default).2.done then 0 else 1)).sum

/-- The measure that decreases while the processes run, in lexicographic order:
send-side work, messages waiting, active sends, barriers not started, loops
running. -/
def potential (w : World) : Lex (Nat × Lex (Nat × Lex (Nat × Lex (Nat × Nat)))) :=
  toLex (w.work, toLex (w.waiting, toLex (w.flying, toLex (w.unstarted, w.running))))

/-- What is on its way to process `R`, in units of the fill counter: what the
processes still hold for `R`, and the capacity `B` for every message waiting
for `R`. -/
def due (g : Graph) (B : Int) (w : World) (R : Nat) : Int :=
  ((List.range w.procs.length).map (fun q => owed g (w.procs.getD q default).1 R)).sum +
    B * ((w.mail.getD R []).length : Int)

/-- Invariant of the processes together: every process is in a state between two
iterations, a loop has ended only after every barrier was started, and a process
that still expects input has input on its way. -/
structure Good (g : Graph) (B : Int) (w : World) : Prop where
  len_procs : w.procs.length = g.get_size
  len_mail : w.mail.length = g.get_size
  loc : ∀ r < g.get_size, Loc g B r (w.procs.getD r default)
  bar : (∃ q < g.get_size, (w.procs.getD q default).2.done = true) →
    ∀ r < g.get_size, (w.procs.getD r default).2.nbar_active = true
  acc : ∀ R < g.get_size, (w.procs.getD R default).1.in_nghosts_ = 0 ∨
    ((w.procs.getD R default).1.in_nghosts_ ≤ due g B w R ∧ 0 < due g B w R)

/-- Process `r` can make progress once the message layer is prompt: its loop is
running, and it has pairs to insert and no slot paused, or the flush to do, or a
message to receive, or an active send whose message was received, or the barrier
to start, or the barrier is complete. -/
def Enabled (w : World) (r : Nat) : Prop :=
  (w.procs.getD r default).2.done = false ∧
    (((w.procs.getD r default).1.out_nghosts_ ≠ 0 ∧
        ∀ p, (w.procs.getD r default).1.stat_.getD p '0' ≠ '1') ∨
      ((w.procs.getD r default).1.out_nghosts_ = 0 ∧
        (w.procs.getD r default).2.sends_done = false) ∨
      w.mail.getD r [] ≠ [] ∨
      (∃ p < (w.procs.getD r default).1.pdegree_,
        (w.procs.getD r default).1.sreq_.getD p false = true ∧
        w.mail.getD ((w.procs.getD r default).1.targets_.getD p 0) [] = []) ∨
      ((w.procs.getD r default).2.nbar_active = false ∧
        (w.procs.getD r default).1.in_nghosts_ = 0) ∨
      ((w.procs.getD r default).2.nbar_active = true ∧
        ∀ q < w.procs.length, (w.procs.getD q default).2.nbar_active = true))

end World

namespace World

/-- The message layer of `World.step`: the oldest waiting message is found, and
every active send and the barrier are reported complete as early as possible. -/
def Oracle.eager : Oracle :=
  { see := true, pick := 0, complete := fun _ => true, bar := true, settle := true }

/-- A message layer without buffering: the oldest waiting message is found, and a
send is reported complete only when its destination has no message waiting. -/
def Oracle.rendezvous : Oracle :=
  { see := true, pick := 0, complete := fun _ => false, bar := true, settle := true }

/-- A message layer that does nothing for this iteration: no message is found
and nothing is reported complete. -/
def Oracle.idle : Oracle :=
  { see := false, pick := 0, complete := fun _ => false, bar := false, settle := false }

end World

/-- The state in which `count()` is entered for `graph_shared_edge` with buffer
hint 1000. -/
def world_shared_edge : World :=
  (World.init graph_shared_edge ieee_1e_09 1000).getD default

end Termination

section DriverSteps

open TriangulateAggrBufferedHashPush

/-- Example filter: 8 bits, 4 hash slots, no bit set. -/
def bf_example_four : Bloomfilter :=
  { n_ := 2, m_ := 8, k_ := 4, bits_ := List.replicate 8 '0', hashes_ := [0, 0, 0, 0] }

/-- Number of half-edges `(i, a)` of process `rank`, over every local vertex `i`
and every half-edge of `i` with tail `a`, for which the filter `rebf` reports the
pair `(global(i), a)`. -/
def probe_hits_all (g : Graph) (H : Hash128) (rank : Nat) (rebf : Bloomfilter) : Nat :=
  ((List.range (g.get_lnv rank)).map (fun i =>
    (List.range' (g.edge_range rank i).1
        ((g.edge_range rank i).2 - (g.edge_range rank i).1)).countP
      (fun m => rebf.safe_contains H (g.local_to_global rank i) (g.get_edge rank m)))).sum

/-- The same number with the local vertices left out whose edge range holds
exactly one half-edge. -/
def probe_hits (g : Graph) (H : Hash128) (rank : Nat) (rebf : Bloomfilter) : Nat :=
  ((List.range (g.get_lnv rank)).map (fun i =>
    if (g.edge_range rank i).1 + 1 = (g.edge_range rank i).2 then 0
    else
      (List.range' (g.edge_range rank i).1
          ((g.edge_range rank i).2 - (g.edge_range rank i).1)).countP
        (fun m => rebf.safe_contains H (g.local_to_global rank i) (g.get_edge rank m)))).sum

namespace TriangulateAggrBufferedHashPush

/-- Slot `p` is the same in the states `e` and `e'`: status, filter, fill counter
and bookmark agree, no insert into slot `p` was logged in between, and the
`active_` flags of the source edges whose peer has slot `p` agree. -/
structure SlotKept (g : Graph) (p : Nat) (e e' : TriangulateAggrBufferedHashPush) : Prop where
  rank : e'.rank_ = e.rank_
  pindex : e'.pindex_ = e.pindex_
  stat : e'.stat_.getD p '0' = e.stat_.getD p '0'
  sebf : e'.sebf_.getD p default = e.sebf_.getD p default
  ctr : e'.sbuf_ctr_.getD p 0 = e.sbuf_ctr_.getD p 0
  pm : e'.prev_m_.getD p (-1) = e.prev_m_.getD p (-1)
  pk : e'.prev_k_.getD p (-1) = e.prev_k_.getD p (-1)
  ins : e'.inserted_.filter (fun x => decide (x.1 = p)) =
    e.inserted_.filter (fun x => decide (x.1 = p))
  act : ∀ m, e.pindex (g.get_owner (g.get_edge e.rank_ m)) = p →
    e'.active_.getD m true = e.active_.getD m true

/-- Number of inserts into slot `p` that the object has logged. -/
def inserted_into (e : TriangulateAggrBufferedHashPush) (p : Nat) : Nat :=
  e.inserted_.countP (fun x => decide (x.1 = p))

end TriangulateAggrBufferedHashPush

/-- Whether the step is a recycle loop that recycles slot `p`. -/
def DriverEvent.recycles (p : Nat) : DriverEvent → Bool
  | DriverEvent.recycle inds => decide (p ∈ inds)
  | _ => false

/-- Number of pairs inserted into slot `p` since the slot was last recycled, at
the end of the steps `evs` taken from state `e`; `base` is the number of inserts
into slot `p` that were logged when the slot was last recycled before `e` (`0`
if it never was). -/
def inserted_since (g : Graph) (H : Hash128) (p : Nat) :
    List DriverEvent → TriangulateAggrBufferedHashPush → Nat → Nat
  | [], e, base => e.inserted_into p - base
  | ev :: rest, e, base =>
    inserted_since g H p rest (ev.apply g H e)
      (if ev.recycles p then (ev.apply g H e).inserted_into p else base)

/-- The object of rank 0 for `graph_one_way` with buffer hint 1000, as
constructed: `bufsize_` is 4, the fill of the two candidate pairs of rank 0. -/
def engine_one_way_rank0_wide : TriangulateAggrBufferedHashPush :=
  (TriangulateAggrBufferedHashPush.ctor graph_one_way ieee_1e_09 1000 0).getD default

/-- Rank 0 of `graph_one_way` with buffer hint 1000 after the first iteration of
the driver loop, in which `MPI_Testsome` reports nothing. -/
def one_way_wide_iter1 :
    TriangulateAggrBufferedHashPush × TriangulateAggrBufferedHashPush.CountLocals :=
  TriangulateAggrBufferedHashPush.count_iter graph_one_way pair_hash
    TriangulateAggrBufferedHashPush.no_events
    (engine_one_way_rank0_wide, TriangulateAggrBufferedHashPush.locals_init)

/-- The same process after the second iteration, in which `MPI_Testsome` again
reports nothing. -/
def one_way_wide_iter2 :
    TriangulateAggrBufferedHashPush × TriangulateAggrBufferedHashPush.CountLocals :=
  TriangulateAggrBufferedHashPush.count_iter graph_one_way pair_hash
    TriangulateAggrBufferedHashPush.no_events one_way_wide_iter1

end DriverSteps

section OtherVariants

open TriangulateAggrBufferedHashPush

/-! ## `TriangulateHashRemote`: the batches of the filter exchange (`chashfastric.hpp`) -/

namespace TriangulateHashRemote

/-- `std::numeric_limits<int>::max()`. -/
def INT_MAX : Int := 2147483647

/-- Conversion to `GraphElem` (two's complement, 64 bits). -/
def wrap64 (x : Int) : Int := (x + 2 ^ 63) % 2 ^ 64 - 2 ^ 63

/-- Modelled from the spec: the macro `MIN`, whose definition is in a header that
is not among the sources; the smaller of its two arguments. -/
def MIN (a b : Int) : Int := if a < b then a else b

/-- `*std::max_element(first, last)`; for an empty range the iterator returned is
`last`, which must not be dereferenced: no value. -/
def max_element : List Int → Option Int
  | [] => none
  | a :: t => some (t.foldl max a)

/-- `max_send_count` after `MPI_Allreduce(..., MPI_MAX, ...)` (source lines
413-414): the largest of the local maxima; `fleet` holds the vector `scounts` of
every process. -/
def max_send_count (fleet : List (List Int)) : Option Int :=
  let ms := fleet.map max_element
  if ms.all Option.isSome then
    some ((ms.map (fun m => m.getD 0)).foldl max ((ms.map (fun m => m.getD 0)).headD 0))
  else none

/-- The loop `while (batch_size < max_send_count)` (source lines 417-421) on the
pair (`nbatches`, `batch_size`), an `int` and a `GraphElem`; `none` when `fuel`
iterations do not end it. -/
def nbatches_loop (max_count : Int) : Nat → Int × Int → Option (Int × Int)
  | 0, s => if s.2 < max_count then none else some s
  | fuel + 1, s =>
    if s.2 < max_count then
      nbatches_loop max_count fuel (wrap32 (s.1 + 1), wrap64 (s.2 + INT_MAX))
    else some s

/-- The loop over `i` for one peer (source lines 429-433): the entries
`batch_send_counts[p*nbatches + i]`, `i < nbatches`, and `scounts[p]` afterwards. -/
def batch_row : Nat → Int → List Int × Int
  | 0, s => ([], s)
  | n + 1, s =>
    let c := wrap32 (MIN INT_MAX s)
    let r := batch_row n (s - c)
    (c :: r.1, r.2)

/-- What the batching code of the constructor computes on one process. -/
structure Batching where
  nbatches : Int
  batch_send_counts : List (List Int)
  scounts : List Int
  deriving DecidableEq, Repr

/-- Source lines 411-434 on process `rank`: `nbatches`, the array
`batch_send_counts` (row `p` holds the entries `p*nbatches .. p*nbatches +
nbatches - 1`) and the vector `scounts` afterwards. -/
def batching (fleet : List (List Int)) (rank fuel : Nat) : Option Batching :=
  match max_send_count fleet with
  | none => none
  | some m =>
    match nbatches_loop m fuel (1, INT_MAX) with
    | none => none
    | some s =>
      some { nbatches := s.1
             batch_send_counts := (fleet.getD rank []).map (fun c => (batch_row s.1.toNat c).1)
             scounts := (fleet.getD rank []).map (fun c => (batch_row s.1.toNat c).2) }

/-- Two processes; the first holds a filter of 3000000000 bits, more than `INT_MAX`. -/
def fleet_large : List (List Int) := [[5, 3000000000], [7]]

end TriangulateHashRemote

/-! ## `Triangulate`: the termination counter and the searches sent (`tric.hpp`) -/

/-- `EDGE_SEARCH_TAG` (`tric.hpp` line 52). -/
def EDGE_SEARCH_TAG : Nat := 1

/-- Fields of a `Triangulate` object on one process.  `sent_` is ghost state that
no code reads: the messages posted by `isend` (tag, target, `data[0]`, `data[1]`). -/
structure Triangulate where
  rank_ : Nat
  ntriangles_ : Nat
  ghost_count_ : List Int
  tot_ghosts_ : Int
  nghosts_ : Int
  sent_ : List (Nat × Nat × Nat × Nat)
  deriving DecidableEq, Repr

namespace Triangulate

/-- The loop over `e` of the constructor (`tric.hpp` lines 79-84) on
`ghost_count_[i]`: one more for every half-edge whose tail another process owns. -/
def ghost_loop (g : Graph) (rank : Nat) : Nat → Nat → Int → Int
  | 0, _, c => c
  | fuel + 1, e, c =>
    ghost_loop g rank fuel (e + 1) (if g.get_owner (g.get_edge rank e) ≠ rank then c + 1 else c)

/-- What the loop of the constructor carries from vertex to vertex. -/
structure CtorState where
  ghost_count_ : List Int
  tot_ghosts_ : Int
  g_nmsgs : Int
  deriving DecidableEq, Repr

/-- Body of the loop over `i` of the constructor (`tric.hpp` lines 72-94).  A
vertex with exactly one half-edge is passed over.  `get_edge(e1 - 1)` is read
whatever the number of half-edges; for `e1 = 0` the index is `-1`, outside the
array: no value. -/
def ctor_i_body (g : Graph) (rank i : Nat) (s : CtorState) : Option CtorState :=
  let r := g.edge_range rank i
  if r.1 + 1 = r.2 then some s
  else
    let gc := ghost_loop g rank (r.2 - r.1) r.1 (s.ghost_count_.getD i 0)
    if r.2 = 0 then none
    else
      some { ghost_count_ := s.ghost_count_.set i gc
             tot_ghosts_ := s.tot_ghosts_ + gc
             g_nmsgs :=
               if g.get_owner (g.get_edge rank (r.2 - 1)) ≠ rank then s.g_nmsgs + gc - 1
               else s.g_nmsgs + gc }

/-- The loop over `i` of the constructor. -/
def ctor_i_loop (g : Graph) (rank : Nat) : Nat → Nat → CtorState → Option CtorState
  | 0, _, s => some s
  | fuel + 1, i, s =>
    match ctor_i_body g rank i s with
    | none => none
    | some s1 => ctor_i_loop g rank fuel (i + 1) s1

/-- `Triangulate::Triangulate(Graph* g)` on process `rank` (`tric.hpp` lines
57-98); `nghosts_` is the value of `g_nmsgs` after the loop. -/
def ctor (g : Graph) (rank : Nat) : Option Triangulate :=
  match ctor_i_loop g rank (g.get_lnv rank) 0
      { ghost_count_ := List.replicate (g.get_lnv rank) 0, tot_ghosts_ := 0, g_nmsgs := 0 } with
  | none => none
  | some s =>
    some { rank_ := rank, ntriangles_ := 0, ghost_count_ := s.ghost_count_
           tot_ghosts_ := s.tot_ghosts_, nghosts_ := s.g_nmsgs, sent_ := [] }

/-- The loop over `e` of `lookup_edges` (`tric.hpp` lines 151-164): a pair of
consecutive tails is checked here when this process owns the first, and sent to
its owner with `EDGE_SEARCH_TAG` otherwise. -/
def lookup_e_loop (g : Graph) : Nat → Nat → Triangulate → Triangulate
  | 0, _, t => t
  | fuel + 1, e, t =>
    let p0 := g.get_edge t.rank_ (e - 1)
    let p1 := g.get_edge t.rank_ e
    let owner := g.get_owner p0
    lookup_e_loop g fuel (e + 1)
      (if owner = t.rank_ then
        { t with ntriangles_ := (check_edgelist g t.rank_ t.ntriangles_ p0 p1).2 }
      else { t with sent_ := t.sent_ ++ [(EDGE_SEARCH_TAG, owner, p0, p1)] })

/-- Body of the loop over `i` of `lookup_edges` (`tric.hpp` lines 143-165). -/
def lookup_i_body (g : Graph) (i : Nat) (t : Triangulate) : Triangulate :=
  let r := g.edge_range t.rank_ i
  if r.1 + 1 = r.2 then t
  else lookup_e_loop g (r.2 - (r.1 + 1)) (r.1 + 1) t

/-- The loop over `i` of `lookup_edges`. -/
def lookup_i_loop (g : Graph) : Nat → Nat → Triangulate → Triangulate
  | 0, _, t => t
  | fuel + 1, i, t => lookup_i_loop g fuel (i + 1) (lookup_i_body g i t)

/-- `Triangulate::lookup_edges()` (`tric.hpp` lines 138-166). -/
def lookup_edges (g : Graph) (t : Triangulate) : Triangulate :=
  lookup_i_loop g (g.get_lnv t.rank_) 0 t

end Triangulate

/-! ## `TriangulateAggrFatCompressed`: the send buffer (`cfastric.hpp`) -/

/-- Fields of a `TriangulateAggrFatCompressed` object on one process.  An entry
of `sbuf_` or `rbuf_` is `none` as long as nothing has been stored in it (the
arrays come from `new GraphElem[...]` without an initialiser). -/
structure TriangulateAggrFatCompressed where
  rank_ : Nat
  size_ : Nat
  ntriangles_ : Int
  out_ghosts_ : Int
  in_ghosts_ : Int
  nghosts_ : Int
  sbuf_ : List (Option Int)
  rbuf_ : List (Option Int)
  sbuf_ctr_ : List Int
  sbuf_disp_ : List Int
  send_counts_ : List Int
  recv_counts_ : List Int
  deriving DecidableEq, Repr

namespace TriangulateAggrFatCompressed

/-- The statement `a[p] += 1` on an array of counters. -/
def bump (a : List Int) (p : Nat) : List Int := a.set p (a.getD p 0 + 1)

/-- The three arrays that the first loop of the constructor fills. -/
structure CtorCounts where
  headv_counts : List Int
  send_counts_ : List Int
  pad_counts : List Int
  deriving DecidableEq, Repr

/-- The loop over `n` of the constructor (`cfastric.hpp` lines 89-90). -/
def ctor_n_loop (owner : Nat) : Nat → CtorCounts → CtorCounts
  | 0, c => c
  | fuel + 1, c => ctor_n_loop owner fuel { c with send_counts_ := bump c.send_counts_ owner }

/-- The loop over `m` of the constructor (`cfastric.hpp` lines 82-93). -/
def ctor_m_loop (g : Graph) (rank e1 : Nat) : Nat → Nat → CtorCounts → CtorCounts
  | 0, _, c => c
  | fuel + 1, m, c =>
    let owner := g.get_owner (g.get_edge rank m)
    ctor_m_loop g rank e1 fuel (m + 1)
      (if owner ≠ rank then
        let c1 := { c with headv_counts := bump c.headv_counts owner }
        let c2 := ctor_n_loop owner (e1 - (m + 1)) c1
        { c2 with pad_counts := bump c2.pad_counts owner }
      else c)

/-- Body of the loop over `i` of the constructor (`cfastric.hpp` lines 77-94). -/
def ctor_i_body (g : Graph) (rank i : Nat) (c : CtorCounts) : CtorCounts :=
  let r := g.edge_range rank i
  if r.1 + 1 = r.2 then c
  else ctor_m_loop g rank r.2 (r.2 - 1 - r.1) r.1 c

/-- The loop over `i` of the constructor. -/
def ctor_i_loop (g : Graph) (rank : Nat) : Nat → Nat → CtorCounts → CtorCounts
  | 0, _, c => c
  | fuel + 1, i, c => ctor_i_loop g rank fuel (i + 1) (ctor_i_body g rank i c)

/-- The arrays `headv_counts`, `send_counts_`, `pad_counts` of process `rank`
after the first loop of the constructor. -/
def ctor_counts (g : Graph) (rank : Nat) : CtorCounts :=
  ctor_i_loop g rank (g.get_lnv rank) 0
    { headv_counts := List.replicate g.get_size 0
      send_counts_ := List.replicate g.get_size 0
      pad_counts := List.replicate g.get_size 0 }

/-- `MPI_Alltoall` of one `GraphElem` per process, seen from process `rank`:
entry `p` of the result is entry `rank` of what process `p` sends. -/
def alltoall (sends : Nat → List Int) (size rank : Nat) : List Int :=
  (List.range size).map (fun p => (sends p).getD rank 0)

/-- What the loop over `p` of the constructor carries. -/
structure CtorSums where
  sbuf_disp_ : List Int
  send_counts_ : List Int
  out_ghosts_ : Int
  in_ghosts_ : Int
  spos : Int
  deriving DecidableEq, Repr

/-- The loop over `p` of the constructor (`cfastric.hpp` lines 98-105). -/
def ctor_p_loop (c : CtorCounts) (recv_counts : List Int) : Nat → Nat → CtorSums → CtorSums
  | 0, _, s => s
  | fuel + 1, p, s =>
    let sc := s.send_counts_.getD p 0 + (c.pad_counts.getD p 0 + c.headv_counts.getD p 0)
    ctor_p_loop c recv_counts fuel (p + 1)
      { sbuf_disp_ := s.sbuf_disp_.set p s.spos
        out_ghosts_ := s.out_ghosts_ + s.send_counts_.getD p 0
        in_ghosts_ := s.in_ghosts_ + recv_counts.getD p 0
        send_counts_ := s.send_counts_.set p sc
        spos := s.spos + sc }

/-- The constructor of process `rank` up to `sbuf_ = new GraphElem[spos]`. -/
def ctor_sums (g : Graph) (rank : Nat) : CtorSums :=
  ctor_p_loop (ctor_counts g rank)
    (alltoall (fun p => (ctor_counts g p).send_counts_) g.get_size rank) g.get_size 0
    { sbuf_disp_ := List.replicate g.get_size 0
      send_counts_ := (ctor_counts g rank).send_counts_
      out_ghosts_ := 0, in_ghosts_ := 0, spos := 0 }

/-- `TriangulateAggrFatCompressed::TriangulateAggrFatCompressed(Graph* g)` on
process `rank` (`cfastric.hpp` lines 54-113). -/
def ctor (g : Graph) (rank : Nat) : TriangulateAggrFatCompressed :=
  let s := ctor_sums g rank
  let recv := alltoall (fun p => (ctor_sums g p).send_counts_) g.get_size rank
  { rank_ := rank, size_ := g.get_size, ntriangles_ := 0
    out_ghosts_ := s.out_ghosts_, in_ghosts_ := s.in_ghosts_
    nghosts_ := s.out_ghosts_ + s.in_ghosts_
    sbuf_ := List.replicate s.spos.toNat none
    rbuf_ := List.replicate (recv.foldl (fun rpos c => rpos + c) 0).toNat none
    sbuf_ctr_ := List.replicate g.get_size 0
    sbuf_disp_ := s.sbuf_disp_
    send_counts_ := s.send_counts_
    recv_counts_ := recv }

/-- The loop of `check_edgelist` (`cfastric.hpp` lines 179-186). -/
def scan_edgelist (g : Graph) (rank tup1 : Nat) : Nat → Nat → Bool
  | 0, _ => false
  | fuel + 1, e =>
    if tup1 = g.get_edge rank e then true
    else if g.get_edge rank e > tup1 then false
    else scan_edgelist g rank tup1 fuel (e + 1)

/-- `TriangulateAggrFatCompressed::check_edgelist(tup)`. -/
def probe_edgelist (g : Graph) (t : TriangulateAggrFatCompressed) (tup0 tup1 : Nat) : Bool :=
  let r := g.edge_range t.rank_ (g.global_to_local t.rank_ tup0)
  scan_edgelist g t.rank_ tup1 (r.2 - r.1) r.1

/-- The assignment `sbuf_[sbuf_disp_[owner] + sbuf_ctr_[owner]] = v`; no result
when the index is outside the array. -/
def store (t : TriangulateAggrFatCompressed) (owner : Nat) (v : Int) :
    Option TriangulateAggrFatCompressed :=
  let idx := t.sbuf_disp_.getD owner 0 + t.sbuf_ctr_.getD owner 0
  if 0 ≤ idx ∧ idx < t.sbuf_.length then
    some { t with sbuf_ := t.sbuf_.set idx.toNat (some v) }
  else none

/-- The loop over `n` for a half-edge whose tail this process owns (`cfastric.hpp`
lines 150-156). -/
def local_n_loop (g : Graph) (tup0 : Nat) :
    Nat → Nat → TriangulateAggrFatCompressed → TriangulateAggrFatCompressed
  | 0, _, t => t
  | fuel + 1, n, t =>
    local_n_loop g tup0 fuel (n + 1)
      (if probe_edgelist g t tup0 (g.get_edge t.rank_ n) then
        { t with ntriangles_ := t.ntriangles_ + 1 }
      else t)

/-- The loop over `n` for a half-edge whose tail process `owner` owns
(`cfastric.hpp` lines 161-166). -/
def remote_n_loop (g : Graph) (owner : Nat) :
    Nat → Nat → TriangulateAggrFatCompressed → Option TriangulateAggrFatCompressed
  | 0, _, t => some t
  | fuel + 1, n, t =>
    match store { t with sbuf_ctr_ := bump t.sbuf_ctr_ owner } owner (g.get_edge t.rank_ n) with
    | none => none
    | some t1 => remote_n_loop g owner fuel (n + 1) t1

/-- The loop over `m` of `lookup_edges` (`cfastric.hpp` lines 144-170). -/
def send_m_loop (g : Graph) (e1 : Nat) :
    Nat → Nat → TriangulateAggrFatCompressed → Option TriangulateAggrFatCompressed
  | 0, _, t => some t
  | fuel + 1, m, t =>
    let tail := g.get_edge t.rank_ m
    let owner := g.get_owner tail
    if owner = t.rank_ then
      send_m_loop g e1 fuel (m + 1) (local_n_loop g tail (e1 - (m + 1)) (m + 1) t)
    else
      match store t owner tail with
      | none => none
      | some t1 =>
        match remote_n_loop g owner (e1 - (m + 1)) (m + 1) t1 with
        | none => none
        | some t2 =>
          match store { t2 with sbuf_ctr_ := bump t2.sbuf_ctr_ owner } owner (-1) with
          | none => none
          | some t3 => send_m_loop g e1 fuel (m + 1) t3

/-- Body of the loop over `i` of `lookup_edges` (`cfastric.hpp` lines 138-171). -/
def send_i_body (g : Graph) (i : Nat) (t : TriangulateAggrFatCompressed) :
    Option TriangulateAggrFatCompressed :=
  let r := g.edge_range t.rank_ i
  if r.1 + 1 = r.2 then some t
  else send_m_loop g r.2 (r.2 - 1 - r.1) r.1 t

/-- The loop over `i` of `lookup_edges`. -/
def send_i_loop (g : Graph) :
    Nat → Nat → TriangulateAggrFatCompressed → Option TriangulateAggrFatCompressed
  | 0, _, t => some t
  | fuel + 1, i, t =>
    match send_i_body g i t with
    | none => none
    | some t1 => send_i_loop g fuel (i + 1) t1

/-- `TriangulateAggrFatCompressed::lookup_edges()` (`cfastric.hpp` lines 134-172). -/
def lookup_edges (g : Graph) (t : TriangulateAggrFatCompressed) :
    Option TriangulateAggrFatCompressed :=
  send_i_loop g (g.get_lnv t.rank_) 0 t

/-- The part of `sbuf_` that belongs to peer `p`: `send_counts_[p]` entries from
`sbuf_disp_[p]` on. -/
def send_region (t : TriangulateAggrFatCompressed) (p : Nat) : List (Option Int) :=
  (t.sbuf_.drop (t.sbuf_disp_.getD p 0).toNat).take (t.send_counts_.getD p 0).toNat

/-- The layout that the comments of the source announce (`for the original
vertex`, `for ghost vertices`, `for demarcating vertices`, `demarcate vertex
boundary`): for every source half-edge `m` of process `rank` whose tail peer `p`
owns, in order, the tail of `m`, the tails of the later half-edges of the same
vertex, and `-1`. -/
def delimited_records (g : Graph) (rank p : Nat) : List Int :=
  ((List.range (g.get_lnv rank)).map (fun i =>
    let r := g.edge_range rank i
    if r.1 + 1 = r.2 then []
    else
      ((List.range (r.2 - 1 - r.1)).map (fun k =>
        let m := r.1 + k
        if g.get_owner (g.get_edge rank m) = p ∧ p ≠ rank then
          ((g.get_edge rank m : Int) ::
            (List.range (r.2 - (m + 1))).map (fun j => (g.get_edge rank (m + 1 + j) : Int))) ++
            [-1]
        else [])).flatten)).flatten

end TriangulateAggrFatCompressed

end OtherVariants

section DefinedCalls

open TriangulateAggrBufferedHashPush

/-- The object that `Bloomfilter(0, 2, p)` constructs (second constructor): no
bits, two hash slots. -/
def bf_no_bits : Bloomfilter :=
  { n_ := 0, m_ := 0, k_ := 2, bits_ := [], hashes_ := [0, 0] }

/-- The object that `Bloomfilter(4, 0.5)` constructs (first constructor): six
bits, one hash slot. -/
def bf_one_slot : Bloomfilter :=
  { n_ := 4, m_ := 6, k_ := 1, bits_ := List.replicate 6 '0', hashes_ := [0] }

end DefinedCalls

section EngineCalls

open TriangulateAggrBufferedHashPush

namespace TriangulateAggrBufferedHashPush

/-- Every filter of the object satisfies the class invariant and is one on which
`hash` has a result, and the receive buffer has the size of the receive filter. -/
structure FiltersDefined (e : TriangulateAggrBufferedHashPush) : Prop where
  se : ∀ p, (e.sebf_.getD p default).WF ∧ (e.sebf_.getD p default).HashDefined
  re : e.rebf_.WF ∧ e.rebf_.HashDefined
  rbuf : e.rbuf_.length = e.rebf_.m_

end TriangulateAggrBufferedHashPush

end EngineCalls

/-! # Theorems -/

/-! ## Bloomfilter -/

theorem Bloomfilter.hash_loop_length (H : Hash128) (m_ k_ lhs rhs : Nat) :
    ∀ (fuel n : Nat) (hs : List Nat),
      (Bloomfilter.safe_hash_loop H m_ k_ lhs rhs fuel n hs).length = hs.length := by
  intro fuel
  induction fuel with
  | zero => intro n hs; rfl
  | succ f ih =>
    intro n hs
    unfold Bloomfilter.safe_hash_loop
    split
    · rw [ih]; simp
    · rfl

theorem Bloomfilter.hash_loop_get (H : Hash128) (m_ k_ lhs rhs : Nat) :
    ∀ (fuel n : Nat) (hs : List Nat) (j : Nat), j < hs.length → hs.length = k_ →
      n % 2 = 0 → k_ ≤ n + 2 * fuel →
      (Bloomfilter.safe_hash_loop H m_ k_ lhs rhs fuel n hs).getD j 0 =
        if n ≤ j then Bloomfilter.slot_index H m_ lhs rhs j else hs.getD j 0 := by
  intro fuel
  induction fuel with
  | zero =>
    intro n hs j hj hk _ hn
    have : ¬ n ≤ j := by omega
    simp [Bloomfilter.safe_hash_loop, this]
  | succ f ih =>
    intro n hs j hj hk hpar hn
    unfold Bloomfilter.safe_hash_loop
    by_cases hnk : n < k_
    · simp only [hnk, if_true]
      rw [ih _ _ j (by simpa using hj) (by simpa using hk) (by omega) (by omega)]
      by_cases h1 : n + 2 ≤ j
      · have : n ≤ j := by omega
        simp [h1, this]
      · simp only [h1, if_false]
        by_cases h2 : n ≤ j
        · simp only [h2, if_true]
          have hcase : j = n ∨ j = n + 1 := by omega
          rcases hcase with rfl | rfl
          · have hlt : j < hs.length := hj
            simp [List.getD_eq_getElem?_getD, List.getElem?_set, Bloomfilter.slot_index,
              hpar, hlt]
          · have hlt : n + 1 < hs.length := hj
            have hpar1 : (n + 1) % 2 = 1 := by omega
            simp [List.getD_eq_getElem?_getD, List.getElem?_set, Bloomfilter.slot_index,
              hpar1, hlt]
        · simp only [h2, if_false]
          have h3 : ¬ n = j := by omega
          have h4 : ¬ n + 1 = j := by omega
          simp [List.getD_eq_getElem?_getD, List.getElem?_set, h3, h4]
    · have : ¬ n ≤ j := by omega
      simp [hnk, this]

/-- After `hash`, slot `j < k_` holds `slot_index j`, whatever the scratch held. -/
theorem Bloomfilter.hash_get (H : Hash128) (bf : Bloomfilter) (lhs rhs j : Nat)
    (hk : bf.hashes_.length = bf.k_) (hj : j < bf.k_) :
    (bf.safe_hash H lhs rhs).hashes_.getD j 0 = Bloomfilter.slot_index H bf.m_ lhs rhs j := by
  unfold Bloomfilter.safe_hash
  simp only
  rw [Bloomfilter.hash_loop_get H bf.m_ bf.k_ lhs rhs bf.k_ 0 bf.hashes_ j (by omega) hk
    (by simp) (by omega)]
  simp

theorem Bloomfilter.foldl_set_length (idx : List Nat) (c : Char) :
    ∀ bits : List Char, (idx.foldl (fun b i => b.set i c) bits).length = bits.length := by
  induction idx with
  | nil => intro bits; rfl
  | cons a t ih => intro bits; simp [List.foldl_cons, ih]

theorem Bloomfilter.foldl_set_get (idx : List Nat) (c d : Char) :
    ∀ (bits : List Char) (i : Nat), i < bits.length →
      (idx.foldl (fun b i => b.set i c) bits).getD i d =
        if i ∈ idx then c else bits.getD i d := by
  induction idx with
  | nil => intro bits i _; simp
  | cons a t ih =>
    intro bits i hi
    rw [List.foldl_cons, ih _ i (by simpa using hi)]
    by_cases h1 : i ∈ t
    · simp [h1]
    · by_cases h2 : i = a
      · subst h2
        simp [h1, List.getD_eq_getElem?_getD, List.getElem?_set, hi]
      · have h3 : ¬ a = i := fun h => h2 h.symm
        simp [h1, h2, List.getD_eq_getElem?_getD, List.getElem?_set, h3]

theorem Bloomfilter.hash_m (H : Hash128) (bf : Bloomfilter) (lhs rhs : Nat) :
    (bf.safe_hash H lhs rhs).m_ = bf.m_ ∧ (bf.safe_hash H lhs rhs).k_ = bf.k_ ∧
      (bf.safe_hash H lhs rhs).bits_ = bf.bits_ ∧
      (bf.safe_hash H lhs rhs).hashes_.length = bf.hashes_.length := by
  refine ⟨rfl, rfl, rfl, ?_⟩
  simp [Bloomfilter.safe_hash, Bloomfilter.hash_loop_length]

/-- Two tests that agree below `k` give the same answer over the indices `0 .. k-1`. -/
theorem range_all_agree (k : Nat) (test1 test2 : Nat → Bool)
    (hagree : ∀ j, j ∈ List.range k → test1 j = test2 j) :
    (List.range k).all test1 = (List.range k).all test2 := by
  rw [Bool.eq_iff_iff, List.all_eq_true, List.all_eq_true]
  constructor
  · intro hall j hj
    rw [← hagree j hj]
    exact hall j hj
  · intro hall j hj
    rw [hagree j hj]
    exact hall j hj

/-- The answer of `safe_contains` in terms of the bits at the slot indices. -/
theorem Bloomfilter.contains_eq (H : Hash128) (bf : Bloomfilter) (u v : Nat)
    (hk : bf.hashes_.length = bf.k_) :
    bf.safe_contains H u v =
      (List.range bf.k_).all
        (fun j => !(bf.bits_.getD (Bloomfilter.slot_index H bf.m_ u v j) '0' == '0')) := by
  unfold Bloomfilter.safe_contains
  simp only [(Bloomfilter.hash_m H bf u v).2.1, (Bloomfilter.hash_m H bf u v).2.2.1]
  apply range_all_agree
  intro j hj
  rw [Bloomfilter.hash_get H bf u v j hk (by simpa using hj)]

/-- The bits after `safe_insert` in terms of the slot indices. -/
theorem Bloomfilter.insert_bits (H : Hash128) (bf : Bloomfilter) (u v : Nat)
    (hk : bf.hashes_.length = bf.k_) :
    (bf.safe_insert H u v).bits_ =
      ((List.range bf.k_).map (Bloomfilter.slot_index H bf.m_ u v)).foldl
        (fun b i => b.set i '1') bf.bits_ := by
  unfold Bloomfilter.safe_insert
  simp only [(Bloomfilter.hash_m H bf u v).2.1, (Bloomfilter.hash_m H bf u v).2.2.1]
  rw [List.foldl_map]
  apply List.foldl_ext
  intro b j hj
  rw [Bloomfilter.hash_get H bf u v j hk (by simpa using hj)]

theorem Bloomfilter.insert_wf (H : Hash128) (bf : Bloomfilter) (u v : Nat) (hwf : bf.WF) :
    (bf.safe_insert H u v).WF ∧ (bf.safe_insert H u v).m_ = bf.m_ ∧ (bf.safe_insert H u v).k_ = bf.k_ := by
  obtain ⟨hb, hh⟩ := hwf
  refine ⟨⟨?_, ?_⟩, rfl, rfl⟩
  · rw [Bloomfilter.insert_bits H bf u v hh, Bloomfilter.foldl_set_length]
    exact hb
  · show (bf.safe_hash H u v).hashes_.length = bf.k_
    rw [(Bloomfilter.hash_m H bf u v).2.2.2]; exact hh

/-- The `safe_` forms of the calls: for every filter with `m_ > 0` bits and `k_ > 0` hash slots and every
pair `(u, v)`, `safe_contains` is true after `safe_insert`, with the 128-bit hash
an arbitrary function `H`. -/
theorem Bloomfilter.safe_contains_insert (H : Hash128) (bf : Bloomfilter) (u v : Nat)
    (hwf : bf.WF) (hm : 0 < bf.m_) (hk : 0 < bf.k_) :
    (bf.safe_insert H u v).safe_contains H u v = true := by
  have hk' := hk
  obtain ⟨hwf', hm', hk''⟩ := Bloomfilter.insert_wf H bf u v hwf
  rw [Bloomfilter.contains_eq H _ u v hwf'.2, hm', hk'', List.all_eq_true]
  intro j hj
  rw [Bloomfilter.insert_bits H bf u v hwf.2]
  have hlt : Bloomfilter.slot_index H bf.m_ u v j < bf.bits_.length := by
    rw [hwf.1]; unfold Bloomfilter.slot_index; exact Nat.mod_lt _ hm
  rw [Bloomfilter.foldl_set_get _ '1' '0' _ _ hlt]
  have hmem : Bloomfilter.slot_index H bf.m_ u v j ∈
      (List.range bf.k_).map (Bloomfilter.slot_index H bf.m_ u v) :=
    List.mem_map.mpr ⟨j, hj, rfl⟩
  simp [hmem]

/-- Example for `safe_contains_insert`: a filter of 8 bits and 4 hash slots. -/
theorem Bloomfilter.safe_contains_insert_witness :
    (({ n_ := 1, m_ := 8, k_ := 4, bits_ := List.replicate 8 '0',
        hashes_ := List.replicate 4 0 } : Bloomfilter).safe_insert pair_hash 2 3).safe_contains
      pair_hash 2 3 = true :=
  Bloomfilter.safe_contains_insert pair_hash _ 2 3 (by decide) (by decide) (by decide)

/-- The round trip in the `safe_` form: for filters `A` and `B` with the same `m_`
and `k_`, copying the bytes of `A` with `copy_from` into a buffer of `m_` bytes and
that buffer into `B` with `copy_to` makes `safe_contains` on `B` equal
`safe_contains` on `A` for every pair, whatever `B` held before. -/
theorem Bloomfilter.safe_copy_roundtrip (H : Hash128) (A B : Bloomfilter) (dest : List Char)
    (hA : A.WF) (hB : B.WF) (hm : A.m_ = B.m_) (hk : A.k_ = B.k_)
    (hd : dest.length = A.m_) (u v : Nat) :
    (B.copy_to (A.copy_from dest)).safe_contains H u v = A.safe_contains H u v := by
  have hbits : (B.copy_to (A.copy_from dest)).bits_ = A.bits_ := by
    unfold Bloomfilter.copy_to Bloomfilter.copy_from
    simp only
    have h1 : List.take A.m_ A.bits_ = A.bits_ := List.take_of_length_le (by rw [hA.1])
    have h2 : List.drop A.m_ dest = [] := List.drop_of_length_le (by rw [hd])
    have h3 : List.drop B.m_ B.bits_ = [] := List.drop_of_length_le (by rw [hB.1])
    rw [h1, h2, h3, List.append_nil, List.append_nil]
    exact List.take_of_length_le (by rw [← hm, hA.1])
  have hh : (B.copy_to (A.copy_from dest)).hashes_.length =
      (B.copy_to (A.copy_from dest)).k_ := hB.2
  rw [Bloomfilter.contains_eq H _ u v hh, Bloomfilter.contains_eq H A u v hA.2, hbits]
  show (List.range B.k_).all _ = _
  rw [← hk]
  show (List.range A.k_).all
    (fun j => !(A.bits_.getD (Bloomfilter.slot_index H B.m_ u v j) '0' == '0')) = _
  rw [← hm]

/-- Example for `safe_copy_roundtrip`: two filters of 4 bits and 2 hash slots with
different contents. -/
theorem Bloomfilter.safe_copy_roundtrip_witness :
    (bf_example_B.copy_to (bf_example_A.copy_from ['x', 'x', 'x', 'x'])).safe_contains
      pair_hash 0 2 = bf_example_A.safe_contains pair_hash 0 2 :=
  Bloomfilter.safe_copy_roundtrip pair_hash bf_example_A bf_example_B ['x', 'x', 'x', 'x']
    (by decide) (by decide) rfl rfl rfl 0 2

/-! ## Runs on concrete graphs -/

set_option maxRecDepth 200000

/-- With `pair_hash`, inserting `(u, v)` changes the answer of `contains` for no
other pair below 16: on such pairs the filter has no false positives. -/
theorem Bloomfilter.pair_hash_exact (bf : Bloomfilter) (u v x y : Nat)
    (hwf : bf.WF) (hm : 256 ≤ bf.m_)
    (hu : u < 16) (hv : v < 16) (hx : x < 16) (hy : y < 16) (hne : (x, y) ≠ (u, v)) :
    (bf.safe_insert pair_hash u v).safe_contains pair_hash x y = bf.safe_contains pair_hash x y := by
  obtain ⟨hwf', hm', hk'⟩ := Bloomfilter.insert_wf pair_hash bf u v hwf
  rw [Bloomfilter.contains_eq pair_hash _ x y hwf'.2, Bloomfilter.contains_eq pair_hash bf x y hwf.2,
    hm', hk']
  apply range_all_agree
  intro j _
  rw [Bloomfilter.insert_bits pair_hash bf u v hwf.2]
  have hidx : ∀ a b i : Nat, a < 16 → b < 16 →
      Bloomfilter.slot_index pair_hash bf.m_ a b i = 16 * a + b := by
    intro a b i ha hb
    unfold Bloomfilter.slot_index pair_hash
    simp only [ite_self]
    exact Nat.mod_eq_of_lt (by omega)
  rw [hidx x y j hx hy]
  have hlt : 16 * x + y < bf.bits_.length := by rw [hwf.1]; omega
  rw [Bloomfilter.foldl_set_get _ '1' '0' _ _ hlt]
  have hnot : 16 * x + y ∉ (List.range bf.k_).map (Bloomfilter.slot_index pair_hash bf.m_ u v) := by
    intro hmem
    obtain ⟨i, _, hi⟩ := List.mem_map.mp hmem
    rw [hidx u v i hu hv] at hi
    apply hne
    have h1 : x = u := by omega
    have h2 : y = v := by omega
    rw [h1, h2]
  simp [hnot]

/-- C1 (evaluation at the failing input): on `graph_shared_edge`, a valid graph
with two triangles split over two processes, with the filter dimensions of the
default tolerance and a collision-free hash, all driver loops end and `count()`
returns 1 on rank 0.  Both processes insert the pair `(2, 3)` into the same
filter, where it is one entry. -/
theorem count_shared_edge_two_ranks :
    graph_shared_edge.Valid ∧ graph_shared_edge.triangles = 2 ∧
      run_count graph_shared_edge ieee_1e_09 pair_hash 1000 10 = some 1 := by
  decide

/-- C8 (evaluation at the failing input): on `graph_shared_edge` over two
processes the local counters at the final reduction are 4 and 1; their sum 5 is
not a multiple of 3. -/
theorem ttc_shared_edge_not_multiple_of_three :
    (World.init graph_shared_edge ieee_1e_09 1000).map
      (fun w => ((World.run graph_shared_edge pair_hash 10 w).procs.map
        (fun p => (p.1.ntriangles_, p.2.done)),
        (World.run graph_shared_edge pair_hash 10 w).ttc % 3)) =
      some ([(4, true), (1, true)], 2) := by
  decide

/-- C9 (counterexample): for `K3` with one vertex per process, two local counters
are incremented: rank 0 (owner of the smallest vertex) twice and rank 1 (owner of
the middle vertex) once. -/
theorem k3_three_ranks_credits_two_processes :
    graph_k3_three.Valid ∧
    (World.init graph_k3_three ieee_1e_09 1000).map
      (fun w => (World.run graph_k3_three pair_hash 10 w).procs.map
        (fun p => (p.1.ntriangles_, p.2.done))) =
      some [(2, true), (1, true), (0, true)] := by
  decide

/-- C4 (evaluation at the failing inputs): on `graph_one_way` with buffer hint 2,
the first driver iteration of rank 0 starts the barrier (`nbar_active` becomes
true) although one of its two candidate pairs is still to be emitted
(`out_nghosts_ = 1`).  On `graph_k4_split` with buffer hint 2, rank 1 has started
the barrier after two rounds with four of its six pairs still to be emitted
(`out_nghosts_ = 4`), and after six rounds both processes have left the loop of
`count()`, rank 1 with `out_nghosts_ = 2`: two pairs are never emitted, and the
count returned is 3 for a graph with 4 triangles. -/
theorem barrier_started_with_out_pending :
    (TriangulateAggrBufferedHashPush.ctor graph_one_way ieee_1e_09 2 0).map
      (fun e =>
        let s := TriangulateAggrBufferedHashPush.count_iter graph_one_way pair_hash
          TriangulateAggrBufferedHashPush.no_events
          (e, TriangulateAggrBufferedHashPush.locals_init)
        (e.out_nghosts_, s.2.nbar_active, s.1.out_nghosts_, s.1.in_nghosts_)) =
      some (2, true, 1, 0) ∧
    (World.init graph_k4_split ieee_1e_09 2).map
      (fun w =>
        ((World.run graph_k4_split pair_hash 2 w).procs.map
            (fun p => (p.2.nbar_active, p.1.out_nghosts_)),
         (World.run graph_k4_split pair_hash 6 w).procs.map
            (fun p => (p.2.done, p.1.out_nghosts_)),
         (World.run graph_k4_split pair_hash 6 w).ttc / 3)) =
      some ([(false, 1), (true, 4)], [(true, 0), (true, 2)], 3) ∧
    graph_k4_split.triangles = 4 := by
  decide

/-- The test before the barrier: an iteration of the driver loop leaves the barrier started
exactly when it was started before or `in_nghosts_` is 0 after the receive and
recycle steps of that iteration; `out_nghosts_` is not consulted. -/
theorem TriangulateAggrBufferedHashPush.barrier_started_iff (g : Graph) (H : Hash128)
    (ev : TriangulateAggrBufferedHashPush.MPIEvents)
    (st : TriangulateAggrBufferedHashPush × TriangulateAggrBufferedHashPush.CountLocals) :
    (TriangulateAggrBufferedHashPush.count_iter g H ev st).2.nbar_active = true ↔
      (st.2.nbar_active = true ∨
        (TriangulateAggrBufferedHashPush.count_iter g H ev st).1.in_nghosts_ = 0) := by
  unfold TriangulateAggrBufferedHashPush.count_iter
  simp only
  generalize TriangulateAggrBufferedHashPush.count_iter_work g H ev st = w
  by_cases h1 : st.2.nbar_active = true
  · simp [h1]
  · by_cases h2 : w.1.in_nghosts_ = 0
    · simp [h1, h2]
    · simp [h1, h2]

/-! ## Accounting of `in_nghosts_` -/

theorem TriangulateAggrBufferedHashPush.process_messages_in (g : Graph) (H : Hash128)
    (payload : List Char) (e : TriangulateAggrBufferedHashPush) :
    (TriangulateAggrBufferedHashPush.process_messages g H (some payload) e).in_nghosts_ =
        (if e.in_nghosts_ ≥ e.bufsize_ then e.in_nghosts_ - e.bufsize_ else 0) ∧
      (TriangulateAggrBufferedHashPush.process_messages g H (some payload) e).bufsize_ =
        e.bufsize_ := by
  simp [TriangulateAggrBufferedHashPush.process_messages]

theorem TriangulateAggrBufferedHashPush.receive_all_in (g : Graph) (H : Hash128) :
    ∀ (msgs : List (List Char)) (e : TriangulateAggrBufferedHashPush),
      0 < e.bufsize_ → 0 ≤ e.in_nghosts_ → e.in_nghosts_ ≤ msgs.length * e.bufsize_ →
      (msgs.foldl (fun e m => TriangulateAggrBufferedHashPush.process_messages g H (some m) e)
        e).in_nghosts_ = 0 := by
  intro msgs
  induction msgs with
  | nil =>
    intro e _ h0 h1
    simp only [List.length_nil, Nat.cast_zero, zero_mul] at h1
    simp only [List.foldl_nil]
    omega
  | cons m t ih =>
    intro e hB h0 h1
    rw [List.foldl_cons]
    obtain ⟨hin, hb⟩ := TriangulateAggrBufferedHashPush.process_messages_in g H m e
    apply ih
    · rw [hb]; exact hB
    · rw [hin]; split <;> omega
    · rw [hin, hb]
      simp only [List.length_cons, Nat.cast_add, Nat.cast_one] at h1
      have h2 : ((t.length : Int) + 1) * e.bufsize_ = t.length * e.bufsize_ + e.bufsize_ := by
        ring
      rw [h2] at h1
      have h3 : 0 ≤ (t.length : Int) * e.bufsize_ :=
        Int.mul_nonneg (Int.ofNat_nonneg _) (le_of_lt hB)
      split <;> omega

theorem sum_le_of_forall₂ (B : Int) :
    ∀ (cs ks : List Nat), List.Forall₂ (fun (c k : Nat) => (c : Int) ≤ (k : Int) * B) cs ks →
      ((cs.sum : Nat) : Int) ≤ ((ks.sum : Nat) : Int) * B := by
  intro cs ks h
  induction h with
  | nil => simp
  | cons hck _ ih =>
    simp only [List.sum_cons, Nat.cast_add]
    rw [add_mul]
    omega

/-- An upper bound on the receives that bring `in_nghosts_` to 0: let `in_nghosts_` be the sum of the per-peer candidate-pair
counts `cs`, let `bufsize_` be positive, and let peer `q` send `ks[q]` filters,
each carrying at most `bufsize_/2` pairs.  After the process has received all
`ks.sum` messages addressed to it, each receive subtracting `bufsize_` clamped at
0, `in_nghosts_` is 0: the receives needed never exceed the messages addressed. -/
theorem TriangulateAggrBufferedHashPush.in_pending_zero_after_all_messages
    (g : Graph) (H : Hash128) (e : TriangulateAggrBufferedHashPush)
    (cs ks : List Nat) (msgs : List (List Char))
    (hB : 0 < e.bufsize_) (hin : e.in_nghosts_ = ((cs.sum : Nat) : Int))
    (hks : List.Forall₂ (fun (c k : Nat) => (c : Int) ≤ (k : Int) * (e.bufsize_ / 2)) cs ks)
    (hlen : msgs.length = ks.sum) :
    (msgs.foldl (fun e m => TriangulateAggrBufferedHashPush.process_messages g H (some m) e)
      e).in_nghosts_ = 0 := by
  apply TriangulateAggrBufferedHashPush.receive_all_in g H msgs e hB
  · rw [hin]; exact Int.ofNat_nonneg _
  · have h2 : 0 ≤ e.bufsize_ / 2 := Int.ediv_nonneg (le_of_lt hB) (by decide)
    have h1 := sum_le_of_forall₂ (e.bufsize_ / 2) cs ks hks
    rw [hin, hlen]
    have h3 : e.bufsize_ / 2 ≤ e.bufsize_ := by omega
    have h4 : ((ks.sum : Nat) : Int) * (e.bufsize_ / 2) ≤ ((ks.sum : Nat) : Int) * e.bufsize_ :=
      Int.mul_le_mul_of_nonneg_left h3 (Int.ofNat_nonneg _)
    omega

/-- Example for `in_pending_zero_after_all_messages`: rank 1 of `graph_one_way` with buffer hint 2 expects
two pairs from rank 0, which sends them in two filters. -/
theorem TriangulateAggrBufferedHashPush.in_pending_zero_after_all_messages_witness :
    (([[], []] : List (List Char)).foldl
      (fun e m => TriangulateAggrBufferedHashPush.process_messages graph_one_way pair_hash
        (some m) e) engine_one_way_rank1).in_nghosts_ = 0 :=
  TriangulateAggrBufferedHashPush.in_pending_zero_after_all_messages graph_one_way pair_hash
    engine_one_way_rank1 [2, 0] [2, 0] [[], []] (by decide) (by decide)
    (List.Forall₂.cons (by decide) (List.Forall₂.cons (by decide) List.Forall₂.nil)) rfl

/-- C5 (evaluation at the failing inputs): on `graph_one_way` with buffer hint 2,
rank 1 starts with `in_nghosts_ = 2` and `bufsize_ = 2`.  After the first round
rank 0 has posted one message and `in_nghosts_` of rank 1 is already 0; rank 0
posts two messages to rank 1 in all.  On `graph_k4_split` with buffer hint 2,
rank 0 starts with `in_nghosts_ = 6` and `bufsize_ = 2`; after four rounds its
`in_nghosts_` is 0 and it has started the barrier, while rank 1 has posted its
fourth message; the count returned is 3 for a graph with 4 triangles. -/
theorem in_pending_zero_before_last_message :
    (engine_one_way_rank1.in_nghosts_, engine_one_way_rank1.bufsize_) = (2, 2) ∧
    (World.init graph_one_way ieee_1e_09 2).map
      (fun w =>
        ((World.run graph_one_way pair_hash 1 w).procs.map
            (fun p => (p.1.in_nghosts_, p.1.sent_.map (fun x => x.1))),
         (World.run graph_one_way pair_hash 5 w).procs.map
            (fun p => (p.2.done, p.1.sent_.map (fun x => x.1))))) =
      some ([(0, [1]), (0, [])], [(true, [1, 1]), (true, [])]) ∧
    (World.init graph_k4_split ieee_1e_09 2).map
      (fun w =>
        (w.procs.map (fun p => (p.1.in_nghosts_, p.1.bufsize_)),
         (World.run graph_k4_split pair_hash 4 w).procs.map
            (fun p => (p.1.in_nghosts_, p.2.nbar_active, p.1.sent_.length)))) =
      some ([(6, 2), (3, 2)], [(0, true, 3), (0, true, 4)]) ∧
    run_count graph_k4_split ieee_1e_09 pair_hash 2 6 = some 3 ∧
    graph_k4_split.triangles = 4 := by
  decide

/-! ## `lookup_edges` and its control view -/

namespace TriangulateAggrBufferedHashPush

theorem view_nbsend (e : TriangulateAggrBufferedHashPush) (owner : Nat) :
    (e.nbsend owner).view = e.view := by
  unfold nbsend
  dsimp only
  split <;> rfl

theorem view_pindex (e : TriangulateAggrBufferedHashPush) (owner : Nat) :
    e.pindex owner = e.view.pindex owner := rfl

theorem view_lookup_n_loop (g : Graph) (H : Hash128) (i m owner pidx tail_m : Nat) :
    ∀ (fuel n : Nat) (e : TriangulateAggrBufferedHashPush),
      (lookup_n_loop g H i m owner pidx tail_m fuel n e).view =
        LView.emit_loop i m pidx (cand_n g e.rank_ e.erange_ tail_m fuel n) e.view := by
  intro fuel
  induction fuel with
  | zero => intro n e; rfl
  | succ f ih =>
    intro n e
    unfold lookup_n_loop cand_n
    simp only [edge_within_max, edge_above_min]
    by_cases h1 : within_max e.erange_ tail_m (g.get_edge e.rank_ n) = true
    · by_cases h2 : above_min e.erange_ tail_m (g.get_edge e.rank_ n) = true
      · by_cases h3 : above_min e.erange_ (g.get_edge e.rank_ n) tail_m = true
        · simp only [h1, h2, h3, Bool.not_true, Bool.or_self, Bool.false_eq_true, if_false]
          by_cases hfull : e.sbuf_ctr_.getD pidx 0 = e.bufsize_
          · rw [if_pos hfull, view_nbsend]
            simp only [LView.emit_loop]
            rw [if_pos (by exact hfull)]
            rfl
          · rw [if_neg hfull, ih]
            simp only [LView.emit_loop]
            rw [if_neg (by exact hfull)]
            rfl
        · simp only [Bool.not_eq_true] at h3
          simp only [h1, h2, h3, Bool.not_true, Bool.not_false, Bool.or_true, Bool.false_eq_true,
            if_true, if_false]
          exact ih (n + 1) e
      · simp only [Bool.not_eq_true] at h2
        simp only [h1, h2, Bool.not_true, Bool.not_false, Bool.true_or, Bool.false_eq_true,
          if_true, if_false]
        exact ih (n + 1) e
    · simp only [Bool.not_eq_true] at h1
      simp only [h1, Bool.not_false, if_true]
      rfl

end TriangulateAggrBufferedHashPush

namespace TriangulateAggrBufferedHashPush

theorem view_fields (e : TriangulateAggrBufferedHashPush) :
    e.view.rank_ = e.rank_ ∧ e.view.erange_ = e.erange_ ∧ e.view.bufsize_ = e.bufsize_ ∧
    e.view.stat_ = e.stat_ ∧ e.view.prev_m_ = e.prev_m_ ∧ e.view.prev_k_ = e.prev_k_ ∧
    e.view.sbuf_ctr_ = e.sbuf_ctr_ ∧ e.view.active_ = e.active_ ∧
    e.view.vcount_ = e.vcount_ ∧ e.view.out_nghosts_ = e.out_nghosts_ ∧
    e.view.inserted_ = e.inserted_ ∧ ∀ o, e.view.pindex o = e.pindex o :=
  ⟨rfl, rfl, rfl, rfl, rfl, rfl, rfl, rfl, rfl, rfl, rfl, fun _ => rfl⟩

theorem view_lookup_m_body (g : Graph) (H : Hash128) (i e1 m : Nat)
    (e : TriangulateAggrBufferedHashPush) :
    (lookup_m_body g H i e1 m e).view = LView.m_body g i e1 m e.view := by
  obtain ⟨f1, f2, f3, f4, f5, f6, f7, f8, -, -, -, f12⟩ := view_fields e
  unfold lookup_m_body LView.m_body
  simp only [f1, f2, f3, f4, f5, f6, f7, f8, f12]
  by_cases hc1 : g.get_owner (g.get_edge e.rank_ m) ≠ e.rank_ ∧ e.active_.getD m true = true
  · simp only [if_pos hc1]
    by_cases hc2 : e.stat_.getD (e.pindex (g.get_owner (g.get_edge e.rank_ m))) '0' = '1'
    · simp only [if_pos hc2]
    · simp only [if_neg hc2]
      by_cases hc3 : (m : Int) ≥
          e.prev_m_.getD (e.pindex (g.get_owner (g.get_edge e.rank_ m))) (-1)
      · simp only [if_pos hc3]
        by_cases hc4 : e.sbuf_ctr_.getD (e.pindex (g.get_owner (g.get_edge e.rank_ m))) 0 =
            e.bufsize_
        · simp only [if_pos hc4]
          rw [view_nbsend]
          rfl
        · simp only [if_neg hc4]
          have hsim := view_lookup_n_loop g H i m (g.get_owner (g.get_edge e.rank_ m))
            (e.pindex (g.get_owner (g.get_edge e.rank_ m))) (g.get_edge e.rank_ m)
          simp only [← hsim]
          generalize lookup_n_loop g H i m (g.get_owner (g.get_edge e.rank_ m))
            (e.pindex (g.get_owner (g.get_edge e.rank_ m))) (g.get_edge e.rank_ m) _ _ e = e'
          obtain ⟨-, -, g3, g4, -, -, g7, -, -, -, -, -⟩ := view_fields e'
          simp only [g3, g4, g7]
          by_cases hc5 : e'.stat_.getD (e.pindex (g.get_owner (g.get_edge e.rank_ m))) '0' = '0'
          · simp only [if_pos hc5]
            by_cases hc6 : e'.sbuf_ctr_.getD
                (e.pindex (g.get_owner (g.get_edge e.rank_ m))) 0 = e'.bufsize_
            · simp only [if_pos hc6]
              rw [view_nbsend]
              rfl
            · simp only [if_neg hc6]
              rfl
          · simp only [if_neg hc5]
      · simp only [if_neg hc3]
  · simp only [if_neg hc1]

theorem view_lookup_m_loop (g : Graph) (H : Hash128) (i e1 : Nat) :
    ∀ (fuel m : Nat) (e : TriangulateAggrBufferedHashPush),
      (lookup_m_loop g H i e1 fuel m e).view = LView.m_loop g i e1 fuel m e.view := by
  intro fuel
  induction fuel with
  | zero => intro m e; rfl
  | succ f ih =>
    intro m e
    unfold lookup_m_loop LView.m_loop
    rw [ih, view_lookup_m_body]

theorem view_lookup_i_body (g : Graph) (H : Hash128) (i : Nat)
    (e : TriangulateAggrBufferedHashPush) :
    (lookup_i_body g H i e).view = LView.i_body g i e.view := by
  unfold lookup_i_body LView.i_body
  obtain ⟨f1, -, -, -, -, -, -, -, f9, -, -, -⟩ := view_fields e
  simp only [f1, f9]
  by_cases hc1 : e.vcount_.getD i 0 = 0
  · simp only [if_pos hc1]
  · simp only [if_neg hc1]
    by_cases hc2 : (g.edge_range e.rank_ i).1 + 1 = (g.edge_range e.rank_ i).2
    · simp only [if_pos hc2]
    · simp only [if_neg hc2, view_lookup_m_loop]

theorem view_rank (e : TriangulateAggrBufferedHashPush) : e.view.rank_ = e.rank_ := rfl

theorem view_foldl_i_body (g : Graph) (H : Hash128) :
    ∀ (l : List Nat) (e : TriangulateAggrBufferedHashPush),
      (l.foldl (fun e i => lookup_i_body g H i e) e).view =
        l.foldl (fun v i => LView.i_body g i v) e.view := by
  intro l
  induction l with
  | nil => intro e; rfl
  | cons a t ih => intro e; rw [List.foldl_cons, List.foldl_cons, ih, view_lookup_i_body]

/-- One pass of `lookup_edges` acts on the control view as `LView.lookup_edges`. -/
theorem view_lookup_edges (g : Graph) (H : Hash128) (e : TriangulateAggrBufferedHashPush) :
    (lookup_edges g H e).view = LView.lookup_edges g e.view := by
  unfold lookup_edges LView.lookup_edges
  rw [view_foldl_i_body]
  rfl

/-- The recycle loop acts on the control view as `LView.recycle`. -/
theorem view_recycle : ∀ (inds : List Nat) (e : TriangulateAggrBufferedHashPush),
    (recycle inds e).view = LView.recycle inds e.view := by
  intro inds
  induction inds with
  | nil => intro e; rfl
  | cons a t ih =>
    intro e
    unfold recycle LView.recycle
    rw [List.foldl_cons, List.foldl_cons]
    exact ih _

end TriangulateAggrBufferedHashPush

/-! ## The graph collaborator -/

namespace Graph

theorem has_edge_iff (g : Graph) (u v : Nat) :
    g.has_edge u v = true ↔ v ∈ g.adj.getD u [] := by
  unfold has_edge
  simp

theorem has_edge_lt (g : Graph) (u v : Nat) (h : g.has_edge u v = true) : u < g.get_nv := by
  rw [has_edge_iff] at h
  by_contra hlt
  have : g.adj.getD u [] = [] := by
    rw [List.getD_eq_getElem?_getD, List.getElem?_eq_none (by unfold get_nv at hlt; omega)]
    rfl
  rw [this] at h
  simp at h

theorem flatten_getD (d : Nat) : ∀ (L : List (List Nat)) (i j : Nat),
    j < (L.getD i []).length →
      L.flatten.getD (((L.take i).map List.length).sum + j) d = (L.getD i []).getD j d := by
  intro L
  induction L with
  | nil => intro i j hj; simp at hj
  | cons l t ih =>
    intro i j hj
    cases i with
    | zero =>
      simp only [List.getD_cons_zero] at hj
      simp only [List.take_zero, List.map_nil, List.sum_nil, zero_add, List.flatten_cons,
        List.getD_cons_zero]
      rw [List.getD_eq_getElem?_getD, List.getD_eq_getElem?_getD, List.getElem?_append_left hj]
    | succ i =>
      simp only [List.getD_cons_succ] at hj
      simp only [List.take_succ_cons, List.map_cons, List.sum_cons, List.flatten_cons,
        List.getD_cons_succ]
      rw [← ih i j hj, List.getD_eq_getElem?_getD, List.getD_eq_getElem?_getD,
        List.getElem?_append_right (by omega)]
      congr 2
      omega

theorem take_drop_getD (l : List (List Nat)) (b n i : Nat) (hi : i < n) :
    ((l.drop b).take n).getD i [] = l.getD (b + i) [] := by
  rw [List.getD_eq_getElem?_getD, List.getD_eq_getElem?_getD, List.getElem?_take_of_lt hi,
    List.getElem?_drop]

/-- The adjacency of local vertex `i` of process `rank` is that of global vertex
`base + i`. -/
theorem local_adj_getD (g : Graph) (rank i : Nat) (hi : i < g.get_lnv rank) :
    (g.local_adj rank).getD i [] = g.adj.getD (g.get_base rank + i) [] := by
  unfold local_adj
  exact take_drop_getD g.adj _ _ i hi

/-- Length of the edge range of local vertex `i`. -/
theorem edge_range_len (g : Graph) (rank i : Nat) (hi : i < g.get_lnv rank) :
    (g.edge_range rank i).2 = (g.edge_range rank i).1 +
      (g.adj.getD (g.get_base rank + i) []).length := by
  unfold edge_range
  simp only
  rw [local_adj_getD g rank i hi]

/-- The tail at position `j` of the edge range of local vertex `i`. -/
theorem get_edge_range (g : Graph) (rank i j : Nat) (hi : i < g.get_lnv rank)
    (hj : j < (g.adj.getD (g.get_base rank + i) []).length) :
    g.get_edge rank ((g.edge_range rank i).1 + j) =
      (g.adj.getD (g.get_base rank + i) []).getD j 0 := by
  unfold get_edge edge_list edge_range
  simp only
  rw [← local_adj_getD g rank i hi] at hj ⊢
  exact flatten_getD 0 _ i j hj

/-- Consecutive edge ranges are adjacent. -/
theorem edge_range_succ (g : Graph) (rank i : Nat) :
    (g.edge_range rank (i + 1)).1 = (g.edge_range rank i).2 := by
  unfold edge_range
  simp only
  by_cases hi : i < (g.local_adj rank).length
  · rw [List.take_succ, List.map_append, List.sum_append]
    congr 1
    rw [List.getD_eq_getElem?_getD]
    cases h : (g.local_adj rank)[i]? with
    | none => simp
    | some l => simp
  · rw [List.take_of_length_le (by omega), List.take_of_length_le (by omega)]
    rw [List.getD_eq_getElem?_getD, List.getElem?_eq_none (by omega)]
    simp

theorem edge_range_le (g : Graph) (rank i : Nat) :
    (g.edge_range rank i).1 ≤ (g.edge_range rank i).2 := by
  unfold edge_range
  simp

theorem edge_range_mono (g : Graph) (rank : Nat) : ∀ (d i : Nat),
    (g.edge_range rank i).2 ≤ (g.edge_range rank (i + 1 + d)).1 := by
  intro d
  induction d with
  | zero => intro i; rw [edge_range_succ]
  | succ d ih =>
    intro i
    have h1 := ih i
    have h2 := edge_range_le g rank (i + 1 + d)
    have h3 := edge_range_succ g rank (i + 1 + d)
    have h4 : i + 1 + (d + 1) = i + 1 + d + 1 := by omega
    rw [h4, h3]
    omega

/-- Edge ranges of different local vertices are disjoint. -/
theorem edge_range_disjoint (g : Graph) (rank i i' m : Nat)
    (h1 : (g.edge_range rank i).1 ≤ m) (h2 : m < (g.edge_range rank i).2)
    (h3 : (g.edge_range rank i').1 ≤ m) (h4 : m < (g.edge_range rank i').2) : i = i' := by
  rcases Nat.lt_trichotomy i i' with h | h | h
  · obtain ⟨d, rfl⟩ : ∃ d, i' = i + 1 + d := ⟨i' - (i + 1), by omega⟩
    have := edge_range_mono g rank d i
    omega
  · exact h
  · obtain ⟨d, rfl⟩ : ∃ d, i = i' + 1 + d := ⟨i - (i' + 1), by omega⟩
    have := edge_range_mono g rank d i'
    omega

end Graph

/-! ## Candidate positions -/

theorem cand_n_succ (g : Graph) (rank : Nat) (erange : List Nat) (tail_m fuel n : Nat) :
    cand_n g rank erange tail_m (fuel + 1) n =
      if within_max erange tail_m (g.get_edge rank n) = false then []
      else if above_min erange tail_m (g.get_edge rank n) = false ∨
          above_min erange (g.get_edge rank n) tail_m = false then
        cand_n g rank erange tail_m fuel (n + 1)
      else n :: cand_n g rank erange tail_m fuel (n + 1) := by
  rw [cand_n]
  cases within_max erange tail_m (g.get_edge rank n) <;>
    cases above_min erange tail_m (g.get_edge rank n) <;>
    cases above_min erange (g.get_edge rank n) tail_m <;> simp

/-- Every candidate position lies in the scanned range and passes the guards. -/
theorem cand_n_mem (g : Graph) (rank : Nat) (erange : List Nat) (tail_m : Nat) :
    ∀ (fuel n x : Nat), x ∈ cand_n g rank erange tail_m fuel n →
      n ≤ x ∧ x < n + fuel ∧ within_max erange tail_m (g.get_edge rank x) = true ∧
        above_min erange tail_m (g.get_edge rank x) = true ∧
        above_min erange (g.get_edge rank x) tail_m = true := by
  intro fuel
  induction fuel with
  | zero => intro n x hx; simp [cand_n] at hx
  | succ f ih =>
    intro n x hx
    rw [cand_n_succ] at hx
    by_cases h1 : within_max erange tail_m (g.get_edge rank n) = false
    · simp [h1] at hx
    · rw [if_neg h1] at hx
      by_cases h2 : above_min erange tail_m (g.get_edge rank n) = false ∨
          above_min erange (g.get_edge rank n) tail_m = false
      · rw [if_pos h2] at hx
        obtain ⟨a1, a2, a3⟩ := ih (n + 1) x hx
        exact ⟨by omega, by omega, a3⟩
      · rw [if_neg h2] at hx
        rcases List.mem_cons.mp hx with rfl | hx'
        · simp only [not_or, Bool.not_eq_false] at h2 h1
          exact ⟨le_refl _, by omega, h1, h2.1, h2.2⟩
        · obtain ⟨a1, a2, a3⟩ := ih (n + 1) x hx'
          exact ⟨by omega, by omega, a3⟩

/-- Candidate positions are listed in strictly increasing order. -/
theorem cand_n_sorted (g : Graph) (rank : Nat) (erange : List Nat) (tail_m : Nat) :
    ∀ (fuel n : Nat), (cand_n g rank erange tail_m fuel n).Pairwise (· < ·) := by
  intro fuel
  induction fuel with
  | zero => intro n; simp [cand_n]
  | succ f ih =>
    intro n
    rw [cand_n_succ]
    split
    · exact List.Pairwise.nil
    · split
      · exact ih (n + 1)
      · refine List.Pairwise.cons ?_ (ih (n + 1))
        intro x hx
        have := cand_n_mem g rank erange tail_m f (n + 1) x hx
        omega

/-- Splitting the candidate list at a candidate `x`: the part before `x` is the
candidate list of the scan of `[n, x)`, and a scan restarted at `x` yields `x` and
the part after it. -/
theorem cand_n_split (g : Graph) (rank : Nat) (erange : List Nat) (tail_m : Nat) :
    ∀ (fuel n x : Nat) (pre rest : List Nat),
      cand_n g rank erange tail_m fuel n = pre ++ x :: rest →
      n ≤ x ∧ x < n + fuel ∧ pre = cand_n g rank erange tail_m (x - n) n ∧
        cand_n g rank erange tail_m (n + fuel - x) x = x :: rest := by
  intro fuel
  induction fuel with
  | zero => intro n x pre rest h; simp [cand_n] at h
  | succ f ih =>
    intro n x pre rest h
    rw [cand_n_succ] at h
    by_cases h1 : within_max erange tail_m (g.get_edge rank n) = false
    · simp [h1] at h
    · rw [if_neg h1] at h
      by_cases h2 : above_min erange tail_m (g.get_edge rank n) = false ∨
          above_min erange (g.get_edge rank n) tail_m = false
      · rw [if_pos h2] at h
        obtain ⟨a1, a2, a3, a4⟩ := ih (n + 1) x pre rest h
        refine ⟨by omega, by omega, ?_, ?_⟩
        · obtain ⟨k, hk⟩ : ∃ k, x - n = k + 1 := ⟨x - n - 1, by omega⟩
          rw [hk, cand_n_succ, if_neg h1, if_pos h2, a3]
          congr 1
          omega
        · rw [← a4]
          congr 1
          omega
      · rw [if_neg h2] at h
        cases pre with
        | nil =>
          simp only [List.nil_append, List.cons.injEq] at h
          obtain ⟨rfl, hrest⟩ := h
          refine ⟨le_refl _, by omega, ?_, ?_⟩
          · simp [cand_n]
          · have : n + (f + 1) - n = f + 1 := by omega
            rw [this, cand_n_succ, if_neg h1, if_neg h2, hrest]
        | cons p pre' =>
          simp only [List.cons_append, List.cons.injEq] at h
          obtain ⟨hp, h'⟩ := h
          subst hp
          obtain ⟨a1, a2, a3, a4⟩ := ih (n + 1) x pre' rest h'
          refine ⟨by omega, by omega, ?_, ?_⟩
          · obtain ⟨k, hk⟩ : ∃ k, x - n = k + 1 := ⟨x - n - 1, by omega⟩
            rw [hk, cand_n_succ, if_neg h1, if_neg h2, a3]
            congr 2
            omega
          · rw [← a4]
            congr 1
            omega

/-! ## The emit loop on the control view -/

theorem list_set_getD_self {α : Type} (l : List α) (i : Nat) (d : α) :
    l.set i (l.getD i d) = l := by
  by_cases h : i < l.length
  · apply List.ext_getElem
    · simp
    · intro k h1 h2
      by_cases hk : i = k
      · subst hk
        simp [List.getD_eq_getElem?_getD, List.getElem?_eq_getElem h]
      · simp [List.getElem_set, hk]
  · exact List.set_eq_of_length_le (by omega)

theorem list_set_set_getD (l : List Int) (i : Nat) (a c : Int) :
    (l.set i (l.getD i 0 + a)).set i ((l.set i (l.getD i 0 + a)).getD i 0 + c) =
      l.set i (l.getD i 0 + (a + c)) := by
  by_cases h : i < l.length
  · rw [List.set_set]
    congr 1
    simp only [List.getD_eq_getElem?_getD, List.getElem?_set, h, if_true]
    simp
    ring
  · rw [List.set_eq_of_length_le (l := l) (by omega), List.set_eq_of_length_le (l := l) (by omega),
      List.set_eq_of_length_le (l := l) (by omega)]

theorem list_getD_set_ne {α : Type} (l : List α) (i j : Nat) (a d : α) (h : i ≠ j) :
    (l.set i a).getD j d = l.getD j d := by
  simp [List.getD_eq_getElem?_getD, List.getElem?_set, h]

theorem list_getD_set_eq {α : Type} (l : List α) (i : Nat) (a d : α) (h : i < l.length) :
    (l.set i a).getD i d = a := by
  simp [List.getD_eq_getElem?_getD, List.getElem?_set, h]

namespace LView

/-- What a run of the emit loop over the candidate list `L` does to the view: a
prefix `pre` of `L` is inserted; if candidates remain (`post = x :: rest`) the slot
was found full at `x` and is paused with bookmark `(m, x)`. -/
theorem emit_loop_spec (i m pidx : Nat) : ∀ (L : List Nat) (v : LView),
    ∃ pre post, L = pre ++ post ∧
      (emit_loop i m pidx L v).inserted_ = v.inserted_ ++ pre.map (fun n => (pidx, m, n)) ∧
      (emit_loop i m pidx L v).out_nghosts_ = v.out_nghosts_ + (-(pre.length : Int)) ∧
      (emit_loop i m pidx L v).vcount_ =
        v.vcount_.set i (v.vcount_.getD i 0 + (-(pre.length : Int))) ∧
      (emit_loop i m pidx L v).sbuf_ctr_ =
        v.sbuf_ctr_.set pidx (v.sbuf_ctr_.getD pidx 0 + (2 * pre.length : Int)) ∧
      (emit_loop i m pidx L v).rank_ = v.rank_ ∧
      (emit_loop i m pidx L v).erange_ = v.erange_ ∧
      (emit_loop i m pidx L v).bufsize_ = v.bufsize_ ∧
      (emit_loop i m pidx L v).pindex_ = v.pindex_ ∧
      (emit_loop i m pidx L v).active_ = v.active_ ∧
      (post = [] → (emit_loop i m pidx L v).stat_ = v.stat_ ∧
        (emit_loop i m pidx L v).prev_m_ = v.prev_m_ ∧
        (emit_loop i m pidx L v).prev_k_ = v.prev_k_) ∧
      (∀ x rest, post = x :: rest →
        (emit_loop i m pidx L v).stat_ = v.stat_.set pidx '1' ∧
        (emit_loop i m pidx L v).prev_m_ = v.prev_m_.set pidx (m : Int) ∧
        (emit_loop i m pidx L v).prev_k_ = v.prev_k_.set pidx (x : Int) ∧
        (emit_loop i m pidx L v).sbuf_ctr_.getD pidx 0 = v.bufsize_) ∧
      (pre = [] → L = [] ∨ v.sbuf_ctr_.getD pidx 0 = v.bufsize_) := by
  intro L
  induction L with
  | nil =>
    intro v
    refine ⟨[], [], rfl, ?_, ?_, ?_, ?_, rfl, rfl, rfl, rfl, rfl, fun _ => ⟨rfl, rfl, rfl⟩,
      ?_, fun _ => Or.inl rfl⟩
    · simp [emit_loop]
    · simp [emit_loop]
    · show v.vcount_ = _
      simp only [List.length_nil, Nat.cast_zero, neg_zero, add_zero, list_set_getD_self]
    · show v.sbuf_ctr_ = _
      simp only [List.length_nil, Nat.cast_zero, mul_zero, add_zero, list_set_getD_self]
    · intro x rest h
      cases h
  | cons n t ih =>
    intro v
    by_cases hfull : v.sbuf_ctr_.getD pidx 0 = v.bufsize_
    · have he : emit_loop i m pidx (n :: t) v = v.pause m pidx (n : Int) := by
        simp only [emit_loop, if_pos hfull]
      rw [he]
      refine ⟨[], n :: t, rfl, ?_, ?_, ?_, ?_, rfl, rfl, rfl, rfl, rfl, (fun h => by cases h),
        ?_, fun _ => Or.inr hfull⟩
      · simp [pause]
      · simp [pause]
      · show v.vcount_ = _
        simp only [List.length_nil, Nat.cast_zero, neg_zero, add_zero, list_set_getD_self]
      · show v.sbuf_ctr_ = _
        simp only [List.length_nil, Nat.cast_zero, mul_zero, add_zero, list_set_getD_self]
      · intro x rest h
        cases h
        exact ⟨rfl, rfl, rfl, hfull⟩
    · obtain ⟨pre, post, hL, h1, h2, h3, h4, h5, h6, h7, h8, h9, h10, h11, -⟩ :=
        ih (v.emit i m pidx n)
      have he : emit_loop i m pidx (n :: t) v = emit_loop i m pidx t (v.emit i m pidx n) := by
        simp only [emit_loop, if_neg hfull]
      rw [he]
      refine ⟨n :: pre, post, by rw [hL]; rfl, ?_, ?_, ?_, ?_, h5, h6, h7, h8, h9, h10, ?_,
        (fun h => by cases h)⟩
      · rw [h1]; simp [emit]
      · rw [h2]; simp only [emit, List.length_cons, Nat.cast_add, Nat.cast_one]; ring
      · rw [h3]
        simp only [emit, List.length_cons, Nat.cast_add, Nat.cast_one]
        have := list_set_set_getD v.vcount_ i (-1) (-(pre.length : Int))
        simp only [Int.add_neg_one] at this
        rw [this]
        congr 2
        ring
      · rw [h4]
        simp only [emit, List.length_cons, Nat.cast_add, Nat.cast_one]
        rw [list_set_set_getD v.sbuf_ctr_ pidx 2 (2 * (pre.length : Int))]
        congr 2
        ring
      · intro x rest hp
        obtain ⟨a1, a2, a3, a4⟩ := h11 x rest hp
        exact ⟨a1, a2, a3, a4⟩

end LView

/-! ## Pruning soundness -/

theorem Graph.adj_sorted (g : Graph) (hv : g.Valid) (v : Nat) :
    (g.adj.getD v []).Pairwise (· < ·) := by
  by_cases h : v < g.adj.length
  · apply hv.2.2.2.2.1
    rw [List.getD_eq_getElem?_getD, List.getElem?_eq_getElem h]
    exact List.getElem_mem h
  · rw [List.getD_eq_getElem?_getD, List.getElem?_eq_none (by omega)]
    exact List.Pairwise.nil

theorem list_pairwise_getD (l : List Nat) (h : l.Pairwise (· < ·)) (j j' : Nat)
    (hj : j < j') (hj' : j' < l.length) : l.getD j 0 < l.getD j' 0 := by
  have h1 : j < l.length := by omega
  rw [List.getD_eq_getElem?_getD, List.getD_eq_getElem?_getD, List.getElem?_eq_getElem h1,
    List.getElem?_eq_getElem hj']
  exact (List.pairwise_iff_getElem.mp h) j j' h1 hj' hj

/-- Within the edge range of a local vertex the tails are strictly ascending. -/
theorem Graph.get_edge_lt (g : Graph) (hv : g.Valid) (rank i k k' : Nat)
    (hi : i < g.get_lnv rank) (hk : (g.edge_range rank i).1 ≤ k) (hkk : k < k')
    (hk' : k' < (g.edge_range rank i).2) : g.get_edge rank k < g.get_edge rank k' := by
  have hlen := g.edge_range_len rank i hi
  obtain ⟨j, rfl⟩ : ∃ j, k = (g.edge_range rank i).1 + j := ⟨k - (g.edge_range rank i).1, by omega⟩
  obtain ⟨j', rfl⟩ : ∃ j', k' = (g.edge_range rank i).1 + j' :=
    ⟨k' - (g.edge_range rank i).1, by omega⟩
  rw [g.get_edge_range rank i j hi (by omega), g.get_edge_range rank i j' hi (by omega)]
  exact list_pairwise_getD _ (g.adj_sorted hv _) j j' (by omega) (by omega)

/-- With a correctly populated table over a symmetric graph every existing edge
`(a, b)` passes the three guards. -/
theorem guards_pass_of_edge (g : Graph) (hv : g.Valid) (erange : List Nat)
    (hr : RangeTableOK g erange) (a b : Nat) (h : g.has_edge a b = true) :
    within_max erange a b = true ∧ above_min erange a b = true ∧
      above_min erange b a = true := by
  have ha := g.has_edge_lt a b h
  have hb := (g.has_edge_iff a b).mp h
  obtain ⟨hbn, -, hab⟩ := hv.2.2.2.2.2 a ha b hb
  obtain ⟨h1, h2⟩ := hr a ha b hb
  obtain ⟨h3, -⟩ := hr b hbn a hab
  unfold within_max above_min
  simp only [ge_iff_le, h1, h2, h3, if_true, and_self]

theorem within_max_mono (erange : List Nat) (a b b' : Nat) (h : b ≤ b')
    (hf : within_max erange a b = false) : within_max erange a b' = false := by
  unfold within_max at hf ⊢
  by_cases h1 : b ≤ erange.getD (a * 2 + 1) 0
  · rw [if_pos h1] at hf
    cases hf
  · have : ¬ b' ≤ erange.getD (a * 2 + 1) 0 := by omega
    rw [if_neg this]

/-- On an ascending range of tails the guarded scan and the plain scan of the
range keep the same positions `n` whose pair `(a, tail n)` is an existing edge. -/
theorem cand_n_closing (g : Graph) (rank : Nat) (erange : List Nat) (a : Nat)
    (hguard : ∀ b, g.has_edge a b = true → within_max erange a b = true ∧
      above_min erange a b = true ∧ above_min erange b a = true) :
    ∀ (fuel n : Nat),
      (∀ k k', n ≤ k → k ≤ k' → k' < n + fuel → g.get_edge rank k ≤ g.get_edge rank k') →
      (cand_n g rank erange a fuel n).filter (fun k => g.has_edge a (g.get_edge rank k)) =
        (List.range' n fuel).filter (fun k => g.has_edge a (g.get_edge rank k)) := by
  intro fuel
  induction fuel with
  | zero => intro n _; simp [cand_n]
  | succ f ih =>
    intro n hs
    have ih' := ih (n + 1) (fun k k' h1 h2 h3 => hs k k' (by omega) h2 (by omega))
    rw [cand_n_succ, List.range'_succ]
    by_cases h1 : within_max erange a (g.get_edge rank n) = false
    · rw [if_pos h1]
      symm
      rw [List.filter_nil, List.filter_eq_nil_iff]
      intro k hk hc
      have hkr : n ≤ k ∧ k < n + (f + 1) := by
        rcases List.mem_cons.mp hk with rfl | hk'
        · omega
        · have := List.mem_range'_1.mp hk'
          omega
      have hle := hs n k (le_refl _) hkr.1 hkr.2
      have := within_max_mono erange a _ _ hle h1
      rw [(hguard _ hc).1] at this
      cases this
    · rw [if_neg h1]
      by_cases h2 : above_min erange a (g.get_edge rank n) = false ∨
          above_min erange (g.get_edge rank n) a = false
      · rw [if_pos h2, ih']
        have hn : g.has_edge a (g.get_edge rank n) = false := by
          by_contra hc
          simp only [Bool.not_eq_false] at hc
          obtain ⟨-, g2, g3⟩ := hguard _ hc
          rcases h2 with h2 | h2
          · rw [g2] at h2; cases h2
          · rw [g3] at h2; cases h2
        rw [List.filter_cons, hn]
        simp
      · rw [if_neg h2, List.filter_cons, List.filter_cons, ih']

/-- C7: for a valid graph (symmetric, ascending adjacencies) and a correctly
populated edge-range table, the loop over `n` of `lookup_edges`, started at any
position `n0` of the edge range of local vertex `i` for any source edge `m`,
inserts exactly the closing pairs that the enumeration without the
`edge_within_max` break and the `edge_above_min` skips meets up to the point
where the loop stopped (the end of the range, or the bookmark if the slot filled):
the guards discard no pair `(a, b)` with `b` in the adjacency of `a`. -/
theorem TriangulateAggrBufferedHashPush.lookup_guards_keep_closing_pairs
    (g : Graph) (H : Hash128) (e : TriangulateAggrBufferedHashPush)
    (i m owner pidx n0 : Nat)
    (hv : g.Valid) (hr : RangeTableOK g e.erange_)
    (hi : i < g.get_lnv e.rank_) (hn : (g.edge_range e.rank_ i).1 ≤ n0)
    (hp1 : pidx < e.stat_.length) (hp2 : pidx < e.prev_k_.length)
    (hs : e.stat_.getD pidx '0' ≠ '1') :
    (e.new_positions
        (lookup_n_loop g H i m owner pidx (g.get_edge e.rank_ m)
          ((g.edge_range e.rank_ i).2 - n0) n0 e)).filter
      (g.closes e.rank_ (g.get_edge e.rank_ m)) =
    (unguarded_positions n0
        ((lookup_n_loop g H i m owner pidx (g.get_edge e.rank_ m)
          ((g.edge_range e.rank_ i).2 - n0) n0 e).scan_stop pidx
            (g.edge_range e.rank_ i).2)).filter
      (g.closes e.rank_ (g.get_edge e.rank_ m)) := by
  have hsim := view_lookup_n_loop g H i m owner pidx (g.get_edge e.rank_ m)
    ((g.edge_range e.rank_ i).2 - n0) n0 e
  generalize lookup_n_loop g H i m owner pidx (g.get_edge e.rank_ m)
    ((g.edge_range e.rank_ i).2 - n0) n0 e = e' at hsim ⊢
  obtain ⟨pre, post, hL, h1, -, -, -, -, -, -, -, -, h10, h11, -⟩ :=
    LView.emit_loop_spec i m pidx
      (cand_n g e.rank_ e.erange_ (g.get_edge e.rank_ m) ((g.edge_range e.rank_ i).2 - n0) n0)
      e.view
  rw [← hsim] at h1 h10 h11
  have hguard := fun b => guards_pass_of_edge g hv e.erange_ hr (g.get_edge e.rank_ m) b
  have hsorted : ∀ fuel, n0 + fuel ≤ (g.edge_range e.rank_ i).2 →
      ∀ k k', n0 ≤ k → k ≤ k' → k' < n0 + fuel →
        g.get_edge e.rank_ k ≤ g.get_edge e.rank_ k' := by
    intro fuel hf k k' hk hkk hk'
    rcases Nat.eq_or_lt_of_le hkk with rfl | hlt
    · exact le_refl _
    · exact le_of_lt (g.get_edge_lt hv e.rank_ i k k' hi (by omega) hlt (by omega))
  have hnew : e.new_positions e' = pre := by
    unfold new_positions
    have : e'.inserted_ = e.inserted_ ++ pre.map (fun n => (pidx, m, n)) := h1
    rw [this, List.drop_left, List.map_map]
    exact List.map_id'' (fun _ => rfl) pre
  rw [hnew]
  unfold unguarded_positions Graph.closes
  cases post with
  | nil =>
    obtain ⟨hst, -, -⟩ := h10 rfl
    have hst' : e'.stat_ = e.stat_ := hst
    have hstop : e'.scan_stop pidx (g.edge_range e.rank_ i).2 = (g.edge_range e.rank_ i).2 := by
      unfold scan_stop
      rw [hst', if_neg hs]
    rw [hstop]
    rw [List.append_nil] at hL
    rw [← hL]
    by_cases hle : n0 ≤ (g.edge_range e.rank_ i).2
    · exact cand_n_closing g e.rank_ e.erange_ _ hguard _ n0 (hsorted _ (by omega))
    · have : (g.edge_range e.rank_ i).2 - n0 = 0 := by omega
      rw [this]
      simp [cand_n]
  | cons x rest =>
    obtain ⟨hst, -, hpk, -⟩ := h11 x rest rfl
    have hst' : e'.stat_ = e.stat_.set pidx '1' := hst
    have hpk' : e'.prev_k_ = e.prev_k_.set pidx (x : Int) := hpk
    have hstop : e'.scan_stop pidx (g.edge_range e.rank_ i).2 = x := by
      unfold scan_stop
      rw [hst', hpk', list_getD_set_eq _ _ _ _ hp1, list_getD_set_eq _ _ _ _ hp2]
      simp
    rw [hstop]
    obtain ⟨a1, a2, a3, -⟩ := cand_n_split g e.rank_ e.erange_ _ _ n0 x pre rest hL
    rw [a3]
    exact cand_n_closing g e.rank_ e.erange_ _ hguard _ n0 (hsorted _ (by omega))

/-- Witness for C7: vertex 2 of `graph_shared_edge` on rank 1, source edge 0 (tail
0), scan started at position 1. -/
theorem TriangulateAggrBufferedHashPush.lookup_guards_keep_closing_pairs_witness :
    (engine_shared_edge_rank1.new_positions
        (TriangulateAggrBufferedHashPush.lookup_n_loop graph_shared_edge pair_hash 0 0 0 0
          (graph_shared_edge.get_edge engine_shared_edge_rank1.rank_ 0)
          ((graph_shared_edge.edge_range engine_shared_edge_rank1.rank_ 0).2 - 1) 1
          engine_shared_edge_rank1)).filter
      (graph_shared_edge.closes engine_shared_edge_rank1.rank_
        (graph_shared_edge.get_edge engine_shared_edge_rank1.rank_ 0)) =
    (unguarded_positions 1
        ((TriangulateAggrBufferedHashPush.lookup_n_loop graph_shared_edge pair_hash 0 0 0 0
          (graph_shared_edge.get_edge engine_shared_edge_rank1.rank_ 0)
          ((graph_shared_edge.edge_range engine_shared_edge_rank1.rank_ 0).2 - 1) 1
          engine_shared_edge_rank1).scan_stop 0
            (graph_shared_edge.edge_range engine_shared_edge_rank1.rank_ 0).2)).filter
      (graph_shared_edge.closes engine_shared_edge_rank1.rank_
        (graph_shared_edge.get_edge engine_shared_edge_rank1.rank_ 0)) :=
  TriangulateAggrBufferedHashPush.lookup_guards_keep_closing_pairs graph_shared_edge pair_hash
    engine_shared_edge_rank1 0 0 0 0 1 (by decide) (by decide) (by decide) (by decide)
    (by decide) (by decide) (by decide)

/-! ## The counting pass of the constructor on one process -/

theorem Graph.get_owner_single (g : Graph) (hp : g.parts = [0, g.get_nv]) (v : Nat)
    (hv : v < g.get_nv) : g.get_owner v = 0 := by
  unfold Graph.get_owner
  rw [hp]
  have h1 : decide (0 ≤ v) = true := by simp
  have h2 : decide (g.get_nv ≤ v) = false := by simp; omega
  simp [List.countP_cons, h2]

theorem Graph.single_base_lnv (g : Graph) (hp : g.parts = [0, g.get_nv]) :
    g.get_base 0 = 0 ∧ g.get_lnv 0 = g.get_nv := by
  unfold Graph.get_base Graph.get_lnv
  rw [hp]
  simp

theorem list_contains_iff (l : List Nat) (a : Nat) : l.contains a = true ↔ a ∈ l := by
  simp

/-- On an ascending range the scan of `check_edgelist` with its early exit finds
`t1` exactly when `t1` is one of the tails. -/
theorem TriangulateAggrBufferedHashPush.check_edgelist_loop_eq (g : Graph) (rank t1 : Nat) :
    ∀ (l : List Nat) (e0 : Nat), l.Pairwise (· < ·) →
      (∀ j < l.length, g.get_edge rank (e0 + j) = l.getD j 0) →
      check_edgelist_loop g rank t1 l.length e0 = l.contains t1 := by
  intro l
  induction l with
  | nil => intro e0 _ _; rfl
  | cons c t ih =>
    intro e0 hs hg
    have hc : g.get_edge rank e0 = c := by
      have := hg 0 (by simp)
      simpa using this
    have ht : ∀ j < t.length, g.get_edge rank (e0 + 1 + j) = t.getD j 0 := by
      intro j hj
      have := hg (j + 1) (by simp; omega)
      rw [List.getD_cons_succ] at this
      rw [← this]
      congr 1
      omega
    rw [List.length_cons, check_edgelist_loop]
    simp only [hc]
    by_cases h1 : t1 = c
    · simp [h1]
    · rw [if_neg h1]
      by_cases h2 : c > t1
      · rw [if_pos h2]
        symm
        rw [Bool.eq_false_iff]
        intro hcon
        rcases List.mem_cons.mp ((list_contains_iff _ _).mp hcon) with heq | hmem
        · exact h1 heq
        · have := (List.pairwise_cons.mp hs).1 t1 hmem
          omega
      · rw [if_neg h2, ih (e0 + 1) (List.pairwise_cons.mp hs).2 ht]
        have hne : (t1 == c) = false := by simpa using h1
        rw [List.contains_cons, hne, Bool.false_or]

theorem list_countP_range' (p : Nat → Bool) (q : Nat → Bool) :
    ∀ (t : List Nat) (s : Nat), (∀ j < t.length, p (s + j) = q (t.getD j 0)) →
      (List.range' s t.length).countP p = t.countP q := by
  intro t
  induction t with
  | nil => intro s _; rfl
  | cons c t ih =>
    intro s h
    rw [List.length_cons, List.range'_succ, List.countP_cons, List.countP_cons]
    have h0 : p s = q c := by simpa using h 0 (by simp)
    have ht : ∀ j < t.length, p (s + 1 + j) = q (t.getD j 0) := by
      intro j hj
      have := h (j + 1) (by simp; omega)
      rw [List.getD_cons_succ] at this
      rw [← this]
      congr 1
      omega
    rw [ih (s + 1) ht, h0]

namespace TriangulateAggrBufferedHashPush

theorem check_edgelist_congr (g : Graph) (e e' : TriangulateAggrBufferedHashPush)
    (h : e'.rank_ = e.rank_) (a b : Nat) : e'.check_edgelist g a b = e.check_edgelist g a b := by
  unfold check_edgelist
  rw [h]

/-- On a single process `check_edgelist` decides adjacency. -/
theorem check_edgelist_single (g : Graph) (hv : g.Valid) (hp : g.parts = [0, g.get_nv])
    (e : TriangulateAggrBufferedHashPush) (he : e.rank_ = 0) (a b : Nat) (ha : a < g.get_nv) :
    e.check_edgelist g a b = g.has_edge a b := by
  obtain ⟨hb, hl⟩ := g.single_base_lnv hp
  unfold check_edgelist Graph.has_edge
  rw [he]
  have hlv : g.global_to_local 0 a = a := by
    unfold Graph.global_to_local; rw [hb]; rfl
  have ha' : a < g.get_lnv 0 := by rw [hl]; exact ha
  have hlen := g.edge_range_len 0 a ha'
  have hget := fun j => g.get_edge_range 0 a j ha'
  rw [hb, Nat.zero_add] at hlen hget
  simp only [hlv]
  have h1 : (g.edge_range 0 a).2 - (g.edge_range 0 a).1 = (g.adj.getD a []).length := by omega
  rw [h1]
  exact check_edgelist_loop_eq g 0 b _ _ (g.adj_sorted hv a) (fun j hj => hget j hj)

theorem ctor_local_loop_spec (g : Graph) (tail_m : Nat) :
    ∀ (fuel n : Nat) (e : TriangulateAggrBufferedHashPush),
      (ctor_local_loop g tail_m fuel n e).ntriangles_ = e.ntriangles_ +
          (List.range' n fuel).countP
            (fun k => e.check_edgelist g tail_m (g.get_edge e.rank_ k)) ∧
        (ctor_local_loop g tail_m fuel n e).rank_ = e.rank_ := by
  intro fuel
  induction fuel with
  | zero => intro n e; exact ⟨rfl, rfl⟩
  | succ f ih =>
    intro n e
    rw [ctor_local_loop, List.range'_succ, List.countP_cons]
    by_cases hc : e.check_edgelist g tail_m (g.get_edge e.rank_ n) = true
    · rw [if_pos hc]
      obtain ⟨h1, h2⟩ := ih (n + 1) { e with ntriangles_ := e.ntriangles_ + 1 }
      refine ⟨?_, h2⟩
      rw [h1]
      have : (fun k => ({ e with ntriangles_ := e.ntriangles_ + 1 } :
          TriangulateAggrBufferedHashPush).check_edgelist g tail_m
            (g.get_edge ({ e with ntriangles_ := e.ntriangles_ + 1 } :
              TriangulateAggrBufferedHashPush).rank_ k)) =
          (fun k => e.check_edgelist g tail_m (g.get_edge e.rank_ k)) := rfl
      rw [this, hc]
      simp only [if_true]
      omega
    · rw [if_neg hc]
      obtain ⟨h1, h2⟩ := ih (n + 1) e
      refine ⟨?_, h2⟩
      rw [h1]
      simp only [Bool.not_eq_true] at hc
      rw [hc]
      simp

/-- On a single process the loop over `m`, run over the positions whose tails form
`suffix`, adds `pairs_count has_edge suffix` to the local counter. -/
theorem ctor_m_loop_single (g : Graph) (hv : g.Valid) (hp : g.parts = [0, g.get_nv])
    (i e1 : Nat) :
    ∀ (suffix : List Nat) (m : Nat) (s : TriangulateAggrBufferedHashPush × List Int),
      s.1.rank_ = 0 → (∀ j < suffix.length, g.get_edge 0 (m + j) = suffix.getD j 0) →
      m + suffix.length = e1 → (∀ x ∈ suffix, x < g.get_nv) →
      (ctor_m_loop g i e1 suffix.length m s).1.ntriangles_ =
          s.1.ntriangles_ + pairs_count g.has_edge suffix ∧
        (ctor_m_loop g i e1 suffix.length m s).1.rank_ = 0 := by
  intro suffix
  induction suffix with
  | nil => intro m s hr _ _ _; exact ⟨rfl, hr⟩
  | cons a t ih =>
    intro m s hr hg hm hlt
    have ha : g.get_edge 0 m = a := by simpa using hg 0 (by simp)
    have ht : ∀ j < t.length, g.get_edge 0 (m + 1 + j) = t.getD j 0 := by
      intro j hj
      have := hg (j + 1) (by simp; omega)
      rw [List.getD_cons_succ] at this
      rw [← this]
      congr 1
      omega
    have hav : a < g.get_nv := hlt a (List.mem_cons_self a t)
    have hown : g.get_owner a = 0 := g.get_owner_single hp a hav
    rw [List.length_cons, ctor_m_loop]
    have hbody : (ctor_m_body g i e1 m s).1.ntriangles_ =
        s.1.ntriangles_ + t.countP (g.has_edge a) ∧ (ctor_m_body g i e1 m s).1.rank_ = 0 := by
      unfold ctor_m_body
      simp only [hr, ha, hown, ne_eq, not_true_eq_false, if_false]
      by_cases hlast : m < e1 - 1
      · rw [if_pos hlast]
        obtain ⟨h1, h2⟩ := ctor_local_loop_spec g a (e1 - (m + 1)) (m + 1) s.1
        refine ⟨?_, by rw [h2]; exact hr⟩
        rw [h1]
        congr 1
        have hfuel : e1 - (m + 1) = t.length := by
          simp only [List.length_cons] at hm; omega
        rw [hfuel]
        apply list_countP_range'
        intro j hj
        rw [hr, ht j hj]
        exact check_edgelist_single g hv hp s.1 hr a _ hav
      · rw [if_neg hlast]
        have : t = [] := by
          simp only [List.length_cons] at hm
          apply List.eq_nil_of_length_eq_zero
          omega
        rw [this]
        exact ⟨rfl, hr⟩
    obtain ⟨hb1, hb2⟩ := hbody
    obtain ⟨h1, h2⟩ := ih (m + 1) (ctor_m_body g i e1 m s) hb2 ht
      (by simp only [List.length_cons] at hm; omega)
      (fun x hx => hlt x (List.mem_cons_of_mem a hx))
    refine ⟨?_, h2⟩
    rw [h1, hb1, pairs_count]
    omega

end TriangulateAggrBufferedHashPush

namespace TriangulateAggrBufferedHashPush

theorem ctor_i_body_single (g : Graph) (hv : g.Valid) (hp : g.parts = [0, g.get_nv])
    (i : Nat) (hi : i < g.get_nv) (s : TriangulateAggrBufferedHashPush × List Int)
    (hr : s.1.rank_ = 0) :
    (ctor_i_body g i s).1.ntriangles_ =
        s.1.ntriangles_ + pairs_count g.has_edge (g.adj.getD i []) ∧
      (ctor_i_body g i s).1.rank_ = 0 := by
  obtain ⟨hb, hl⟩ := g.single_base_lnv hp
  have hi' : i < g.get_lnv 0 := by rw [hl]; exact hi
  have hlen := g.edge_range_len 0 i hi'
  have hget := fun j => g.get_edge_range 0 i j hi'
  rw [hb, Nat.zero_add] at hlen hget
  have hfuel : (g.edge_range 0 i).2 - (g.edge_range 0 i).1 = (g.adj.getD i []).length := by
    omega
  have hlt : ∀ x ∈ g.adj.getD i [], x < g.get_nv := fun x hx => (hv.2.2.2.2.2 i hi x hx).1
  unfold ctor_i_body
  simp only [hr]
  by_cases h1 : (g.edge_range 0 i).1 + 1 = (g.edge_range 0 i).2
  · rw [if_pos h1]
    refine ⟨?_, hr⟩
    have hone : (g.adj.getD i []).length = 1 := by omega
    obtain ⟨a, ha⟩ := List.length_eq_one.mp hone
    rw [ha]
    simp [pairs_count]
  · rw [if_neg h1, hfuel]
    exact ctor_m_loop_single g hv hp i _ (g.adj.getD i []) _ s hr (fun j hj => hget j hj)
      (by omega) hlt

theorem ctor_foldl_single (g : Graph) (hv : g.Valid) (hp : g.parts = [0, g.get_nv]) :
    ∀ (l : List Nat), (∀ i ∈ l, i < g.get_nv) →
      ∀ (s : TriangulateAggrBufferedHashPush × List Int), s.1.rank_ = 0 →
        (l.foldl (fun s i => ctor_i_body g i s) s).1.ntriangles_ =
          s.1.ntriangles_ + (l.map (fun i => pairs_count g.has_edge (g.adj.getD i []))).sum := by
  intro l
  induction l with
  | nil => intro _ s _; simp
  | cons a t ih =>
    intro hl s hr
    obtain ⟨h1, h2⟩ := ctor_i_body_single g hv hp a (hl a (List.mem_cons_self a t)) s hr
    rw [List.foldl_cons, ih (fun i hi => hl i (List.mem_cons_of_mem a hi)) _ h2, h1,
      List.map_cons, List.sum_cons]
    omega

/-- On a single process the local counter after the counting pass is the sum over
the vertices `i` of the number of adjacent pairs among the neighbours of `i`. -/
theorem ctor_pass_single (g : Graph) (hv : g.Valid) (hp : g.parts = [0, g.get_nv]) :
    (ctor_pass g 0).1.ntriangles_ =
      ((List.range g.get_nv).map (fun i => pairs_count g.has_edge (g.adj.getD i []))).sum := by
  unfold ctor_pass
  rw [(g.single_base_lnv hp).2,
    ctor_foldl_single g hv hp (List.range g.get_nv) (fun i hi => List.mem_range.mp hi)
      (ctor_init g 0, List.replicate g.get_size 0) rfl]
  show 0 + _ = _
  omega

end TriangulateAggrBufferedHashPush

/-! ## Counting triangles -/

theorem list_sum_map_range (f : Nat → Nat) (n : Nat) :
    ((List.range n).map f).sum = ∑ i ∈ Finset.range n, f i := by
  induction n with
  | zero => rfl
  | succ k hk =>
    rw [List.range_succ, List.map_append, List.sum_append, hk, Finset.sum_range_succ]
    simp

theorem list_countP_range (p : Nat → Bool) (n : Nat) :
    (List.range n).countP p = ∑ i ∈ Finset.range n, if p i = true then 1 else 0 := by
  induction n with
  | zero => simp
  | succ n ih =>
    rw [List.range_succ, List.countP_append, ih, Finset.sum_range_succ]
    simp [List.countP_cons]

theorem sum_ite_eq_single (N c : Nat) (hc : c < N) (R : Nat → Prop) [DecidablePred R] :
    (∑ b ∈ Finset.range N, if b = c ∧ R b then 1 else 0) = if R c then 1 else 0 := by
  rw [Finset.sum_eq_single c]
  · simp
  · intro b _ hb
    simp [hb]
  · intro h
    exact absurd (Finset.mem_range.mpr hc) h

/-- Counting in a duplicate-free list of numbers below `N` as a sum over `N`. -/
theorem list_countP_eq_sum (N : Nat) (p : Nat → Bool) :
    ∀ (t : List Nat), t.Pairwise (· < ·) → (∀ x ∈ t, x < N) →
      t.countP p = ∑ b ∈ Finset.range N, if b ∈ t ∧ p b = true then 1 else 0 := by
  intro t
  induction t with
  | nil => intro _ _; simp
  | cons c t ih =>
    intro hs hl
    have hct : c ∉ t := fun h => by
      have := (List.pairwise_cons.mp hs).1 c h
      omega
    rw [List.countP_cons, ih (List.pairwise_cons.mp hs).2 (fun x hx => hl x (List.mem_cons_of_mem c hx)),
      ← sum_ite_eq_single N c (hl c (List.mem_cons_self c t)) (fun b => p b = true),
      ← Finset.sum_add_distrib]
    apply Finset.sum_congr rfl
    intro b _
    by_cases hb : b = c
    · subst hb
      simp [hct]
    · simp [hb]

/-- The pairs of a strictly ascending list of numbers below `N` as a double sum. -/
theorem pairs_count_eq_sum (N : Nat) (E : Nat → Nat → Bool) :
    ∀ (l : List Nat), l.Pairwise (· < ·) → (∀ x ∈ l, x < N) →
      pairs_count E l = ∑ a ∈ Finset.range N, ∑ b ∈ Finset.range N,
        if a ∈ l ∧ b ∈ l ∧ a < b ∧ E a b = true then 1 else 0 := by
  intro l
  induction l with
  | nil => intro _ _; simp [pairs_count]
  | cons a0 t ih =>
    intro hs hl
    have hgt : ∀ x ∈ t, a0 < x := (List.pairwise_cons.mp hs).1
    have hst := (List.pairwise_cons.mp hs).2
    have hlt : ∀ x ∈ t, x < N := fun x hx => hl x (List.mem_cons_of_mem a0 hx)
    have ha0 : a0 < N := hl a0 (List.mem_cons_self a0 t)
    have ha0t : a0 ∉ t := fun h => by have := hgt a0 h; omega
    rw [pairs_count, ih hst hlt, list_countP_eq_sum N (E a0) t hst hlt]
    have hfirst : (∑ b ∈ Finset.range N, if b ∈ t ∧ E a0 b = true then 1 else 0) =
        ∑ a ∈ Finset.range N, ∑ b ∈ Finset.range N,
          if a = a0 ∧ (b ∈ t ∧ E a0 b = true) then 1 else 0 := by
      rw [Finset.sum_comm]
      apply Finset.sum_congr rfl
      intro b _
      by_cases hb : b ∈ t ∧ E a0 b = true
      · simp only [hb, and_self, and_true]
        rw [Finset.sum_ite_eq' (Finset.range N) a0 (fun _ => 1)]
        simp [ha0]
      · simp [hb]
    rw [hfirst, ← Finset.sum_add_distrib]
    apply Finset.sum_congr rfl
    intro a _
    rw [← Finset.sum_add_distrib]
    apply Finset.sum_congr rfl
    intro b _
    by_cases ha : a = a0
    · subst ha
      have h2 : ¬ (a ∈ t ∧ b ∈ t ∧ a < b ∧ E a b = true) := fun h => ha0t h.1
      rw [if_neg h2, add_zero]
      apply if_congr _ rfl rfl
      constructor
      · rintro ⟨-, hb, he⟩
        exact ⟨List.mem_cons_self a t, List.mem_cons_of_mem a hb, hgt b hb, he⟩
      · rintro ⟨-, hb, hab, he⟩
        rcases List.mem_cons.mp hb with hba | hb'
        · omega
        · exact ⟨rfl, hb', he⟩
    · have h1 : ¬ (a = a0 ∧ (b ∈ t ∧ E a0 b = true)) := fun h => ha h.1
      rw [if_neg h1, zero_add]
      apply if_congr _ rfl rfl
      constructor
      · rintro ⟨haa, hb, hab, he⟩
        exact ⟨List.mem_cons_of_mem a0 haa, List.mem_cons_of_mem a0 hb, hab, he⟩
      · rintro ⟨haa, hb, hab, he⟩
        rcases List.mem_cons.mp haa with haa0 | haa'
        · exact absurd haa0 ha
        · rcases List.mem_cons.mp hb with hba | hb'
          · have := hgt a haa'
            omega
          · exact ⟨haa', hb', hab, he⟩

namespace Graph

theorem has_edge_symm (g : Graph) (hv : g.Valid) (u v : Nat) :
    g.has_edge u v = g.has_edge v u := by
  have key : ∀ a b, g.has_edge a b = true → g.has_edge b a = true := by
    intro a b h
    have ha := g.has_edge_lt a b h
    have hb := (g.has_edge_iff a b).mp h
    exact (g.has_edge_iff b a).mpr (hv.2.2.2.2.2 a ha b hb).2.2
  rw [Bool.eq_iff_iff]
  exact ⟨key u v, key v u⟩

theorem has_edge_irrefl (g : Graph) (hv : g.Valid) (u : Nat) : g.has_edge u u = false := by
  rw [Bool.eq_false_iff]
  intro h
  have ha := g.has_edge_lt u u h
  have hb := (g.has_edge_iff u u).mp h
  exact (hv.2.2.2.2.2 u ha u hb).2.1 rfl

/-- The number of triangles as a triple sum of indicators. -/
theorem triangles_eq_sum (g : Graph) :
    g.triangles = ∑ x ∈ Finset.range g.get_nv, ∑ y ∈ Finset.range g.get_nv,
      ∑ z ∈ Finset.range g.get_nv, g.tri x y z := by
  unfold triangles
  rw [list_sum_map_range]
  apply Finset.sum_congr rfl
  intro x _
  rw [list_sum_map_range]
  apply Finset.sum_congr rfl
  intro y _
  rw [list_countP_range]
  apply Finset.sum_congr rfl
  intro z _
  unfold tri
  apply if_congr _ rfl rfl
  simp only [Bool.and_eq_true, decide_eq_true_eq, and_assoc]

/-- A wedge at `i` closed by the edge `a`-`b` is the triangle `{i, a, b}` seen from
`i`, which is its smallest, middle or largest vertex. -/
theorem wedge_eq_tri (g : Graph) (hv : g.Valid) (i a b : Nat) :
    (if a ∈ g.adj.getD i [] ∧ b ∈ g.adj.getD i [] ∧ a < b ∧ g.has_edge a b = true
      then 1 else 0) = g.tri i a b + g.tri a i b + g.tri a b i := by
  have hs := g.has_edge_symm hv
  have hi := g.has_edge_irrefl hv
  have key : (if a ∈ g.adj.getD i [] ∧ b ∈ g.adj.getD i [] ∧ a < b ∧ g.has_edge a b = true
      then 1 else 0) =
      (if g.has_edge i a = true ∧ g.has_edge i b = true ∧ a < b ∧ g.has_edge a b = true
        then 1 else 0) :=
    if_congr (by rw [g.has_edge_iff i a, g.has_edge_iff i b]) rfl rfl
  rw [key]
  unfold tri
  by_cases hf : g.has_edge i a = true ∧ g.has_edge i b = true ∧ a < b ∧ g.has_edge a b = true
  · rw [if_pos hf]
    obtain ⟨h1, h2, h3, h4⟩ := hf
    have hia : i ≠ a := fun h => by rw [h, hi] at h1; cases h1
    have hib : i ≠ b := fun h => by rw [h, hi] at h2; cases h2
    rcases Nat.lt_trichotomy i a with h | h | h
    · rw [if_pos ⟨h, h3, h1, h2, h4⟩, if_neg (fun c => by omega), if_neg (fun c => by omega)]
    · exact absurd h hia
    · rcases Nat.lt_trichotomy i b with h' | h' | h'
      · rw [if_neg (fun c => by omega),
          if_pos ⟨h, h', by rw [hs]; exact h1, h4, h2⟩, if_neg (fun c => by omega)]
      · exact absurd h' hib
      · rw [if_neg (fun c => by omega), if_neg (fun c => by omega),
          if_pos ⟨h3, h', h4, by rw [hs]; exact h1, by rw [hs]; exact h2⟩]
  · rw [if_neg hf, if_neg, if_neg, if_neg]
    · rintro ⟨c1, c2, c3, c4, c5⟩
      exact hf ⟨by rw [hs]; exact c4, by rw [hs]; exact c5, c1, c3⟩
    · rintro ⟨c1, c2, c3, c4, c5⟩
      exact hf ⟨by rw [hs]; exact c3, c5, by omega, c4⟩
    · rintro ⟨c1, c2, c3, c4, c5⟩
      exact hf ⟨c3, c4, c2, c5⟩

/-- Summing over all vertices the adjacent pairs among their neighbours counts
every triangle three times. -/
theorem sum_pairs_count (g : Graph) (hv : g.Valid) :
    ((List.range g.get_nv).map (fun i => pairs_count g.has_edge (g.adj.getD i []))).sum =
      3 * g.triangles := by
  rw [list_sum_map_range, triangles_eq_sum]
  have h1 : ∀ i ∈ Finset.range g.get_nv, pairs_count g.has_edge (g.adj.getD i []) =
      ∑ a ∈ Finset.range g.get_nv, ∑ b ∈ Finset.range g.get_nv,
        (g.tri i a b + g.tri a i b + g.tri a b i) := by
    intro i hi
    rw [pairs_count_eq_sum g.get_nv g.has_edge _ (g.adj_sorted hv i)
      (fun x hx => (hv.2.2.2.2.2 i (Finset.mem_range.mp hi) x hx).1)]
    apply Finset.sum_congr rfl
    intro a _
    apply Finset.sum_congr rfl
    intro b _
    exact g.wedge_eq_tri hv i a b
  rw [Finset.sum_congr rfl h1]
  simp only [Finset.sum_add_distrib]
  have h2 : (∑ i ∈ Finset.range g.get_nv, ∑ a ∈ Finset.range g.get_nv,
      ∑ b ∈ Finset.range g.get_nv, g.tri a i b) =
      ∑ x ∈ Finset.range g.get_nv, ∑ y ∈ Finset.range g.get_nv,
        ∑ z ∈ Finset.range g.get_nv, g.tri x y z := Finset.sum_comm
  have h3 : (∑ i ∈ Finset.range g.get_nv, ∑ a ∈ Finset.range g.get_nv,
      ∑ b ∈ Finset.range g.get_nv, g.tri a b i) =
      ∑ x ∈ Finset.range g.get_nv, ∑ y ∈ Finset.range g.get_nv,
        ∑ z ∈ Finset.range g.get_nv, g.tri x y z := by
    rw [Finset.sum_comm]
    apply Finset.sum_congr rfl
    intro a _
    exact Finset.sum_comm
  rw [h2, h3]
  omega

end Graph

/-- C2: for every valid graph (simple, undirected, symmetric and ascending
adjacencies) whose vertices are all owned by one process, the local counter
`ntriangles_` after the counting pass of the constructor is exactly three times
the number of triangles, so dividing it by 3 gives the number of triangles. -/
theorem TriangulateAggrBufferedHashPush.ctor_single_process_count (g : Graph)
    (hv : g.Valid) (hp : g.parts = [0, g.get_nv]) :
    (TriangulateAggrBufferedHashPush.ctor_pass g 0).1.ntriangles_ = 3 * g.triangles ∧
      (TriangulateAggrBufferedHashPush.ctor_pass g 0).1.ntriangles_ / 3 = g.triangles := by
  have h : (TriangulateAggrBufferedHashPush.ctor_pass g 0).1.ntriangles_ = 3 * g.triangles := by
    rw [TriangulateAggrBufferedHashPush.ctor_pass_single g hv hp, g.sum_pairs_count hv]
  exact ⟨h, by rw [h]; omega⟩

/-- Witness for C2: the graph with triangles `{0,2,3}` and `{1,2,3}` on one
process. -/
theorem TriangulateAggrBufferedHashPush.ctor_single_process_count_witness :
    (TriangulateAggrBufferedHashPush.ctor_pass graph_shared_edge.on_one_process 0).1.ntriangles_ =
        3 * graph_shared_edge.on_one_process.triangles ∧
      (TriangulateAggrBufferedHashPush.ctor_pass graph_shared_edge.on_one_process 0).1.ntriangles_
        / 3 = graph_shared_edge.on_one_process.triangles :=
  TriangulateAggrBufferedHashPush.ctor_single_process_count graph_shared_edge.on_one_process
    (by decide) (by decide)

/-! ## The enumerator: one source edge -/

namespace LView

theorem SameStatic.refl (v : LView) : SameStatic v v := ⟨rfl, rfl, rfl, rfl⟩

theorem SameStatic.trans {a b c : LView} (h1 : SameStatic a b) (h2 : SameStatic b c) :
    SameStatic a c :=
  ⟨h2.1.trans h1.1, h2.2.1.trans h1.2.1, h2.2.2.1.trans h1.2.2.1, h2.2.2.2.trans h1.2.2.2⟩

theorem SameStatic.cands {v v' : LView} (h : SameStatic v v') (g : Graph) (i m : Nat) :
    cands g v' i m = cands g v i m := by
  unfold LView.cands
  rw [h.1, h.2.1]

theorem SameStatic.slot {v v' : LView} (h : SameStatic v v') (g : Graph) (m : Nat) :
    slot g v' m = slot g v m := by
  unfold LView.slot LView.pindex
  rw [h.1, h.2.2.1]

theorem SameStatic.in_range {v v' : LView} (h : SameStatic v v') (g : Graph) (i m : Nat) :
    in_range g v' i m ↔ in_range g v i m := by
  unfold LView.in_range
  rw [h.1]

theorem done_append (v v' : LView) (p m : Nat) (pre : List Nat)
    (h : v'.inserted_ = v.inserted_ ++ pre.map (fun n => (p, m, n))) (m' : Nat) :
    v'.done m' = if m' = m then v.done m' ++ pre else v.done m' := by
  unfold done
  rw [h, List.filter_append, List.map_append]
  by_cases hm : m' = m
  · subst hm
    rw [if_pos rfl]
    congr 1
    have hself : (pre.map (fun n => (p, m', n))).filter (fun x => decide (x.2.1 = m')) =
        pre.map (fun n => (p, m', n)) := by
      rw [List.filter_eq_self]
      intro x hx
      obtain ⟨n, -, rfl⟩ := List.mem_map.mp hx
      simp
    rw [hself, List.map_map]
    exact List.map_id'' (fun _ => rfl) pre
  · rw [if_neg hm]
    have hnil : (pre.map (fun n => (p, m, n))).filter (fun x => decide (x.2.1 = m')) = [] := by
      rw [List.filter_eq_nil_iff]
      intro x hx
      obtain ⟨n, -, rfl⟩ := List.mem_map.mp hx
      simp only [decide_eq_true_eq]
      exact fun h => hm h.symm
    rw [hnil, List.map_nil, List.append_nil]

end LView

theorem list_filter_lt_split (a b : List Nat) (x : Nat) (hs : (a ++ x :: b).Pairwise (· < ·)) :
    (a ++ x :: b).filter (fun (n : Nat) => decide ((n : Int) < (x : Int))) = a := by
  rw [List.pairwise_append] at hs
  obtain ⟨-, hxb, hax⟩ := hs
  rw [List.filter_append]
  have h1 : a.filter (fun (n : Nat) => decide ((n : Int) < (x : Int))) = a := by
    rw [List.filter_eq_self]
    intro n hn
    have := hax n hn x (List.mem_cons_self x b)
    simp only [decide_eq_true_eq]
    omega
  have h2 : (x :: b).filter (fun (n : Nat) => decide ((n : Int) < (x : Int))) = [] := by
    rw [List.filter_eq_nil_iff]
    intro n hn
    simp only [decide_eq_true_eq]
    rcases List.mem_cons.mp hn with rfl | hn'
    · omega
    · have := (List.pairwise_cons.mp hxb).1 n hn'
      omega
  rw [h1, h2, List.append_nil]

theorem list_sum_set (l : List Int) (i : Nat) (a : Int) (h : i < l.length) :
    (l.set i a).sum = l.sum - l.getD i 0 + a := by
  induction l generalizing i with
  | nil => simp at h
  | cons c t ih =>
    cases i with
    | zero => simp; ring
    | succ i =>
      simp only [List.length_cons] at h
      simp only [List.set_cons_succ, List.sum_cons, List.getD_cons_succ]
      rw [ih i (by omega)]
      ring

namespace LView

theorem m_body_eq (g : Graph) (i e1 m : Nat) (v : LView) :
    m_body g i e1 m v =
      if g.get_owner (g.get_edge v.rank_ m) ≠ v.rank_ ∧ v.active_.getD m true = true then
        if v.stat_.getD (slot g v m) '0' = '1' then v
        else if (m : Int) ≥ v.prev_m_.getD (slot g v m) (-1) then
          if v.sbuf_ctr_.getD (slot g v m) 0 = v.bufsize_ then v.pause m (slot g v m) (-1)
          else work g i e1 m v
        else v
      else v := rfl

/-- What `work` does, for a slot index within bounds: with `L` the candidates from
the resumption point, a prefix `pre` of `L` is inserted; if `L` is exhausted the
bookmark becomes `(m, -1)` and the edge inactive, otherwise the slot pauses at the
next candidate. -/
theorem work_spec (g : Graph) (i e1 m : Nat) (v : LView)
    (hp : slot g v m < v.stat_.length)
    (hctr : v.sbuf_ctr_.length = v.stat_.length)
    (hst : v.stat_.getD (slot g v m) '0' = '0') :
    ∃ pre post,
      cand_n g v.rank_ v.erange_ (g.get_edge v.rank_ m)
        (e1 - v.resume_at (slot g v m) m) (v.resume_at (slot g v m) m) = pre ++ post ∧
      SameStatic v (work g i e1 m v) ∧
      (work g i e1 m v).inserted_ = v.inserted_ ++ pre.map (fun n => (slot g v m, m, n)) ∧
      (work g i e1 m v).out_nghosts_ = v.out_nghosts_ + (-(pre.length : Int)) ∧
      (work g i e1 m v).vcount_ = v.vcount_.set i (v.vcount_.getD i 0 + (-(pre.length : Int))) ∧
      (work g i e1 m v).prev_m_ = v.prev_m_.set (slot g v m) (m : Int) ∧
      (∃ c, (work g i e1 m v).sbuf_ctr_ = v.sbuf_ctr_.set (slot g v m) c ∧
        ((work g i e1 m v).stat_.getD (slot g v m) '0' = '0' → c ≠ v.bufsize_)) ∧
      ((work g i e1 m v).stat_ = v.stat_ ∨
        (work g i e1 m v).stat_ = v.stat_.set (slot g v m) '1') ∧
      (post = [] → (work g i e1 m v).prev_k_ = v.prev_k_.set (slot g v m) (-1) ∧
        (work g i e1 m v).active_ = v.active_.set m false) ∧
      (∀ x rest, post = x :: rest →
        (work g i e1 m v).prev_k_ = v.prev_k_.set (slot g v m) (x : Int) ∧
        (work g i e1 m v).active_ = v.active_ ∧
        (work g i e1 m v).stat_ = v.stat_.set (slot g v m) '1') ∧
      (pre = [] → pre ++ post = [] ∨ v.sbuf_ctr_.getD (slot g v m) 0 = v.bufsize_) := by
  obtain ⟨pre, post, hL, h1, h2, h3, h4, h5, h6, h7, h8, h9, h10, h11, h12⟩ :=
    emit_loop_spec i m (slot g v m)
      (cand_n g v.rank_ v.erange_ (g.get_edge v.rank_ m)
        (e1 - v.resume_at (slot g v m) m) (v.resume_at (slot g v m) m)) v
  refine ⟨pre, post, hL, ?_⟩
  have hw : work g i e1 m v = finish m (slot g v m)
      (emit_loop i m (slot g v m)
        (cand_n g v.rank_ v.erange_ (g.get_edge v.rank_ m)
          (e1 - v.resume_at (slot g v m) m) (v.resume_at (slot g v m) m)) v) := rfl
  rw [hw]
  generalize emit_loop i m (slot g v m)
    (cand_n g v.rank_ v.erange_ (g.get_edge v.rank_ m)
      (e1 - v.resume_at (slot g v m) m) (v.resume_at (slot g v m) m)) v = v' at *
  have hL12 : pre = [] → pre ++ post = [] ∨ v.sbuf_ctr_.getD (slot g v m) 0 = v.bufsize_ := by
    intro hpre
    rw [← hL]
    exact h12 hpre
  cases post with
  | nil =>
    obtain ⟨hs, hm, hk⟩ := h10 rfl
    have hst' : v'.stat_.getD (slot g v m) '0' = '0' := by rw [hs]; exact hst
    by_cases hfull : (v'.sbuf_ctr_.set (slot g v m)
        (v'.sbuf_ctr_.getD (slot g v m) 0)).getD (slot g v m) 0 = v'.bufsize_
    · have hf : finish m (slot g v m) v' =
          { v' with prev_m_ := v'.prev_m_.set (slot g v m) (m : Int)
                    prev_k_ := v'.prev_k_.set (slot g v m) (-1)
                    active_ := v'.active_.set m false
                    stat_ := v'.stat_.set (slot g v m) '1' } := by
        unfold finish
        rw [if_pos hst']
        rw [list_set_getD_self] at hfull
        simp only [if_pos hfull]
      rw [hf]
      refine ⟨⟨h5, h6, h8, h7⟩, h1, h2, h3, by rw [← hm], ⟨_, h4, ?_⟩, Or.inr (by rw [← hs]),
        fun _ => ⟨by rw [← hk], by rw [← h9]⟩, (fun x rest h => by cases h), hL12⟩
      intro hc
      rw [hs, list_getD_set_eq _ _ _ _ hp] at hc
      cases hc
    · have hf : finish m (slot g v m) v' =
          { v' with prev_m_ := v'.prev_m_.set (slot g v m) (m : Int)
                    prev_k_ := v'.prev_k_.set (slot g v m) (-1)
                    active_ := v'.active_.set m false } := by
        unfold finish
        rw [if_pos hst']
        rw [list_set_getD_self] at hfull
        simp only [if_neg hfull]
      rw [hf]
      refine ⟨⟨h5, h6, h8, h7⟩, h1, h2, h3, by rw [← hm], ⟨_, h4, ?_⟩, Or.inl hs,
        fun _ => ⟨by rw [← hk], by rw [← h9]⟩, (fun x rest h => by cases h), hL12⟩
      intro _
      rw [list_set_getD_self, h4, list_getD_set_eq _ _ _ _ (by rw [hctr]; exact hp), h7] at hfull
      exact hfull
  | cons x rest =>
    obtain ⟨hs, hm, hk, hc⟩ := h11 x rest rfl
    have hst' : ¬ v'.stat_.getD (slot g v m) '0' = '0' := by
      rw [hs, list_getD_set_eq _ _ _ _ hp]
      decide
    have hf : finish m (slot g v m) v' = v' := by
      unfold finish
      rw [if_neg hst']
    rw [hf]
    refine ⟨⟨h5, h6, h8, h7⟩, h1, h2, h3, ?_, ⟨_, h4, ?_⟩, Or.inr hs,
      (fun h => by cases h), ?_, hL12⟩
    · rw [hm]
    · intro hc'
      exact absurd hc' hst'
    · intro x' rest' h
      cases h
      exact ⟨hk, h9, hs⟩

end LView

/-! ## The enumerator: a productive visit preserves the invariant -/

namespace LView

theorem Visit.stat_len {g : Graph} {v v' : LView} {i m : Nat} {pre post : List Nat}
    (c : Visit g v v' i m pre post) : v'.stat_.length = v.stat_.length := by
  rcases c.st with h | h <;> rw [h]
  simp

theorem Visit.pk {g : Graph} {v v' : LView} {i m : Nat} {pre post : List Nat}
    (c : Visit g v v' i m pre post) :
    ∃ k : Int, v'.prev_k_ = v.prev_k_.set (slot g v m) k ∧
      (post = [] → k = -1) ∧ (∀ x rest, post = x :: rest → k = (x : Int)) := by
  cases hpost : post with
  | nil => exact ⟨-1, (c.nil hpost).1, fun _ => rfl, fun x rest h => by cases h⟩
  | cons x rest =>
    refine ⟨x, (c.cons x rest hpost).1, (fun h => by cases h), ?_⟩
    intro x' rest' h
    cases h
    rfl

theorem Visit.active {g : Graph} {v v' : LView} {i m : Nat} {pre post : List Nat}
    (c : Visit g v v' i m pre post) (m' : Nat) (h : m' ≠ m) :
    v'.active_.getD m' true = v.active_.getD m' true := by
  cases hpost : post with
  | nil => rw [(c.nil hpost).2, list_getD_set_ne _ _ _ _ _ (Ne.symm h)]
  | cons x rest => rw [(c.cons x rest hpost).2.1]

theorem Visit.stat_ne {g : Graph} {v v' : LView} {i m : Nat} {pre post : List Nat}
    (c : Visit g v v' i m pre post) (q : Nat) (h : q ≠ slot g v m) :
    v'.stat_.getD q '0' = v.stat_.getD q '0' := by
  rcases c.st with hs | hs <;> rw [hs]
  exact list_getD_set_ne _ _ _ _ _ (Ne.symm h)

theorem Visit.before_ne {g : Graph} {v v' : LView} {i m : Nat} {pre post : List Nat}
    (c : Visit g v v' i m pre post) (q : Nat) (h : q ≠ slot g v m) (m' n : Nat) :
    v'.before q m' n = v.before q m' n := by
  obtain ⟨k, hk, -, -⟩ := c.pk
  unfold before
  rw [c.pm, hk, list_getD_set_ne _ _ _ _ _ (Ne.symm h), list_getD_set_ne _ _ _ _ _ (Ne.symm h)]

theorem Visit.before_eq {g : Graph} {v v' : LView} {i m : Nat} {pre post : List Nat}
    (c : Visit g v v' i m pre post) (m' n : Nat) :
    ∃ k : Int, (post = [] → k = -1) ∧ (∀ x rest, post = x :: rest → k = (x : Int)) ∧
      v'.before (slot g v m) m' n =
        (decide ((m' : Int) < (m : Int)) ||
          (decide ((m' : Int) = (m : Int)) && (decide (k = -1) || decide ((n : Int) < k)))) := by
  obtain ⟨k, hk, h1, h2⟩ := c.pk
  refine ⟨k, h1, h2, ?_⟩
  unfold before
  rw [c.pm, hk, list_getD_set_eq _ _ _ _ (by rw [c.inv.len_pm]; exact c.hp),
    list_getD_set_eq _ _ _ _ (by rw [c.inv.len_pk]; exact c.hp)]

theorem Visit.sorted {g : Graph} {v v' : LView} {i m : Nat} {pre post : List Nat}
    (c : Visit g v v' i m pre post) : (v.done m ++ (pre ++ post)).Pairwise (· < ·) := by
  rw [← c.hsplit]
  unfold cands cand_edge
  split
  · exact cand_n_sorted _ _ _ _ _ _
  · exact List.Pairwise.nil

end LView

namespace LView

theorem Visit.before_slot {g : Graph} {v v' : LView} {i m : Nat} {pre post : List Nat}
    (c : Visit g v v' i m pre post) (k : Int)
    (hk : v'.prev_k_ = v.prev_k_.set (slot g v m) k) (m' n : Nat) :
    v'.before (slot g v m) m' n =
      (decide ((m' : Int) < (m : Int)) ||
        (decide ((m' : Int) = (m : Int)) && (decide (k = -1) || decide ((n : Int) < k)))) := by
  unfold before
  rw [c.pm, hk, list_getD_set_eq _ _ _ _ (by rw [c.inv.len_pm]; exact c.hp),
    list_getD_set_eq _ _ _ _ (by rw [c.inv.len_pk]; exact c.hp)]

theorem Visit.d1 {g : Graph} {v v' : LView} {i m : Nat} {pre post : List Nat}
    (c : Visit g v v' i m pre post) :
    ∀ i' < g.get_lnv v'.rank_, ∀ m', in_range g v' i' m' →
      v'.done m' = (cands g v' i' m').filter (v'.before (slot g v' m') m') := by
  intro i' hi' m' hr'
  rw [c.same.1] at hi'
  rw [c.same.in_range] at hr'
  rw [c.same.cands, c.same.slot, done_append v v' _ m pre c.ins m']
  by_cases hm : m' = m
  · subst hm
    rw [if_pos rfl]
    have hii : i' = i := g.edge_range_disjoint v.rank_ i' i m' hr'.1 hr'.2 c.hr.1 c.hr.2
    subst hii
    rw [c.hsplit]
    cases hpost : post with
    | nil =>
      have hb := c.before_slot (-1) (c.nil hpost).1 m'
      rw [List.append_nil]
      symm
      rw [List.filter_eq_self]
      intro n _
      rw [hb]
      simp
    | cons x rest =>
      have hb := c.before_slot x (c.cons x rest hpost).1 m'
      have hsorted := c.sorted
      rw [hpost, ← List.append_assoc] at hsorted
      rw [← List.append_assoc]
      have hfun : v'.before (slot g v m') m' =
          fun (n : Nat) => decide ((n : Int) < (x : Int)) := by
        funext n
        rw [hb]
        have : ¬ ((x : Int) = -1) := by omega
        simp [this]
      rw [hfun]
      exact (list_filter_lt_split _ _ _ hsorted).symm
  · rw [if_neg hm, c.inv.d1 i' hi' m' hr']
    apply List.filter_congr
    intro n hn
    by_cases hs : slot g v m' = slot g v m
    · obtain ⟨k, hk, -, -⟩ := c.pk
      rw [hs, c.before_slot k hk m' n, c.hbetween i' hi' m' hr' hs hm n hn]
      have : ¬ ((m' : Int) = (m : Int)) := by omega
      simp [this]
    · exact (c.before_ne _ hs m' n).symm

theorem Visit.d0 {g : Graph} {v v' : LView} {i m : Nat} {pre post : List Nat}
    (c : Visit g v v' i m pre post) :
    ∀ x ∈ v'.inserted_, ∃ i' < g.get_lnv v'.rank_, in_range g v' i' x.2.1 ∧
      x.1 = slot g v' x.2.1 := by
  intro x hx
  rw [c.ins, List.mem_append] at hx
  rw [c.same.1]
  rcases hx with hx | hx
  · obtain ⟨i', hi', h1, h2⟩ := c.inv.d0 x hx
    exact ⟨i', hi', (c.same.in_range g i' _).mpr h1, by rw [c.same.slot]; exact h2⟩
  · obtain ⟨n, -, rfl⟩ := List.mem_map.mp hx
    exact ⟨i, c.hi, (c.same.in_range g i _).mpr c.hr, by rw [c.same.slot]⟩

end LView

namespace LView

theorem Visit.pm_ne {g : Graph} {v v' : LView} {i m : Nat} {pre post : List Nat}
    (c : Visit g v v' i m pre post) (q : Nat) (h : q ≠ slot g v m) :
    v'.prev_m_.getD q (-1) = v.prev_m_.getD q (-1) ∧
      v'.prev_k_.getD q (-1) = v.prev_k_.getD q (-1) := by
  obtain ⟨k, hk, -, -⟩ := c.pk
  rw [c.pm, hk]
  exact ⟨list_getD_set_ne _ _ _ _ _ (Ne.symm h), list_getD_set_ne _ _ _ _ _ (Ne.symm h)⟩

theorem Visit.pm_eq {g : Graph} {v v' : LView} {i m : Nat} {pre post : List Nat}
    (c : Visit g v v' i m pre post) : v'.prev_m_.getD (slot g v m) (-1) = (m : Int) := by
  rw [c.pm]
  exact list_getD_set_eq _ _ _ _ (by rw [c.inv.len_pm]; exact c.hp)

theorem Visit.pk_eq {g : Graph} {v v' : LView} {i m : Nat} {pre post : List Nat}
    (c : Visit g v v' i m pre post) :
    (post = [] → v'.prev_k_.getD (slot g v m) (-1) = -1) ∧
      (∀ x rest, post = x :: rest → v'.prev_k_.getD (slot g v m) (-1) = (x : Int)) := by
  constructor
  · intro h
    rw [(c.nil h).1]
    exact list_getD_set_eq _ _ _ _ (by rw [c.inv.len_pk]; exact c.hp)
  · intro x rest h
    rw [(c.cons x rest h).1]
    exact list_getD_set_eq _ _ _ _ (by rw [c.inv.len_pk]; exact c.hp)

theorem Visit.d2 {g : Graph} {v v' : LView} {i m : Nat} {pre post : List Nat}
    (c : Visit g v v' i m pre post) :
    ∀ q < v'.stat_.length, v'.prev_k_.getD q (-1) ≠ -1 →
      ∃ i' < g.get_lnv v'.rank_, ∃ m0 n0 : Nat, v'.prev_m_.getD q (-1) = (m0 : Int) ∧
        v'.prev_k_.getD q (-1) = (n0 : Int) ∧ in_range g v' i' m0 ∧ slot g v' m0 = q ∧
        v'.active_.getD m0 true = true ∧ n0 ∈ cands g v' i' m0 := by
  intro q hq hk
  rw [c.stat_len] at hq
  rw [c.same.1]
  by_cases hqp : q = slot g v m
  · subst hqp
    cases hpost : post with
    | nil => exact absurd (c.pk_eq.1 hpost) hk
    | cons x rest =>
      refine ⟨i, c.hi, m, x, c.pm_eq, c.pk_eq.2 x rest hpost, (c.same.in_range g i m).mpr c.hr,
        c.same.slot g m, ?_, ?_⟩
      · rw [(c.cons x rest hpost).2.1]; exact c.hact
      · rw [c.same.cands, c.hsplit, hpost]
        simp
  · obtain ⟨h1, h2⟩ := c.pm_ne q hqp
    rw [h2] at hk
    obtain ⟨i0, hi0, m0, n0, a1, a2, a3, a4, a5, a6⟩ := c.inv.d2 q hq hk
    refine ⟨i0, hi0, m0, n0, by rw [h1]; exact a1, by rw [h2]; exact a2,
      (c.same.in_range g i0 m0).mpr a3, by rw [c.same.slot]; exact a4, ?_,
      by rw [c.same.cands]; exact a6⟩
    have hne : m0 ≠ m := fun h => hqp (by rw [← a4, h])
    rw [c.active m0 hne]
    exact a5

theorem Visit.d3 {g : Graph} {v v' : LView} {i m : Nat} {pre post : List Nat}
    (c : Visit g v v' i m pre post) :
    ∀ q < v'.stat_.length, v'.stat_.getD q '0' = '0' → v'.sbuf_ctr_.getD q 0 ≠ v'.bufsize_ := by
  intro q hq hs
  rw [c.stat_len] at hq
  rw [c.same.2.2.2]
  obtain ⟨c0, hc, hc'⟩ := c.ctr
  rw [hc]
  by_cases hqp : q = slot g v m
  · subst hqp
    rw [list_getD_set_eq _ _ _ _ (by rw [c.inv.len_ctr]; exact c.hp)]
    exact hc' hs
  · rw [list_getD_set_ne _ _ _ _ _ (Ne.symm hqp)]
    rw [c.stat_ne q hqp] at hs
    exact c.inv.d3 q hq hs

theorem Visit.d5 {g : Graph} {v v' : LView} {i m : Nat} {pre post : List Nat}
    (c : Visit g v v' i m pre post) :
    ∀ q < v'.stat_.length, v'.prev_k_.getD q (-1) = -1 →
      ∀ m'' : Nat, (m'' : Int) = v'.prev_m_.getD q (-1) → v'.active_.getD m'' true = false := by
  intro q hq hk m'' hm''
  rw [c.stat_len] at hq
  have hset : post = [] → v'.active_.getD m true = false := by
    intro hpost
    rw [(c.nil hpost).2]
    exact list_getD_set_eq _ _ _ _ (c.inv.len_active i c.hi m c.hr)
  by_cases hqp : q = slot g v m
  · subst hqp
    rw [c.pm_eq] at hm''
    have hmm : m'' = m := by omega
    subst hmm
    cases hpost : post with
    | nil => exact hset hpost
    | cons x rest =>
      rw [c.pk_eq.2 x rest hpost] at hk
      omega
  · obtain ⟨h1, h2⟩ := c.pm_ne q hqp
    rw [h1] at hm''
    rw [h2] at hk
    have hold := c.inv.d5 q hq hk m'' hm''
    by_cases hmm : m'' = m
    · subst hmm
      rw [c.hact] at hold
      cases hold
    · rw [c.active m'' hmm]
      exact hold

theorem Visit.d6 {g : Graph} {v v' : LView} {i m : Nat} {pre post : List Nat}
    (c : Visit g v v' i m pre post) :
    ∀ i' < g.get_lnv v'.rank_, ∀ m', in_range g v' i' m' → cands g v' i' m' ≠ [] →
      v'.active_.getD m' true = false → (m' : Int) ≤ v'.prev_m_.getD (slot g v' m') (-1) := by
  intro i' hi' m' hr' hc ha
  rw [c.same.1] at hi'
  rw [c.same.in_range] at hr'
  rw [c.same.cands] at hc
  rw [c.same.slot]
  by_cases hmm : m' = m
  · subst hmm
    rw [c.pm_eq]
  · rw [c.active m' hmm] at ha
    have hold := c.inv.d6 i' hi' m' hr' hc ha
    by_cases hs : slot g v m' = slot g v m
    · rw [hs, c.pm_eq]
      rw [hs] at hold
      have := c.hge
      omega
    · rw [(c.pm_ne _ hs).1]
      exact hold

end LView

theorem list_sum_map_update (f f' : Nat → Nat) (m d : Nat) :
    ∀ (l : List Nat), l.Nodup → m ∈ l → (∀ k ∈ l, k ≠ m → f' k = f k) → f' m + d = f m →
      (l.map f').sum + d = (l.map f).sum := by
  intro l
  induction l with
  | nil => intro _ hm; cases hm
  | cons a t ih =>
    intro hnd hm hoff hat
    rw [List.map_cons, List.map_cons, List.sum_cons, List.sum_cons]
    by_cases ha : a = m
    · subst ha
      have hnot : a ∉ t := (List.nodup_cons.mp hnd).1
      have : t.map f' = t.map f := by
        apply List.map_congr_left
        intro k hk
        exact hoff k (List.mem_cons_of_mem a hk) (fun h => hnot (h ▸ hk))
      rw [this]
      omega
    · have hmt : m ∈ t := by
        rcases List.mem_cons.mp hm with h | h
        · exact absurd h.symm ha
        · exact h
      have := ih (List.nodup_cons.mp hnd).2 hmt
        (fun k hk hne => hoff k (List.mem_cons_of_mem a hk) hne) hat
      rw [hoff a (List.mem_cons_self a t) ha]
      omega

namespace LView

theorem Visit.pending_update {g : Graph} {v v' : LView} {i m : Nat} {pre post : List Nat}
    (c : Visit g v v' i m pre post) (i' : Nat) :
    pending g v' i' + (if i' = i then pre.length else 0) = pending g v i' := by
  unfold LView.pending
  rw [c.same.1]
  by_cases hi : i' = i
  · subst hi
    rw [if_pos rfl]
    apply list_sum_map_update _ _ m _ _ (List.nodup_range' _ _)
    · rw [List.mem_range'_1]
      have := c.hr
      unfold in_range at this
      omega
    · intro k _ hk
      rw [c.same.cands, done_append v v' _ m pre c.ins k, if_neg hk]
    · rw [c.same.cands, done_append v v' _ m pre c.ins m, if_pos rfl, c.hsplit]
      simp only [List.length_append]
      omega
  · rw [if_neg hi, Nat.add_zero]
    congr 1
    apply List.map_congr_left
    intro k hk
    have hkm : k ≠ m := by
      intro h
      subst h
      rw [List.mem_range'_1] at hk
      have hle := g.edge_range_le v.rank_ i'
      exact hi (g.edge_range_disjoint v.rank_ i' i k (by omega) (by omega) c.hr.1 c.hr.2)
    rw [c.same.cands, done_append v v' _ m pre c.ins k, if_neg hkm]

theorem Visit.d4 {g : Graph} {v v' : LView} {i m : Nat} {pre post : List Nat}
    (c : Visit g v v' i m pre post) :
    ∀ i' < g.get_lnv v'.rank_, v'.vcount_.getD i' 0 = (pending g v' i' : Int) := by
  intro i' hi'
  rw [c.same.1] at hi'
  have hp := c.pending_update i'
  have hold := c.inv.d4 i' hi'
  rw [c.vc]
  by_cases hi : i' = i
  · subst hi
    rw [if_pos rfl] at hp
    rw [list_getD_set_eq _ _ _ _ (by rw [c.inv.len_vcount]; exact hi'), hold]
    omega
  · rw [if_neg hi] at hp
    rw [list_getD_set_ne _ _ _ _ _ (Ne.symm hi), hold]
    omega

theorem Visit.d4o {g : Graph} {v v' : LView} {i m : Nat} {pre post : List Nat}
    (c : Visit g v v' i m pre post) : v'.out_nghosts_ = v'.vcount_.sum := by
  rw [c.out, c.vc, list_sum_set _ _ _ (by rw [c.inv.len_vcount]; exact c.hi), c.inv.d4o]
  ring

theorem Visit.d7 {g : Graph} {v v' : LView} {i m : Nat} {pre post : List Nat}
    (c : Visit g v v' i m pre post) :
    ∀ q, (v'.inserted_.filter (fun x => decide (x.1 = q))).Pairwise entry_lt := by
  intro q
  rw [c.ins, List.filter_append]
  by_cases hq : q = slot g v m
  · subst hq
    have hnew : (pre.map (fun n => (slot g v m, m, n))).filter
        (fun x => decide (x.1 = slot g v m)) = pre.map (fun n => (slot g v m, m, n)) := by
      rw [List.filter_eq_self]
      intro x hx
      obtain ⟨n, -, rfl⟩ := List.mem_map.mp hx
      simp
    rw [hnew, List.pairwise_append]
    have hs := c.sorted
    rw [List.pairwise_append] at hs
    obtain ⟨-, hs2, hs3⟩ := hs
    rw [List.pairwise_append] at hs2
    refine ⟨c.inv.d7 _, ?_, ?_⟩
    · rw [List.pairwise_map]
      exact List.Pairwise.imp (fun h => Or.inr ⟨rfl, h⟩) hs2.1
    · intro a ha b hb
      obtain ⟨n, hn, rfl⟩ := List.mem_map.mp hb
      obtain ⟨ha1, ha2⟩ := List.mem_filter.mp ha
      simp only [decide_eq_true_eq] at ha2
      obtain ⟨i', hi', hr', hsl⟩ := c.inv.d0 a ha1
      have hdone : a.2.2 ∈ v.done a.2.1 := by
        unfold done
        exact List.mem_map.mpr ⟨a, List.mem_filter.mpr ⟨ha1, by simp⟩, rfl⟩
      by_cases hm : a.2.1 = m
      · right
        refine ⟨hm, ?_⟩
        rw [hm] at hdone
        exact hs3 _ hdone n (List.mem_append_left _ hn)
      · left
        rw [c.inv.d1 i' hi' _ hr'] at hdone
        obtain ⟨hc1, hc2⟩ := List.mem_filter.mp hdone
        rw [← hsl, ha2, c.hbetween i' hi' _ hr' (by rw [← hsl, ha2]) hm _ hc1] at hc2
        simp only [decide_eq_true_eq] at hc2
        show a.2.1 < m
        omega
  · have hnew : (pre.map (fun n => (slot g v m, m, n))).filter
        (fun x => decide (x.1 = q)) = [] := by
      rw [List.filter_eq_nil_iff]
      intro x hx
      obtain ⟨n, -, rfl⟩ := List.mem_map.mp hx
      simp only [decide_eq_true_eq]
      exact fun h => hq h.symm
    rw [hnew, List.append_nil]
    exact c.inv.d7 q

end LView

namespace LView

theorem Visit.active_len {g : Graph} {v v' : LView} {i m : Nat} {pre post : List Nat}
    (c : Visit g v v' i m pre post) : v'.active_.length = v.active_.length := by
  cases hpost : post with
  | nil => rw [(c.nil hpost).2]; simp
  | cons x rest => rw [(c.cons x rest hpost).2.1]

/-- A productive visit preserves the invariant. -/
theorem Visit.inv' {g : Graph} {v v' : LView} {i m : Nat} {pre post : List Nat}
    (c : Visit g v v' i m pre post) : Inv g v' := by
  obtain ⟨k, hk, -, -⟩ := c.pk
  obtain ⟨c0, hc0, -⟩ := c.ctr
  refine
    { len_vcount := by rw [c.vc, c.same.1]; simpa using c.inv.len_vcount
      len_pm := by rw [c.pm, c.stat_len]; simpa using c.inv.len_pm
      len_pk := by rw [hk, c.stat_len]; simpa using c.inv.len_pk
      len_ctr := by rw [hc0, c.stat_len]; simpa using c.inv.len_ctr
      len_active := ?_
      buf_ne := by rw [c.same.2.2.2]; exact c.inv.buf_ne
      stat_char := ?_
      slot_lt := ?_
      d0 := c.d0
      d1 := c.d1
      d2 := c.d2
      d3 := c.d3
      d4 := c.d4
      d4o := c.d4o
      d5 := c.d5
      d6 := c.d6
      d7 := c.d7 }
  · intro i' hi' m' hr'
    rw [c.same.1] at hi'
    rw [c.same.in_range] at hr'
    rw [c.active_len]
    exact c.inv.len_active i' hi' m' hr'
  · intro q hq
    rw [c.stat_len] at hq
    by_cases hqp : q = slot g v m
    · subst hqp
      rcases c.st with hs | hs
      · rw [hs]; exact c.inv.stat_char _ hq
      · rw [hs, list_getD_set_eq _ _ _ _ hq]
        exact Or.inr rfl
    · rw [c.stat_ne q hqp]
      exact c.inv.stat_char q hq
  · intro i' hi' m' hr' hl ho
    rw [c.same.1] at hi' hl ho
    rw [c.same.in_range] at hr'
    rw [c.same.slot, c.stat_len]
    exact c.inv.slot_lt i' hi' m' hr' hl ho

/-- After a productive visit of edge `m` the pass invariant holds for position
`m + 1`. -/
theorem Visit.ahead {g : Graph} {v v' : LView} {i m : Nat} {pre post : List Nat}
    (c : Visit g v v' i m pre post) (hah : Ahead g v m) : Ahead g v' (m + 1) := by
  intro q hq hs
  rw [c.stat_len] at hq
  by_cases hqp : q = slot g v m
  · subst hqp
    have hpost : post = [] := by
      cases hpost : post with
      | nil => rfl
      | cons x rest =>
        rw [(c.cons x rest hpost).2.2, list_getD_set_eq _ _ _ _ hq] at hs
        cases hs
    constructor
    · intro _ i' _ m'' _ _ hlt hlt'
      rw [c.pm_eq] at hlt
      omega
    · intro hne
      exact absurd (c.pk_eq.1 hpost) hne
  · rw [c.stat_ne q hqp] at hs
    obtain ⟨h1, h2⟩ := c.pm_ne q hqp
    obtain ⟨a1, a2⟩ := hah q hq hs
    rw [h1, h2]
    constructor
    · intro hk i' hi' m'' hr' hsl hlt hlt'
      rw [c.same.1] at hi'
      rw [c.same.in_range] at hr'
      rw [c.same.slot] at hsl
      rw [c.same.cands]
      by_cases hmm : m'' = m
      · subst hmm
        exact absurd hsl.symm hqp
      · exact a1 hk i' hi' m'' hr' hsl hlt (by omega)
    · intro hk
      have := a2 hk
      obtain ⟨i0, hi0, m0, n0, b1, b2, b3, b4, b5, b6⟩ := c.inv.d2 q hq hk
      have hne : m0 ≠ m := fun h => hqp (by rw [← b4, h])
      rw [b1] at this ⊢
      omega

end LView

namespace LView

theorem cands_ghost (g : Graph) (v : LView) (i m : Nat)
    (h : g.get_owner (g.get_edge v.rank_ m) ≠ v.rank_) :
    cands g v i m = cand_n g v.rank_ v.erange_ (g.get_edge v.rank_ m)
      ((g.edge_range v.rank_ i).2 - (m + 1)) (m + 1) := by
  unfold cands cand_edge
  rw [if_pos h]

theorem ghost_of_cands (g : Graph) (v : LView) (i m : Nat) (h : cands g v i m ≠ []) :
    g.get_owner (g.get_edge v.rank_ m) ≠ v.rank_ ∧ m + 1 < (g.edge_range v.rank_ i).2 := by
  unfold cands cand_edge at h
  by_cases hg : g.get_owner (g.get_edge v.rank_ m) ≠ v.rank_
  · refine ⟨hg, ?_⟩
    rw [if_pos hg] at h
    by_contra hlt
    have : (g.edge_range v.rank_ i).2 - (m + 1) = 0 := by omega
    rw [this] at h
    exact h rfl
  · rw [if_neg hg] at h
    exact absurd rfl h

/-- A visit of a source edge whose slot is idle and not behind the bookmark is a
productive visit. -/
theorem visit_of_work (g : Graph) (v : LView) (i m : Nat) (hinv : Inv g v)
    (hah : Ahead g v m) (hi : i < g.get_lnv v.rank_) (hr : in_range g v i m)
    (hlast : m + 1 < (g.edge_range v.rank_ i).2)
    (hghost : g.get_owner (g.get_edge v.rank_ m) ≠ v.rank_)
    (hact : v.active_.getD m true = true)
    (hst : v.stat_.getD (slot g v m) '0' = '0')
    (hge : v.prev_m_.getD (slot g v m) (-1) ≤ (m : Int)) :
    ∃ pre post, Visit g v (work g i (g.edge_range v.rank_ i).2 m v) i m pre post := by
  have hp := hinv.slot_lt i hi m hr hlast hghost
  obtain ⟨pre, post, hL, w1, w2, w3, w4, w5, w6, w7, w8, w9, -⟩ :=
    work_spec g i (g.edge_range v.rank_ i).2 m v hp hinv.len_ctr hst
  have hsorted : (cands g v i m).Pairwise (· < ·) := by
    rw [cands_ghost g v i m hghost]
    exact cand_n_sorted _ _ _ _ _ _
  have key : cands g v i m = v.done m ++ (pre ++ post) ∧
      ∀ i' < g.get_lnv v.rank_, ∀ m', in_range g v i' m' → slot g v m' = slot g v m →
        m' ≠ m → ∀ n ∈ cands g v i' m',
          v.before (slot g v m) m' n = decide ((m' : Int) < (m : Int)) := by
    obtain ⟨a1, a2⟩ := hah (slot g v m) hp hst
    by_cases hk : v.prev_k_.getD (slot g v m) (-1) = -1
    · have hne : (m : Int) ≠ v.prev_m_.getD (slot g v m) (-1) := by
        intro h
        have := hinv.d5 _ hp hk m h
        rw [hact] at this
        cases this
      have hres : v.resume_at (slot g v m) m = m + 1 := by
        unfold resume_at
        rw [if_pos hk]
      rw [hres] at hL
      constructor
      · have hd : v.done m = [] := by
          rw [hinv.d1 i hi m hr, List.filter_eq_nil_iff]
          intro n _
          unfold before
          have h1 : ¬ ((m : Int) < v.prev_m_.getD (slot g v m) (-1)) := by omega
          rw [decide_eq_false h1, decide_eq_false hne]
          simp only [Bool.false_or, Bool.false_and, Bool.not_eq_true, not_false_eq_true,
            Bool.false_eq_true]
        rw [hd, List.nil_append, ← hL]
        exact cands_ghost g v i m hghost
      · intro i' hi' m' hr' hsl hmm n hn
        unfold before
        rw [hk]
        by_cases hle : (m' : Int) ≤ v.prev_m_.getD (slot g v m) (-1)
        · have h2 : (m' : Int) < (m : Int) := by omega
          rw [decide_eq_true h2]
          rcases lt_or_eq_of_le hle with h3 | h3
          · rw [decide_eq_true h3]
            rfl
          · rw [decide_eq_true h3]
            simp only [decide_True, Bool.true_or, Bool.and_self, Bool.or_true]
        · have h3 : ¬ ((m' : Int) < v.prev_m_.getD (slot g v m) (-1)) := by omega
          have h4 : ¬ ((m' : Int) = v.prev_m_.getD (slot g v m) (-1)) := by omega
          have h5 : ¬ ((m' : Int) < (m : Int)) := by
            intro hlt
            have := a1 hk i' hi' m' hr' hsl (by omega) (by omega)
            rw [this] at hn
            cases hn
          rw [decide_eq_false h3, decide_eq_false h4, decide_eq_false h5]
          rfl
    · obtain ⟨i0, hi0, m0, n0, b1, b2, b3, b4, b5, b6⟩ := hinv.d2 _ hp hk
      have hm0 : m0 = m := by
        have := a2 hk
        omega
      subst hm0
      have hii : i0 = i := g.edge_range_disjoint v.rank_ i0 i m0 b3.1 b3.2 hr.1 hr.2
      subst hii
      have hres : v.resume_at (slot g v m0) m0 = n0 := by
        unfold resume_at
        rw [if_neg hk, b2]
        simp
      rw [hres] at hL
      obtain ⟨a, b, hab⟩ := List.append_of_mem b6
      have hab' := hab
      rw [cands_ghost g v i0 m0 hghost] at hab'
      obtain ⟨c1, c2, c3, c4⟩ := cand_n_split g v.rank_ v.erange_ _ _ _ n0 a b hab'
      have hfuel : m0 + 1 + ((g.edge_range v.rank_ i0).2 - (m0 + 1)) - n0 =
          (g.edge_range v.rank_ i0).2 - n0 := by omega
      rw [hfuel, hL] at c4
      constructor
      · have hd : v.done m0 = a := by
          rw [hinv.d1 i0 hi0 m0 hr, hab]
          have hfun : v.before (slot g v m0) m0 =
              fun (n : Nat) => decide ((n : Int) < (n0 : Int)) := by
            funext n
            unfold before
            rw [b1, b2]
            have h1 : ¬ ((n0 : Int) = -1) := by omega
            have h2 : ¬ ((m0 : Int) < (m0 : Int)) := by omega
            rw [decide_eq_false h1, decide_eq_false h2]
            simp only [decide_True, Bool.false_or, Bool.true_and]
          rw [hfun]
          rw [hab] at hsorted
          exact list_filter_lt_split a b n0 hsorted
        rw [hd, c4]
        exact hab
      · intro i' hi' m' hr' hsl hmm n hn
        unfold before
        rw [b1]
        have h1 : ¬ ((m' : Int) = (m0 : Int)) := by omega
        rw [decide_eq_false h1]
        simp only [Bool.false_and, Bool.or_false]
  exact ⟨pre, post,
    { inv := hinv, hi := hi, hr := hr, hp := hp, hact := hact, hsplit := key.1
      hbetween := key.2, hge := hge, same := w1, ins := w2, out := w3, vc := w4, pm := w5
      ctr := w6, st := w7, nil := w8, cons := w9 }⟩

end LView

/-! ## The enumerator: passes and recycles preserve the invariant -/

namespace LView

theorem Ext.ext_refl (v : LView) : Ext v v := ⟨SameStatic.refl v, [], by simp⟩

theorem Ext.ext_trans {a b c : LView} (h1 : Ext a b) (h2 : Ext b c) : Ext a c := by
  obtain ⟨s1, n1, e1⟩ := h1
  obtain ⟨s2, n2, e2⟩ := h2
  exact ⟨s1.trans s2, n1 ++ n2, by rw [e2, e1, List.append_assoc]⟩

/-- An edge that the pass leaves (no candidate, inactive, slot paused, or behind
the bookmark) keeps the pass invariant. -/
theorem ahead_skip (g : Graph) (v : LView) (i m : Nat) (hinv : Inv g v)
    (hah : Ahead g v m) (hi : i < g.get_lnv v.rank_) (hr : in_range g v i m)
    (hskip : cands g v i m = [] ∨ v.active_.getD m true = false ∨
      v.stat_.getD (slot g v m) '0' = '1' ∨ (m : Int) < v.prev_m_.getD (slot g v m) (-1)) :
    Ahead g v (m + 1) := by
  intro q hq hs
  obtain ⟨a1, a2⟩ := hah q hq hs
  constructor
  · intro hk i' hi' m' hr' hsl hlt hm'
    by_cases hmm : m' < m
    · exact a1 hk i' hi' m' hr' hsl hlt hmm
    · have hmeq : m' = m := by omega
      subst hmeq
      have hii : i' = i := g.edge_range_disjoint v.rank_ i' i m' hr'.1 hr'.2 hr.1 hr.2
      subst hii
      rcases hskip with h | h | h | h
      · exact h
      · by_contra hne
        have := hinv.d6 i' hi' m' hr' hne h
        rw [hsl] at this
        omega
      · rw [hsl, hs] at h
        cases h
      · rw [hsl] at h
        omega
  · intro hk
    have h2 := a2 hk
    by_contra hlt
    obtain ⟨i0, hi0, m0, n0, b1, b2, b3, b4, b5, b6⟩ := hinv.d2 q hq hk
    have hmeq : m0 = m := by omega
    subst hmeq
    have hii : i0 = i := g.edge_range_disjoint v.rank_ i0 i m0 b3.1 b3.2 hr.1 hr.2
    subst hii
    rcases hskip with h | h | h | h
    · rw [h] at b6
      cases b6
    · rw [h] at b5
      cases b5
    · rw [b4, hs] at h
      cases h
    · rw [b4] at h
      omega

/-- One step of the loop over `m`. -/
theorem m_body_step (g : Graph) (v : LView) (i m : Nat) (hinv : Inv g v)
    (hah : Ahead g v m) (hi : i < g.get_lnv v.rank_) (hr : in_range g v i m)
    (hlast : m + 1 < (g.edge_range v.rank_ i).2) :
    Inv g (m_body g i (g.edge_range v.rank_ i).2 m v) ∧
      Ahead g (m_body g i (g.edge_range v.rank_ i).2 m v) (m + 1) ∧
      Ext v (m_body g i (g.edge_range v.rank_ i).2 m v) := by
  rw [m_body_eq]
  by_cases hc : g.get_owner (g.get_edge v.rank_ m) ≠ v.rank_ ∧ v.active_.getD m true = true
  · rw [if_pos hc]
    have hp := hinv.slot_lt i hi m hr hlast hc.1
    by_cases hs1 : v.stat_.getD (slot g v m) '0' = '1'
    · rw [if_pos hs1]
      exact ⟨hinv, ahead_skip g v i m hinv hah hi hr (Or.inr (Or.inr (Or.inl hs1))), Ext.ext_refl v⟩
    · rw [if_neg hs1]
      have hs0 : v.stat_.getD (slot g v m) '0' = '0' := by
        rcases hinv.stat_char _ hp with h | h
        · exact h
        · exact absurd h hs1
      by_cases hge : (m : Int) ≥ v.prev_m_.getD (slot g v m) (-1)
      · rw [if_pos hge, if_neg (hinv.d3 _ hp hs0)]
        obtain ⟨pre, post, c⟩ := visit_of_work g v i m hinv hah hi hr hlast hc.1 hc.2 hs0 hge
        exact ⟨c.inv', c.ahead hah, c.same, _, c.ins⟩
      · rw [if_neg hge]
        exact ⟨hinv, ahead_skip g v i m hinv hah hi hr
          (Or.inr (Or.inr (Or.inr (by omega)))), Ext.ext_refl v⟩
  · rw [if_neg hc]
    refine ⟨hinv, ahead_skip g v i m hinv hah hi hr ?_, Ext.ext_refl v⟩
    by_cases hg : g.get_owner (g.get_edge v.rank_ m) ≠ v.rank_
    · right; left
      have : ¬ v.active_.getD m true = true := fun h => hc ⟨hg, h⟩
      simpa using this
    · left
      by_contra hne
      exact hg (ghost_of_cands g v i m hne).1

/-- The loop over `m` for local vertex `i`. -/
theorem m_loop_step (g : Graph) (i : Nat) : ∀ (fuel m : Nat) (v : LView), Inv g v →
    Ahead g v m → i < g.get_lnv v.rank_ → (g.edge_range v.rank_ i).1 ≤ m →
    m + fuel + 1 ≤ (g.edge_range v.rank_ i).2 →
    Inv g (m_loop g i (g.edge_range v.rank_ i).2 fuel m v) ∧
      Ahead g (m_loop g i (g.edge_range v.rank_ i).2 fuel m v) (m + fuel) ∧
      Ext v (m_loop g i (g.edge_range v.rank_ i).2 fuel m v) := by
  intro fuel
  induction fuel with
  | zero => intro m v hinv hah _ _ _; exact ⟨hinv, hah, Ext.ext_refl v⟩
  | succ f ih =>
    intro m v hinv hah hi h0 h1
    obtain ⟨s1, s2, s3⟩ := m_body_step g v i m hinv hah hi ⟨h0, by omega⟩ (by omega)
    have hrk := s3.1.1
    have := ih (m + 1) (m_body g i (g.edge_range v.rank_ i).2 m v) s1 s2
      (by rw [hrk]; exact hi) (by rw [hrk]; omega) (by rw [hrk]; omega)
    rw [hrk] at this
    obtain ⟨t1, t2, t3⟩ := this
    have hm : m + 1 + f = m + (f + 1) := by omega
    rw [hm] at t2
    exact ⟨t1, t2, s3.ext_trans t3⟩

end LView

namespace LView

/-- A vertex with nothing pending has every candidate pair before the bookmark of
its slot. -/
theorem pending_zero (g : Graph) (v : LView) (i : Nat) (hinv : Inv g v)
    (hi : i < g.get_lnv v.rank_) (h0 : pending g v i = 0) :
    ∀ m, in_range g v i m → ∀ n ∈ cands g v i m, v.before (slot g v m) m n = true := by
  intro m hr
  unfold pending at h0
  rw [List.sum_eq_zero_iff] at h0
  have h1 := hr.1
  have h2 := hr.2
  have h3 := h0 _ (List.mem_map.2 ⟨m, List.mem_range'_1.2 ⟨h1, by omega⟩, rfl⟩)
  have h4 := hinv.d1 i hi m hr
  have h5 := List.length_filter_le (v.before (slot g v m) m) (cands g v i m)
  rw [h4] at h3
  exact List.filter_length_eq_length.1 (by omega)

/-- A vertex whose candidate pairs are all before the bookmarks can be passed over. -/
theorem ahead_done (g : Graph) (v : LView) (i : Nat) (hinv : Inv g v)
    (hah : Ahead g v (g.edge_range v.rank_ i).1)
    (hall : ∀ m, in_range g v i m → ∀ n ∈ cands g v i m, v.before (slot g v m) m n = true) :
    Ahead g v (g.edge_range v.rank_ i).2 := by
  intro q hq hs
  obtain ⟨a1, a2⟩ := hah q hq hs
  constructor
  · intro hk i' hi' m' hr' hsl hlt hm'
    by_cases hmm : m' < (g.edge_range v.rank_ i).1
    · exact a1 hk i' hi' m' hr' hsl hlt hmm
    · have hri : in_range g v i m' := ⟨by omega, hm'⟩
      have hii : i' = i := g.edge_range_disjoint v.rank_ i' i m' hr'.1 hr'.2 hri.1 hri.2
      subst hii
      rw [List.eq_nil_iff_forall_not_mem]
      intro n hn
      have hb := hall m' hri n hn
      rw [hsl] at hb
      unfold before at hb
      have h1 : ¬ ((m' : Int) < v.prev_m_.getD q (-1)) := by omega
      have h2 : ¬ ((m' : Int) = v.prev_m_.getD q (-1)) := by omega
      rw [decide_eq_false h1, decide_eq_false h2] at hb
      cases hb
  · intro hk
    have h2 := a2 hk
    by_contra hlt
    obtain ⟨i0, hi0, m0, n0, b1, b2, b3, b4, b5, b6⟩ := hinv.d2 q hq hk
    have hri : in_range g v i m0 := ⟨by omega, by omega⟩
    have hii : i0 = i := g.edge_range_disjoint v.rank_ i0 i m0 b3.1 b3.2 hri.1 hri.2
    subst hii
    have hb := hall m0 hri n0 b6
    rw [b4] at hb
    unfold before at hb
    rw [b1, b2] at hb
    have h3 : ¬ ((m0 : Int) < (m0 : Int)) := by omega
    have h4 : ¬ ((n0 : Int) = -1) := by omega
    have h5 : ¬ ((n0 : Int) < (n0 : Int)) := by omega
    rw [decide_eq_false h3, decide_eq_false h4, decide_eq_false h5] at hb
    simp only [Bool.or_self, Bool.and_false, Bool.false_eq_true] at hb

/-- The last edge of a vertex has no candidate pair. -/
theorem cands_last (g : Graph) (v : LView) (i m : Nat)
    (h : (g.edge_range v.rank_ i).2 ≤ m + 1) : cands g v i m = [] := by
  by_contra hne
  have := (ghost_of_cands g v i m hne).2
  omega

/-- One step of the loop over the local vertices. -/
theorem i_body_step (g : Graph) (v : LView) (i : Nat) (hinv : Inv g v)
    (hah : Ahead g v (g.edge_range v.rank_ i).1) (hi : i < g.get_lnv v.rank_) :
    Inv g (i_body g i v) ∧ Ahead g (i_body g i v) (g.edge_range v.rank_ i).2 ∧
      Ext v (i_body g i v) := by
  unfold i_body
  by_cases hv : v.vcount_.getD i 0 = 0
  · rw [if_pos hv]
    refine ⟨hinv, ahead_done g v i hinv hah (pending_zero g v i hinv hi ?_), Ext.ext_refl v⟩
    have := hinv.d4 i hi
    rw [hv] at this
    omega
  · rw [if_neg hv]
    have hle := g.edge_range_le v.rank_ i
    by_cases h1 : (g.edge_range v.rank_ i).1 + 1 = (g.edge_range v.rank_ i).2
    · simp only [if_pos h1]
      have := ahead_skip g v i (g.edge_range v.rank_ i).1 hinv hah hi ⟨le_refl _, by omega⟩
        (Or.inl (cands_last g v i _ (by omega)))
      rw [h1] at this
      exact ⟨hinv, this, Ext.ext_refl v⟩
    · simp only [if_neg h1]
      by_cases h2 : (g.edge_range v.rank_ i).1 = (g.edge_range v.rank_ i).2
      · have hf : (g.edge_range v.rank_ i).2 - 1 - (g.edge_range v.rank_ i).1 = 0 := by omega
        rw [hf]
        rw [h2] at hah
        exact ⟨hinv, hah, Ext.ext_refl v⟩
      · obtain ⟨s1, s2, s3⟩ := m_loop_step g i
          ((g.edge_range v.rank_ i).2 - 1 - (g.edge_range v.rank_ i).1)
          (g.edge_range v.rank_ i).1 v hinv hah hi (le_refl _) (by omega)
        refine ⟨s1, ?_, s3⟩
        have hrk := s3.1.1
        have hlast : (g.edge_range v.rank_ i).1 +
            ((g.edge_range v.rank_ i).2 - 1 - (g.edge_range v.rank_ i).1) + 1 =
            (g.edge_range v.rank_ i).2 := by omega
        have := ahead_skip g _ i _ s1 s2 (by rw [hrk]; exact hi)
          ⟨by rw [hrk]; omega, by rw [hrk]; omega⟩
          (Or.inl (cands_last g _ i _ (by rw [hrk]; omega)))
        rw [hlast] at this
        exact this

/-- Before a pass starts the pass invariant holds for position `0`. -/
theorem ahead_zero (g : Graph) (v : LView) (hinv : Inv g v) : Ahead g v 0 := by
  intro q hq _
  constructor
  · intro _ i' _ m' _ _ _ hm'
    omega
  · intro hk
    obtain ⟨i0, hi0, m0, n0, b1, -⟩ := hinv.d2 q hq hk
    rw [b1]
    omega

theorem edge_range_zero (g : Graph) (rank : Nat) : (g.edge_range rank 0).1 = 0 := by
  unfold Graph.edge_range
  simp

/-- The loop over the local vertices, up to vertex `k`. -/
theorem fold_i_body_step (g : Graph) (v : LView) (hinv : Inv g v) : ∀ k ≤ g.get_lnv v.rank_,
    Inv g ((List.range k).foldl (fun v i => i_body g i v) v) ∧
      Ahead g ((List.range k).foldl (fun v i => i_body g i v) v) (g.edge_range v.rank_ k).1 ∧
      Ext v ((List.range k).foldl (fun v i => i_body g i v) v) := by
  intro k
  induction k with
  | zero =>
    intro _
    rw [edge_range_zero]
    exact ⟨hinv, ahead_zero g v hinv, Ext.ext_refl v⟩
  | succ k ih =>
    intro hk
    obtain ⟨s1, s2, s3⟩ := ih (by omega)
    rw [List.range_succ, List.foldl_append, List.foldl_cons, List.foldl_nil]
    have hrk := s3.1.1
    obtain ⟨t1, t2, t3⟩ := i_body_step g _ k s1 (by rw [hrk]; exact s2) (by rw [hrk]; omega)
    rw [hrk, ← g.edge_range_succ] at t2
    exact ⟨t1, t2, s3.ext_trans t3⟩

/-- A pass of `lookup_edges` preserves the invariant and extends the log. -/
theorem lookup_edges_inv (g : Graph) (v : LView) (hinv : Inv g v) :
    Inv g (lookup_edges g v) ∧ Ext v (lookup_edges g v) := by
  obtain ⟨s1, -, s3⟩ := fold_i_body_step g v hinv (g.get_lnv v.rank_) (le_refl _)
  exact ⟨s1, s3⟩

end LView

namespace LView

/-- Recycling one slot preserves the invariant. -/
theorem recycle_one_inv (g : Graph) (v : LView) (j : Nat) (h : Inv g v) :
    Inv g { v with sbuf_ctr_ := v.sbuf_ctr_.set j 0, stat_ := v.stat_.set j '0' } := by
  have hlen : (v.stat_.set j '0').length = v.stat_.length := List.length_set _ _ _
  exact
    { len_vcount := h.len_vcount
      len_pm := by rw [hlen]; exact h.len_pm
      len_pk := by rw [hlen]; exact h.len_pk
      len_ctr := by
        show (v.sbuf_ctr_.set j 0).length = (v.stat_.set j '0').length
        rw [List.length_set, List.length_set]
        exact h.len_ctr
      len_active := h.len_active
      buf_ne := h.buf_ne
      stat_char := by
        intro p hp
        show (v.stat_.set j '0').getD p '0' = '0' ∨ (v.stat_.set j '0').getD p '0' = '1'
        rw [hlen] at hp
        by_cases hpj : p = j
        · subst hpj
          left
          exact list_getD_set_eq _ _ _ _ hp
        · rw [list_getD_set_ne _ _ _ _ _ (fun e => hpj e.symm)]
          exact h.stat_char p hp
      slot_lt := by
        intro i hi m hr hl hg
        rw [hlen]
        exact h.slot_lt i hi m hr hl hg
      d0 := h.d0
      d1 := h.d1
      d2 := by
        intro p hp
        rw [hlen] at hp
        exact h.d2 p hp
      d3 := by
        intro p hp hs
        show (v.sbuf_ctr_.set j 0).getD p 0 ≠ v.bufsize_
        rw [hlen] at hp
        by_cases hpj : p = j
        · subst hpj
          rw [list_getD_set_eq _ _ _ _ (by rw [h.len_ctr]; exact hp)]
          exact fun e => h.buf_ne e.symm
        · rw [list_getD_set_ne _ _ _ _ _ (fun e => hpj e.symm)]
          have hs' : (v.stat_.set j '0').getD p '0' = '0' := hs
          rw [list_getD_set_ne _ _ _ _ _ (fun e => hpj e.symm)] at hs'
          exact h.d3 p hp hs'
      d4 := h.d4
      d4o := h.d4o
      d5 := by
        intro p hp
        rw [hlen] at hp
        exact h.d5 p hp
      d6 := h.d6
      d7 := h.d7 }

/-- The recycle loop preserves the invariant and leaves the log as it is. -/
theorem recycle_inv (g : Graph) : ∀ (inds : List Nat) (v : LView), Inv g v →
    Inv g (recycle inds v) ∧ Ext v (recycle inds v) := by
  intro inds
  induction inds with
  | nil => intro v h; exact ⟨h, Ext.ext_refl v⟩
  | cons a t ih =>
    intro v h
    unfold recycle
    rw [List.foldl_cons]
    obtain ⟨s1, s2⟩ := ih _ (recycle_one_inv g v a h)
    refine ⟨s1, Ext.ext_trans ⟨⟨rfl, rfl, rfl, rfl⟩, [], ?_⟩ s2⟩
    simp

end LView

/-! ## The counting pass of the constructor establishes the invariant -/

namespace TriangulateAggrBufferedHashPush

theorem CtorStep.step_refl (i : Nat) (e : TriangulateAggrBufferedHashPush) : CtorStep i 0 e e :=
  ⟨rfl, rfl, rfl, rfl, rfl, fun j => by simp, rfl, fun _ h => h⟩

theorem CtorStep.step_trans {i : Nat} {c1 c2 : Int} {a b c : TriangulateAggrBufferedHashPush}
    (h1 : CtorStep i c1 a b) (h2 : CtorStep i c2 b c) : CtorStep i (c1 + c2) a c := by
  obtain ⟨a1, a2, a3, a4, a5, a6, a7, a8⟩ := h1
  obtain ⟨b1, b2, b3, b4, b5, b6, b7, b8⟩ := h2
  refine ⟨b1.trans a1, b2.trans a2, b3.trans a3, b4.trans a4, b5.trans a5, ?_, b7.trans a7,
    fun x hx => b8 x (a8 x hx)⟩
  intro j
  rw [b6 j, a6 j]
  by_cases hj : j = i
  · simp only [if_pos hj]; ring
  · simp only [if_neg hj]; ring

theorem CtorStep.cast {i : Nat} {c1 c2 : Int} {a b : TriangulateAggrBufferedHashPush}
    (h : CtorStep i c1 a b) (hc : c1 = c2) : CtorStep i c2 a b := by
  rw [← hc]; exact h

/-- Counting one candidate pair (source lines 233-235). -/
theorem ctor_count_one (i : Nat) (e : TriangulateAggrBufferedHashPush)
    (hi : i < e.vcount_.length) :
    CtorStep i 1 e { e with vcount_ := e.vcount_.set i (e.vcount_.getD i 0 + 1)
                            out_nghosts_ := e.out_nghosts_ + 1 } := by
  refine ⟨rfl, rfl, rfl, rfl, List.length_set _ _ _, ?_, ?_, fun _ h => h⟩
  · intro j
    show (e.vcount_.set i (e.vcount_.getD i 0 + 1)).getD j 0 = _
    by_cases hj : j = i
    · subst hj
      rw [list_getD_set_eq _ _ _ _ hi, if_pos rfl]
    · rw [list_getD_set_ne _ _ _ _ _ (fun h => hj h.symm), if_neg hj]
      ring
  · show e.out_nghosts_ + 1 - (e.vcount_.set i (e.vcount_.getD i 0 + 1)).sum = _
    rw [list_sum_set _ _ _ hi]
    ring

/-- The loop over `n` for a ghost source edge counts the candidate positions. -/
theorem ctor_ghost_loop_step (g : Graph) (i owner tail_m : Nat) :
    ∀ (fuel n : Nat) (s : TriangulateAggrBufferedHashPush × List Int),
      i < s.1.vcount_.length →
      CtorStep i ((cand_n g s.1.rank_ s.1.erange_ tail_m fuel n).length : Int) s.1
          (ctor_ghost_loop g i owner tail_m fuel n s).1 ∧
        (ctor_ghost_loop g i owner tail_m fuel n s).1.targets_ = s.1.targets_ := by
  intro fuel
  induction fuel with
  | zero => intro n s _; exact ⟨CtorStep.step_refl i s.1, rfl⟩
  | succ f ih =>
    intro n s hi
    by_cases h1 : within_max s.1.erange_ tail_m (g.get_edge s.1.rank_ n) = true
    · by_cases h2 : above_min s.1.erange_ tail_m (g.get_edge s.1.rank_ n) = true ∧
          above_min s.1.erange_ (g.get_edge s.1.rank_ n) tail_m = true
      · have hc : cand_n g s.1.rank_ s.1.erange_ tail_m (f + 1) n =
            n :: cand_n g s.1.rank_ s.1.erange_ tail_m f (n + 1) := by
          rw [cand_n_succ]
          simp [h1, h2.1, h2.2]
        have hl : ctor_ghost_loop g i owner tail_m (f + 1) n s =
            ctor_ghost_loop g i owner tail_m f (n + 1)
              ({ s.1 with vcount_ := s.1.vcount_.set i (s.1.vcount_.getD i 0 + 1)
                          out_nghosts_ := s.1.out_nghosts_ + 1 },
               s.2.set owner (s.2.getD owner 0 + 1)) := by
          rw [ctor_ghost_loop]
          simp only [edge_within_max, edge_above_min, h1, h2.1, h2.2, Bool.not_true,
            Bool.false_eq_true, if_false, Bool.or_self]
        rw [hc, hl]
        obtain ⟨k1, k2⟩ := ih (n + 1)
          ({ s.1 with vcount_ := s.1.vcount_.set i (s.1.vcount_.getD i 0 + 1)
                      out_nghosts_ := s.1.out_nghosts_ + 1 },
           s.2.set owner (s.2.getD owner 0 + 1))
          (by show i < (s.1.vcount_.set i _).length; rw [List.length_set]; exact hi)
        refine ⟨((ctor_count_one i s.1 hi).step_trans k1).cast ?_, k2⟩
        show (1 : Int) + ((cand_n g s.1.rank_ s.1.erange_ tail_m f (n + 1)).length : Int) = _
        rw [List.length_cons]
        push_cast
        ring
      · have h2' : (!above_min s.1.erange_ tail_m (g.get_edge s.1.rank_ n) ||
            !above_min s.1.erange_ (g.get_edge s.1.rank_ n) tail_m) = true := by
          cases ha : above_min s.1.erange_ tail_m (g.get_edge s.1.rank_ n)
          · rfl
          · cases hb : above_min s.1.erange_ (g.get_edge s.1.rank_ n) tail_m
            · rfl
            · exact absurd ⟨ha, hb⟩ h2
        have hc : cand_n g s.1.rank_ s.1.erange_ tail_m (f + 1) n =
            cand_n g s.1.rank_ s.1.erange_ tail_m f (n + 1) := by
          rw [cand_n, h1, h2']
          rfl
        have hl : ctor_ghost_loop g i owner tail_m (f + 1) n s =
            ctor_ghost_loop g i owner tail_m f (n + 1) s := by
          rw [ctor_ghost_loop]
          simp only [edge_within_max, edge_above_min, h1, h2', Bool.not_true,
            Bool.false_eq_true, if_false, if_true]
        rw [hc, hl]
        exact ih (n + 1) s hi
    · simp only [Bool.not_eq_true] at h1
      have hc : cand_n g s.1.rank_ s.1.erange_ tail_m (f + 1) n = [] := by
        rw [cand_n, h1]
        rfl
      have hl : ctor_ghost_loop g i owner tail_m (f + 1) n s = s := by
        rw [ctor_ghost_loop]
        simp only [edge_within_max, h1, Bool.not_false, if_true]
      rw [hc, hl]
      exact ⟨CtorStep.step_refl i s.1, rfl⟩

/-- The loop over `n` for a local source edge changes the local counter only. -/
theorem ctor_local_loop_frame (g : Graph) (tail_m : Nat) :
    ∀ (fuel n : Nat) (e : TriangulateAggrBufferedHashPush),
      ∃ nt, ctor_local_loop g tail_m fuel n e = { e with ntriangles_ := nt } := by
  intro fuel
  induction fuel with
  | zero => intro n e; exact ⟨e.ntriangles_, rfl⟩
  | succ f ih =>
    intro n e
    rw [ctor_local_loop]
    by_cases hc : e.check_edgelist g tail_m (g.get_edge e.rank_ n) = true
    · rw [if_pos hc]
      obtain ⟨nt, h⟩ := ih (n + 1) { e with ntriangles_ := e.ntriangles_ + 1 }
      exact ⟨nt, h⟩
    · rw [if_neg hc]
      exact ih (n + 1) e

end TriangulateAggrBufferedHashPush

namespace TriangulateAggrBufferedHashPush

theorem cand_edge_last (g : Graph) (rank : Nat) (erange : List Nat) (e1 m : Nat)
    (h : e1 ≤ m + 1) : cand_edge g rank erange e1 m = [] := by
  unfold cand_edge
  have : e1 - (m + 1) = 0 := by omega
  rw [this]
  by_cases hg : g.get_owner (g.get_edge rank m) ≠ rank
  · rw [if_pos hg]; rfl
  · rw [if_neg hg]

/-- The body of the loop over `m` of the constructor counts the candidate pairs of
source edge `m` and records the owner of a ghost tail in `targets_`. -/
theorem ctor_m_body_step (g : Graph) (i e1 m : Nat)
    (s : TriangulateAggrBufferedHashPush × List Int) (hi : i < s.1.vcount_.length) :
    CtorStep i ((cand_edge g s.1.rank_ s.1.erange_ e1 m).length : Int) s.1
        (ctor_m_body g i e1 m s).1 ∧
      (g.get_owner (g.get_edge s.1.rank_ m) ≠ s.1.rank_ →
        g.get_owner (g.get_edge s.1.rank_ m) ∈ (ctor_m_body g i e1 m s).1.targets_) := by
  unfold ctor_m_body
  by_cases hg : g.get_owner (g.get_edge s.1.rank_ m) ≠ s.1.rank_
  · simp only [if_pos hg]
    have hpre : ∀ e' : TriangulateAggrBufferedHashPush, CtorStep i 0 s.1 e' →
        e'.vcount_ = s.1.vcount_ → g.get_owner (g.get_edge s.1.rank_ m) ∈ e'.targets_ →
        CtorStep i ((cand_edge g s.1.rank_ s.1.erange_ e1 m).length : Int) s.1
          (if m < e1 - 1 then
            ctor_ghost_loop g i (g.get_owner (g.get_edge s.1.rank_ m))
              (g.get_edge s.1.rank_ m) (e1 - (m + 1)) (m + 1) (e', s.2)
          else (e', s.2)).1 ∧
        (g.get_owner (g.get_edge s.1.rank_ m) ≠ s.1.rank_ →
          g.get_owner (g.get_edge s.1.rank_ m) ∈
            (if m < e1 - 1 then
              ctor_ghost_loop g i (g.get_owner (g.get_edge s.1.rank_ m))
                (g.get_edge s.1.rank_ m) (e1 - (m + 1)) (m + 1) (e', s.2)
            else (e', s.2)).1.targets_) := by
      intro e' hstep hvc hmem
      by_cases hl : m < e1 - 1
      · rw [if_pos hl]
        obtain ⟨k1, k2⟩ := ctor_ghost_loop_step g i (g.get_owner (g.get_edge s.1.rank_ m))
          (g.get_edge s.1.rank_ m) (e1 - (m + 1)) (m + 1) (e', s.2)
          (by show i < e'.vcount_.length; rw [hvc]; exact hi)
        refine ⟨(hstep.step_trans k1).cast ?_, fun _ => by rw [k2]; exact hmem⟩
        show (0 : Int) + ((cand_n g e'.rank_ e'.erange_ _ _ _).length : Int) = _
        rw [hstep.1, hstep.2.1]
        unfold cand_edge
        rw [if_pos hg]
        ring
      · rw [if_neg hl]
        refine ⟨hstep.cast ?_, fun _ => hmem⟩
        rw [cand_edge_last g _ _ e1 m (by omega)]
        rfl
    by_cases ht : g.get_owner (g.get_edge s.1.rank_ m) ∈ s.1.targets_
    · simp only [if_pos ht]
      exact hpre s.1 (CtorStep.step_refl i s.1) rfl ht
    · simp only [if_neg ht]
      exact hpre _ ⟨rfl, rfl, rfl, rfl, rfl, fun j => by simp, rfl,
        fun x hx => List.mem_append_left _ hx⟩ rfl (List.mem_append_right _ (List.mem_singleton_self _))
  · simp only [if_neg hg]
    have hc : cand_edge g s.1.rank_ s.1.erange_ e1 m = [] := by
      unfold cand_edge
      rw [if_neg hg]
    rw [hc]
    refine ⟨?_, fun h => absurd h hg⟩
    by_cases hl : m < e1 - 1
    · rw [if_pos hl]
      obtain ⟨nt, h⟩ := ctor_local_loop_frame g (g.get_edge s.1.rank_ m) (e1 - (m + 1)) (m + 1) s.1
      show CtorStep i _ s.1 (ctor_local_loop g (g.get_edge s.1.rank_ m) (e1 - (m + 1)) (m + 1) s.1)
      rw [h]
      exact ⟨rfl, rfl, rfl, rfl, rfl, fun j => by simp, rfl, fun _ hx => hx⟩
    · rw [if_neg hl]
      exact CtorStep.step_refl i s.1

theorem cand_total_succ (g : Graph) (rank : Nat) (erange : List Nat) (e1 fuel m : Nat) :
    cand_total g rank erange e1 (fuel + 1) m =
      (cand_edge g rank erange e1 m).length + cand_total g rank erange e1 fuel (m + 1) := by
  unfold cand_total
  rw [List.range'_succ, List.map_cons, List.sum_cons]

/-- The loop over `m` of the constructor. -/
theorem ctor_m_loop_step (g : Graph) (i e1 : Nat) :
    ∀ (fuel m : Nat) (s : TriangulateAggrBufferedHashPush × List Int),
      i < s.1.vcount_.length →
      CtorStep i ((cand_total g s.1.rank_ s.1.erange_ e1 fuel m : Nat) : Int) s.1
          (ctor_m_loop g i e1 fuel m s).1 ∧
        ∀ m', m ≤ m' → m' < m + fuel → g.get_owner (g.get_edge s.1.rank_ m') ≠ s.1.rank_ →
          g.get_owner (g.get_edge s.1.rank_ m') ∈ (ctor_m_loop g i e1 fuel m s).1.targets_ := by
  intro fuel
  induction fuel with
  | zero =>
    intro m s _
    refine ⟨CtorStep.step_refl i s.1, ?_⟩
    intro m' h1 h2
    omega
  | succ f ih =>
    intro m s hi
    obtain ⟨b1, b2⟩ := ctor_m_body_step g i e1 m s hi
    obtain ⟨k1, k2⟩ := ih (m + 1) (ctor_m_body g i e1 m s) (by rw [b1.2.2.2.2.1]; exact hi)
    rw [b1.1, b1.2.1] at k1
    rw [b1.1] at k2
    rw [ctor_m_loop]
    refine ⟨(b1.step_trans k1).cast ?_, ?_⟩
    · rw [cand_total_succ]
      push_cast
      rfl
    · intro m' h1 h2 hg
      by_cases hm : m' = m
      · subst hm
        exact k1.2.2.2.2.2.2.2 _ (b2 hg)
      · exact k2 m' (by omega) (by omega) hg

/-- The body of the loop over the local vertices of the constructor. -/
theorem ctor_i_body_step (g : Graph) (i : Nat)
    (s : TriangulateAggrBufferedHashPush × List Int) (hi : i < s.1.vcount_.length) :
    CtorStep i ((cand_total g s.1.rank_ s.1.erange_ (g.edge_range s.1.rank_ i).2
          ((g.edge_range s.1.rank_ i).2 - (g.edge_range s.1.rank_ i).1)
          (g.edge_range s.1.rank_ i).1 : Nat) : Int) s.1 (ctor_i_body g i s).1 ∧
      ∀ m', (g.edge_range s.1.rank_ i).1 ≤ m' → m' + 1 < (g.edge_range s.1.rank_ i).2 →
        g.get_owner (g.get_edge s.1.rank_ m') ≠ s.1.rank_ →
        g.get_owner (g.get_edge s.1.rank_ m') ∈ (ctor_i_body g i s).1.targets_ := by
  unfold ctor_i_body
  by_cases h1 : (g.edge_range s.1.rank_ i).1 + 1 = (g.edge_range s.1.rank_ i).2
  · simp only [if_pos h1]
    refine ⟨(CtorStep.step_refl i s.1).cast ?_, ?_⟩
    · have hf : (g.edge_range s.1.rank_ i).2 - (g.edge_range s.1.rank_ i).1 = 0 + 1 := by omega
      rw [hf, cand_total_succ, cand_edge_last g _ _ _ _ (by omega)]
      rfl
    · intro m' h2 h3
      omega
  · simp only [if_neg h1]
    obtain ⟨k1, k2⟩ := ctor_m_loop_step g i (g.edge_range s.1.rank_ i).2
      ((g.edge_range s.1.rank_ i).2 - (g.edge_range s.1.rank_ i).1)
      (g.edge_range s.1.rank_ i).1 s hi
    exact ⟨k1, fun m' h2 h3 hg => k2 m' h2 (by omega) hg⟩

end TriangulateAggrBufferedHashPush

theorem list_getD_replicate_self {α : Type} (n i : Nat) (a : α) :
    (List.replicate n a).getD i a = a := by
  rw [List.getD_eq_getElem?_getD]
  by_cases h : i < n
  · rw [List.getElem?_replicate_of_lt h]
    rfl
  · rw [List.getElem?_eq_none (by rw [List.length_replicate]; omega)]
    rfl

theorem list_lookup_lt (P o : Nat) : ∀ (l : List (Nat × Nat)), (∀ x ∈ l, x.2 < P) →
    (∃ x ∈ l, x.1 = o) → (l.lookup o).getD 0 < P := by
  intro l
  induction l with
  | nil =>
    intro _ h
    obtain ⟨x, hx, _⟩ := h
    cases hx
  | cons a t ih =>
    intro hb hex
    obtain ⟨k, b⟩ := a
    rw [List.lookup_cons]
    by_cases hk : o = k
    · subst hk
      simp only [beq_self_eq_true]
      exact hb (o, b) (List.mem_cons_self _ _)
    · have : (o == k) = false := by simpa using hk
      rw [this]
      apply ih (fun x hx => hb x (List.mem_cons_of_mem _ hx))
      obtain ⟨x, hx, hxo⟩ := hex
      rcases List.mem_cons.1 hx with h | h
      · subst h
        exact absurd hxo.symm hk
      · exact ⟨x, h, hxo⟩

namespace Graph

theorem edge_range_le_total (g : Graph) (rank i : Nat) :
    (g.edge_range rank i).2 ≤ (g.edge_list rank).length := by
  unfold edge_range edge_list
  simp only
  rw [List.length_flatten]
  generalize g.local_adj rank = L
  induction L generalizing i with
  | nil => simp
  | cons l t ih =>
    cases i with
    | zero => simp
    | succ i =>
      have := ih i
      simp only [List.take_succ_cons, List.map_cons, List.sum_cons, List.getD_cons_succ]
      omega

end Graph

namespace LView

/-- A view with empty log, idle slots, no bookmarks and all edges active satisfies
the invariant, provided its counters hold the numbers of candidate pairs. -/
theorem inv_of_init (g : Graph) (v : LView) (P A : Nat)
    (hlen : v.vcount_.length = g.get_lnv v.rank_)
    (hpm : v.prev_m_ = List.replicate P (-1)) (hpk : v.prev_k_ = List.replicate P (-1))
    (hctr : v.sbuf_ctr_ = List.replicate P 0) (hst : v.stat_ = List.replicate P '0')
    (hact : v.active_ = List.replicate A true)
    (hA : ∀ i < g.get_lnv v.rank_, ∀ m, in_range g v i m → m < A)
    (hbuf : v.bufsize_ ≠ 0) (hins : v.inserted_ = [])
    (hslot : ∀ i < g.get_lnv v.rank_, ∀ m, in_range g v i m →
      m + 1 < (g.edge_range v.rank_ i).2 → g.get_owner (g.get_edge v.rank_ m) ≠ v.rank_ →
      slot g v m < P)
    (hvc : ∀ i < g.get_lnv v.rank_, v.vcount_.getD i 0 =
      ((cand_total g v.rank_ v.erange_ (g.edge_range v.rank_ i).2
        ((g.edge_range v.rank_ i).2 - (g.edge_range v.rank_ i).1)
        (g.edge_range v.rank_ i).1 : Nat) : Int))
    (hout : v.out_nghosts_ = v.vcount_.sum) : Inv g v := by
  have hdone : ∀ m, v.done m = [] := by
    intro m
    unfold done
    rw [hins]
    rfl
  have hpmv : ∀ p, v.prev_m_.getD p (-1) = -1 := by
    intro p
    rw [hpm]
    exact list_getD_replicate_self P p (-1)
  have hpkv : ∀ p, v.prev_k_.getD p (-1) = -1 := by
    intro p
    rw [hpk]
    exact list_getD_replicate_self P p (-1)
  have hactv : ∀ m, v.active_.getD m true = true := by
    intro m
    rw [hact]
    exact list_getD_replicate_self A m true
  have hslen : v.stat_.length = P := by rw [hst, List.length_replicate]
  exact
    { len_vcount := hlen
      len_pm := by rw [hpm, hst, List.length_replicate, List.length_replicate]
      len_pk := by rw [hpk, hst, List.length_replicate, List.length_replicate]
      len_ctr := by rw [hctr, hst, List.length_replicate, List.length_replicate]
      len_active := by
        intro i hi m hr
        rw [hact, List.length_replicate]
        exact hA i hi m hr
      buf_ne := hbuf
      stat_char := by
        intro p _
        left
        rw [hst]
        exact list_getD_replicate_self P p '0'
      slot_lt := by
        intro i hi m hr hl hg
        rw [hslen]
        exact hslot i hi m hr hl hg
      d0 := by
        intro x hx
        rw [hins] at hx
        cases hx
      d1 := by
        intro i hi m hr
        rw [hdone m]
        symm
        rw [List.filter_eq_nil_iff]
        intro n _
        unfold before
        rw [hpmv]
        have h1 : ¬ ((m : Int) < -1) := by omega
        have h2 : ¬ ((m : Int) = -1) := by omega
        rw [decide_eq_false h1, decide_eq_false h2]
        simp only [Bool.false_and, Bool.or_self, Bool.false_eq_true, not_false_eq_true]
      d2 := fun p _ h => absurd (hpkv p) h
      d3 := by
        intro p _ _
        rw [hctr, list_getD_replicate_self P p (0 : Int)]
        exact fun e => hbuf e.symm
      d4 := by
        intro i hi
        rw [hvc i hi]
        congr 1
        unfold pending cand_total
        congr 1
        apply List.map_congr_left
        intro m _
        rw [hdone m]
        rfl
      d4o := hout
      d5 := by
        intro p _ _ m hm
        rw [hpmv] at hm
        omega
      d6 := by
        intro i _ m _ _ h
        rw [hactv m] at h
        cases h
      d7 := by
        intro p
        rw [hins]
        exact List.Pairwise.nil }

end LView

namespace TriangulateAggrBufferedHashPush

/-- State of the counting pass of the constructor after the first `k` local
vertices. -/
theorem ctor_fold_spec (g : Graph) (rank : Nat) : ∀ k ≤ g.get_lnv rank,
    ∀ r, r = ((List.range k).foldl (fun s i => ctor_i_body g i s)
        (ctor_init g rank, List.replicate g.get_size 0)).1 →
      r.rank_ = rank ∧ r.erange_ = erange_allreduce g ∧
      r.active_ = List.replicate (g.edge_list rank).length true ∧ r.inserted_ = [] ∧
      r.vcount_.length = g.get_lnv rank ∧
      (∀ j, r.vcount_.getD j 0 = if j < k then
        ((cand_total g rank (erange_allreduce g) (g.edge_range rank j).2
          ((g.edge_range rank j).2 - (g.edge_range rank j).1)
          (g.edge_range rank j).1 : Nat) : Int) else 0) ∧
      r.out_nghosts_ = r.vcount_.sum ∧
      (∀ i < k, ∀ m', (g.edge_range rank i).1 ≤ m' → m' + 1 < (g.edge_range rank i).2 →
        g.get_owner (g.get_edge rank m') ≠ rank →
        g.get_owner (g.get_edge rank m') ∈ r.targets_) := by
  intro k
  induction k with
  | zero =>
    intro _ r hr
    subst hr
    refine ⟨rfl, rfl, rfl, rfl, ?_, ?_, ?_, fun i hi => by omega⟩
    · show (List.replicate (g.get_lnv rank) (0 : Int)).length = _
      rw [List.length_replicate]
    · intro j
      rw [if_neg (by omega)]
      show (List.replicate (g.get_lnv rank) (0 : Int)).getD j 0 = 0
      exact list_getD_replicate_self _ j 0
    · show (0 : Int) = (List.replicate (g.get_lnv rank) (0 : Int)).sum
      simp
  | succ k ih =>
    intro hk r hr
    rw [List.range_succ, List.foldl_append, List.foldl_cons, List.foldl_nil] at hr
    obtain ⟨hrk, her, hact, hins, hlen, hvc, hout, htg⟩ := ih (by omega) _ rfl
    generalize (List.range k).foldl (fun s i => ctor_i_body g i s)
      (ctor_init g rank, List.replicate g.get_size 0) = s at hr hrk her hact hins hlen hvc hout htg
    subst hr
    obtain ⟨t1, t2⟩ := ctor_i_body_step g k s (by rw [hlen]; omega)
    rw [hrk, her] at t1
    rw [hrk] at t2
    obtain ⟨a1, a2, a3, a4, a5, a6, a7, a8⟩ := t1
    refine ⟨a1.trans hrk, a2.trans her, a3.trans hact, a4.trans hins, a5.trans hlen, ?_, ?_, ?_⟩
    · intro j
      rw [a6 j, hvc j]
      by_cases hj : j = k
      · subst hj
        rw [if_neg (by omega), if_pos rfl, if_pos (by omega), zero_add]
      · rw [if_neg hj, add_zero]
        by_cases hjk : j < k
        · rw [if_pos hjk, if_pos (by omega)]
        · rw [if_neg hjk, if_neg (by omega)]
    · omega
    · intro i hi m' h1 h2 hg
      by_cases hik : i = k
      · subst hik
        exact t2 m' h1 h2 hg
      · exact a8 _ (htg i (by omega) m' h1 h2 hg)

end TriangulateAggrBufferedHashPush

namespace TriangulateAggrBufferedHashPush

/-- The object that the constructor returns satisfies the invariant of the
enumerator. -/
theorem ctor_view_inv (g : Graph) (F : FloatOps) (hint : Int) (rank : Nat)
    (e0 : TriangulateAggrBufferedHashPush) (hc : ctor g F hint rank = some e0) :
    LView.Inv g e0.view := by
  unfold ctor at hc
  simp only at hc
  cases hbf : Bloomfilter.mk1 F (ctor_bufsize g hint) with
  | none =>
    rw [hbf] at hc
    cases hc
  | some bf =>
    rw [hbf] at hc
    simp only [Option.some.injEq] at hc
    obtain ⟨hrk, her, hact, hins, hlen, hvc, hout, htg⟩ :=
      ctor_fold_spec g rank (g.get_lnv rank) (le_refl _) (ctor_pass g rank).1 rfl
    have hbuf : ctor_bufsize g hint ≠ 0 := by
      intro h
      rw [h] at hbf
      unfold Bloomfilter.mk1 at hbf
      rw [if_pos (le_refl _)] at hbf
      cases hbf
    have hv1 : e0.view.rank_ = rank := by rw [← hc]; exact hrk
    have hv2 : e0.view.erange_ = erange_allreduce g := by rw [← hc]; exact her
    have hv3 : e0.view.vcount_ = (ctor_pass g rank).1.vcount_ := by rw [← hc]; rfl
    have hv4 : e0.view.out_nghosts_ = (ctor_pass g rank).1.out_nghosts_ := by rw [← hc]; rfl
    have hv5 : e0.view.pindex_ = (List.range (ctor_pass g rank).1.targets_.length).map
        (fun i => ((ctor_pass g rank).1.targets_.getD i 0, i)) := by rw [← hc]; rfl
    apply LView.inv_of_init g e0.view (ctor_pass g rank).1.targets_.length
      (g.edge_list rank).length
    · rw [hv1, hv3]; exact hlen
    · rw [← hc]; rfl
    · rw [← hc]; rfl
    · rw [← hc]; rfl
    · rw [← hc]; rfl
    · rw [← hc]; exact hact
    · intro i _ m hr
      have h2 := hr.2
      rw [hv1] at h2
      have := g.edge_range_le_total rank i
      omega
    · rw [← hc]; exact hbuf
    · rw [← hc]; exact hins
    · intro i hi m hr hl hg
      rw [hv1] at hi hl hg
      have h1 := hr.1
      rw [hv1] at h1
      have hmem := htg i hi m h1 hl hg
      unfold LView.slot LView.pindex
      rw [hv1, hv5]
      apply list_lookup_lt
      · intro x hx
        obtain ⟨j, hj, rfl⟩ := List.mem_map.1 hx
        exact List.mem_range.1 hj
      · obtain ⟨n, hn, hget⟩ := List.getElem_of_mem hmem
        refine ⟨_, List.mem_map.2 ⟨n, List.mem_range.2 hn, rfl⟩, ?_⟩
        show (ctor_pass g rank).1.targets_.getD n 0 = _
        rw [List.getD_eq_getElem _ _ hn]
        exact hget
    · intro i hi
      rw [hv1] at hi
      rw [hv1, hv2, hv3, hvc i, if_pos hi]
    · rw [hv4, hv3]; exact hout

end TriangulateAggrBufferedHashPush

/-! ## Consequences of the invariant -/

theorem list_pairwise_of_filter {R : Nat × Nat × Nat → Nat × Nat × Nat → Prop} :
    ∀ (l : List (Nat × Nat × Nat)),
      (∀ p, (l.filter (fun x => decide (x.1 = p))).Pairwise R) →
      l.Pairwise (fun x y => x.1 = y.1 → R x y) := by
  intro l
  induction l with
  | nil => intro _; exact List.Pairwise.nil
  | cons a t ih =>
    intro h
    rw [List.pairwise_cons]
    constructor
    · intro y hy hay
      have := h a.1
      rw [List.filter_cons_of_pos (by simp), List.pairwise_cons] at this
      exact this.1 y (List.mem_filter.2 ⟨hy, by simpa using hay.symm⟩)
    · apply ih
      intro p
      have := h p
      by_cases hp : a.1 = p
      · rw [List.filter_cons_of_pos (by simpa using hp), List.pairwise_cons] at this
        exact this.2
      · rw [List.filter_cons_of_neg (by simpa using hp)] at this
        exact this

theorem list_int_sum_zero : ∀ (l : List Int), (∀ x ∈ l, 0 ≤ x) → l.sum = 0 → ∀ x ∈ l, x = 0 := by
  intro l
  induction l with
  | nil => intro _ _ x hx; cases hx
  | cons a t ih =>
    intro hnn hs x hx
    rw [List.sum_cons] at hs
    have ha := hnn a (List.mem_cons_self _ _)
    have ht : 0 ≤ t.sum := List.sum_nonneg (fun y hy => hnn y (List.mem_cons_of_mem _ hy))
    rcases List.mem_cons.1 hx with h | h
    · rw [h]; omega
    · exact ih (fun y hy => hnn y (List.mem_cons_of_mem _ hy)) (by omega) x h

namespace LView

theorem mem_done (v : LView) (m n : Nat) : n ∈ v.done m ↔ ∃ p, (p, m, n) ∈ v.inserted_ := by
  unfold done
  rw [List.mem_map]
  constructor
  · rintro ⟨x, hx, rfl⟩
    obtain ⟨h1, h2⟩ := List.mem_filter.1 hx
    have h3 : x.2.1 = m := by simpa using h2
    subst h3
    exact ⟨x.1, h1⟩
  · rintro ⟨p, hp⟩
    exact ⟨(p, m, n), List.mem_filter.2 ⟨hp, by simp⟩, rfl⟩

/-- No pair is in the log twice. -/
theorem Inv.nodup {g : Graph} {v : LView} (h : Inv g v) : v.inserted_.Nodup := by
  have := list_pairwise_of_filter v.inserted_ h.d7
  unfold List.Nodup
  refine this.imp ?_
  intro a b hab heq
  subst heq
  rcases hab rfl with h1 | h1
  · exact absurd h1 (lt_irrefl _)
  · exact absurd h1.2 (lt_irrefl _)

/-- Every entry of the log is a candidate pair of its slot, before the bookmark. -/
theorem Inv.mem_candidate {g : Graph} {v : LView} (h : Inv g v) (x : Nat × Nat × Nat)
    (hx : x ∈ v.inserted_) :
    ∃ i < g.get_lnv v.rank_, in_range g v i x.2.1 ∧ x.1 = slot g v x.2.1 ∧
      x.2.2 ∈ cands g v i x.2.1 ∧ v.before (slot g v x.2.1) x.2.1 x.2.2 = true := by
  obtain ⟨i, hi, hr, hs⟩ := h.d0 x hx
  have hd : x.2.2 ∈ v.done x.2.1 := (mem_done v _ _).2 ⟨x.1, hx⟩
  rw [h.d1 i hi _ hr] at hd
  obtain ⟨h1, h2⟩ := List.mem_filter.1 hd
  exact ⟨i, hi, hr, hs, h1, h2⟩

/-- Every candidate pair before the bookmark of its slot is in the log. -/
theorem Inv.candidate_mem {g : Graph} {v : LView} (h : Inv g v) (i m n : Nat)
    (hi : i < g.get_lnv v.rank_) (hr : in_range g v i m) (hn : n ∈ cands g v i m)
    (hb : v.before (slot g v m) m n = true) : (slot g v m, m, n) ∈ v.inserted_ := by
  have hd : n ∈ v.done m := by
    rw [h.d1 i hi m hr]
    exact List.mem_filter.2 ⟨hn, hb⟩
  obtain ⟨p, hp⟩ := (mem_done v m n).1 hd
  obtain ⟨_, _, _, hs⟩ := h.d0 _ hp
  have hs' : p = slot g v m := hs
  rw [← hs']
  exact hp

/-- When `out_nghosts_` is zero every candidate pair is in the log. -/
theorem Inv.complete {g : Graph} {v : LView} (h : Inv g v) (hout : v.out_nghosts_ = 0)
    (i m n : Nat) (hi : i < g.get_lnv v.rank_) (hr : in_range g v i m)
    (hn : n ∈ cands g v i m) : (slot g v m, m, n) ∈ v.inserted_ := by
  have hsum : v.vcount_.sum = 0 := by rw [← h.d4o]; exact hout
  have hil : i < v.vcount_.length := by rw [h.len_vcount]; exact hi
  have hnn : ∀ x ∈ v.vcount_, 0 ≤ x := by
    intro x hx
    obtain ⟨j, hj, hget⟩ := List.getElem_of_mem hx
    have := h.d4 j (by rw [← h.len_vcount]; exact hj)
    rw [List.getD_eq_getElem _ _ hj, hget] at this
    rw [this]
    exact Int.ofNat_nonneg _
  have hz := list_int_sum_zero v.vcount_ hnn hsum (v.vcount_.getD i 0)
    (by rw [List.getD_eq_getElem _ _ hil]; exact List.getElem_mem _)
  have hp : pending g v i = 0 := by
    have := h.d4 i hi
    rw [hz] at this
    omega
  exact h.candidate_mem i m n hi hr hn (pending_zero g v i h hi hp m hr n hn)

end LView

namespace LView

theorem getD_ne_default_lt (l : List Int) (p : Nat) (d : Int) (h : l.getD p d ≠ d) :
    p < l.length := by
  by_contra hlt
  apply h
  rw [List.getD_eq_getElem?_getD, List.getElem?_eq_none (by omega)]
  rfl

/-- An entry that a later view has and the earlier view lacks is not before the
bookmark of the earlier view. -/
theorem new_entry_not_before (g : Graph) (v v' : LView) (hv : Inv g v) (hv' : Inv g v')
    (hs : SameStatic v v') (x : Nat × Nat × Nat) (hx : x ∈ v'.inserted_)
    (hnx : x ∉ v.inserted_) :
    ∃ i < g.get_lnv v.rank_, in_range g v i x.2.1 ∧ x.1 = slot g v x.2.1 ∧
      x.2.2 ∈ cands g v i x.2.1 ∧ v'.before (slot g v x.2.1) x.2.1 x.2.2 = true ∧
      v.before (slot g v x.2.1) x.2.1 x.2.2 = false := by
  obtain ⟨i, hi, hr, hsl, hc, hb⟩ := hv'.mem_candidate x hx
  rw [hs.1] at hi
  rw [hs.in_range] at hr
  rw [hs.slot] at hsl hb
  rw [hs.cands] at hc
  refine ⟨i, hi, hr, hsl, hc, hb, ?_⟩
  cases hbv : v.before (slot g v x.2.1) x.2.1 x.2.2
  · rfl
  · have := hv.candidate_mem i x.2.1 x.2.2 hi hr hc hbv
    rw [← hsl] at this
    exact absurd this hnx

/-- After a pause at a pair, the next entry of the slot is that pair. -/
theorem next_pair (g : Graph) (v v' : LView) (hv : Inv g v) (hv' : Inv g v')
    (hext : Ext v v') (p : Nat) (hk : v.prev_k_.getD p (-1) ≠ -1) :
    (v'.inserted_.drop v.inserted_.length).filter (fun x => decide (x.1 = p)) = [] ∨
      ((v'.inserted_.drop v.inserted_.length).filter (fun x => decide (x.1 = p))).head? =
        some (p, (v.prev_m_.getD p (-1)).toNat, (v.prev_k_.getD p (-1)).toNat) := by
  obtain ⟨hs, new, hnew⟩ := hext
  have hdrop : v'.inserted_.drop v.inserted_.length = new := by
    rw [hnew, List.drop_left]
  rw [hdrop]
  have hp : p < v.stat_.length := by
    rw [← hv.len_pk]
    exact getD_ne_default_lt _ _ _ hk
  obtain ⟨i0, hi0, m0, n0, b1, b2, b3, b4, b5, b6⟩ := hv.d2 p hp hk
  rw [b1, b2]
  cases hnp : new.filter (fun x => decide (x.1 = p)) with
  | nil => left; rfl
  | cons y rest =>
    right
    have hy : y ∈ new.filter (fun x => decide (x.1 = p)) := by rw [hnp]; exact List.mem_cons_self _ _
    obtain ⟨hy1, hy2⟩ := List.mem_filter.1 hy
    have hy2' : y.1 = p := by simpa using hy2
    have hnd := hv'.nodup
    rw [hnew] at hnd
    have hdisj := (List.nodup_append.1 hnd).2.2
    have hyv' : y ∈ v'.inserted_ := by rw [hnew]; exact List.mem_append_right _ hy1
    have hynv : y ∉ v.inserted_ := fun h => hdisj h hy1
    obtain ⟨i1, hi1, hr1, hsl1, hc1, hb1, hf1⟩ := new_entry_not_before g v v' hv hv' hs y hyv' hynv
    rw [← hsl1, hy2'] at hb1 hf1
    have hlex : ¬ ((y.2.1 : Int) < m0) ∧ ¬ ((y.2.1 : Int) = m0 ∧ (y.2.2 : Int) < n0) := by
      unfold before at hf1
      rw [b1, b2] at hf1
      have hne : ¬ ((n0 : Int) = -1) := by omega
      rw [decide_eq_false hne] at hf1
      simp only [Bool.false_or, Bool.or_eq_false_iff, Bool.and_eq_false_imp,
        decide_eq_false_iff_not, decide_eq_true_eq] at hf1
      exact ⟨hf1.1, fun h => hf1.2 h.1 h.2⟩
    by_cases heq : y.2.1 = m0 ∧ y.2.2 = n0
    · have : y = (p, m0, n0) := by
        obtain ⟨y1, y2, y3⟩ := y
        simp only at hy2' heq
        rw [hy2', heq.1, heq.2]
      rw [this]
      simp
    · exfalso
      have hb0 : v'.before p m0 n0 = true := by
        unfold before at hb1 ⊢
        simp only [Bool.or_eq_true, Bool.and_eq_true, decide_eq_true_eq] at hb1 ⊢
        omega
      have hmem0 : (p, m0, n0) ∈ v'.inserted_ := by
        have := hv'.candidate_mem i0 m0 n0 (by rw [hs.1]; exact hi0)
          ((hs.in_range g i0 m0).2 b3) (by rw [hs.cands]; exact b6)
          (by rw [hs.slot, b4]; exact hb0)
        rw [hs.slot, b4] at this
        exact this
      have hnot0 : (p, m0, n0) ∉ v.inserted_ := by
        intro h
        obtain ⟨_, _, _, _, _, hb⟩ := hv.mem_candidate _ h
        simp only at hb
        rw [b4] at hb
        unfold before at hb
        rw [b1, b2] at hb
        simp only [Bool.or_eq_true, Bool.and_eq_true, decide_eq_true_eq] at hb
        omega
      have hin : (p, m0, n0) ∈ new.filter (fun x => decide (x.1 = p)) := by
        rw [hnew] at hmem0
        rcases List.mem_append.1 hmem0 with h | h
        · exact absurd h hnot0
        · exact List.mem_filter.2 ⟨h, by simp⟩
      rw [hnp] at hin
      have hrest : (p, m0, n0) ∈ rest := by
        rcases List.mem_cons.1 hin with h | h
        · exfalso
          apply heq
          rw [← h]
          exact ⟨rfl, rfl⟩
        · exact h
      have hpw := hv'.d7 p
      rw [hnew, List.filter_append, hnp, List.pairwise_append] at hpw
      have := (List.pairwise_cons.1 hpw.2.1).1 _ hrest
      unfold entry_lt at this
      simp only at this
      omega

/-- After a slot was left with a closed bookmark `(m, -1)`, every later entry of
the slot belongs to a later source edge. -/
theorem next_edge (g : Graph) (v v' : LView) (hv : Inv g v) (hv' : Inv g v')
    (hext : Ext v v') (p : Nat) (hk : v.prev_k_.getD p (-1) = -1) :
    ∀ x ∈ v'.inserted_.drop v.inserted_.length, x.1 = p →
      v.prev_m_.getD p (-1) < (x.2.1 : Int) := by
  obtain ⟨hs, new, hnew⟩ := hext
  have hdrop : v'.inserted_.drop v.inserted_.length = new := by
    rw [hnew, List.drop_left]
  rw [hdrop]
  intro x hx hxp
  have hnd := hv'.nodup
  rw [hnew] at hnd
  have hdisj := (List.nodup_append.1 hnd).2.2
  have hxv' : x ∈ v'.inserted_ := by rw [hnew]; exact List.mem_append_right _ hx
  have hxnv : x ∉ v.inserted_ := fun h => hdisj h hx
  obtain ⟨i1, hi1, hr1, hsl1, hc1, hb1, hf1⟩ := new_entry_not_before g v v' hv hv' hs x hxv' hxnv
  rw [← hsl1, hxp] at hf1
  unfold before at hf1
  rw [hk] at hf1
  simp only [decide_True, Bool.true_or, Bool.and_true, Bool.or_eq_false_iff,
    decide_eq_false_iff_not] at hf1
  omega

end LView

/-! ## The enumerator under the driver -/

namespace TriangulateAggrBufferedHashPush

theorem view_process_messages (g : Graph) (H : Hash128) (msg : Option (List Char))
    (e : TriangulateAggrBufferedHashPush) : (process_messages g H msg e).view = e.view := by
  cases msg <;> rfl

theorem view_nbsend_all (e : TriangulateAggrBufferedHashPush) : e.nbsend_all.view = e.view := by
  unfold nbsend_all
  generalize e.targets_ = l
  induction l generalizing e with
  | nil => rfl
  | cons a t ih => rw [List.foldl_cons, ih, view_nbsend]

/-- Every step of `count()` preserves the invariant of the enumerator and extends
the log of inserts. -/
theorem apply_inv (g : Graph) (H : Hash128) (ev : DriverEvent)
    (e : TriangulateAggrBufferedHashPush) (h : LView.Inv g e.view) :
    LView.Inv g (ev.apply g H e).view ∧ LView.Ext e.view (ev.apply g H e).view := by
  cases ev with
  | pass =>
    show LView.Inv g (lookup_edges g H e).view ∧ LView.Ext e.view (lookup_edges g H e).view
    rw [view_lookup_edges]
    exact LView.lookup_edges_inv g e.view h
  | flush =>
    show LView.Inv g e.nbsend_all.view ∧ LView.Ext e.view e.nbsend_all.view
    rw [view_nbsend_all]
    exact ⟨h, LView.Ext.ext_refl _⟩
  | receive payload =>
    show LView.Inv g (process_messages g H (some payload) e).view ∧
      LView.Ext e.view (process_messages g H (some payload) e).view
    rw [view_process_messages]
    exact ⟨h, LView.Ext.ext_refl _⟩
  | recycle inds =>
    show LView.Inv g (recycle inds e).view ∧ LView.Ext e.view (recycle inds e).view
    rw [view_recycle]
    exact LView.recycle_inv g inds e.view h

theorem drive_inv (g : Graph) (H : Hash128) : ∀ (evs : List DriverEvent)
    (e : TriangulateAggrBufferedHashPush), LView.Inv g e.view →
    LView.Inv g (drive g H evs e).view ∧ LView.Ext e.view (drive g H evs e).view := by
  intro evs
  induction evs with
  | nil => intro e h; exact ⟨h, LView.Ext.ext_refl _⟩
  | cons a t ih =>
    intro e h
    obtain ⟨s1, s2⟩ := apply_inv g H a e h
    obtain ⟨t1, t2⟩ := ih _ s1
    exact ⟨t1, s2.ext_trans t2⟩

/-- The work of one iteration of the loop of `count()` is a sequence of driver
steps. -/
theorem count_iter_work_drive (g : Graph) (H : Hash128) (ev : MPIEvents)
    (st : TriangulateAggrBufferedHashPush × CountLocals) :
    ∃ evs, (count_iter_work g H ev st).1 = drive g H evs st.1 := by
  unfold count_iter_work
  simp only
  have h1 : ∃ evs1, (if st.1.out_nghosts_ = 0 then
        (if !st.2.sends_done then (st.1.nbsend_all, true) else (st.1, st.2.sends_done))
      else (lookup_edges g H st.1, st.2.sends_done)).1 = drive g H evs1 st.1 := by
    by_cases ho : st.1.out_nghosts_ = 0
    · rw [if_pos ho]
      by_cases hs : (!st.2.sends_done) = true
      · rw [if_pos hs]; exact ⟨[DriverEvent.flush], rfl⟩
      · rw [if_neg hs]; exact ⟨[], rfl⟩
    · rw [if_neg ho]; exact ⟨[DriverEvent.pass], rfl⟩
  obtain ⟨evs1, he1⟩ := h1
  rw [he1]
  have h2 : ∃ evs2, process_messages g H ev.probe (drive g H evs1 st.1) =
      drive g H evs2 st.1 := by
    cases ev.probe with
    | none => exact ⟨evs1, rfl⟩
    | some payload =>
      refine ⟨evs1 ++ [DriverEvent.receive payload], ?_⟩
      unfold drive
      rw [List.foldl_append]
      rfl
  obtain ⟨evs2, he2⟩ := h2
  rw [he2]
  by_cases ha : (drive g H evs2 st.1).sreq_.any id = true
  · rw [if_pos ha]
    refine ⟨evs2 ++ [DriverEvent.recycle
      (ev.testsome.filter (fun i => (drive g H evs2 st.1).sreq_.getD i false))], ?_⟩
    unfold drive
    rw [List.foldl_append]
    rfl
  · rw [if_neg ha]
    exact ⟨evs2, rfl⟩

theorem ctor_inserted_nil (g : Graph) (F : FloatOps) (hint : Int) (rank : Nat)
    (e0 : TriangulateAggrBufferedHashPush) (hc : ctor g F hint rank = some e0) :
    e0.inserted_ = [] ∧ e0.rank_ = rank := by
  unfold ctor at hc
  simp only at hc
  cases hbf : Bloomfilter.mk1 F (ctor_bufsize g hint) with
  | none =>
    rw [hbf] at hc
    cases hc
  | some bf =>
    rw [hbf] at hc
    simp only [Option.some.injEq] at hc
    obtain ⟨hrk, -, -, hins, -⟩ :=
      ctor_fold_spec g rank (g.get_lnv rank) (le_refl _) (ctor_pass g rank).1 rfl
    rw [← hc]
    exact ⟨hins, hrk⟩

end TriangulateAggrBufferedHashPush

theorem list_countP_eq_one : ∀ (l : List (Nat × Nat × Nat)) (a : Nat × Nat × Nat),
    l.Nodup → a ∈ l → l.countP (fun x => decide (x = a)) = 1 := by
  intro l
  induction l with
  | nil => intro a _ h; cases h
  | cons b t ih =>
    intro a hnd ha
    obtain ⟨hb, ht⟩ := List.nodup_cons.1 hnd
    rcases List.mem_cons.1 ha with h | h
    · subst h
      rw [List.countP_cons_of_pos _ _ (by simp), List.countP_eq_zero.2]
      intro x hx
      simp only [decide_eq_true_eq]
      intro hxa
      rw [hxa] at hx
      exact hb hx
    · have hne : ¬ (b = a) := fun e => hb (by rw [e]; exact h)
      rw [List.countP_cons_of_neg _ _ (by simpa using hne)]
      exact ih a ht h

namespace TriangulateAggrBufferedHashPush

/-- C6: let `e0` be the object that the constructor returns, `s` the object after
any sequence `evs1` of driver steps (passes of `lookup_edges`, flushes, receipts,
recycles of arbitrary slots) and `s'` the object after any further sequence
`evs2`.  At setup the log of inserts is empty and `out_nghosts_` is the sum of
`vcount_`, whose entry `i` is the number of candidate pairs of vertex `i`.  In `s`
no pair has been inserted twice and every inserted pair is a candidate pair put
into the slot of its peer.  If slot `p` of `s` has the bookmark
`(prev_m_, prev_k_)` with `prev_k_ ≠ -1`, the first pair inserted into `p` after
`s`, if any, is that pair; if the bookmark is closed (`prev_k_ = -1`) every pair
inserted into `p` after `s` belongs to a source edge behind `prev_m_`.  When
`out_nghosts_` is `0` in `s`, every candidate pair is in the log exactly once. -/
theorem enumerator_inserts_each_pair_once (g : Graph) (H : Hash128) (F : FloatOps)
    (hint : Int) (rank : Nat) (e0 s s' : TriangulateAggrBufferedHashPush)
    (evs1 evs2 : List DriverEvent)
    (hc : ctor g F hint rank = some e0) (hs : s = drive g H evs1 e0)
    (hs' : s' = drive g H evs2 s) :
    (e0.inserted_ = [] ∧ e0.out_nghosts_ = e0.vcount_.sum ∧
      ∀ i < g.get_lnv rank, e0.vcount_.getD i 0 = (LView.pending g e0.view i : Int)) ∧
    s.inserted_.Nodup ∧
    (∀ x ∈ s.inserted_, ∃ i < g.get_lnv rank, LView.in_range g e0.view i x.2.1 ∧
      x.1 = LView.slot g e0.view x.2.1 ∧ x.2.2 ∈ LView.cands g e0.view i x.2.1) ∧
    (∀ p, s.prev_k_.getD p (-1) ≠ -1 →
      (s'.inserted_.drop s.inserted_.length).filter (fun x => decide (x.1 = p)) = [] ∨
      ((s'.inserted_.drop s.inserted_.length).filter (fun x => decide (x.1 = p))).head? =
        some (p, (s.prev_m_.getD p (-1)).toNat, (s.prev_k_.getD p (-1)).toNat)) ∧
    (∀ p, s.prev_k_.getD p (-1) = -1 →
      ∀ x ∈ s'.inserted_.drop s.inserted_.length, x.1 = p →
        s.prev_m_.getD p (-1) < (x.2.1 : Int)) ∧
    (s.out_nghosts_ = 0 → ∀ i < g.get_lnv rank, ∀ m, LView.in_range g e0.view i m →
      ∀ n ∈ LView.cands g e0.view i m,
        s.inserted_.countP (fun x => decide (x = (LView.slot g e0.view m, m, n))) = 1) := by
  have h0 := ctor_view_inv g F hint rank e0 hc
  obtain ⟨hins, hrk⟩ := ctor_inserted_nil g F hint rank e0 hc
  obtain ⟨i1, x1⟩ := drive_inv g H evs1 e0 h0
  rw [← hs] at i1 x1
  obtain ⟨i2, x2⟩ := drive_inv g H evs2 s i1
  rw [← hs'] at i2 x2
  have hrk' : e0.view.rank_ = rank := hrk
  have hrs : s.view.rank_ = rank := x1.1.1.trans hrk'
  refine ⟨⟨hins, h0.d4o, ?_⟩, i1.nodup, ?_, ?_, ?_, ?_⟩
  · intro i hi
    exact h0.d4 i (by rw [hrk']; exact hi)
  · intro x hx
    obtain ⟨i, hi, hr, hsl, hcd, -⟩ := i1.mem_candidate x hx
    rw [hrs] at hi
    rw [x1.1.in_range] at hr
    rw [x1.1.slot] at hsl
    rw [x1.1.cands] at hcd
    exact ⟨i, hi, hr, hsl, hcd⟩
  · intro p hp
    exact LView.next_pair g s.view s'.view i1 i2 x2 p hp
  · intro p hp
    exact LView.next_edge g s.view s'.view i1 i2 x2 p hp
  · intro hout i hi m hr n hn
    apply list_countP_eq_one _ _ i1.nodup
    have := i1.complete hout i m n (by rw [hrs]; exact hi) ((x1.1.in_range g i m).2 hr)
      (by rw [x1.1.cands]; exact hn)
    rw [x1.1.slot] at this
    exact this

/-- Witness for C6: rank 0 of `graph_k4_split` with buffer hint 2.  The first pass
inserts the pair at positions `(0, 1)` and pauses the slot at `(0, 2)`; after a
recycle the next pass resumes with `(0, 2)`. -/
theorem enumerator_inserts_each_pair_once_witness :
    ctor graph_k4_split ieee_1e_09 2 0 = some engine_k4_rank0 ∧
    (drive graph_k4_split pair_hash [DriverEvent.pass] engine_k4_rank0).prev_k_ = [2] ∧
    (drive graph_k4_split pair_hash [DriverEvent.pass] engine_k4_rank0).inserted_.Nodup ∧
    (∀ p, (drive graph_k4_split pair_hash [DriverEvent.pass] engine_k4_rank0).prev_k_.getD p (-1)
        ≠ -1 →
      ((drive graph_k4_split pair_hash [DriverEvent.recycle [0], DriverEvent.pass]
          (drive graph_k4_split pair_hash [DriverEvent.pass] engine_k4_rank0)).inserted_.drop
        (drive graph_k4_split pair_hash [DriverEvent.pass]
          engine_k4_rank0).inserted_.length).filter (fun x => decide (x.1 = p)) = [] ∨
      (((drive graph_k4_split pair_hash [DriverEvent.recycle [0], DriverEvent.pass]
          (drive graph_k4_split pair_hash [DriverEvent.pass] engine_k4_rank0)).inserted_.drop
        (drive graph_k4_split pair_hash [DriverEvent.pass]
          engine_k4_rank0).inserted_.length).filter (fun x => decide (x.1 = p))).head? =
        some (p,
          ((drive graph_k4_split pair_hash [DriverEvent.pass]
            engine_k4_rank0).prev_m_.getD p (-1)).toNat,
          ((drive graph_k4_split pair_hash [DriverEvent.pass]
            engine_k4_rank0).prev_k_.getD p (-1)).toNat)) :=
  ⟨by decide, by decide,
    (enumerator_inserts_each_pair_once graph_k4_split pair_hash ieee_1e_09 2 0 engine_k4_rank0
      (drive graph_k4_split pair_hash [DriverEvent.pass] engine_k4_rank0)
      (drive graph_k4_split pair_hash [DriverEvent.recycle [0], DriverEvent.pass]
        (drive graph_k4_split pair_hash [DriverEvent.pass] engine_k4_rank0))
      [DriverEvent.pass] [DriverEvent.recycle [0], DriverEvent.pass]
      (by decide) rfl rfl).2.1,
    (enumerator_inserts_each_pair_once graph_k4_split pair_hash ieee_1e_09 2 0 engine_k4_rank0
      (drive graph_k4_split pair_hash [DriverEvent.pass] engine_k4_rank0)
      (drive graph_k4_split pair_hash [DriverEvent.recycle [0], DriverEvent.pass]
        (drive graph_k4_split pair_hash [DriverEvent.pass] engine_k4_rank0))
      [DriverEvent.pass] [DriverEvent.recycle [0], DriverEvent.pass]
      (by decide) rfl rfl).2.2.2.1⟩

end TriangulateAggrBufferedHashPush

/-! ## Owners and the edge-range table -/

theorem list_sorted_countP_le (v : Nat) : ∀ (l : List Nat), l.Pairwise (· ≤ ·) →
    ∀ j < l.length, (l.getD j 0 ≤ v ↔ j < l.countP (fun b => decide (b ≤ v))) := by
  intro l
  induction l with
  | nil => intro _ j hj; simp at hj
  | cons a t ih =>
    intro hs j hj
    obtain ⟨h1, h2⟩ := List.pairwise_cons.1 hs
    by_cases ha : a ≤ v
    · rw [List.countP_cons_of_pos _ _ (by simpa using ha)]
      cases j with
      | zero =>
        rw [List.getD_cons_zero]
        constructor
        · intro _; omega
        · intro _; exact ha
      | succ j =>
        rw [List.getD_cons_succ, ih h2 j (by simp only [List.length_cons] at hj; omega)]
        omega
    · rw [List.countP_cons_of_neg _ _ (by simpa using ha)]
      have hz : t.countP (fun b => decide (b ≤ v)) = 0 := by
        rw [List.countP_eq_zero]
        intro x hx
        have := h1 x hx
        simp only [decide_eq_true_eq]
        omega
      rw [hz]
      constructor
      · intro hle
        exfalso
        cases j with
        | zero => rw [List.getD_cons_zero] at hle; exact ha hle
        | succ j =>
          rw [List.getD_cons_succ] at hle
          have hjt : j < t.length := by simp only [List.length_cons] at hj; omega
          have := h1 (t.getD j 0) (by
            rw [List.getD_eq_getElem _ _ hjt]; exact List.getElem_mem _)
          omega
      · intro h; omega

theorem list_sorted_getD_le : ∀ (l : List Nat), l.Pairwise (· ≤ ·) →
    ∀ j j', j ≤ j' → j' < l.length → l.getD j 0 ≤ l.getD j' 0 := by
  intro l hs j j' hjj hj'
  rcases Nat.eq_or_lt_of_le hjj with h | h
  · rw [h]
  · have h1 : j < l.length := by omega
    rw [List.getD_eq_getElem _ _ h1, List.getD_eq_getElem _ _ hj']
    exact (List.pairwise_iff_getElem.mp hs) j j' h1 hj' h

namespace Graph

theorem Valid.parts_first {g : Graph} (hv : g.Valid) : g.parts.getD 0 0 = 0 := by
  obtain ⟨h1, h2, -⟩ := hv
  cases hp : g.parts with
  | nil => rfl
  | cons a t =>
    rw [hp] at h2
    simp only [List.head?_cons, Option.some.injEq] at h2
    rw [List.getD_cons_zero, h2]

theorem Valid.parts_last {g : Graph} (hv : g.Valid) :
    g.parts.getD (g.parts.length - 1) 0 = g.get_nv := by
  obtain ⟨h1, -, h3, -⟩ := hv
  rw [List.getLast?_eq_getElem?] at h3
  rw [List.getD_eq_getElem?_getD, h3]
  rfl

/-- The owner of a vertex is the process whose block contains it. -/
theorem get_owner_spec (g : Graph) (hv : g.Valid) (v : Nat) (h : v < g.get_nv) :
    g.get_owner v + 1 < g.parts.length ∧ g.parts.getD (g.get_owner v) 0 ≤ v ∧
      v < g.parts.getD (g.get_owner v + 1) 0 := by
  have hs := hv.2.2.2.1
  have hlen := hv.1
  have hkey := list_sorted_countP_le v g.parts hs
  have h0 : 0 < g.parts.countP (fun b => decide (b ≤ v)) := by
    rw [← hkey 0 (by omega), hv.parts_first]
    omega
  have hl : ¬ (g.parts.length - 1 < g.parts.countP (fun b => decide (b ≤ v))) := by
    rw [← hkey _ (by omega), hv.parts_last]
    omega
  unfold get_owner
  refine ⟨by omega, ?_, ?_⟩
  · rw [hkey _ (by omega)]
    omega
  · have := hkey (g.parts.countP (fun b => decide (b ≤ v)) - 1 + 1) (by omega)
    by_contra hc
    have h1 := this.1 (by omega)
    omega

/-- A vertex of the block of process `q` is owned by `q`. -/
theorem get_owner_block (g : Graph) (hv : g.Valid) (q v : Nat) (hq : q + 1 < g.parts.length)
    (h1 : g.parts.getD q 0 ≤ v) (h2 : v < g.parts.getD (q + 1) 0) : g.get_owner v = q := by
  have hs := hv.2.2.2.1
  have hvn : v < g.get_nv := by
    have := list_sorted_getD_le g.parts hs (q + 1) (g.parts.length - 1) (by omega) (by omega)
    rw [hv.parts_last] at this
    omega
  obtain ⟨a1, a2, a3⟩ := g.get_owner_spec hv v hvn
  rcases Nat.lt_trichotomy (g.get_owner v) q with h | h | h
  · have := list_sorted_getD_le g.parts hs (g.get_owner v + 1) q (by omega) (by omega)
    omega
  · exact h
  · have := list_sorted_getD_le g.parts hs (q + 1) (g.get_owner v) (by omega) (by omega)
    omega

/-- Local index of a vertex on its owner. -/
theorem owner_local (g : Graph) (hv : g.Valid) (v : Nat) (h : v < g.get_nv) :
    v - g.get_base (g.get_owner v) < g.get_lnv (g.get_owner v) ∧
      g.get_base (g.get_owner v) + (v - g.get_base (g.get_owner v)) = v := by
  obtain ⟨a1, a2, a3⟩ := g.get_owner_spec hv v h
  unfold get_base get_lnv
  omega

end Graph

theorem list_getD_of_le {α : Type} (l : List α) (i : Nat) (d : α) (h : l.length ≤ i) :
    l.getD i d = d := by
  rw [List.getD_eq_getElem?_getD, List.getElem?_eq_none h]
  rfl

theorem list_getD_map_range (f : Nat → Nat) (n j : Nat) :
    ((List.range n).map f).getD j 0 = if j < n then f j else 0 := by
  by_cases h : j < n
  · rw [if_pos h, List.getD_eq_getElem _ _ (by simpa using h)]
    simp
  · rw [if_neg h]
    exact list_getD_of_le _ _ _ (by simp; omega)

theorem list_sum_map_range_single (f : Nat → Nat) (n r : Nat) (hr : r < n)
    (hz : ∀ q < n, q ≠ r → f q = 0) : ((List.range n).map f).sum = f r := by
  rw [list_sum_map_range]
  rw [Finset.sum_eq_single r]
  · intro b hb hbr
    exact hz b (Finset.mem_range.1 hb) hbr
  · intro h
    exact absurd (Finset.mem_range.2 hr) h

namespace TriangulateAggrBufferedHashPush

/-- The table of process `q` after the first `k` local vertices. -/
theorem erange_fold_spec (g : Graph) (q : Nat) : ∀ (k : Nat),
    ((List.range k).foldl
      (fun t i =>
        let r := g.edge_range q i
        let base := g.get_base q
        (t.set ((i + base) * 2) (g.get_edge q r.1)).set ((i + base) * 2 + 1)
          (g.get_edge q (r.2 - 1)))
      (List.replicate (g.get_nv * 2) 0)).length = g.get_nv * 2 ∧
    ∀ idx, ((List.range k).foldl
      (fun t i =>
        let r := g.edge_range q i
        let base := g.get_base q
        (t.set ((i + base) * 2) (g.get_edge q r.1)).set ((i + base) * 2 + 1)
          (g.get_edge q (r.2 - 1)))
      (List.replicate (g.get_nv * 2) 0)).getD idx 0 = erange_entry g q k idx := by
  intro k
  induction k with
  | zero =>
    refine ⟨by simp, ?_⟩
    intro idx
    rw [List.range_zero, List.foldl_nil]
    unfold erange_entry
    rw [if_neg (by omega)]
    by_cases h : idx < g.get_nv * 2
    · rw [List.getD_eq_getElem _ _ (by simpa using h)]
      simp
    · exact list_getD_of_le _ _ _ (by simp; omega)
  | succ k ih =>
    obtain ⟨hl, hg⟩ := ih
    rw [List.range_succ, List.foldl_append, List.foldl_cons, List.foldl_nil]
    generalize (List.range k).foldl
      (fun t i =>
        let r := g.edge_range q i
        let base := g.get_base q
        (t.set ((i + base) * 2) (g.get_edge q r.1)).set ((i + base) * 2 + 1)
          (g.get_edge q (r.2 - 1)))
      (List.replicate (g.get_nv * 2) 0) = t at hl hg
    simp only
    refine ⟨by rw [List.length_set, List.length_set]; exact hl, ?_⟩
    intro idx
    by_cases h1 : idx = (k + g.get_base q) * 2 + 1
    · by_cases hlt : idx < g.get_nv * 2
      · have e1 : idx / 2 = k + g.get_base q := by omega
        have e2 : ¬ (idx % 2 = 0) := by omega
        have e3 : idx / 2 - g.get_base q = k := by omega
        have hcnd : g.get_base q ≤ idx / 2 ∧ idx / 2 < g.get_base q + (k + 1) ∧
            idx < g.get_nv * 2 := ⟨by omega, by omega, hlt⟩
        unfold erange_entry
        rw [if_pos hcnd, if_neg e2, e3]
        conv_lhs => rw [h1]
        exact list_getD_set_eq _ _ _ _ (by rw [List.length_set, hl]; omega)
      · have hcnd : ¬ (g.get_base q ≤ idx / 2 ∧ idx / 2 < g.get_base q + (k + 1) ∧
            idx < g.get_nv * 2) := fun h => hlt h.2.2
        unfold erange_entry
        rw [if_neg hcnd]
        exact list_getD_of_le _ _ _ (by rw [List.length_set, List.length_set, hl]; omega)
    · rw [list_getD_set_ne _ _ _ _ _ (fun e => h1 e.symm)]
      by_cases h2 : idx = (k + g.get_base q) * 2
      · by_cases hlt : idx < g.get_nv * 2
        · have e1 : idx / 2 = k + g.get_base q := by omega
          have e2 : idx % 2 = 0 := by omega
          have e3 : idx / 2 - g.get_base q = k := by omega
          have hcnd : g.get_base q ≤ idx / 2 ∧ idx / 2 < g.get_base q + (k + 1) ∧
              idx < g.get_nv * 2 := ⟨by omega, by omega, hlt⟩
          unfold erange_entry
          rw [if_pos hcnd, if_pos e2, e3]
          conv_lhs => rw [h2]
          exact list_getD_set_eq _ _ _ _ (by rw [hl]; omega)
        · have hcnd : ¬ (g.get_base q ≤ idx / 2 ∧ idx / 2 < g.get_base q + (k + 1) ∧
              idx < g.get_nv * 2) := fun h => hlt h.2.2
          unfold erange_entry
          rw [if_neg hcnd]
          exact list_getD_of_le _ _ _ (by rw [List.length_set, hl]; omega)
      · rw [list_getD_set_ne _ _ _ _ _ (fun e => h2 e.symm), hg idx]
        unfold erange_entry
        by_cases hc : g.get_base q ≤ idx / 2 ∧ idx / 2 < g.get_base q + k ∧ idx < g.get_nv * 2
        · have hc' : g.get_base q ≤ idx / 2 ∧ idx / 2 < g.get_base q + (k + 1) ∧
              idx < g.get_nv * 2 := ⟨hc.1, by omega, hc.2.2⟩
          rw [if_pos hc, if_pos hc']
        · have hc' : ¬ (g.get_base q ≤ idx / 2 ∧ idx / 2 < g.get_base q + (k + 1) ∧
              idx < g.get_nv * 2) := by
            intro h
            apply hc
            exact ⟨h.1, by omega, h.2.2⟩
          rw [if_neg hc, if_neg hc']

theorem erange_local_getD (g : Graph) (q idx : Nat) :
    (erange_local g q).getD idx 0 = erange_entry g q (g.get_lnv q) idx :=
  (erange_fold_spec g q (g.get_lnv q)).2 idx

/-- The rows of vertex `u` in the table after the all-reduce are the first and the
last tail of `u` as stored by its owner. -/
theorem erange_allreduce_getD (g : Graph) (hv : g.Valid) (u : Nat) (hu : u < g.get_nv) :
    (erange_allreduce g).getD (u * 2) 0 =
        g.get_edge (g.get_owner u)
          (g.edge_range (g.get_owner u) (u - g.get_base (g.get_owner u))).1 ∧
      (erange_allreduce g).getD (u * 2 + 1) 0 =
        g.get_edge (g.get_owner u)
          ((g.edge_range (g.get_owner u) (u - g.get_base (g.get_owner u))).2 - 1) := by
  obtain ⟨a1, a2, a3⟩ := g.get_owner_spec hv u hu
  have hsz : g.get_owner u < g.get_size := by unfold Graph.get_size; omega
  have hother : ∀ q < g.get_size, q ≠ g.get_owner u → ∀ idx, idx / 2 = u →
      erange_entry g q (g.get_lnv q) idx = 0 := by
    intro q hq hne idx hidx
    unfold erange_entry
    rw [if_neg]
    intro hc
    apply hne
    symm
    unfold Graph.get_size at hq
    apply g.get_owner_block hv q u (by omega)
    · have := hc.1
      unfold Graph.get_base at this
      omega
    · have h1 := hc.1
      have h2 := hc.2.1
      unfold Graph.get_base at h1 h2
      unfold Graph.get_lnv at h2
      omega
  have hmine : ∀ idx, idx / 2 = u → idx < g.get_nv * 2 →
      erange_entry g (g.get_owner u) (g.get_lnv (g.get_owner u)) idx =
        if idx % 2 = 0 then
          g.get_edge (g.get_owner u)
            (g.edge_range (g.get_owner u) (u - g.get_base (g.get_owner u))).1
        else g.get_edge (g.get_owner u)
          ((g.edge_range (g.get_owner u) (u - g.get_base (g.get_owner u))).2 - 1) := by
    intro idx hidx hlt
    unfold erange_entry
    rw [hidx, if_pos]
    refine ⟨?_, ?_, hlt⟩
    · unfold Graph.get_base; exact a2
    · unfold Graph.get_base Graph.get_lnv; omega
  unfold erange_allreduce
  constructor
  · rw [list_getD_map_range, if_pos (by omega),
      list_sum_map_range_single _ _ _ hsz (fun q hq hne => by
        rw [erange_local_getD]; exact hother q hq hne _ (by omega)),
      erange_local_getD, hmine _ (by omega) (by omega), if_pos (by omega)]
  · rw [list_getD_map_range, if_pos (by omega),
      list_sum_map_range_single _ _ _ hsz (fun q hq hne => by
        rw [erange_local_getD]; exact hother q hq hne _ (by omega)),
      erange_local_getD, hmine _ (by omega) (by omega), if_neg (by omega)]

/-- The table that the constructor builds is correctly populated. -/
theorem erange_allreduce_ok (g : Graph) (hv : g.Valid) : RangeTableOK g (erange_allreduce g) := by
  intro u hu v hvu
  obtain ⟨e1, e2⟩ := erange_allreduce_getD g hv u hu
  obtain ⟨o1, o2⟩ := g.owner_local hv u hu
  have hlen := g.edge_range_len _ _ o1
  have hget := fun j => g.get_edge_range (g.get_owner u) (u - g.get_base (g.get_owner u)) j o1
  rw [o2] at hlen hget
  obtain ⟨j, hj, hjv⟩ := List.getElem_of_mem hvu
  have hpos : 0 < (g.adj.getD u []).length := by omega
  have hsorted := g.adj_sorted hv u
  have hvj : (g.adj.getD u []).getD j 0 = v := by
    rw [List.getD_eq_getElem _ _ hj]; exact hjv
  rw [e1, e2]
  have hfirst := hget 0 hpos
  rw [Nat.add_zero] at hfirst
  have hlast := hget ((g.adj.getD u []).length - 1) (by omega)
  have hidx : (g.edge_range (g.get_owner u) (u - g.get_base (g.get_owner u))).1 +
      ((g.adj.getD u []).length - 1) =
      (g.edge_range (g.get_owner u) (u - g.get_base (g.get_owner u))).2 - 1 := by omega
  rw [hidx] at hlast
  rw [hfirst, hlast, ← hvj]
  constructor
  · rcases Nat.eq_zero_or_pos j with h | h
    · rw [h]
    · exact le_of_lt (list_pairwise_getD _ hsorted 0 j h hj)
  · rcases Nat.eq_or_lt_of_le (Nat.le_sub_one_of_lt hj) with h | h
    · rw [h]
    · exact le_of_lt (list_pairwise_getD _ hsorted j _ h (by omega))

end TriangulateAggrBufferedHashPush

/-! ## Pairs emitted for a triangle -/

namespace Graph

/-- Position of a neighbour in the edge range of a vertex on its owner. -/
theorem position_of_neighbour (g : Graph) (hv : g.Valid) (w a : Nat)
    (h : g.has_edge w a = true) :
    ∃ j, j < (g.adj.getD w []).length ∧ (g.adj.getD w []).getD j 0 = a ∧
      (g.edge_range (g.get_owner w) (w - g.get_base (g.get_owner w))).1 + j <
        (g.edge_range (g.get_owner w) (w - g.get_base (g.get_owner w))).2 ∧
      g.get_edge (g.get_owner w)
        ((g.edge_range (g.get_owner w) (w - g.get_base (g.get_owner w))).1 + j) = a := by
  have hw := g.has_edge_lt w a h
  obtain ⟨o1, o2⟩ := g.owner_local hv w hw
  have hlen := g.edge_range_len _ _ o1
  have hget := fun j => g.get_edge_range (g.get_owner w) (w - g.get_base (g.get_owner w)) j o1
  rw [o2] at hlen hget
  obtain ⟨j, hj, hja⟩ := List.getElem_of_mem ((g.has_edge_iff w a).1 h)
  have hd : (g.adj.getD w []).getD j 0 = a := by
    rw [List.getD_eq_getElem _ _ hj]; exact hja
  exact ⟨j, hj, hd, by omega, by rw [hget j hj]; exact hd⟩

/-- Two neighbours `a < b` of `w` that are adjacent, `a` owned by another process,
make a candidate pair of `w`. -/
theorem sends_of_edges (g : Graph) (hv : g.Valid) (w a b : Nat)
    (hwa : g.has_edge w a = true) (hwb : g.has_edge w b = true) (hab : a < b)
    (hc : g.has_edge a b = true) (ho : g.get_owner a ≠ g.get_owner w) : g.sends w a b := by
  have hw := g.has_edge_lt w a hwa
  obtain ⟨o1, o2⟩ := g.owner_local hv w hw
  obtain ⟨ja, hja, hda, hra, hea⟩ := g.position_of_neighbour hv w a hwa
  obtain ⟨jb, hjb, hdb, hrb, heb⟩ := g.position_of_neighbour hv w b hwb
  have hsorted := g.adj_sorted hv w
  have hjj : ja < jb := by
    by_contra hge
    rcases Nat.eq_or_lt_of_le (Nat.le_of_not_lt hge) with h | h
    · rw [h, hda] at hdb
      omega
    · have := list_pairwise_getD _ hsorted jb ja h hja
      rw [hda, hdb] at this
      omega
  refine ⟨_, _, Nat.le_add_right _ ja, hra, hea, heb, ?_⟩
  unfold cand_edge
  rw [hea, if_pos ho]
  have hguard := fun c => guards_pass_of_edge g hv
    (TriangulateAggrBufferedHashPush.erange_allreduce g)
    (TriangulateAggrBufferedHashPush.erange_allreduce_ok g hv) a c
  have hcl := cand_n_closing g (g.get_owner w)
    (TriangulateAggrBufferedHashPush.erange_allreduce g) a hguard
    ((g.edge_range (g.get_owner w) (w - g.get_base (g.get_owner w))).2 -
      ((g.edge_range (g.get_owner w) (w - g.get_base (g.get_owner w))).1 + ja + 1))
    ((g.edge_range (g.get_owner w) (w - g.get_base (g.get_owner w))).1 + ja + 1)
    (by
      intro k k' hk hkk hk'
      rcases Nat.eq_or_lt_of_le hkk with rfl | hlt
      · exact le_refl _
      · exact le_of_lt (g.get_edge_lt hv _ _ k k' o1 (by omega) hlt (by omega)))
  have hmem : (g.edge_range (g.get_owner w) (w - g.get_base (g.get_owner w))).1 + jb ∈
      (List.range' ((g.edge_range (g.get_owner w) (w - g.get_base (g.get_owner w))).1 + ja + 1)
        ((g.edge_range (g.get_owner w) (w - g.get_base (g.get_owner w))).2 -
          ((g.edge_range (g.get_owner w) (w - g.get_base (g.get_owner w))).1 + ja + 1))).filter
        (fun k => g.has_edge a (g.get_edge (g.get_owner w) k)) := by
    apply List.mem_filter.2
    refine ⟨List.mem_range'_1.2 ⟨by omega, by omega⟩, ?_⟩
    show g.has_edge a (g.get_edge (g.get_owner w) _) = true
    rw [heb]
    exact hc
  rw [← hcl] at hmem
  exact (List.mem_filter.1 hmem).1

/-- A candidate pair has ascending tails. -/
theorem sends_lt (g : Graph) (hv : g.Valid) (w a b : Nat) (hw : w < g.get_nv)
    (h : g.sends w a b) : a < b := by
  obtain ⟨m, n, h1, h2, h3, h4, h5⟩ := h
  obtain ⟨o1, -⟩ := g.owner_local hv w hw
  unfold cand_edge at h5
  by_cases hg : g.get_owner (g.get_edge (g.get_owner w) m) ≠ g.get_owner w
  · rw [if_pos hg] at h5
    obtain ⟨c1, c2, -⟩ := cand_n_mem g _ _ _ _ _ n h5
    have := g.get_edge_lt hv (g.get_owner w) _ m n o1 h1 (by omega) (by omega)
    rw [h3, h4] at this
    exact this
  · rw [if_neg hg] at h5
    cases h5

/-- The candidate pairs of a triangle: in a valid graph, for every triangle
`x < y < z` in which `y` and `z` are owned by other processes than `x` (so whenever
the three owners differ), the enumerators emit three pairs on its account: the owner of `x` emits
`(y, z)`, which goes to the owner of `y`; the owner of `y` emits `(x, z)` and the
owner of `z` emits `(x, y)`, which both go to the owner of `x`.  Each pair is an
edge; no vertex of the triangle emits one of the reversed pairs. -/
theorem three_owner_triangle_pairs (g : Graph) (hv : g.Valid) (x y z : Nat)
    (hxy : x < y) (hyz : y < z)
    (e1 : g.has_edge x y = true) (e2 : g.has_edge x z = true) (e3 : g.has_edge y z = true)
    (o1 : g.get_owner x ≠ g.get_owner y) (o2 : g.get_owner x ≠ g.get_owner z) :
    (g.sends x y z ∧ g.has_edge y z = true) ∧
    (g.sends y x z ∧ g.has_edge x z = true) ∧
    (g.sends z x y ∧ g.has_edge x y = true) ∧
    ¬ g.sends x z y ∧ ¬ g.sends y z x ∧ ¬ g.sends z y x := by
  have hx := g.has_edge_lt x y e1
  have hy := g.has_edge_lt y z e3
  have e1' : g.has_edge y x = true := by rw [g.has_edge_symm hv]; exact e1
  have e2' : g.has_edge z x = true := by rw [g.has_edge_symm hv]; exact e2
  have e3' : g.has_edge z y = true := by rw [g.has_edge_symm hv]; exact e3
  have hz := g.has_edge_lt z x e2'
  refine ⟨⟨g.sends_of_edges hv x y z e1 e2 hyz e3 (fun h => o1 h.symm), e3⟩,
    ⟨g.sends_of_edges hv y x z e1' e3 (by omega) e2 o1, e2⟩,
    ⟨g.sends_of_edges hv z x y e2' e3' hxy e1 o2, e1⟩, ?_, ?_, ?_⟩
  · intro h
    have := g.sends_lt hv x z y hx h
    omega
  · intro h
    have := g.sends_lt hv y z x hy h
    omega
  · intro h
    have := g.sends_lt hv z y x hz h
    omega

/-- Example for `three_owner_triangle_pairs`: the triangle `0 < 1 < 2` of
`graph_k3_three`. -/
theorem three_owner_triangle_pairs_witness :
    graph_k3_three.Valid ∧
    (graph_k3_three.sends 0 1 2 ∧ graph_k3_three.has_edge 1 2 = true) ∧
    (graph_k3_three.sends 1 0 2 ∧ graph_k3_three.has_edge 0 2 = true) ∧
    (graph_k3_three.sends 2 0 1 ∧ graph_k3_three.has_edge 0 1 = true) ∧
    ¬ graph_k3_three.sends 0 2 1 ∧ ¬ graph_k3_three.sends 1 2 0 ∧
    ¬ graph_k3_three.sends 2 1 0 :=
  ⟨by decide, three_owner_triangle_pairs graph_k3_three (by decide) 0 1 2 (by decide)
    (by decide) (by decide) (by decide) (by decide) (by decide) (by decide)⟩

end Graph

/-! ## Bloomfilter: monotonicity, `zfill`, construction -/

theorem list_getD_ne_default_lt (bits : List Char) (i : Nat) (d : Char)
    (h : bits.getD i d ≠ d) : i < bits.length := by
  by_contra hlt
  exact h (list_getD_of_le bits i d (by omega))

/-- One `insert` keeps every positive answer of `contains`. -/
theorem Bloomfilter.insert_keeps_contains (H : Hash128) (bf : Bloomfilter) (u v x y : Nat)
    (hwf : bf.WF) (hc : bf.safe_contains H x y = true) :
    (bf.safe_insert H u v).safe_contains H x y = true := by
  obtain ⟨hwf', hm', hk'⟩ := Bloomfilter.insert_wf H bf u v hwf
  rw [Bloomfilter.contains_eq H bf x y hwf.2, List.all_eq_true] at hc
  rw [Bloomfilter.contains_eq H _ x y hwf'.2, hm', hk', List.all_eq_true]
  intro j hj
  have hj' := hc j hj
  have hne : bf.bits_.getD (Bloomfilter.slot_index H bf.m_ x y j) '0' ≠ '0' := by
    intro h0
    rw [h0] at hj'
    simp at hj'
  have hlt := list_getD_ne_default_lt _ _ _ hne
  rw [Bloomfilter.insert_bits H bf u v hwf.2, Bloomfilter.foldl_set_get _ '1' '0' _ _ hlt]
  by_cases hmem : Bloomfilter.slot_index H bf.m_ x y j ∈
      (List.range bf.k_).map (Bloomfilter.slot_index H bf.m_ u v)
  · rw [if_pos hmem]
    rfl
  · rw [if_neg hmem]
    exact hj'

/-- The `safe_` forms of the calls: for every filter state (with `bits_` of length
`m_` and `hashes_` of length `k_`), every pair `(x, y)` for which `safe_contains`
is true and every finite sequence `ps` of further `safe_insert` steps,
`safe_contains` is still true afterwards, and `bits_` still has length `m_`, with
`m_` and `k_` unchanged. -/
theorem Bloomfilter.safe_contains_monotone (H : Hash128) (x y : Nat) :
    ∀ (ps : List (Nat × Nat)) (bf : Bloomfilter), bf.WF → bf.safe_contains H x y = true →
      (ps.foldl (fun b p => b.safe_insert H p.1 p.2) bf).safe_contains H x y = true ∧
      (ps.foldl (fun b p => b.safe_insert H p.1 p.2) bf).bits_.length = bf.m_ ∧
      (ps.foldl (fun b p => b.safe_insert H p.1 p.2) bf).m_ = bf.m_ ∧
      (ps.foldl (fun b p => b.safe_insert H p.1 p.2) bf).k_ = bf.k_ := by
  intro ps
  induction ps with
  | nil => intro bf hwf hc; exact ⟨hc, hwf.1, rfl, rfl⟩
  | cons p t ih =>
    intro bf hwf hc
    obtain ⟨hwf', hm', hk'⟩ := Bloomfilter.insert_wf H bf p.1 p.2 hwf
    have := ih (bf.safe_insert H p.1 p.2) hwf'
      (Bloomfilter.insert_keeps_contains H bf p.1 p.2 x y hwf hc)
    rw [hm', hk'] at this
    exact this

/-- Example for `safe_contains_monotone`: the filter `bf_example_A`, which reports
`(0, 1)`, and three further inserts. -/
theorem Bloomfilter.safe_contains_monotone_witness :
    bf_example_A.WF ∧ bf_example_A.safe_contains pair_hash 0 1 = true ∧
    ((([(0, 2), (0, 3), (0, 2)] : List (Nat × Nat)).foldl
        (fun b p => b.safe_insert pair_hash p.1 p.2) bf_example_A).safe_contains pair_hash 0 1 = true ∧
      (([(0, 2), (0, 3), (0, 2)] : List (Nat × Nat)).foldl
        (fun b p => b.safe_insert pair_hash p.1 p.2) bf_example_A).bits_.length = bf_example_A.m_ ∧
      (([(0, 2), (0, 3), (0, 2)] : List (Nat × Nat)).foldl
        (fun b p => b.safe_insert pair_hash p.1 p.2) bf_example_A).m_ = bf_example_A.m_ ∧
      (([(0, 2), (0, 3), (0, 2)] : List (Nat × Nat)).foldl
        (fun b p => b.safe_insert pair_hash p.1 p.2) bf_example_A).k_ = bf_example_A.k_) :=
  ⟨by decide, by decide,
    Bloomfilter.safe_contains_monotone pair_hash 0 1 [(0, 2), (0, 3), (0, 2)] bf_example_A
      (by decide) (by decide)⟩

/-- For every filter state with `k_ > 0` (and `bits_` of length `m_`, `hashes_` of
length `k_`), `zfill()` leaves `m_` bytes, all `'0'`, keeps `m_` and `k_`, and
afterwards `safe_contains` is false for every pair. -/
theorem Bloomfilter.safe_zfill_clears (H : Hash128) (bf : Bloomfilter) (hwf : bf.WF)
    (hk : 0 < bf.k_) :
    bf.zfill.bits_ = List.replicate bf.m_ '0' ∧ bf.zfill.bits_.length = bf.m_ ∧
      bf.zfill.m_ = bf.m_ ∧ bf.zfill.k_ = bf.k_ ∧
      ∀ u v, bf.zfill.safe_contains H u v = false := by
  have hbits : bf.zfill.bits_ = List.replicate bf.m_ '0' := by
    show bf.bits_.map (fun _ => '0') = _
    rw [← hwf.1]
    exact List.map_const' bf.bits_ '0'
  refine ⟨hbits, by rw [hbits, List.length_replicate], rfl, rfl, ?_⟩
  intro u v
  have hh : bf.zfill.hashes_.length = bf.zfill.k_ := hwf.2
  rw [Bloomfilter.contains_eq H _ u v hh, hbits]
  rw [Bool.eq_false_iff]
  intro hall
  rw [List.all_eq_true] at hall
  have h0 := hall 0 (List.mem_range.2 hk)
  rw [list_getD_replicate_self] at h0
  simp at h0

/-- Example for `safe_zfill_clears`: the filter `bf_example_A`, which has a bit set. -/
theorem Bloomfilter.safe_zfill_clears_witness :
    bf_example_A.zfill.bits_ = List.replicate bf_example_A.m_ '0' ∧
      bf_example_A.zfill.bits_.length = bf_example_A.m_ ∧
      bf_example_A.zfill.m_ = bf_example_A.m_ ∧ bf_example_A.zfill.k_ = bf_example_A.k_ ∧
      ∀ u v, bf_example_A.zfill.safe_contains pair_hash u v = false :=
  Bloomfilter.safe_zfill_clears pair_hash bf_example_A (by decide) (by decide)

/-- The `Option`-valued model of the first constructor forgets how construction
failed. -/
theorem Bloomfilter.mk1_eq_construct1 (F : FloatOps) (n : Int) :
    Bloomfilter.mk1 F n = (Bloomfilter.construct1 F n).toOption := by
  unfold Bloomfilter.mk1 Bloomfilter.construct1
  by_cases h1 : n ≤ 0
  · rw [if_pos h1, if_pos h1]; rfl
  · rw [if_neg h1, if_neg h1]
    simp only
    by_cases h2 : F.pow2_ceil_log2 n.toNat = 0
    · rw [if_pos h2, if_pos h2]; rfl
    · rw [if_neg h2, if_neg h2]
      by_cases h3 : F.round_mul_log2 (F.nbits (F.pow2_ceil_log2 n.toNat) /
          F.pow2_ceil_log2 n.toNat) = 0
      · rw [if_pos h3, if_pos h3]; rfl
      · rw [if_neg h3, if_neg h3]; rfl

/-- For `n ≥ 1` with a non-zero rounded capacity the first constructor throws
`std::invalid_argument` exactly when the derived `k_` is 0, and otherwise returns
a filter of `m_` bytes `'0'` and `k_` hash slots. -/
theorem Bloomfilter.construct1_defined (F : FloatOps) (n : Int) (hn : 1 ≤ n)
    (hp : F.pow2_ceil_log2 n.toNat ≠ 0) :
    (Bloomfilter.construct1 F n = CtorOutcome.invalid_argument ↔
      F.round_mul_log2 (F.nbits (F.pow2_ceil_log2 n.toNat) / F.pow2_ceil_log2 n.toNat) = 0) ∧
    (F.round_mul_log2 (F.nbits (F.pow2_ceil_log2 n.toNat) / F.pow2_ceil_log2 n.toNat) ≠ 0 →
      ∃ bf, Bloomfilter.construct1 F n = CtorOutcome.ok bf ∧
        bf.bits_ = List.replicate bf.m_ '0' ∧ bf.hashes_.length = bf.k_ ∧
        bf.k_ = F.round_mul_log2 (F.nbits (F.pow2_ceil_log2 n.toNat) /
          F.pow2_ceil_log2 n.toNat)) := by
  have h1 : ¬ n ≤ 0 := by omega
  unfold Bloomfilter.construct1
  rw [if_neg h1]
  simp only
  rw [if_neg hp]
  constructor
  · constructor
    · intro h
      by_contra hk
      rw [if_neg hk] at h
      cases h
    · intro hk
      rw [if_pos hk]
  · intro hk
    rw [if_neg hk]
    exact ⟨_, rfl, rfl, List.length_replicate _ _, rfl⟩

/-- A filter returned by the second constructor has an even number of hash slots. -/
theorem Bloomfilter.construct2_even (F : FloatOps) (n k : Int) (bf : Bloomfilter)
    (h : Bloomfilter.construct2 F n k = CtorOutcome.ok bf) :
    bf.k_ % 2 = 0 ∧ bf.hashes_.length = bf.k_ ∧ bf.bits_ = List.replicate bf.m_ '0' := by
  unfold Bloomfilter.construct2 at h
  by_cases h1 : n < 0
  · rw [if_pos h1] at h; cases h
  · rw [if_neg h1] at h
    simp only at h
    by_cases h2 : (if k % 2 ≠ 0 then k + 1 else k) < 0
    · rw [if_pos h2] at h; cases h
    · rw [if_neg h2] at h
      by_cases h3 : (if k % 2 ≠ 0 then k + 1 else k) = 0
      · rw [if_pos h3] at h; cases h
      · rw [if_neg h3] at h
        injection h with h
        rw [← h]
        refine ⟨?_, List.length_replicate _ _, rfl⟩
        show (if k % 2 ≠ 0 then k + 1 else k).toNat % 2 = 0
        by_cases hk : k % 2 ≠ 0
        · rw [if_pos hk] at h2 ⊢
          omega
        · rw [if_neg hk] at h2 ⊢
          omega

/-- C13 (evaluation at the failing inputs): for every tolerance, the first
constructor called with `n = 0` neither throws `std::invalid_argument` nor
returns: it divides `0 / 0` in `GraphElem` before `k_` is derived; and the second
constructor called with the non-zero `k = -2` does not return either: it ends in
`std::length_error`, not in `std::invalid_argument`. -/
theorem Bloomfilter.construct_fails_otherwise (F : FloatOps) :
    Bloomfilter.construct1 F 0 = CtorOutcome.fault ∧
      Bloomfilter.construct2 F 1 (-2) = CtorOutcome.length_error := by
  constructor
  · unfold Bloomfilter.construct1
    rw [if_pos (le_refl 0)]
  · unfold Bloomfilter.construct2
    rw [if_neg (by decide)]
    simp only
    have h : (if (-2 : Int) % 2 ≠ 0 then (-2 : Int) + 1 else -2) = -2 := by decide
    rw [h, if_pos (by decide)]

/-- C17 (evaluation at the failing input): `Bloomfilter(4, 0.5)`, the first
constructor with `n = 4` and tolerance `p = 0.5`, returns a filter of 6 bits with
`k_ = 1` hash slot, an odd number; `hash` then writes the entries 0 and 1 of
`hashes_`, which has length 1. -/
theorem Bloomfilter.first_ctor_odd_k :
    Bloomfilter.construct1 ieee_0_5 4 =
        CtorOutcome.ok { n_ := 4, m_ := 6, k_ := 1, bits_ := List.replicate 6 '0',
                         hashes_ := [0] } ∧
      (Bloomfilter.construct1 ieee_0_5 4).toOption.map
          (fun bf => (bf.k_ % 2, bf.hashes_.length,
            Bloomfilter.hash_write_indices bf.k_ bf.k_ 0)) =
        some (1, 1, [0, 1]) := by
  decide

/-! ## `nbsend` on an empty slot -/

/-- C14: `nbsend(owner)` on a slot whose fill counter is 0 changes nothing: the
object afterwards is the object before, in particular no send is posted and the
send region, the filters, the fill counters, the statuses, the bookmarks and the
send handles are as before; so applying it twice equals applying it once. -/
theorem TriangulateAggrBufferedHashPush.nbsend_empty_slot
    (e : TriangulateAggrBufferedHashPush) (owner : Nat)
    (h : e.sbuf_ctr_.getD (e.pindex owner) 0 = 0) :
    e.nbsend owner = e ∧ (e.nbsend owner).sent_ = e.sent_ ∧
      (e.nbsend owner).sbuf_ = e.sbuf_ ∧ (e.nbsend owner).sebf_ = e.sebf_ ∧
      (e.nbsend owner).sbuf_ctr_ = e.sbuf_ctr_ ∧ (e.nbsend owner).stat_ = e.stat_ ∧
      (e.nbsend owner).prev_m_ = e.prev_m_ ∧ (e.nbsend owner).prev_k_ = e.prev_k_ ∧
      (e.nbsend owner).sreq_ = e.sreq_ ∧
      (e.nbsend owner).nbsend owner = e.nbsend owner := by
  have hno : e.nbsend owner = e := by
    unfold TriangulateAggrBufferedHashPush.nbsend
    simp only
    rw [if_neg (by rw [h]; decide)]
  rw [hno]
  exact ⟨rfl, rfl, rfl, rfl, rfl, rfl, rfl, rfl, rfl, hno⟩

/-- Witness for C14: rank 0 of `graph_one_way` as constructed, whose slot for
rank 1 is empty. -/
theorem TriangulateAggrBufferedHashPush.nbsend_empty_slot_witness :
    engine_one_way_rank0.sbuf_ctr_.getD (engine_one_way_rank0.pindex 1) 0 = 0 ∧
    (engine_one_way_rank0.nbsend 1 = engine_one_way_rank0 ∧
      (engine_one_way_rank0.nbsend 1).sent_ = engine_one_way_rank0.sent_ ∧
      (engine_one_way_rank0.nbsend 1).sbuf_ = engine_one_way_rank0.sbuf_ ∧
      (engine_one_way_rank0.nbsend 1).sebf_ = engine_one_way_rank0.sebf_ ∧
      (engine_one_way_rank0.nbsend 1).sbuf_ctr_ = engine_one_way_rank0.sbuf_ctr_ ∧
      (engine_one_way_rank0.nbsend 1).stat_ = engine_one_way_rank0.stat_ ∧
      (engine_one_way_rank0.nbsend 1).prev_m_ = engine_one_way_rank0.prev_m_ ∧
      (engine_one_way_rank0.nbsend 1).prev_k_ = engine_one_way_rank0.prev_k_ ∧
      (engine_one_way_rank0.nbsend 1).sreq_ = engine_one_way_rank0.sreq_ ∧
      (engine_one_way_rank0.nbsend 1).nbsend 1 = engine_one_way_rank0.nbsend 1) :=
  ⟨by decide, TriangulateAggrBufferedHashPush.nbsend_empty_slot engine_one_way_rank0 1
    (by decide)⟩

/-! ## `check_edgelist` -/

/-- On a range of tails in ascending order the scan with the early exit finds
`t1` exactly when `t1` is one of the tails. -/
theorem TriangulateAggrBufferedHashPush.check_edgelist_loop_ascending (g : Graph)
    (rank t1 : Nat) :
    ∀ (l : List Nat) (e0 : Nat), l.Pairwise (· ≤ ·) →
      (∀ j < l.length, g.get_edge rank (e0 + j) = l.getD j 0) →
      (TriangulateAggrBufferedHashPush.check_edgelist_loop g rank t1 l.length e0 = true ↔
        t1 ∈ l) := by
  intro l
  induction l with
  | nil =>
    intro e0 _ _
    constructor
    · intro h; cases h
    · intro h; cases h
  | cons c t ih =>
    intro e0 hs hg
    have hc : g.get_edge rank e0 = c := by
      have := hg 0 (Nat.succ_pos _)
      rw [Nat.add_zero, List.getD_cons_zero] at this
      exact this
    have ht : ∀ j < t.length, g.get_edge rank (e0 + 1 + j) = t.getD j 0 := by
      intro j hj
      have := hg (j + 1) (by rw [List.length_cons]; omega)
      rw [List.getD_cons_succ] at this
      rw [← this]
      congr 1
      omega
    obtain ⟨hct, hst⟩ := List.pairwise_cons.1 hs
    rw [List.length_cons, TriangulateAggrBufferedHashPush.check_edgelist_loop]
    simp only [hc]
    by_cases h1 : t1 = c
    · rw [if_pos h1, h1]
      exact ⟨fun _ => List.mem_cons_self _ _, fun _ => rfl⟩
    · rw [if_neg h1]
      by_cases h2 : c > t1
      · rw [if_pos h2]
        constructor
        · intro h; cases h
        · intro hmem
          rcases List.mem_cons.1 hmem with heq | hmem'
          · exact absurd heq h1
          · have := hct t1 hmem'
            omega
      · rw [if_neg h2, ih (e0 + 1) hst ht]
        constructor
        · intro h; exact List.mem_cons_of_mem _ h
        · intro hmem
          rcases List.mem_cons.1 hmem with heq | hmem'
          · exact absurd heq h1
          · exact hmem'

/-- The full scan of `Triangulate::check_edgelist` finds `p1` exactly when it is one
of the tails, in whatever order they are stored. -/
theorem Triangulate.check_edgelist_loop_mem (g : Graph) (rank p1 : Nat) :
    ∀ (l : List Nat) (e0 : Nat),
      (∀ j < l.length, g.get_edge rank (e0 + j) = l.getD j 0) →
      (Triangulate.check_edgelist_loop g rank p1 l.length e0 = true ↔ p1 ∈ l) := by
  intro l
  induction l with
  | nil =>
    intro e0 _
    constructor
    · intro h; cases h
    · intro h; cases h
  | cons c t ih =>
    intro e0 hg
    have hc : g.get_edge rank e0 = c := by
      have := hg 0 (Nat.succ_pos _)
      rw [Nat.add_zero, List.getD_cons_zero] at this
      exact this
    have ht : ∀ j < t.length, g.get_edge rank (e0 + 1 + j) = t.getD j 0 := by
      intro j hj
      have := hg (j + 1) (by rw [List.length_cons]; omega)
      rw [List.getD_cons_succ] at this
      rw [← this]
      congr 1
      omega
    rw [List.length_cons, Triangulate.check_edgelist_loop]
    simp only [hc]
    by_cases h1 : c = p1
    · rw [if_pos h1, h1]
      exact ⟨fun _ => List.mem_cons_self _ _, fun _ => rfl⟩
    · rw [if_neg h1, ih (e0 + 1) ht]
      constructor
      · intro h; exact List.mem_cons_of_mem _ h
      · intro hmem
        rcases List.mem_cons.1 hmem with heq | hmem'
        · exact absurd heq.symm h1
        · exact hmem'

/-- C19: for every vertex `a` owned by the process of `e` whose adjacency is in
ascending order, and every vertex `b`, `check_edgelist((a, b))` returns true if and
only if `b` is a tail in the adjacency of `a`, and it returns what the full scan of
`Triangulate::check_edgelist` returns (which also increments its counter on a
hit). -/
theorem TriangulateAggrBufferedHashPush.check_edgelist_iff (g : Graph)
    (e : TriangulateAggrBufferedHashPush) (a b nt : Nat)
    (hbase : g.get_base e.rank_ ≤ a) (hloc : a - g.get_base e.rank_ < g.get_lnv e.rank_)
    (hs : (g.adj.getD a []).Pairwise (· ≤ ·)) :
    (e.check_edgelist g a b = true ↔ b ∈ g.adj.getD a []) ∧
      (Triangulate.check_edgelist g e.rank_ nt a b).1 = e.check_edgelist g a b ∧
      (Triangulate.check_edgelist g e.rank_ nt a b).2 =
        (if e.check_edgelist g a b = true then nt + 1 else nt) := by
  have hlen := g.edge_range_len e.rank_ _ hloc
  have hget := fun j => g.get_edge_range e.rank_ (a - g.get_base e.rank_) j hloc
  have hab : g.get_base e.rank_ + (a - g.get_base e.rank_) = a := by omega
  rw [hab] at hlen hget
  have hfuel : (g.edge_range e.rank_ (a - g.get_base e.rank_)).2 -
      (g.edge_range e.rank_ (a - g.get_base e.rank_)).1 = (g.adj.getD a []).length := by omega
  have h1 : e.check_edgelist g a b = true ↔ b ∈ g.adj.getD a [] := by
    unfold TriangulateAggrBufferedHashPush.check_edgelist Graph.global_to_local
    simp only
    rw [hfuel]
    exact TriangulateAggrBufferedHashPush.check_edgelist_loop_ascending g e.rank_ b _ _ hs
      (fun j hj => hget j hj)
  have h2 : Triangulate.check_edgelist_loop g e.rank_ b
      ((g.edge_range e.rank_ (a - g.get_base e.rank_)).2 -
        (g.edge_range e.rank_ (a - g.get_base e.rank_)).1)
      (g.edge_range e.rank_ (a - g.get_base e.rank_)).1 = true ↔ b ∈ g.adj.getD a [] := by
    rw [hfuel]
    exact Triangulate.check_edgelist_loop_mem g e.rank_ b _ _ (fun j hj => hget j hj)
  refine ⟨h1, ?_, ?_⟩
  · unfold Triangulate.check_edgelist Graph.global_to_local
    simp only
    by_cases hb : b ∈ g.adj.getD a []
    · rw [if_pos (h2.2 hb), h1.2 hb]
    · have hf : ¬ (Triangulate.check_edgelist_loop g e.rank_ b
          ((g.edge_range e.rank_ (a - g.get_base e.rank_)).2 -
            (g.edge_range e.rank_ (a - g.get_base e.rank_)).1)
          (g.edge_range e.rank_ (a - g.get_base e.rank_)).1 = true) := fun h => hb (h2.1 h)
      rw [if_neg hf]
      symm
      rw [Bool.eq_false_iff]
      exact fun h => hb (h1.1 h)
  · unfold Triangulate.check_edgelist Graph.global_to_local
    simp only
    by_cases hb : b ∈ g.adj.getD a []
    · rw [if_pos (h2.2 hb), if_pos (h1.2 hb)]
    · have hf : ¬ (Triangulate.check_edgelist_loop g e.rank_ b
          ((g.edge_range e.rank_ (a - g.get_base e.rank_)).2 -
            (g.edge_range e.rank_ (a - g.get_base e.rank_)).1)
          (g.edge_range e.rank_ (a - g.get_base e.rank_)).1 = true) := fun h => hb (h2.1 h)
      rw [if_neg hf, if_neg (fun h => hb (h1.1 h))]

/-- Witness for C19: vertex 3 of `graph_shared_edge` on rank 1 and the vertex 1. -/
theorem TriangulateAggrBufferedHashPush.check_edgelist_iff_witness :
    (engine_shared_edge_rank1.check_edgelist graph_shared_edge 3 1 = true ↔
        1 ∈ graph_shared_edge.adj.getD 3 []) ∧
      (Triangulate.check_edgelist graph_shared_edge engine_shared_edge_rank1.rank_ 0 3 1).1 =
        engine_shared_edge_rank1.check_edgelist graph_shared_edge 3 1 ∧
      (Triangulate.check_edgelist graph_shared_edge engine_shared_edge_rank1.rank_ 0 3 1).2 =
        (if engine_shared_edge_rank1.check_edgelist graph_shared_edge 3 1 = true then 0 + 1
         else 0) :=
  TriangulateAggrBufferedHashPush.check_edgelist_iff graph_shared_edge
    engine_shared_edge_rank1 3 1 0 (by decide) (by decide) (by decide)

/-! ## The edge-range table after setup -/

namespace TriangulateAggrBufferedHashPush

/-- The constructor keeps the table of the counting pass, which is the all-reduced
table, on every process. -/
theorem ctor_erange (g : Graph) (F : FloatOps) (hint : Int) (rank : Nat)
    (e : TriangulateAggrBufferedHashPush) (hc : ctor g F hint rank = some e) :
    e.erange_ = erange_allreduce g := by
  unfold ctor at hc
  simp only at hc
  cases hbf : Bloomfilter.mk1 F (ctor_bufsize g hint) with
  | none =>
    rw [hbf] at hc
    cases hc
  | some bf =>
    rw [hbf] at hc
    simp only [Option.some.injEq] at hc
    obtain ⟨-, her, -⟩ :=
      ctor_fold_spec g rank (g.get_lnv rank) (le_refl _) (ctor_pass g rank).1 rfl
    rw [← hc]
    exact her

/-- C18: for a valid graph and every global vertex `v` with a non-empty adjacency,
on every process the table after setup holds at `2v` the first (least) and at
`2v + 1` the last (greatest) tail of the adjacency of `v`; these are the values that
the owner of `v` wrote, every other process contributed `0` to the two entries,
and every tail of `v` lies between them. -/
theorem erange_rows_after_setup (g : Graph) (hv : g.Valid) (v : Nat) (hvn : v < g.get_nv)
    (hne : g.adj.getD v [] ≠ []) :
    (∀ rank, (ctor_pass g rank).1.erange_ = erange_allreduce g) ∧
    (∀ F hint rank e, ctor g F hint rank = some e → e.erange_ = erange_allreduce g) ∧
    (erange_allreduce g).getD (v * 2) 0 = (g.adj.getD v []).headD 0 ∧
    (erange_allreduce g).getD (v * 2 + 1) 0 = (g.adj.getD v []).getLastD 0 ∧
    (∀ t ∈ g.adj.getD v [], (erange_allreduce g).getD (v * 2) 0 ≤ t ∧
      t ≤ (erange_allreduce g).getD (v * 2 + 1) 0) ∧
    (erange_local g (g.get_owner v)).getD (v * 2) 0 = (g.adj.getD v []).headD 0 ∧
    (erange_local g (g.get_owner v)).getD (v * 2 + 1) 0 = (g.adj.getD v []).getLastD 0 ∧
    (∀ q < g.get_size, q ≠ g.get_owner v →
      (erange_local g q).getD (v * 2) 0 = 0 ∧ (erange_local g q).getD (v * 2 + 1) 0 = 0) := by
  obtain ⟨e1, e2⟩ := erange_allreduce_getD g hv v hvn
  obtain ⟨o1, o2⟩ := g.owner_local hv v hvn
  obtain ⟨a1, a2, a3⟩ := g.get_owner_spec hv v hvn
  have hlen := g.edge_range_len _ _ o1
  have hget := fun j => g.get_edge_range (g.get_owner v) (v - g.get_base (g.get_owner v)) j o1
  rw [o2] at hlen hget
  have hpos : 0 < (g.adj.getD v []).length := List.length_pos.2 hne
  have hfirst := hget 0 hpos
  rw [Nat.add_zero] at hfirst
  have hlast := hget ((g.adj.getD v []).length - 1) (by omega)
  have hidx : (g.edge_range (g.get_owner v) (v - g.get_base (g.get_owner v))).1 +
      ((g.adj.getD v []).length - 1) =
      (g.edge_range (g.get_owner v) (v - g.get_base (g.get_owner v))).2 - 1 := by omega
  rw [hidx] at hlast
  have hhead : (g.adj.getD v []).getD 0 0 = (g.adj.getD v []).headD 0 := by
    cases g.adj.getD v [] with
    | nil => rfl
    | cons c t => rfl
  have hlastD : (g.adj.getD v []).getD ((g.adj.getD v []).length - 1) 0 =
      (g.adj.getD v []).getLastD 0 := by
    rw [List.getLastD_eq_getLast?, List.getLast?_eq_getElem?, List.getD_eq_getElem?_getD]
  have hmine : ∀ idx, idx / 2 = v → idx < g.get_nv * 2 →
      erange_entry g (g.get_owner v) (g.get_lnv (g.get_owner v)) idx =
        if idx % 2 = 0 then
          g.get_edge (g.get_owner v)
            (g.edge_range (g.get_owner v) (v - g.get_base (g.get_owner v))).1
        else g.get_edge (g.get_owner v)
          ((g.edge_range (g.get_owner v) (v - g.get_base (g.get_owner v))).2 - 1) := by
    intro idx hidx hlt
    unfold erange_entry
    rw [hidx, if_pos]
    refine ⟨?_, ?_, hlt⟩
    · unfold Graph.get_base; exact a2
    · unfold Graph.get_base Graph.get_lnv; omega
  have hother : ∀ q < g.get_size, q ≠ g.get_owner v → ∀ idx, idx / 2 = v →
      erange_entry g q (g.get_lnv q) idx = 0 := by
    intro q hq hne' idx hidx
    unfold erange_entry
    rw [if_neg]
    intro hc
    apply hne'
    symm
    unfold Graph.get_size at hq
    apply g.get_owner_block hv q v (by omega)
    · have := hc.1
      unfold Graph.get_base at this
      omega
    · have h1 := hc.1
      have h2 := hc.2.1
      unfold Graph.get_base at h1 h2
      unfold Graph.get_lnv at h2
      omega
  refine ⟨?_, ?_, ?_, ?_, ?_, ?_, ?_, ?_⟩
  · intro rank
    exact (ctor_fold_spec g rank (g.get_lnv rank) (le_refl _) (ctor_pass g rank).1 rfl).2.1
  · intro F hint rank e hc
    exact ctor_erange g F hint rank e hc
  · rw [e1, hfirst, hhead]
  · rw [e2, hlast, hlastD]
  · intro t ht
    exact erange_allreduce_ok g hv v hvn t ht
  · rw [erange_local_getD, hmine _ (by omega) (by omega), if_pos (by omega), hfirst, hhead]
  · rw [erange_local_getD, hmine _ (by omega) (by omega), if_neg (by omega), hlast, hlastD]
  · intro q hq hqne
    rw [erange_local_getD, erange_local_getD]
    exact ⟨hother q hq hqne _ (by omega), hother q hq hqne _ (by omega)⟩

/-- Witness for C18: vertex 2 of `graph_shared_edge`, whose tails are 0, 1, 3. -/
theorem erange_rows_after_setup_witness :
    graph_shared_edge.Valid ∧ 2 < graph_shared_edge.get_nv ∧
    graph_shared_edge.adj.getD 2 [] ≠ [] ∧
    (erange_allreduce graph_shared_edge).getD (2 * 2) 0 =
      (graph_shared_edge.adj.getD 2 []).headD 0 ∧
    (erange_allreduce graph_shared_edge).getD (2 * 2 + 1) 0 =
      (graph_shared_edge.adj.getD 2 []).getLastD 0 :=
  ⟨by decide, by decide, by decide,
    (erange_rows_after_setup graph_shared_edge (by decide) 2 (by decide) (by decide)).2.2.1,
    (erange_rows_after_setup graph_shared_edge (by decide) 2 (by decide) (by decide)).2.2.2.1⟩

end TriangulateAggrBufferedHashPush

/-! ## The buffer capacity -/

theorem list_foldl_max_ge (l : List Int) : ∀ (a : Int),
    a ≤ l.foldl max a ∧ ∀ x ∈ l, x ≤ l.foldl max a := by
  induction l with
  | nil => intro a; exact ⟨le_refl _, fun x hx => by cases hx⟩
  | cons c t ih =>
    intro a
    rw [List.foldl_cons]
    obtain ⟨h1, h2⟩ := ih (max a c)
    refine ⟨le_trans (le_max_left a c) h1, ?_⟩
    intro x hx
    rcases List.mem_cons.1 hx with h | h
    · rw [h]; exact le_trans (le_max_right a c) h1
    · exact h2 x h

theorem list_foldl_max_mem (l : List Int) : ∀ (a : Int),
    l.foldl max a = a ∨ l.foldl max a ∈ l := by
  induction l with
  | nil => intro a; left; rfl
  | cons c t ih =>
    intro a
    rw [List.foldl_cons]
    rcases ih (max a c) with h | h
    · rcases max_choice a c with h' | h'
      · left; rw [h, h']
      · right; rw [h, h']; exact List.mem_cons_self _ _
    · right; exact List.mem_cons_of_mem _ h

namespace TriangulateAggrBufferedHashPush

theorem ctor_bufsize_field (g : Graph) (F : FloatOps) (hint : Int) (rank : Nat)
    (e : TriangulateAggrBufferedHashPush) (hc : ctor g F hint rank = some e) :
    e.bufsize_ = ctor_bufsize g hint ∧
      e.out_nghosts_ = (ctor_pass g rank).1.out_nghosts_ ∧
      e.in_nghosts_ = accumulate_int (ctor_recv_count g rank) := by
  unfold ctor at hc
  simp only at hc
  cases hbf : Bloomfilter.mk1 F (ctor_bufsize g hint) with
  | none =>
    rw [hbf] at hc
    cases hc
  | some bf =>
    rw [hbf] at hc
    simp only [Option.some.injEq] at hc
    rw [← hc]
    exact ⟨rfl, rfl, rfl⟩

/-- C20: let `e` and `e'` be the objects that the constructor returns on the
processes `rank` and `rank'`.  Their `bufsize_` is the same; it is even; it is `M`
rounded up to even, where `M` is the greatest of the values
`min(2 * (out_nghosts_ + in_nghosts_), hint)` of the processes (at least each of
them, and equal to one of them); so it is at least the value of every process, in
particular that of `rank` itself. -/
theorem bufsize_after_setup (g : Graph) (F : FloatOps) (hint : Int) (rank rank' : Nat)
    (e e' : TriangulateAggrBufferedHashPush) (hr : rank < g.get_size)
    (hc : ctor g F hint rank = some e) (hc' : ctor g F hint rank' = some e') :
    e.bufsize_ = e'.bufsize_ ∧ e.bufsize_ % 2 = 0 ∧
    ctor_bufsize_local g hint rank = min (2 * (e.out_nghosts_ + e.in_nghosts_)) hint ∧
    (∃ M, (∀ q < g.get_size, ctor_bufsize_local g hint q ≤ M) ∧
      (∃ q < g.get_size, ctor_bufsize_local g hint q = M) ∧
      e.bufsize_ = (if M % 2 ≠ 0 then M + 1 else M)) ∧
    (∀ q < g.get_size, ctor_bufsize_local g hint q ≤ e.bufsize_) ∧
    min (2 * (e.out_nghosts_ + e.in_nghosts_)) hint ≤ e.bufsize_ := by
  obtain ⟨hb, ho, hi⟩ := ctor_bufsize_field g F hint rank e hc
  obtain ⟨hb', -, -⟩ := ctor_bufsize_field g F hint rank' e' hc'
  have hlocal : ctor_bufsize_local g hint rank =
      min (2 * (e.out_nghosts_ + e.in_nghosts_)) hint := by
    unfold ctor_bufsize_local
    simp only
    rw [ho, hi]
    by_cases hlt : ((ctor_pass g rank).1.out_nghosts_ +
        accumulate_int (ctor_recv_count g rank)) * 2 < hint
    · rw [if_pos hlt, min_eq_left (by omega)]
      ring
    · rw [if_neg hlt, min_eq_right (by omega)]
  have hmem : ∀ q, q < g.get_size → ctor_bufsize_local g hint q ∈
      (List.range g.get_size).map (ctor_bufsize_local g hint) :=
    fun q hq => List.mem_map.2 ⟨q, List.mem_range.2 hq, rfl⟩
  obtain ⟨hge0, hge⟩ := list_foldl_max_ge
    ((List.range g.get_size).map (ctor_bufsize_local g hint))
    (((List.range g.get_size).map (ctor_bufsize_local g hint)).headD 0)
  have hhead : ((List.range g.get_size).map (ctor_bufsize_local g hint)).headD 0 ∈
      (List.range g.get_size).map (ctor_bufsize_local g hint) := by
    cases hl : (List.range g.get_size).map (ctor_bufsize_local g hint) with
    | nil =>
      have := hmem rank hr
      rw [hl] at this
      cases this
    | cons c t => exact List.mem_cons_self _ _
  have hin : ((List.range g.get_size).map (ctor_bufsize_local g hint)).foldl max
      (((List.range g.get_size).map (ctor_bufsize_local g hint)).headD 0) ∈
      (List.range g.get_size).map (ctor_bufsize_local g hint) := by
    rcases list_foldl_max_mem ((List.range g.get_size).map (ctor_bufsize_local g hint))
      (((List.range g.get_size).map (ctor_bufsize_local g hint)).headD 0) with h | h
    · rw [h]; exact hhead
    · exact h
  have hround : ctor_bufsize g hint =
      (if ((List.range g.get_size).map (ctor_bufsize_local g hint)).foldl max
          (((List.range g.get_size).map (ctor_bufsize_local g hint)).headD 0) % 2 ≠ 0 then
        ((List.range g.get_size).map (ctor_bufsize_local g hint)).foldl max
          (((List.range g.get_size).map (ctor_bufsize_local g hint)).headD 0) + 1
      else ((List.range g.get_size).map (ctor_bufsize_local g hint)).foldl max
          (((List.range g.get_size).map (ctor_bufsize_local g hint)).headD 0)) := rfl
  generalize ((List.range g.get_size).map (ctor_bufsize_local g hint)).foldl max
    (((List.range g.get_size).map (ctor_bufsize_local g hint)).headD 0) = M at *
  have hMle : M ≤ ctor_bufsize g hint := by
    rw [hround]
    by_cases hm : M % 2 ≠ 0
    · rw [if_pos hm]; omega
    · rw [if_neg hm]
  have hall : ∀ q < g.get_size, ctor_bufsize_local g hint q ≤ e.bufsize_ := by
    intro q hq
    rw [hb]
    exact le_trans (hge _ (hmem q hq)) hMle
  refine ⟨by rw [hb, hb'], ?_, hlocal, ⟨M, fun q hq => hge _ (hmem q hq), ?_, ?_⟩, hall, ?_⟩
  · rw [hb, hround]
    by_cases hm : M % 2 ≠ 0
    · rw [if_pos hm]; omega
    · rw [if_neg hm]; omega
  · obtain ⟨q, hq, hqM⟩ := List.mem_map.1 hin
    exact ⟨q, List.mem_range.1 hq, hqM⟩
  · rw [hb, hround]
  · rw [← hlocal]
    exact hall rank hr

/-- Witness for C20: the two processes of `graph_one_way` with buffer hint 2. -/
theorem bufsize_after_setup_witness :
    ctor graph_one_way ieee_1e_09 2 0 = some engine_one_way_rank0 ∧
    ctor graph_one_way ieee_1e_09 2 1 = some engine_one_way_rank1 ∧
    engine_one_way_rank0.bufsize_ = engine_one_way_rank1.bufsize_ ∧
    engine_one_way_rank0.bufsize_ % 2 = 0 ∧
    min (2 * (engine_one_way_rank0.out_nghosts_ + engine_one_way_rank0.in_nghosts_)) 2 ≤
      engine_one_way_rank0.bufsize_ :=
  ⟨by decide, by decide,
    (bufsize_after_setup graph_one_way ieee_1e_09 2 0 1 engine_one_way_rank0
      engine_one_way_rank1 (by decide) (by decide) (by decide)).1,
    (bufsize_after_setup graph_one_way ieee_1e_09 2 0 1 engine_one_way_rank0
      engine_one_way_rank1 (by decide) (by decide) (by decide)).2.1,
    (bufsize_after_setup graph_one_way ieee_1e_09 2 0 1 engine_one_way_rank0
      engine_one_way_rank1 (by decide) (by decide) (by decide)).2.2.2.2.2⟩

end TriangulateAggrBufferedHashPush

/-! ## One process -/

/-- C15 (evaluation at the failing input): for the triangle `K3` with all three
vertices on one process, whatever the buffer hint, the tolerance and the hash:
the counting pass of the constructor leaves `ntriangles_ = 3` (the graph has one
triangle), there is no ghost edge, so the computed `bufsize_` is at most 0, and
the receive-side filter `Bloomfilter(bufsize_)` is not constructed (`0 / 0`, or
the logarithm of a negative number): the constructor of the engine does not
return, and `count()` is never entered. -/
theorem k3_one_process_not_constructed (F : FloatOps) (H : Hash128) (hint : Int)
    (fuel : Nat) :
    graph_k3_three.on_one_process.Valid ∧ graph_k3_three.on_one_process.triangles = 1 ∧
    (TriangulateAggrBufferedHashPush.ctor_pass graph_k3_three.on_one_process 0).1.ntriangles_
      = 3 ∧
    TriangulateAggrBufferedHashPush.ctor_bufsize graph_k3_three.on_one_process hint ≤ 0 ∧
    Bloomfilter.construct1 F
      (TriangulateAggrBufferedHashPush.ctor_bufsize graph_k3_three.on_one_process hint) =
        CtorOutcome.fault ∧
    TriangulateAggrBufferedHashPush.ctor graph_k3_three.on_one_process F hint 0 = none ∧
    run_count graph_k3_three.on_one_process F H hint fuel = none := by
  have hout : (TriangulateAggrBufferedHashPush.ctor_pass
      graph_k3_three.on_one_process 0).1.out_nghosts_ = 0 := by decide
  have hin : TriangulateAggrBufferedHashPush.accumulate_int
      (TriangulateAggrBufferedHashPush.ctor_recv_count graph_k3_three.on_one_process 0) = 0 := by
    decide
  have hlocal : TriangulateAggrBufferedHashPush.ctor_bufsize_local
      graph_k3_three.on_one_process hint 0 = if 0 < hint then 0 else hint := by
    unfold TriangulateAggrBufferedHashPush.ctor_bufsize_local
    simp only
    rw [hout, hin]
    rfl
  have hlist : (List.range graph_k3_three.on_one_process.get_size).map
      (TriangulateAggrBufferedHashPush.ctor_bufsize_local graph_k3_three.on_one_process hint) =
      [if 0 < hint then 0 else hint] := by
    have hsz : graph_k3_three.on_one_process.get_size = 1 := by decide
    rw [hsz]
    show [TriangulateAggrBufferedHashPush.ctor_bufsize_local
      graph_k3_three.on_one_process hint 0] = _
    rw [hlocal]
  have hbuf : TriangulateAggrBufferedHashPush.ctor_bufsize graph_k3_three.on_one_process hint
      ≤ 0 := by
    unfold TriangulateAggrBufferedHashPush.ctor_bufsize
    simp only
    rw [hlist]
    simp only [List.foldl_cons, List.foldl_nil, List.headD_cons, max_self]
    by_cases hh : 0 < hint
    · simp only [if_pos hh]
      decide
    · simp only [if_neg hh]
      by_cases hodd : hint % 2 ≠ 0
      · rw [if_pos hodd]; omega
      · rw [if_neg hodd]; omega
  have hfault : Bloomfilter.construct1 F
      (TriangulateAggrBufferedHashPush.ctor_bufsize graph_k3_three.on_one_process hint) =
        CtorOutcome.fault := by
    unfold Bloomfilter.construct1
    rw [if_pos hbuf]
  have hctor : TriangulateAggrBufferedHashPush.ctor graph_k3_three.on_one_process F hint 0 =
      none := by
    unfold TriangulateAggrBufferedHashPush.ctor
    simp only
    rw [Bloomfilter.mk1_eq_construct1, hfault]
    rfl
  refine ⟨by decide, by decide, by decide, hbuf, hfault, hctor, ?_⟩
  unfold run_count World.init
  simp only
  have hsz : graph_k3_three.on_one_process.get_size = 1 := by decide
  rw [hsz]
  have hcs : (List.range 1).map
      (TriangulateAggrBufferedHashPush.ctor graph_k3_three.on_one_process F hint) = [none] := by
    show [TriangulateAggrBufferedHashPush.ctor graph_k3_three.on_one_process F hint 0] = _
    rw [hctor]
  rw [hcs]
  rfl

section Termination

open TriangulateAggrBufferedHashPush

/-! ## The vector `send_count` and the list `targets_` of the constructor -/

namespace Graph

/-- The tail at an edge position of a local vertex is owned by a process of the
communicator. -/
theorem owner_lt_size (g : Graph) (hv : g.Valid) (rank i m : Nat) (hi : i < g.get_lnv rank)
    (h1 : (g.edge_range rank i).1 ≤ m) (h2 : m < (g.edge_range rank i).2) :
    g.get_owner (g.get_edge rank m) < g.get_size := by
  have hlen := g.edge_range_len rank i hi
  have hj : m - (g.edge_range rank i).1 < (g.adj.getD (g.get_base rank + i) []).length := by
    omega
  have he := g.get_edge_range rank i (m - (g.edge_range rank i).1) hi hj
  have hm : (g.edge_range rank i).1 + (m - (g.edge_range rank i).1) = m := by omega
  rw [hm] at he
  have hu : g.get_base rank + i < g.get_nv := by
    by_contra hc
    rw [list_getD_of_le _ _ _ (by unfold get_nv at hc; omega)] at hj
    simp at hj
  have hmem : g.get_edge rank m ∈ g.adj.getD (g.get_base rank + i) [] := by
    rw [he, List.getD_eq_getElem _ _ hj]
    exact List.getElem_mem _
  have ht := (hv.2.2.2.2.2 _ hu _ hmem).1
  have := (g.get_owner_spec hv _ ht).1
  unfold get_size
  omega

end Graph

namespace TriangulateAggrBufferedHashPush

/-- The loop over `n` for a ghost source edge adds the number of candidate
positions to the entry of the owner in `send_count`. -/
theorem ctor_ghost_loop_count (g : Graph) (i owner tail_m : Nat) :
    ∀ (fuel n : Nat) (s : TriangulateAggrBufferedHashPush × List Int),
      owner < s.2.length →
      (ctor_ghost_loop g i owner tail_m fuel n s).2.length = s.2.length ∧
        ∀ R, (ctor_ghost_loop g i owner tail_m fuel n s).2.getD R 0 = s.2.getD R 0 +
          (if owner = R then ((cand_n g s.1.rank_ s.1.erange_ tail_m fuel n).length : Int)
           else 0) := by
  intro fuel
  induction fuel with
  | zero =>
    intro n s _
    refine ⟨rfl, fun R => ?_⟩
    show s.2.getD R 0 = _
    simp [cand_n]
  | succ f ih =>
    intro n s ho
    by_cases h1 : within_max s.1.erange_ tail_m (g.get_edge s.1.rank_ n) = true
    · by_cases h2 : above_min s.1.erange_ tail_m (g.get_edge s.1.rank_ n) = true ∧
          above_min s.1.erange_ (g.get_edge s.1.rank_ n) tail_m = true
      · have hc : cand_n g s.1.rank_ s.1.erange_ tail_m (f + 1) n =
            n :: cand_n g s.1.rank_ s.1.erange_ tail_m f (n + 1) := by
          rw [cand_n_succ]
          simp [h1, h2.1, h2.2]
        have hl : ctor_ghost_loop g i owner tail_m (f + 1) n s =
            ctor_ghost_loop g i owner tail_m f (n + 1)
              ({ s.1 with vcount_ := s.1.vcount_.set i (s.1.vcount_.getD i 0 + 1)
                          out_nghosts_ := s.1.out_nghosts_ + 1 },
               s.2.set owner (s.2.getD owner 0 + 1)) := by
          rw [ctor_ghost_loop]
          simp only [edge_within_max, edge_above_min, h1, h2.1, h2.2, Bool.not_true,
            Bool.false_eq_true, if_false, Bool.or_self]
        rw [hc, hl]
        obtain ⟨k1, k2⟩ := ih (n + 1)
          ({ s.1 with vcount_ := s.1.vcount_.set i (s.1.vcount_.getD i 0 + 1)
                      out_nghosts_ := s.1.out_nghosts_ + 1 },
           s.2.set owner (s.2.getD owner 0 + 1))
          (by show owner < (s.2.set owner _).length; rw [List.length_set]; exact ho)
        refine ⟨k1.trans (List.length_set _ _ _), fun R => ?_⟩
        rw [k2 R]
        show (s.2.set owner (s.2.getD owner 0 + 1)).getD R 0 +
          (if owner = R then ((cand_n g s.1.rank_ s.1.erange_ tail_m f (n + 1)).length : Int)
           else 0) = _
        by_cases hR : owner = R
        · subst hR
          rw [list_getD_set_eq _ _ _ _ ho, if_pos rfl, if_pos rfl, List.length_cons]
          push_cast
          ring
        · rw [list_getD_set_ne _ _ _ _ _ hR, if_neg hR, if_neg hR]
      · have h2' : (!above_min s.1.erange_ tail_m (g.get_edge s.1.rank_ n) ||
            !above_min s.1.erange_ (g.get_edge s.1.rank_ n) tail_m) = true := by
          cases ha : above_min s.1.erange_ tail_m (g.get_edge s.1.rank_ n)
          · rfl
          · cases hb : above_min s.1.erange_ (g.get_edge s.1.rank_ n) tail_m
            · rfl
            · exact absurd ⟨ha, hb⟩ h2
        have hc : cand_n g s.1.rank_ s.1.erange_ tail_m (f + 1) n =
            cand_n g s.1.rank_ s.1.erange_ tail_m f (n + 1) := by
          rw [cand_n, h1, h2']
          rfl
        have hl : ctor_ghost_loop g i owner tail_m (f + 1) n s =
            ctor_ghost_loop g i owner tail_m f (n + 1) s := by
          rw [ctor_ghost_loop]
          simp only [edge_within_max, edge_above_min, h1, h2', Bool.not_true,
            Bool.false_eq_true, if_false, if_true]
        rw [hc, hl]
        exact ih (n + 1) s ho
    · simp only [Bool.not_eq_true] at h1
      have hc : cand_n g s.1.rank_ s.1.erange_ tail_m (f + 1) n = [] := by
        rw [cand_n, h1]
        rfl
      have hl : ctor_ghost_loop g i owner tail_m (f + 1) n s = s := by
        rw [ctor_ghost_loop]
        simp only [edge_within_max, h1, Bool.not_false, if_true]
      rw [hc, hl]
      refine ⟨rfl, fun R => ?_⟩
      simp

/-- The body of the loop over `m` of the constructor adds the candidate pairs of
a ghost source edge to the entry of its owner in `send_count`, and keeps
`targets_` free of repetitions. -/
theorem ctor_m_body_count (g : Graph) (i e1 m : Nat)
    (s : TriangulateAggrBufferedHashPush × List Int) (hi : i < s.1.vcount_.length)
    (ho : g.get_owner (g.get_edge s.1.rank_ m) < s.2.length) :
    (ctor_m_body g i e1 m s).2.length = s.2.length ∧
      (∀ R, (ctor_m_body g i e1 m s).2.getD R 0 = s.2.getD R 0 +
        (if g.get_owner (g.get_edge s.1.rank_ m) = R then
          ((cand_edge g s.1.rank_ s.1.erange_ e1 m).length : Int) else 0)) ∧
      (s.1.targets_.Nodup → (ctor_m_body g i e1 m s).1.targets_.Nodup) := by
  unfold ctor_m_body
  by_cases hg : g.get_owner (g.get_edge s.1.rank_ m) ≠ s.1.rank_
  · simp only [if_pos hg]
    have hpre : ∀ e' : TriangulateAggrBufferedHashPush, e'.rank_ = s.1.rank_ →
        e'.erange_ = s.1.erange_ → e'.vcount_ = s.1.vcount_ →
        (s.1.targets_.Nodup → e'.targets_.Nodup) →
        (if m < e1 - 1 then
            ctor_ghost_loop g i (g.get_owner (g.get_edge s.1.rank_ m))
              (g.get_edge s.1.rank_ m) (e1 - (m + 1)) (m + 1) (e', s.2)
          else (e', s.2)).2.length = s.2.length ∧
        (∀ R, (if m < e1 - 1 then
            ctor_ghost_loop g i (g.get_owner (g.get_edge s.1.rank_ m))
              (g.get_edge s.1.rank_ m) (e1 - (m + 1)) (m + 1) (e', s.2)
          else (e', s.2)).2.getD R 0 = s.2.getD R 0 +
          (if g.get_owner (g.get_edge s.1.rank_ m) = R then
            ((cand_edge g s.1.rank_ s.1.erange_ e1 m).length : Int) else 0)) ∧
        (s.1.targets_.Nodup → (if m < e1 - 1 then
            ctor_ghost_loop g i (g.get_owner (g.get_edge s.1.rank_ m))
              (g.get_edge s.1.rank_ m) (e1 - (m + 1)) (m + 1) (e', s.2)
          else (e', s.2)).1.targets_.Nodup) := by
      intro e' hrk her hvc hnd
      by_cases hl : m < e1 - 1
      · rw [if_pos hl]
        obtain ⟨k1, k2⟩ := ctor_ghost_loop_count g i (g.get_owner (g.get_edge s.1.rank_ m))
          (g.get_edge s.1.rank_ m) (e1 - (m + 1)) (m + 1) (e', s.2) ho
        obtain ⟨-, k3⟩ := ctor_ghost_loop_step g i (g.get_owner (g.get_edge s.1.rank_ m))
          (g.get_edge s.1.rank_ m) (e1 - (m + 1)) (m + 1) (e', s.2) (by
            show i < e'.vcount_.length
            rw [hvc]
            exact hi)
        refine ⟨k1, fun R => ?_, fun h => by rw [k3]; exact hnd h⟩
        rw [k2 R]
        show s.2.getD R 0 + (if _ then ((cand_n g e'.rank_ e'.erange_ _ _ _).length : Int)
          else 0) = _
        rw [hrk, her]
        unfold cand_edge
        rw [if_pos hg]
      · rw [if_neg hl]
        refine ⟨rfl, fun R => ?_, hnd⟩
        rw [cand_edge_last g _ _ e1 m (by omega)]
        simp
    by_cases ht : g.get_owner (g.get_edge s.1.rank_ m) ∈ s.1.targets_
    · simp only [if_pos ht]
      exact hpre s.1 rfl rfl rfl (fun h => h)
    · simp only [if_neg ht]
      refine hpre _ rfl rfl rfl (fun h => ?_)
      show (s.1.targets_ ++ [g.get_owner (g.get_edge s.1.rank_ m)]).Nodup
      rw [List.nodup_append]
      refine ⟨h, List.nodup_singleton _, ?_⟩
      intro a ha hb
      rw [List.mem_singleton] at hb
      subst hb
      exact ht ha
  · simp only [if_neg hg]
    have hc : cand_edge g s.1.rank_ s.1.erange_ e1 m = [] := by
      unfold cand_edge
      rw [if_neg hg]
    rw [hc]
    by_cases hl : m < e1 - 1
    · rw [if_pos hl]
      obtain ⟨nt, h⟩ := ctor_local_loop_frame g (g.get_edge s.1.rank_ m) (e1 - (m + 1)) (m + 1) s.1
      refine ⟨rfl, fun R => by simp, fun hn => ?_⟩
      show (ctor_local_loop g (g.get_edge s.1.rank_ m) (e1 - (m + 1)) (m + 1) s.1).targets_.Nodup
      rw [h]
      exact hn
    · rw [if_neg hl]
      exact ⟨rfl, fun R => by simp, fun h => h⟩

end TriangulateAggrBufferedHashPush

theorem peer_cands_succ (g : Graph) (rank : Nat) (erange : List Nat) (R e1 fuel m : Nat) :
    peer_cands g rank erange R e1 (fuel + 1) m =
      (if g.get_owner (g.get_edge rank m) = R then (cand_edge g rank erange e1 m).length
       else 0) + peer_cands g rank erange R e1 fuel (m + 1) := by
  unfold peer_cands
  rw [List.range'_succ, List.map_cons, List.sum_cons]

namespace TriangulateAggrBufferedHashPush

/-- The loop over `m` of the constructor and the vector `send_count`. -/
theorem ctor_m_loop_count (g : Graph) (i e1 : Nat) :
    ∀ (fuel m : Nat) (s : TriangulateAggrBufferedHashPush × List Int),
      i < s.1.vcount_.length →
      (∀ m', m ≤ m' → m' < m + fuel → g.get_owner (g.get_edge s.1.rank_ m') < s.2.length) →
      (ctor_m_loop g i e1 fuel m s).2.length = s.2.length ∧
        (∀ R, (ctor_m_loop g i e1 fuel m s).2.getD R 0 = s.2.getD R 0 +
          ((peer_cands g s.1.rank_ s.1.erange_ R e1 fuel m : Nat) : Int)) ∧
        (s.1.targets_.Nodup → (ctor_m_loop g i e1 fuel m s).1.targets_.Nodup) := by
  intro fuel
  induction fuel with
  | zero =>
    intro m s _ _
    refine ⟨rfl, fun R => ?_, fun h => h⟩
    show s.2.getD R 0 = _
    simp [peer_cands]
  | succ f ih =>
    intro m s hi ho
    obtain ⟨b1, -⟩ := ctor_m_body_step g i e1 m s hi
    obtain ⟨c1, c2, c3⟩ := ctor_m_body_count g i e1 m s hi (ho m (le_refl _) (by omega))
    obtain ⟨k1, k2, k3⟩ := ih (m + 1) (ctor_m_body g i e1 m s)
      (by rw [b1.2.2.2.2.1]; exact hi)
      (by
        intro m' h1 h2
        rw [b1.1, c1]
        exact ho m' (by omega) (by omega))
    rw [b1.1, b1.2.1] at k2
    rw [ctor_m_loop]
    refine ⟨k1.trans c1, fun R => ?_, fun h => k3 (c3 h)⟩
    rw [k2 R, c2 R, peer_cands_succ]
    push_cast
    ring

/-- The body of the loop over the local vertices of the constructor and the
vector `send_count`. -/
theorem ctor_i_body_count (g : Graph) (i : Nat)
    (s : TriangulateAggrBufferedHashPush × List Int) (hi : i < s.1.vcount_.length)
    (ho : ∀ m', (g.edge_range s.1.rank_ i).1 ≤ m' → m' < (g.edge_range s.1.rank_ i).2 →
      g.get_owner (g.get_edge s.1.rank_ m') < s.2.length) :
    (ctor_i_body g i s).2.length = s.2.length ∧
      (∀ R, (ctor_i_body g i s).2.getD R 0 = s.2.getD R 0 +
        ((peer_cands g s.1.rank_ s.1.erange_ R (g.edge_range s.1.rank_ i).2
          ((g.edge_range s.1.rank_ i).2 - (g.edge_range s.1.rank_ i).1)
          (g.edge_range s.1.rank_ i).1 : Nat) : Int)) ∧
      (s.1.targets_.Nodup → (ctor_i_body g i s).1.targets_.Nodup) := by
  unfold ctor_i_body
  by_cases h1 : (g.edge_range s.1.rank_ i).1 + 1 = (g.edge_range s.1.rank_ i).2
  · simp only [if_pos h1]
    refine ⟨trivial, fun R => ?_, fun h => h⟩
    have hf : (g.edge_range s.1.rank_ i).2 - (g.edge_range s.1.rank_ i).1 = 0 + 1 := by omega
    rw [hf, peer_cands_succ, cand_edge_last g _ _ _ _ (by omega)]
    simp [peer_cands]
  · simp only [if_neg h1]
    exact ctor_m_loop_count g i (g.edge_range s.1.rank_ i).2
      ((g.edge_range s.1.rank_ i).2 - (g.edge_range s.1.rank_ i).1)
      (g.edge_range s.1.rank_ i).1 s hi (fun m' h2 h3 => ho m' h2 (by omega))

/-- The vector `send_count` and `targets_` after the first `k` local vertices. -/
theorem ctor_fold_count (g : Graph) (hv : g.Valid) (rank : Nat) : ∀ k ≤ g.get_lnv rank,
    ∀ r, r = (List.range k).foldl (fun s i => ctor_i_body g i s)
        (ctor_init g rank, List.replicate g.get_size 0) →
      r.2.length = g.get_size ∧
      (∀ R, r.2.getD R 0 = (((List.range k).map (fun i =>
        peer_cands g rank (erange_allreduce g) R (g.edge_range rank i).2
          ((g.edge_range rank i).2 - (g.edge_range rank i).1)
          (g.edge_range rank i).1)).sum : Nat)) ∧
      r.1.targets_.Nodup := by
  intro k
  induction k with
  | zero =>
    intro _ r hr
    subst hr
    refine ⟨List.length_replicate _ _, fun R => ?_, List.nodup_nil⟩
    show (List.replicate g.get_size (0 : Int)).getD R 0 = _
    rw [list_getD_replicate_self]
    rfl
  | succ k ih =>
    intro hk r hr
    rw [List.range_succ, List.foldl_append, List.foldl_cons, List.foldl_nil] at hr
    obtain ⟨hlen, hval, hnd⟩ := ih (by omega) _ rfl
    obtain ⟨hrk, her, -, -, hvl, -⟩ := ctor_fold_spec g rank k (by omega) _ rfl
    generalize (List.range k).foldl (fun s i => ctor_i_body g i s)
      (ctor_init g rank, List.replicate g.get_size 0) = s at hr hlen hval hnd hrk her hvl
    subst hr
    obtain ⟨c1, c2, c3⟩ := ctor_i_body_count g k s (by rw [hvl]; omega) (by
      intro m' h1 h2
      rw [hrk] at h1 h2 ⊢
      rw [hlen]
      exact g.owner_lt_size hv rank k m' (by omega) h1 h2)
    refine ⟨c1.trans hlen, fun R => ?_, c3 hnd⟩
    rw [c2 R, hval R, hrk, her, List.range_succ, List.map_append, List.sum_append]
    simp

/-- After the counting pass of the constructor, `send_count[R]` is the number of
candidate pairs addressed to `R`, and `targets_` has no repetition. -/
theorem ctor_pass_count (g : Graph) (hv : g.Valid) (rank : Nat) :
    (ctor_pass g rank).2.length = g.get_size ∧
      (∀ R, (ctor_pass g rank).2.getD R 0 = (peer_total g rank R : Int)) ∧
      (ctor_pass g rank).1.targets_.Nodup :=
  ctor_fold_count g hv rank (g.get_lnv rank) (le_refl _) _ rfl

end TriangulateAggrBufferedHashPush

/-! ## Elementary changes of the object during a pass -/

namespace TriangulateAggrBufferedHashPush

/-- The two outcomes of `nbsend(owner)`. -/
theorem nbsend_cases (e : TriangulateAggrBufferedHashPush) (owner : Nat) :
    (¬ 0 < e.sbuf_ctr_.getD (e.pindex owner) 0 ∧ nbsend e owner = e) ∨
      (0 < e.sbuf_ctr_.getD (e.pindex owner) 0 ∧ ∃ sbuf payload,
        nbsend e owner = { e with sbuf_ := sbuf
                                  sreq_ := e.sreq_.set (e.pindex owner) true
                                  sent_ := e.sent_ ++ [(owner, payload)] }) := by
  unfold nbsend
  dsimp only
  by_cases h : e.sbuf_ctr_.getD (e.pindex owner) 0 > 0
  · rw [if_pos h]
    exact Or.inr ⟨h, _, _, rfl⟩
  · rw [if_neg h]
    exact Or.inl ⟨h, rfl⟩

theorem pindex_of_lookup (e : TriangulateAggrBufferedHashPush) (owner p : Nat)
    (h : e.pindex_.lookup owner = some p) : e.pindex owner = p := by
  unfold pindex
  rw [h]
  rfl

theorem PassRel.rel_refl (e : TriangulateAggrBufferedHashPush) : PassRel e e where
  rank := rfl
  erange := rfl
  pindex := rfl
  bufsize := rfl
  pdegree := rfl
  targets := rfl
  inn := rfl
  nt := rfl
  len_stat := rfl
  len_sreq := rfl
  len_ctr := rfl
  log := ⟨[], by simp, fun p => by simp, by simp⟩
  sent := ⟨[], by simp, fun p h => Or.inl h⟩
  paused := fun p h => Or.inl h
  sreq_mono := fun p h => h
  ctr_inv := fun h => h

theorem PassRel.rel_trans {a b c : TriangulateAggrBufferedHashPush}
    (h1 : PassRel a b) (h2 : PassRel b c) : PassRel a c where
  rank := h2.rank.trans h1.rank
  erange := h2.erange.trans h1.erange
  pindex := h2.pindex.trans h1.pindex
  bufsize := h2.bufsize.trans h1.bufsize
  pdegree := h2.pdegree.trans h1.pdegree
  targets := h2.targets.trans h1.targets
  inn := h2.inn.trans h1.inn
  nt := h2.nt.trans h1.nt
  len_stat := h2.len_stat.trans h1.len_stat
  len_sreq := h2.len_sreq.trans h1.len_sreq
  len_ctr := h2.len_ctr.trans h1.len_ctr
  log := by
    obtain ⟨n1, a1, a2, a3⟩ := h1.log
    obtain ⟨n2, b1, b2, b3⟩ := h2.log
    refine ⟨n1 ++ n2, ?_, fun p => ?_, ?_⟩
    · rw [b1, a1, List.append_assoc]
    · rw [b2 p, a2 p, List.countP_append]
      push_cast
      ring
    · rw [b3, a3, List.length_append]
      push_cast
      ring
  sent := by
    obtain ⟨p1, a1, a2⟩ := h1.sent
    obtain ⟨p2, b1, b2⟩ := h2.sent
    refine ⟨p1 ++ p2, ?_, fun p hp => ?_⟩
    · rw [b1, a1, List.append_assoc]
    · rcases b2 p hp with h | ⟨msg, hm, hl⟩
      · rcases a2 p h with h' | ⟨msg, hm, hl⟩
        · exact Or.inl h'
        · exact Or.inr ⟨msg, List.mem_append_left _ hm, hl⟩
      · rw [h1.pindex] at hl
        exact Or.inr ⟨msg, List.mem_append_right _ hm, hl⟩
  paused := by
    intro p hp
    rcases h2.paused p hp with h | h
    · rcases h1.paused p h with h' | h'
      · exact Or.inl h'
      · exact Or.inr (h2.sreq_mono p h')
    · exact Or.inr h
  sreq_mono := fun p h => h2.sreq_mono p (h1.sreq_mono p h)
  ctr_inv := fun h => h2.ctr_inv (h1.ctr_inv h)

theorem list_getD_set_true (l : List Bool) (i p : Nat) (h : l.getD p false = true) :
    (l.set i true).getD p false = true := by
  by_cases hi : i = p
  · subst hi
    have hlt : i < l.length := by
      by_contra hc
      rw [list_getD_of_le _ _ _ (by omega)] at h
      cases h
    exact list_getD_set_eq _ _ _ _ hlt
  · rw [list_getD_set_ne _ _ _ _ _ hi]
    exact h

/-- A call of `nbsend(owner)` for an owner that has a slot. -/
theorem passrel_nbsend (e : TriangulateAggrBufferedHashPush) (owner p : Nat)
    (hl : e.pindex_.lookup owner = some p) : PassRel e (nbsend e owner) := by
  rcases nbsend_cases e owner with ⟨-, h⟩ | ⟨-, sbuf, payload, h⟩
  · rw [h]
    exact PassRel.rel_refl e
  · rw [h, pindex_of_lookup e owner p hl]
    exact
      { rank := rfl
        erange := rfl
        pindex := rfl
        bufsize := rfl
        pdegree := rfl
        targets := rfl
        inn := rfl
        nt := rfl
        len_stat := rfl
        len_sreq := List.length_set _ _ _
        len_ctr := rfl
        log := ⟨[], by simp, fun q => by simp, by simp⟩
        sent := by
          refine ⟨[(owner, payload)], rfl, fun q hq => ?_⟩
          by_cases hqp : p = q
          · subst hqp
            exact Or.inr ⟨_, List.mem_singleton_self _, hl⟩
          · left
            have : (e.sreq_.set p true).getD q false = true := hq
            rw [list_getD_set_ne _ _ _ _ _ hqp] at this
            exact this
        paused := fun q hq => Or.inl hq
        sreq_mono := fun q hq => list_getD_set_true _ _ _ hq
        ctr_inv := fun hc => hc }

theorem passrel_emit (e : TriangulateAggrBufferedHashPush) (p i m n : Nat)
    (sebf : List Bloomfilter) (hp : p < e.sbuf_ctr_.length)
    (hc : e.sbuf_ctr_.getD p 0 ≠ e.bufsize_) (hs : e.stat_.getD p '0' ≠ '1') :
    PassRel e { e with sebf_ := sebf
                       sbuf_ctr_ := e.sbuf_ctr_.set p (e.sbuf_ctr_.getD p 0 + 2)
                       out_nghosts_ := e.out_nghosts_ - 1
                       vcount_ := e.vcount_.set i (e.vcount_.getD i 0 - 1)
                       inserted_ := e.inserted_ ++ [(p, m, n)] } where
  rank := rfl
  erange := rfl
  pindex := rfl
  bufsize := rfl
  pdegree := rfl
  targets := rfl
  inn := rfl
  nt := rfl
  len_stat := rfl
  len_sreq := rfl
  len_ctr := List.length_set _ _ _
  log := by
    refine ⟨[(p, m, n)], rfl, fun q => ?_, ?_⟩
    · show (e.sbuf_ctr_.set p (e.sbuf_ctr_.getD p 0 + 2)).getD q 0 = _
      by_cases hq : p = q
      · subst hq
        rw [list_getD_set_eq _ _ _ _ hp]
        simp
      · rw [list_getD_set_ne _ _ _ _ _ hq]
        have : ¬ ((p, m, n) : Nat × Nat × Nat).1 = q := hq
        simp [List.countP_cons, this]
    · show e.out_nghosts_ - 1 = _
      simp
  sent := ⟨[], by simp, fun q h => Or.inl h⟩
  paused := fun q h => Or.inl h
  sreq_mono := fun q h => h
  ctr_inv := by
    intro ⟨c1, c2, c3, c4⟩
    refine ⟨c1, c2, fun q => ?_, fun q hq => ?_⟩
    · show 0 ≤ (e.sbuf_ctr_.set p (e.sbuf_ctr_.getD p 0 + 2)).getD q 0 ∧
        (e.sbuf_ctr_.set p (e.sbuf_ctr_.getD p 0 + 2)).getD q 0 ≤ e.bufsize_ ∧
        (e.sbuf_ctr_.set p (e.sbuf_ctr_.getD p 0 + 2)).getD q 0 % 2 = 0
      by_cases hqp : p = q
      · subst hqp
        rw [list_getD_set_eq _ _ _ _ hp]
        have := c3 p
        omega
      · rw [list_getD_set_ne _ _ _ _ _ hqp]
        exact c3 q
    · show (e.sbuf_ctr_.set p (e.sbuf_ctr_.getD p 0 + 2)).getD q 0 = e.bufsize_
      have hq' : e.stat_.getD q '0' = '1' := hq
      have hqp : p ≠ q := fun h => hs (h ▸ hq')
      rw [list_getD_set_ne _ _ _ _ _ hqp]
      exact c4 q hq'

theorem passrel_mark (e : TriangulateAggrBufferedHashPush) (pm pk : List Int)
    (act : List Bool) : PassRel e { e with prev_m_ := pm, prev_k_ := pk, active_ := act } where
  rank := rfl
  erange := rfl
  pindex := rfl
  bufsize := rfl
  pdegree := rfl
  targets := rfl
  inn := rfl
  nt := rfl
  len_stat := rfl
  len_sreq := rfl
  len_ctr := rfl
  log := ⟨[], by simp, fun p => by simp, by simp⟩
  sent := ⟨[], by simp, fun p h => Or.inl h⟩
  paused := fun p h => Or.inl h
  sreq_mono := fun p h => h
  ctr_inv := fun h => h

/-- The state after the pause of slot `p` and `nbsend(owner)`. -/
theorem send_eq (e : TriangulateAggrBufferedHashPush) (owner p : Nat)
    (hl : e.pindex_.lookup owner = some p) (hc : e.sbuf_ctr_.getD p 0 = e.bufsize_)
    (hb : 0 < e.bufsize_) :
    ∃ sbuf payload, nbsend { e with stat_ := e.stat_.set p '1' } owner =
      { e with stat_ := e.stat_.set p '1'
               sbuf_ := sbuf
               sreq_ := e.sreq_.set p true
               sent_ := e.sent_ ++ [(owner, payload)] } := by
  have hpi : pindex { e with stat_ := e.stat_.set p '1' } owner = p :=
    pindex_of_lookup _ owner p hl
  rcases nbsend_cases { e with stat_ := e.stat_.set p '1' } owner with
    ⟨h0, -⟩ | ⟨-, sbuf, payload, h⟩
  · rw [hpi] at h0
    exact absurd (by show 0 < e.sbuf_ctr_.getD p 0; rw [hc]; exact hb) h0
  · rw [hpi] at h
    exact ⟨sbuf, payload, h⟩

theorem passrel_send (e : TriangulateAggrBufferedHashPush) (owner p : Nat)
    (hl : e.pindex_.lookup owner = some p) (hq : p < e.sreq_.length)
    (hc : e.sbuf_ctr_.getD p 0 = e.bufsize_) (hb : 0 < e.bufsize_) :
    PassRel e (nbsend { e with stat_ := e.stat_.set p '1' } owner) := by
  obtain ⟨sbuf, payload, h⟩ := send_eq e owner p hl hc hb
  rw [h]
  exact
    { rank := rfl
      erange := rfl
      pindex := rfl
      bufsize := rfl
      pdegree := rfl
      targets := rfl
      inn := rfl
      nt := rfl
      len_stat := List.length_set _ _ _
      len_sreq := List.length_set _ _ _
      len_ctr := rfl
      log := ⟨[], by simp, fun q => by simp, by simp⟩
      sent := by
        refine ⟨[(owner, payload)], rfl, fun q hq' => ?_⟩
        by_cases hqp : p = q
        · subst hqp
          exact Or.inr ⟨_, List.mem_singleton_self _, hl⟩
        · left
          have : (e.sreq_.set p true).getD q false = true := hq'
          rw [list_getD_set_ne _ _ _ _ _ hqp] at this
          exact this
      paused := by
        intro q hq'
        have h1 : (e.stat_.set p '1').getD q '0' = '1' := hq'
        by_cases hqp : p = q
        · subst hqp
          right
          exact list_getD_set_eq _ _ _ _ hq
        · left
          rw [list_getD_set_ne _ _ _ _ _ hqp] at h1
          exact h1
      sreq_mono := fun q hq' => list_getD_set_true _ _ _ hq'
      ctr_inv := by
        intro ⟨c1, c2, c3, c4⟩
        refine ⟨c1, c2, c3, fun q hq' => ?_⟩
        have h1 : (e.stat_.set p '1').getD q '0' = '1' := hq'
        show e.sbuf_ctr_.getD q 0 = e.bufsize_
        by_cases hqp : p = q
        · subst hqp
          exact hc
        · rw [list_getD_set_ne _ _ _ _ _ hqp] at h1
          exact c4 q h1 }

theorem PauseRel.pause_refl (e : TriangulateAggrBufferedHashPush) : PauseRel e e where
  rel := PassRel.rel_refl e
  stat_mono := fun p h => h
  fresh := fun p h => Or.inl h
  posted := by
    intro msg hm
    rw [List.drop_length] at hm
    cases hm

theorem PauseRel.pause_trans {a b c : TriangulateAggrBufferedHashPush}
    (h1 : PauseRel a b) (h2 : PauseRel b c) : PauseRel a c where
  rel := h1.rel.rel_trans h2.rel
  stat_mono := fun p h => h2.stat_mono p (h1.stat_mono p h)
  fresh := by
    intro p hp
    rcases h2.fresh p hp with h | ⟨h, h'⟩
    · rcases h1.fresh p h with k | ⟨k, k'⟩
      · exact Or.inl k
      · exact Or.inr ⟨h2.stat_mono p k, k'⟩
    · exact Or.inr ⟨h, fun k => h' (h1.stat_mono p k)⟩
  posted := by
    intro msg hm
    obtain ⟨p1, a1, -⟩ := h1.rel.sent
    obtain ⟨p2, b1, -⟩ := h2.rel.sent
    have hd1 : b.sent_.drop a.sent_.length = p1 := by rw [a1, List.drop_left]
    have hd2 : c.sent_.drop b.sent_.length = p2 := by rw [b1, List.drop_left]
    have hd : c.sent_.drop a.sent_.length = p1 ++ p2 := by
      rw [b1, a1, List.append_assoc, List.drop_left]
    rw [hd] at hm
    rcases List.mem_append.1 hm with h | h
    · obtain ⟨p, k1, k2⟩ := h1.posted msg (by rw [hd1]; exact h)
      exact ⟨p, h2.stat_mono p k1, k2⟩
    · obtain ⟨p, k1, k2⟩ := h2.posted msg (by rw [hd2]; exact h)
      exact ⟨p, k1, fun k => k2 (h1.stat_mono p k)⟩

theorem Atom.atom_rel {e e' : TriangulateAggrBufferedHashPush} (h : Atom e e') :
    PauseRel e e' := by
  cases h with
  | emit owner p i m n sebf hl hp hc hs =>
    exact
      { rel := passrel_emit e p i m n sebf hp hc hs
        stat_mono := fun q h => h
        fresh := fun q h => Or.inl h
        posted := by
          intro msg hm
          have hm' : msg ∈ e.sent_.drop e.sent_.length := hm
          rw [List.drop_length] at hm'
          cases hm' }
  | mark pm pk act =>
    exact
      { rel := passrel_mark e pm pk act
        stat_mono := fun q h => h
        fresh := fun q h => Or.inl h
        posted := by
          intro msg hm
          have hm' : msg ∈ e.sent_.drop e.sent_.length := hm
          rw [List.drop_length] at hm'
          cases hm' }
  | send owner p hl hq ht hc hb hs =>
    have hrel := passrel_send e owner p hl hq hc hb
    obtain ⟨sbuf, payload, h⟩ := send_eq e owner p hl hc hb
    rw [h] at hrel ⊢
    have hp1 : (e.stat_.set p '1').getD p '0' = '1' := list_getD_set_eq _ _ _ _ ht
    exact
      { rel := hrel
        stat_mono := by
          intro q hq'
          show (e.stat_.set p '1').getD q '0' = '1'
          by_cases hqp : p = q
          · subst hqp
            exact hp1
          · rw [list_getD_set_ne _ _ _ _ _ hqp]
            exact hq'
        fresh := by
          intro q hq'
          have h1 : (e.sreq_.set p true).getD q false = true := hq'
          by_cases hqp : p = q
          · subst hqp
            exact Or.inr ⟨hp1, hs⟩
          · rw [list_getD_set_ne _ _ _ _ _ hqp] at h1
            exact Or.inl h1
        posted := fun msg _ => ⟨p, hp1, hs⟩ }

theorem Reach.reach_rel {e e' : TriangulateAggrBufferedHashPush} (h : Reach e e') :
    PauseRel e e' := by
  induction h with
  | refl => exact PauseRel.pause_refl e
  | tail _ hbc ih => exact ih.pause_trans hbc.atom_rel

theorem Reach.reach_trans {a b c : TriangulateAggrBufferedHashPush} (h1 : Reach a b)
    (h2 : Reach b c) : Reach a c := Relation.ReflTransGen.trans h1 h2

theorem Atom.reach {e e' : TriangulateAggrBufferedHashPush} (h : Atom e e') : Reach e e' :=
  Relation.ReflTransGen.single h

theorem PassHyp.of_rel {g : Graph} {e e' : TriangulateAggrBufferedHashPush}
    (h : PassRel e e') (hp : PassHyp g e) : PassHyp g e' := by
  obtain ⟨h1, h2⟩ := hp
  refine ⟨by rw [h.bufsize]; exact h1, ?_⟩
  rw [h.rank, h.pindex, h.len_ctr, h.len_sreq, h.len_stat]
  exact h2

end TriangulateAggrBufferedHashPush

/-! ## A pass of `lookup_edges` as a sequence of elementary changes -/

namespace TriangulateAggrBufferedHashPush

theorem lookup_n_loop_reach (g : Graph) (H : Hash128) (i m owner p tail_m : Nat) :
    ∀ (fuel n : Nat) (e : TriangulateAggrBufferedHashPush),
      e.pindex_.lookup owner = some p → p < e.sbuf_ctr_.length → p < e.sreq_.length →
      p < e.stat_.length → 0 < e.bufsize_ → e.stat_.getD p '0' ≠ '1' →
      Reach e (lookup_n_loop g H i m owner p tail_m fuel n e) := by
  intro fuel
  induction fuel with
  | zero => intro n e _ _ _ _ _ _; exact Relation.ReflTransGen.refl
  | succ f ih =>
    intro n e hl hp hq ht hb hs
    unfold lookup_n_loop
    simp only [edge_within_max, edge_above_min]
    by_cases h1 : within_max e.erange_ tail_m (g.get_edge e.rank_ n) = true
    · by_cases h2 : above_min e.erange_ tail_m (g.get_edge e.rank_ n) = true
      · by_cases h3 : above_min e.erange_ (g.get_edge e.rank_ n) tail_m = true
        · simp only [h1, h2, h3, Bool.not_true, Bool.or_self, Bool.false_eq_true, if_false]
          by_cases hfull : e.sbuf_ctr_.getD p 0 = e.bufsize_
          · rw [if_pos hfull]
            have a1 : Atom e { e with prev_m_ := e.prev_m_.set p (m : Int)
                                      prev_k_ := e.prev_k_.set p (n : Int)
                                      active_ := e.active_ } := Atom.mark e _ _ _
            have a2 := Atom.send { e with prev_m_ := e.prev_m_.set p (m : Int)
                                          prev_k_ := e.prev_k_.set p (n : Int)
                                          active_ := e.active_ } owner p hl hq ht hfull hb hs
            exact a1.reach.reach_trans a2.reach
          · rw [if_neg hfull]
            have a1 := Atom.emit e owner p i m n
              (e.sebf_.set p ((e.sebf_.getD p default).safe_insert H tail_m (g.get_edge e.rank_ n)))
              hl hp hfull hs
            refine a1.reach.reach_trans (ih (n + 1) _ hl ?_ hq ht hb hs)
            show p < (e.sbuf_ctr_.set p _).length
            rw [List.length_set]
            exact hp
        · simp only [Bool.not_eq_true] at h3
          simp only [h1, h2, h3, Bool.not_true, Bool.not_false, Bool.or_true, Bool.false_eq_true,
            if_true, if_false]
          exact ih (n + 1) e hl hp hq ht hb hs
      · simp only [Bool.not_eq_true] at h2
        simp only [h1, h2, Bool.not_true, Bool.not_false, Bool.true_or, Bool.false_eq_true,
          if_true, if_false]
        exact ih (n + 1) e hl hp hq ht hb hs
    · simp only [Bool.not_eq_true] at h1
      simp only [h1, Bool.not_false, if_true]
      exact Relation.ReflTransGen.refl

theorem lookup_m_body_reach (g : Graph) (H : Hash128) (i e1 m : Nat)
    (e : TriangulateAggrBufferedHashPush) (hb : 0 < e.bufsize_)
    (hg : g.get_owner (g.get_edge e.rank_ m) ≠ e.rank_ →
      ∃ p, e.pindex_.lookup (g.get_owner (g.get_edge e.rank_ m)) = some p ∧
        p < e.sbuf_ctr_.length ∧ p < e.sreq_.length ∧ p < e.stat_.length) :
    Reach e (lookup_m_body g H i e1 m e) := by
  unfold lookup_m_body
  by_cases hc1 : g.get_owner (g.get_edge e.rank_ m) ≠ e.rank_ ∧ e.active_.getD m true = true
  · simp only [if_pos hc1]
    obtain ⟨p, hl, hp, hq, ht⟩ := hg hc1.1
    rw [pindex_of_lookup e _ p hl]
    by_cases hc2 : e.stat_.getD p '0' = '1'
    · simp only [if_pos hc2]
      exact Relation.ReflTransGen.refl
    · simp only [if_neg hc2]
      by_cases hc3 : (m : Int) ≥ e.prev_m_.getD p (-1)
      · simp only [if_pos hc3]
        by_cases hc4 : e.sbuf_ctr_.getD p 0 = e.bufsize_
        · simp only [if_pos hc4]
          have a1 : Atom e { e with prev_m_ := e.prev_m_.set p (m : Int)
                                    prev_k_ := e.prev_k_.set p (-1)
                                    active_ := e.active_ } := Atom.mark e _ _ _
          have a2 := Atom.send { e with prev_m_ := e.prev_m_.set p (m : Int)
                                        prev_k_ := e.prev_k_.set p (-1)
                                        active_ := e.active_ } _ p hl hq ht hc4 hb hc2
          exact a1.reach.reach_trans a2.reach
        · simp only [if_neg hc4]
          have hn := lookup_n_loop_reach g H i m (g.get_owner (g.get_edge e.rank_ m)) p
            (g.get_edge e.rank_ m)
            (e1 - (if e.prev_k_.getD p (-1) = -1 then m + 1 else (e.prev_k_.getD p (-1)).toNat))
            (if e.prev_k_.getD p (-1) = -1 then m + 1 else (e.prev_k_.getD p (-1)).toNat)
            e hl hp hq ht hb hc2
          have hr := hn.reach_rel.rel
          generalize lookup_n_loop g H i m (g.get_owner (g.get_edge e.rank_ m)) p
            (g.get_edge e.rank_ m) _ _ e = e' at hn hr
          by_cases hc5 : e'.stat_.getD p '0' = '0'
          · simp only [if_pos hc5]
            have a1 : Atom e' { e' with prev_m_ := e'.prev_m_.set p (m : Int)
                                        prev_k_ := e'.prev_k_.set p (-1)
                                        active_ := e'.active_.set m false } :=
              Atom.mark e' _ _ _
            by_cases hc6 : e'.sbuf_ctr_.getD p 0 = e'.bufsize_
            · simp only [if_pos hc6]
              have a2 := Atom.send { e' with prev_m_ := e'.prev_m_.set p (m : Int)
                                             prev_k_ := e'.prev_k_.set p (-1)
                                             active_ := e'.active_.set m false }
                (g.get_owner (g.get_edge e.rank_ m)) p
                (by show e'.pindex_.lookup _ = some p; rw [hr.pindex]; exact hl)
                (by show p < e'.sreq_.length; rw [hr.len_sreq]; exact hq)
                (by show p < e'.stat_.length; rw [hr.len_stat]; exact ht)
                hc6 (by show 0 < e'.bufsize_; rw [hr.bufsize]; exact hb)
                (by
                  show e'.stat_.getD p '0' ≠ '1'
                  rw [hc5]
                  decide)
              exact hn.reach_trans (a1.reach.reach_trans a2.reach)
            · simp only [if_neg hc6]
              exact hn.reach_trans a1.reach
          · simp only [if_neg hc5]
            exact hn
      · simp only [if_neg hc3]
        exact Relation.ReflTransGen.refl
  · simp only [if_neg hc1]
    exact Relation.ReflTransGen.refl

theorem lookup_m_loop_reach (g : Graph) (H : Hash128) (i e1 : Nat) :
    ∀ (fuel m : Nat) (e : TriangulateAggrBufferedHashPush), 0 < e.bufsize_ →
      (∀ m', m ≤ m' → m' < m + fuel → g.get_owner (g.get_edge e.rank_ m') ≠ e.rank_ →
        ∃ p, e.pindex_.lookup (g.get_owner (g.get_edge e.rank_ m')) = some p ∧
          p < e.sbuf_ctr_.length ∧ p < e.sreq_.length ∧ p < e.stat_.length) →
      Reach e (lookup_m_loop g H i e1 fuel m e) := by
  intro fuel
  induction fuel with
  | zero => intro m e _ _; exact Relation.ReflTransGen.refl
  | succ f ih =>
    intro m e hb hg
    have h1 := lookup_m_body_reach g H i e1 m e hb (hg m (le_refl _) (by omega))
    have hr := h1.reach_rel.rel
    unfold lookup_m_loop
    refine h1.reach_trans (ih (m + 1) _ (by rw [hr.bufsize]; exact hb) ?_)
    intro m' a1 a2
    rw [hr.rank, hr.pindex, hr.len_ctr, hr.len_sreq, hr.len_stat]
    exact hg m' (by omega) (by omega)

theorem lookup_i_body_reach (g : Graph) (H : Hash128) (i : Nat)
    (e : TriangulateAggrBufferedHashPush) (hi : i < g.get_lnv e.rank_) (hp : PassHyp g e) :
    Reach e (lookup_i_body g H i e) := by
  unfold lookup_i_body
  by_cases hc1 : e.vcount_.getD i 0 = 0
  · simp only [if_pos hc1]
    exact Relation.ReflTransGen.refl
  · simp only [if_neg hc1]
    by_cases hc2 : (g.edge_range e.rank_ i).1 + 1 = (g.edge_range e.rank_ i).2
    · simp only [if_pos hc2]
      exact Relation.ReflTransGen.refl
    · simp only [if_neg hc2]
      apply lookup_m_loop_reach g H i _ _ _ e hp.1
      intro m' a1 a2
      exact hp.2 i hi m' a1 (by omega)

theorem lookup_fold_reach (g : Graph) (H : Hash128) : ∀ (k : Nat)
    (e : TriangulateAggrBufferedHashPush), k ≤ g.get_lnv e.rank_ → PassHyp g e →
    Reach e ((List.range k).foldl (fun e i => lookup_i_body g H i e) e) := by
  intro k
  induction k with
  | zero => intro e _ _; exact Relation.ReflTransGen.refl
  | succ k ih =>
    intro e hk hp
    rw [List.range_succ, List.foldl_append, List.foldl_cons, List.foldl_nil]
    have h1 := ih e (by omega) hp
    have hr := h1.reach_rel.rel
    refine h1.reach_trans (lookup_i_body_reach g H k _ (by rw [hr.rank]; omega)
      (PassHyp.of_rel hr hp))

/-- A pass of `lookup_edges()` is a sequence of elementary changes. -/
theorem lookup_edges_reach (g : Graph) (H : Hash128) (e : TriangulateAggrBufferedHashPush)
    (hp : PassHyp g e) : Reach e (lookup_edges g H e) :=
  lookup_fold_reach g H _ e (le_refl _) hp

/-- The flush `nbsend()`: afterwards every slot with a positive fill counter has
an active send. -/
theorem nbsend_fold_rel : ∀ (l : List Nat) (e : TriangulateAggrBufferedHashPush),
    (∀ o ∈ l, ∃ p, e.pindex_.lookup o = some p ∧ p < e.sreq_.length) →
    PassRel e (l.foldl nbsend e) ∧
      ∀ o ∈ l, ∀ p, e.pindex_.lookup o = some p → 0 < e.sbuf_ctr_.getD p 0 →
        (l.foldl nbsend e).sreq_.getD p false = true := by
  intro l
  induction l with
  | nil =>
    intro e _
    exact ⟨PassRel.rel_refl e, fun o ho => by cases ho⟩
  | cons a t ih =>
    intro e hl
    obtain ⟨p, hp, hq⟩ := hl a (List.mem_cons_self _ _)
    have hr := passrel_nbsend e a p hp
    obtain ⟨k1, k2⟩ := ih (nbsend e a) (by
      intro o ho
      rw [hr.pindex, hr.len_sreq]
      exact hl o (List.mem_cons_of_mem _ ho))
    rw [List.foldl_cons]
    refine ⟨hr.rel_trans k1, ?_⟩
    intro o ho q hoq hpos
    rcases List.mem_cons.1 ho with h | h
    · subst h
      have hqp : q = p := by
        rw [hp] at hoq
        exact (Option.some.inj hoq).symm
      subst hqp
      apply k1.sreq_mono
      rcases nbsend_cases e o with ⟨h0, -⟩ | ⟨-, sbuf, payload, h⟩
      · rw [pindex_of_lookup e o q hp] at h0
        exact absurd hpos h0
      · rw [h, pindex_of_lookup e o q hp]
        exact list_getD_set_eq _ _ _ _ hq
    · apply k2 o h q (by rw [hr.pindex]; exact hoq)
      have hcc : (nbsend e a).sbuf_ctr_ = e.sbuf_ctr_ := by
        rcases nbsend_cases e a with ⟨-, h⟩ | ⟨-, sbuf, payload, h⟩ <;> rw [h]
      rw [hcc]
      exact hpos

end TriangulateAggrBufferedHashPush

/-! ## A pass from an idle state makes progress -/

namespace LView

/-- The number of pairs still to be inserted is not negative. -/
theorem Inv.out_nonneg {g : Graph} {v : LView} (h : Inv g v) : 0 ≤ v.out_nghosts_ := by
  rw [h.d4o]
  apply List.sum_nonneg
  intro x hx
  obtain ⟨j, hj, hget⟩ := List.getElem_of_mem hx
  have := h.d4 j (by rw [← h.len_vcount]; exact hj)
  rw [List.getD_eq_getElem _ _ hj, hget] at this
  rw [this]
  exact Int.ofNat_nonneg _

/-- When every slot is idle after a pass, no candidate pair is left. -/
theorem idle_after_pass (g : Graph) (v : LView) (hinv : Inv g v)
    (hah : Ahead g v (g.edge_range v.rank_ (g.get_lnv v.rank_)).1)
    (hidle : ∀ p < v.stat_.length, v.stat_.getD p '0' = '0') : v.out_nghosts_ = 0 := by
  have hall : ∀ i < g.get_lnv v.rank_, ∀ m, in_range g v i m → ∀ n ∈ cands g v i m,
      v.before (slot g v m) m n = true := by
    intro i hi m hr n hn
    have hne : cands g v i m ≠ [] := fun h => by rw [h] at hn; cases hn
    obtain ⟨hg, hl⟩ := ghost_of_cands g v i m hne
    have hp := hinv.slot_lt i hi m hr hl hg
    obtain ⟨a1, a2⟩ := hah (slot g v m) hp (hidle _ hp)
    have hend : m < (g.edge_range v.rank_ (g.get_lnv v.rank_)).1 := by
      have h1 := g.edge_range_mono v.rank_ (g.get_lnv v.rank_ - i - 1) i
      have h2 : i + 1 + (g.get_lnv v.rank_ - i - 1) = g.get_lnv v.rank_ := by omega
      rw [h2] at h1
      have := hr.2
      omega
    by_cases hk : v.prev_k_.getD (slot g v m) (-1) = -1
    · by_cases hm : v.prev_m_.getD (slot g v m) (-1) < (m : Int)
      · exact absurd (a1 hk i hi m hr rfl hm hend) hne
      · unfold before
        by_cases hm2 : (m : Int) < v.prev_m_.getD (slot g v m) (-1)
        · rw [decide_eq_true hm2]
          rfl
        · have hm3 : (m : Int) = v.prev_m_.getD (slot g v m) (-1) := by omega
          rw [decide_eq_true hm3, decide_eq_true hk]
          simp
    · have h1 := a2 hk
      obtain ⟨i0, hi0, m0, n0, b1, -, b3, -⟩ := hinv.d2 _ hp hk
      have h2 := g.edge_range_mono v.rank_ (g.get_lnv v.rank_ - i0 - 1) i0
      have h3 : i0 + 1 + (g.get_lnv v.rank_ - i0 - 1) = g.get_lnv v.rank_ := by omega
      rw [h3] at h2
      have := b3.2
      rw [b1] at h1
      omega
  rw [hinv.d4o]
  apply List.sum_eq_zero
  intro x hx
  obtain ⟨j, hj, hget⟩ := List.getElem_of_mem hx
  have hjl : j < g.get_lnv v.rank_ := by rw [← hinv.len_vcount]; exact hj
  have h4 := hinv.d4 j hjl
  rw [List.getD_eq_getElem _ _ hj, hget] at h4
  rw [h4]
  have : pending g v j = 0 := by
    unfold pending
    apply List.sum_eq_zero
    intro y hy
    obtain ⟨m, hm, rfl⟩ := List.mem_map.1 hy
    have hm' := List.mem_range'_1.1 hm
    have hr : in_range g v j m := ⟨hm'.1, by have := g.edge_range_le v.rank_ j; omega⟩
    rw [hinv.d1 j hjl m hr]
    have : (cands g v j m).filter (v.before (slot g v m) m) = cands g v j m :=
      List.filter_eq_self.2 (hall j hjl m hr)
    rw [this]
    omega
  rw [this]
  rfl

end LView

namespace TriangulateAggrBufferedHashPush

/-- A pass of `lookup_edges()` that starts with every slot idle and with pairs
left to insert inserts at least one of them. -/
theorem pass_progress (g : Graph) (H : Hash128) (e : TriangulateAggrBufferedHashPush)
    (hinv : LView.Inv g e.view) (hyp : PassHyp g e) (hci : CtrInv e)
    (hidle : ∀ p, e.stat_.getD p '0' ≠ '1') (hout : e.out_nghosts_ ≠ 0) :
    (lookup_edges g H e).out_nghosts_ < e.out_nghosts_ := by
  have hr := (lookup_edges_reach g H e hyp).reach_rel.rel
  obtain ⟨new, hins, hctr, ho⟩ := hr.log
  by_cases hn : new = []
  · exfalso
    subst hn
    obtain ⟨s1, s2, -⟩ := LView.fold_i_body_step g e.view hinv (g.get_lnv e.view.rank_)
      (le_refl _)
    have hv : (lookup_edges g H e).view =
        (List.range (g.get_lnv e.view.rank_)).foldl (fun v i => LView.i_body g i v) e.view := by
      rw [view_lookup_edges]
      rfl
    rw [← hv] at s1 s2
    have hc8 := (hr.ctr_inv hci).2.2.2
    have hid : ∀ p < (lookup_edges g H e).view.stat_.length,
        (lookup_edges g H e).view.stat_.getD p '0' = '0' := by
      intro p hp
      rcases s1.stat_char p hp with h | h
      · exact h
      · exfalso
        have h1 : (lookup_edges g H e).sbuf_ctr_.getD p 0 = (lookup_edges g H e).bufsize_ :=
          hc8 p h
        rw [hctr p, hr.bufsize] at h1
        have hp' : p < e.view.stat_.length := by
          have : (lookup_edges g H e).stat_.length = e.stat_.length := hr.len_stat
          exact this ▸ hp
        have h0 : e.view.stat_.getD p '0' = '0' := by
          rcases hinv.stat_char p hp' with h2 | h2
          · exact h2
          · exact absurd h2 (hidle p)
        have := hinv.d3 p hp' h0
        apply this
        show e.sbuf_ctr_.getD p 0 = e.bufsize_
        simpa using h1
    have hrk : (lookup_edges g H e).view.rank_ = e.view.rank_ := hr.rank
    rw [← hrk] at s2
    have hz := LView.idle_after_pass g _ s1 s2 hid
    have hz' : (lookup_edges g H e).out_nghosts_ = 0 := hz
    rw [ho] at hz'
    simp at hz'
    exact hout hz'
  · rw [ho]
    have : 0 < new.length := List.length_pos.2 hn
    omega

/-- A pass of `lookup_edges()` that inserts nothing pauses no slot and posts no
message. -/
theorem pass_no_insert (g : Graph) (H : Hash128) (e : TriangulateAggrBufferedHashPush)
    (hinv : LView.Inv g e.view) (hyp : PassHyp g e) (hci : CtrInv e)
    (hsame : (lookup_edges g H e).out_nghosts_ = e.out_nghosts_) :
    (lookup_edges g H e).sent_.drop e.sent_.length = [] ∧
      ∀ p, (lookup_edges g H e).sreq_.getD p false = true → e.sreq_.getD p false = true := by
  have hp := (lookup_edges_reach g H e hyp).reach_rel
  have hr := hp.rel
  obtain ⟨new, hins, hctr, ho⟩ := hr.log
  have hn : new = [] := by
    rw [hsame] at ho
    apply List.length_eq_zero.1
    omega
  subst hn
  have hc8 := (hr.ctr_inv hci).2.2.2
  have hnofresh : ∀ p, ¬ ((lookup_edges g H e).stat_.getD p '0' = '1' ∧
      e.stat_.getD p '0' ≠ '1') := by
    rintro p ⟨h1, h2⟩
    have h3 := hc8 p h1
    rw [hctr p, hr.bufsize] at h3
    have hp' : p < e.view.stat_.length := by
      by_contra hc
      have hlen : (lookup_edges g H e).stat_.length = e.stat_.length := hr.len_stat
      have hlt : (lookup_edges g H e).stat_.length ≤ p := by
        rw [hlen]
        exact Nat.le_of_not_lt hc
      rw [list_getD_of_le _ _ _ hlt] at h1
      exact absurd h1 (by decide)
    have h0 : e.view.stat_.getD p '0' = '0' := by
      rcases hinv.stat_char p hp' with h | h
      · exact h
      · exact absurd h h2
    apply hinv.d3 p hp' h0
    show e.sbuf_ctr_.getD p 0 = e.bufsize_
    simpa using h3
  constructor
  · apply List.eq_nil_iff_forall_not_mem.2
    intro msg hm
    obtain ⟨p, k1, k2⟩ := hp.posted msg hm
    exact hnofresh p ⟨k1, k2⟩
  · intro p hs
    rcases hp.fresh p hs with h | h
    · exact h
    · exact absurd h (hnofresh p)

end TriangulateAggrBufferedHashPush

/-! ## One iteration of the driver loop on one process -/

namespace TriangulateAggrBufferedHashPush

theorem recycle_spec : ∀ (inds : List Nat) (e : TriangulateAggrBufferedHashPush),
    Recycled inds e (recycle inds e) := by
  intro inds
  induction inds with
  | nil =>
    intro e
    exact
      { rank := rfl, erange := rfl, pindex := rfl, bufsize := rfl, pdegree := rfl
        targets := rfl, inn := rfl, out := rfl, inserted := rfl, sent := rfl
        len_stat := rfl, len_sreq := rfl, len_ctr := rfl
        ctr := fun p => by rw [if_neg (List.not_mem_nil _)]; rfl
        stat := fun p => by rw [if_neg (List.not_mem_nil _)]; rfl
        sreq := fun p => by rw [if_neg (List.not_mem_nil _)]; rfl }
  | cons a t ih =>
    intro e
    have h := ih { e with sbuf_ctr_ := e.sbuf_ctr_.set a 0
                          stat_ := e.stat_.set a '0'
                          sebf_ := e.sebf_.set a (e.sebf_.getD a default).zfill
                          sreq_ := e.sreq_.set a false }
    have he : recycle (a :: t) e = recycle t
        { e with sbuf_ctr_ := e.sbuf_ctr_.set a 0
                 stat_ := e.stat_.set a '0'
                 sebf_ := e.sebf_.set a (e.sebf_.getD a default).zfill
                 sreq_ := e.sreq_.set a false } := by
      unfold recycle
      rw [List.foldl_cons]
    rw [he]
    have key : ∀ {α : Type} (l : List α) (d : α) (p : Nat),
        (if p ∈ t then d else (l.set a d).getD p d) =
          if p ∈ a :: t then d else l.getD p d := by
      intro α l d p
      by_cases hp : p ∈ t
      · rw [if_pos hp, if_pos (List.mem_cons_of_mem _ hp)]
      · rw [if_neg hp]
        by_cases hpa : p = a
        · subst hpa
          rw [if_pos (List.mem_cons_self _ _)]
          by_cases hl : p < l.length
          · exact list_getD_set_eq _ _ _ _ hl
          · exact list_getD_of_le _ _ _ (by rw [List.length_set]; omega)
        · rw [if_neg (by simp [hpa, hp]), list_getD_set_ne _ _ _ _ _ (fun h => hpa h.symm)]
    exact
      { rank := h.rank, erange := h.erange, pindex := h.pindex, bufsize := h.bufsize
        pdegree := h.pdegree, targets := h.targets, inn := h.inn, out := h.out
        inserted := h.inserted, sent := h.sent
        len_stat := h.len_stat.trans (List.length_set _ _ _)
        len_sreq := h.len_sreq.trans (List.length_set _ _ _)
        len_ctr := h.len_ctr.trans (List.length_set _ _ _)
        ctr := fun p => (h.ctr p).trans (key e.sbuf_ctr_ 0 p)
        stat := fun p => (h.stat p).trans (key e.stat_ '0' p)
        sreq := fun p => (h.sreq p).trans (key e.sreq_ false p) }

/-- When no send handle is active the recycle loop has nothing to do. -/
theorem recycle_guard (l : List Nat) (e : TriangulateAggrBufferedHashPush) :
    (if e.sreq_.any id then recycle (l.filter (fun i => e.sreq_.getD i false)) e else e) =
      recycle (l.filter (fun i => e.sreq_.getD i false)) e := by
  by_cases h : e.sreq_.any id = true
  · rw [if_pos h]
  · rw [if_neg h]
    have : l.filter (fun i => e.sreq_.getD i false) = [] := by
      rw [List.filter_eq_nil_iff]
      intro i _ hi
      apply h
      rw [List.any_eq_true]
      have hlt : i < e.sreq_.length := by
        by_contra hc
        rw [list_getD_of_le _ _ _ (by omega)] at hi
        cases hi
      rw [List.getD_eq_getElem _ _ hlt] at hi
      exact ⟨_, List.getElem_mem hlt, hi⟩
    rw [this]
    rfl

/-- `process_messages()` changes the receive side of the object only. -/
theorem process_messages_frame (g : Graph) (H : Hash128) (msg : Option (List Char))
    (e : TriangulateAggrBufferedHashPush) :
    (process_messages g H msg e).sreq_ = e.sreq_ ∧
      (process_messages g H msg e).sent_ = e.sent_ ∧
      (process_messages g H msg e).pdegree_ = e.pdegree_ ∧
      (process_messages g H msg e).targets_ = e.targets_ ∧
      (process_messages g H msg e).in_nghosts_ = in_after e.bufsize_ e.in_nghosts_ msg := by
  cases msg <;> exact ⟨rfl, rfl, rfl, rfl, rfl⟩

theorem unsent_some (e : TriangulateAggrBufferedHashPush) (R p : Nat)
    (h : e.pindex_.lookup R = some p) :
    unsent e R = if e.sreq_.getD p false = true then 0 else e.sbuf_ctr_.getD p 0 := by
  unfold unsent
  rw [h]

theorem unsent_none (e : TriangulateAggrBufferedHashPush) (R : Nat)
    (h : e.pindex_.lookup R = none) : unsent e R = 0 := by
  unfold unsent
  rw [h]

/-- The state after the receive and the recycle of one iteration, when the first
part of the iteration (a pass, the flush, or nothing) led from the steady state
`e` to `s1` without inserting into a slot whose send is active.  `ts` are the
indices that `MPI_Testsome` may report. -/
theorem steady_after (g : Graph) (H : Hash128) (B : Int) (r : Nat)
    (e s1 e2 e3 : TriangulateAggrBufferedHashPush) (probe : Option (List Char))
    (ts : List Nat) (hq : Steady g B r e) (hr : PassRel e s1) (hinv : LView.Inv g s1.view)
    (hk : ∀ p, e.sreq_.getD p false = true → s1.sbuf_ctr_.getD p 0 = e.sbuf_ctr_.getD p 0)
    (he2 : e2 = process_messages g H probe s1)
    (he3 : e3 = recycle (ts.filter (fun i => e2.sreq_.getD i false)) e2) :
    Steady g B r e3 ∧ e3.out_nghosts_ = s1.out_nghosts_ ∧ e3.sent_ = s1.sent_ ∧
      e3.in_nghosts_ = in_after B e.in_nghosts_ probe ∧
      (∀ R, owed g e R ≤ owed g e3 R +
        B * (((s1.sent_.drop e.sent_.length).countP (fun msg => decide (msg.1 = R)) : Nat) : Int)) ∧
      (∀ p, e3.sbuf_ctr_.getD p 0 =
        if p ∈ ts ∧ s1.sreq_.getD p false = true then 0 else s1.sbuf_ctr_.getD p 0) ∧
      (∀ p, e3.sreq_.getD p false =
        if p ∈ ts ∧ s1.sreq_.getD p false = true then false else s1.sreq_.getD p false) ∧
      (∀ p, e3.stat_.getD p '0' =
        if p ∈ ts ∧ s1.sreq_.getD p false = true then '0' else s1.stat_.getD p '0') ∧
      e3.pdegree_ = e.pdegree_ ∧ e3.targets_ = e.targets_ := by
  obtain ⟨f1, f2, f3, f4, f5⟩ := process_messages_frame g H probe s1
  have hv2 : e2.view = s1.view := by rw [he2]; exact view_process_messages g H probe s1
  rw [← he2] at f1 f2 f3 f4 f5
  have hrec := recycle_spec (ts.filter (fun i => e2.sreq_.getD i false)) e2
  rw [← he3] at hrec
  have hmem : ∀ p, p ∈ ts.filter (fun i => e2.sreq_.getD i false) ↔
      (p ∈ ts ∧ s1.sreq_.getD p false = true) := by
    intro p
    rw [List.mem_filter, f1]
  have v_rank : e2.rank_ = s1.rank_ := congrArg LView.rank_ hv2
  have v_erange : e2.erange_ = s1.erange_ := congrArg LView.erange_ hv2
  have v_buf : e2.bufsize_ = s1.bufsize_ := congrArg LView.bufsize_ hv2
  have v_pindex : e2.pindex_ = s1.pindex_ := congrArg LView.pindex_ hv2
  have v_out : e2.out_nghosts_ = s1.out_nghosts_ := congrArg LView.out_nghosts_ hv2
  have v_ctr : e2.sbuf_ctr_ = s1.sbuf_ctr_ := congrArg LView.sbuf_ctr_ hv2
  have v_stat : e2.stat_ = s1.stat_ := congrArg LView.stat_ hv2
  have v_ins : e2.inserted_ = s1.inserted_ := congrArg LView.inserted_ hv2
  have k_rank : e3.rank_ = e.rank_ := by rw [hrec.rank, v_rank, hr.rank]
  have k_buf : e3.bufsize_ = e.bufsize_ := by rw [hrec.bufsize, v_buf, hr.bufsize]
  have k_pindex : e3.pindex_ = e.pindex_ := by rw [hrec.pindex, v_pindex, hr.pindex]
  have k_pdeg : e3.pdegree_ = e.pdegree_ := by rw [hrec.pdegree, f3, hr.pdegree]
  have k_tg : e3.targets_ = e.targets_ := by rw [hrec.targets, f4, hr.targets]
  have k_lstat : e3.stat_.length = e.stat_.length := by rw [hrec.len_stat, v_stat, hr.len_stat]
  have k_lsreq : e3.sreq_.length = e.sreq_.length := by rw [hrec.len_sreq, f1, hr.len_sreq]
  have k_lctr : e3.sbuf_ctr_.length = e.sbuf_ctr_.length := by
    rw [hrec.len_ctr, v_ctr, hr.len_ctr]
  have k_ins : e3.inserted_ = s1.inserted_ := by rw [hrec.inserted, v_ins]
  have hci1 : CtrInv s1 := hr.ctr_inv hq.ctr
  have hctr3 : ∀ p, e3.sbuf_ctr_.getD p 0 =
      if p ∈ ts ∧ s1.sreq_.getD p false = true then 0 else s1.sbuf_ctr_.getD p 0 := by
    intro p
    rw [hrec.ctr p, v_ctr]
    by_cases hm : p ∈ ts.filter (fun i => e2.sreq_.getD i false)
    · rw [if_pos hm, if_pos ((hmem p).1 hm)]
    · rw [if_neg hm, if_neg (fun h => hm ((hmem p).2 h))]
  have hsreq3 : ∀ p, e3.sreq_.getD p false =
      if p ∈ ts ∧ s1.sreq_.getD p false = true then false else s1.sreq_.getD p false := by
    intro p
    rw [hrec.sreq p]
    rw [show e2.sreq_.getD p false = s1.sreq_.getD p false from by rw [f1]]
    by_cases hm : p ∈ ts.filter (fun i => e2.sreq_.getD i false)
    · rw [if_pos hm, if_pos ((hmem p).1 hm)]
    · rw [if_neg hm, if_neg (fun h => hm ((hmem p).2 h))]
  have hstat3 : ∀ p, e3.stat_.getD p '0' =
      if p ∈ ts ∧ s1.sreq_.getD p false = true then '0' else s1.stat_.getD p '0' := by
    intro p
    rw [hrec.stat p, v_stat]
    by_cases hm : p ∈ ts.filter (fun i => e2.sreq_.getD i false)
    · rw [if_pos hm, if_pos ((hmem p).1 hm)]
    · rw [if_neg hm, if_neg (fun h => hm ((hmem p).2 h))]
  have hfl1 : ∀ p, s1.stat_.getD p '0' = '1' → s1.sreq_.getD p false = true := by
    intro p hp
    rcases hr.paused p hp with h | h
    · exact hr.sreq_mono p (hq.flight p h)
    · exact h
  have hsteady : Steady g B r e3 :=
    { inv := by
        have : e3.view = LView.recycle (ts.filter (fun i => e2.sreq_.getD i false)) s1.view := by
          rw [he3, view_recycle, hv2]
        rw [this]
        exact (LView.recycle_inv g _ s1.view hinv).1
      rank := k_rank.trans hq.rank
      buf := k_buf.trans hq.buf
      erange := by rw [hrec.erange, v_erange, hr.erange]; exact hq.erange
      len_stat := by rw [k_lstat, k_pdeg]; exact hq.len_stat
      len_sreq := by rw [k_lsreq, k_pdeg]; exact hq.len_sreq
      len_tg := by rw [k_tg, k_pdeg]; exact hq.len_tg
      hyp := by
        obtain ⟨h1, h2⟩ := hq.hyp
        refine ⟨by rw [k_buf]; exact h1, ?_⟩
        rw [k_rank, k_pindex, k_lctr, k_lsreq, k_lstat]
        exact h2
      pi := by
        rw [k_pindex, k_pdeg, k_tg]
        exact hq.pi
      tg := by
        rw [k_pindex, k_pdeg, k_tg]
        exact hq.tg
      ctr := by
        obtain ⟨c1, c2, c3, c4⟩ := hci1
        refine ⟨by rw [k_buf, ← hr.bufsize]; exact c1, by rw [k_buf, ← hr.bufsize]; exact c2,
          fun p => ?_, fun p hp => ?_⟩
        · rw [hctr3 p, k_buf, ← hr.bufsize]
          by_cases hm : p ∈ ts ∧ s1.sreq_.getD p false = true
          · rw [if_pos hm]
            exact ⟨le_refl _, le_of_lt c1, rfl⟩
          · rw [if_neg hm]
            exact c3 p
        · rw [hstat3 p] at hp
          by_cases hm : p ∈ ts ∧ s1.sreq_.getD p false = true
          · rw [if_pos hm] at hp
            exact absurd hp (by decide)
          · rw [if_neg hm] at hp
            rw [hctr3 p, if_neg hm, k_buf, ← hr.bufsize]
            exact c4 p hp
      flight := by
        intro p hp
        rw [hstat3 p] at hp
        rw [hsreq3 p]
        by_cases hm : p ∈ ts ∧ s1.sreq_.getD p false = true
        · rw [if_pos hm] at hp
          exact absurd hp (by decide)
        · rw [if_neg hm] at hp
          rw [if_neg hm]
          exact hfl1 p hp }
  have hin : e3.in_nghosts_ = in_after B e.in_nghosts_ probe := by
    rw [hrec.inn, f5, hr.inn, hr.bufsize, hq.buf]
  refine ⟨hsteady, by rw [hrec.out, v_out], by rw [hrec.sent, f2], hin, ?_, hctr3, hsreq3,
    hstat3, k_pdeg, k_tg⟩
  intro R
  obtain ⟨new, hins, hctr, -⟩ := hr.log
  obtain ⟨posted, hsent, hsq⟩ := hr.sent
  have hdrop : s1.sent_.drop e.sent_.length = posted := by
    rw [hsent, List.drop_left]
  rw [hdrop]
  have hlog : (logged g e3 R : Int) = (logged g e R : Int) +
      ((new.countP (fun x => decide (g.get_owner (g.get_edge e.rank_ x.2.1) = R)) : Nat) : Int) := by
    unfold logged
    rw [k_ins, k_rank, hins, List.countP_append]
    push_cast
    rfl
  have hB : 0 < B := by rw [← hq.buf]; exact hq.ctr.1
  have hcnt : (0 : Int) ≤ B * ((posted.countP (fun msg => decide (msg.1 = R)) : Nat) : Int) :=
    mul_nonneg (le_of_lt hB) (Int.ofNat_nonneg _)
  unfold owed
  rw [k_rank, hlog]
  cases hlk : e.pindex_.lookup R with
  | none =>
    rw [unsent_none e R hlk, unsent_none e3 R (by rw [k_pindex]; exact hlk)]
    have hz : new.countP (fun x => decide (g.get_owner (g.get_edge e.rank_ x.2.1) = R)) = 0 := by
      rw [List.countP_eq_zero]
      intro x hx hown
      have hown' : g.get_owner (g.get_edge e.rank_ x.2.1) = R := by simpa using hown
      have hx1 : x ∈ s1.view.inserted_ := by
        show x ∈ s1.inserted_
        rw [hins]
        exact List.mem_append_right _ hx
      obtain ⟨i, hi, hrng, -, hcand, -⟩ := hinv.mem_candidate x hx1
      have hne : LView.cands g s1.view i x.2.1 ≠ [] := fun h => by rw [h] at hcand; cases hcand
      obtain ⟨hg, hl⟩ := LView.ghost_of_cands g s1.view i x.2.1 hne
      have hrk : s1.view.rank_ = e.rank_ := hr.rank
      rw [hrk] at hi hg hl
      have hrng1 := hrng.1
      rw [hrk] at hrng1
      obtain ⟨p, hp, -⟩ := hq.hyp.2 i hi x.2.1 hrng1 hl hg
      rw [hown', hlk] at hp
      cases hp
    rw [hz]
    simp only [Nat.cast_zero, add_zero]
    generalize B * ((posted.countP (fun msg => decide (msg.1 = R)) : Nat) : Int) = X at hcnt
    omega
  | some p =>
    rw [unsent_some e R p hlk, unsent_some e3 R p (by rw [k_pindex]; exact hlk), hctr3 p,
      hsreq3 p]
    have hle : new.countP (fun x => decide (g.get_owner (g.get_edge e.rank_ x.2.1) = R)) ≤
        new.countP (fun x => decide (x.1 = p)) := by
      apply List.countP_mono_left
      intro x hx hown
      have hown' : g.get_owner (g.get_edge e.rank_ x.2.1) = R := by simpa using hown
      have hx1 : x ∈ s1.view.inserted_ := by
        show x ∈ s1.inserted_
        rw [hins]
        exact List.mem_append_right _ hx
      obtain ⟨i, hi, -, hs⟩ := hinv.d0 x hx1
      have hs' : x.1 = (s1.pindex_.lookup (g.get_owner (g.get_edge s1.rank_ x.2.1))).getD 0 := hs
      rw [hr.rank, hr.pindex, hown', hlk] at hs'
      simpa using hs'
    have hc1 := hctr p
    have hle' : ((new.countP (fun x => decide (g.get_owner (g.get_edge e.rank_ x.2.1) = R)) : Nat)
        : Int) ≤ ((new.countP (fun x => decide (x.1 = p)) : Nat) : Int) := by
      exact_mod_cast hle
    have hub := (hci1.2.2.1 p).2.1
    rw [hr.bufsize, hq.buf] at hub
    generalize hX : B * ((posted.countP (fun msg => decide (msg.1 = R)) : Nat) : Int) = X at hcnt
    by_cases hs0 : e.sreq_.getD p false = true
    · -- the slot was being sent: nothing was inserted into it
      have hk0 := hk p hs0
      have hs1 := hr.sreq_mono p hs0
      rw [if_pos hs0]
      by_cases hm : p ∈ ts ∧ s1.sreq_.getD p false = true
      · rw [if_pos hm, if_pos hm]
        simp only [Bool.false_eq_true, if_false]
        omega
      · rw [if_neg hm, if_neg hm, if_pos hs1]
        omega
    · rw [if_neg hs0]
      by_cases hs1 : s1.sreq_.getD p false = true
      · -- the slot was sent in this iteration
        have hpos : 0 < posted.countP (fun msg => decide (msg.1 = R)) := by
          rw [List.countP_pos_iff]
          rcases hsq p hs1 with h | ⟨msg, hmsg, hl⟩
          · exact absurd h hs0
          · refine ⟨msg, hmsg, ?_⟩
            have h1 := (hq.pi _ _ hl).2
            have h2 := (hq.pi _ _ hlk).2
            simp only [decide_eq_true_eq]
            rw [← h1, h2]
        have hpos' : (1 : Int) ≤ ((posted.countP (fun msg => decide (msg.1 = R)) : Nat) : Int) := by
          exact_mod_cast hpos
        have hX' := le_mul_of_one_le_right (le_of_lt hB) hpos'
        rw [hX] at hX'
        by_cases hm : p ∈ ts ∧ s1.sreq_.getD p false = true
        · rw [if_pos hm, if_pos hm]
          simp only [Bool.false_eq_true, if_false]
          omega
        · rw [if_neg hm, if_neg hm, if_pos hs1]
          omega
      · have hm : ¬ (p ∈ ts ∧ s1.sreq_.getD p false = true) := fun h => hs1 h.2
        rw [if_neg hm, if_neg hm, if_neg hs1]
        omega

end TriangulateAggrBufferedHashPush

namespace TriangulateAggrBufferedHashPush

theorem count_iter_work_eq (g : Graph) (H : Hash128) (ev : MPIEvents)
    (st : TriangulateAggrBufferedHashPush × CountLocals) :
    count_iter_work g H ev st =
      (recycle (ev.testsome.filter
          (fun i => (process_messages g H ev.probe (send_part g H st).1).sreq_.getD i false))
        (process_messages g H ev.probe (send_part g H st).1), (send_part g H st).2) := by
  unfold count_iter_work send_part
  simp only
  rw [recycle_guard]

theorem count_iter_fst (g : Graph) (H : Hash128) (ev : MPIEvents)
    (st : TriangulateAggrBufferedHashPush × CountLocals) :
    (count_iter g H ev st).1 = (count_iter_work g H ev st).1 ∧
      (count_iter g H ev st).2.sends_done = (count_iter_work g H ev st).2 ∧
      (count_iter g H ev st).2.nbar_active =
        (st.2.nbar_active || decide ((count_iter_work g H ev st).1.in_nghosts_ = 0)) ∧
      (count_iter g H ev st).2.done = (if st.2.nbar_active then ev.nbar_test else st.2.done) := by
  unfold count_iter
  simp only
  by_cases h1 : st.2.nbar_active = true
  · rw [if_pos h1, if_pos h1]
    simp [h1]
  · rw [if_neg h1, if_neg h1]
    by_cases h2 : (count_iter_work g H ev st).1.in_nghosts_ = 0
    · rw [if_pos h2]
      simp [h1, h2]
    · rw [if_neg h2]
      simp [h1, h2]

/-- One iteration of the driver loop, whatever the message layer reports: the
state stays one between two iterations; what the iteration posts does not depend
on the report; what the process holds for a peer goes down only by what it posts
to that peer; the work of the send side does not grow, decreases when a pass
starts with every slot idle or when the flush is due, and when it stays the same
nothing is posted and no send is started; and every send that is reported
complete is no longer active. -/
theorem count_iter_loc (g : Graph) (H : Hash128) (B : Int) (r : Nat) (ev : MPIEvents)
    (st : TriangulateAggrBufferedHashPush × CountLocals) (hloc : Loc g B r st) :
    Loc g B r (count_iter g H ev st) ∧
      (count_iter g H ev st).1.sent_ = (send_part g H st).1.sent_ ∧
      (∀ R, owed g st.1 R ≤ owed g (count_iter g H ev st).1 R +
        B * ((((send_part g H st).1.sent_.drop st.1.sent_.length).countP
          (fun msg => decide (msg.1 = R)) : Nat) : Int)) ∧
      (count_iter g H ev st).1.in_nghosts_ = in_after B st.1.in_nghosts_ ev.probe ∧
      work_left (count_iter g H ev st) ≤ work_left st ∧
      (((st.1.out_nghosts_ ≠ 0 ∧ ∀ p, st.1.stat_.getD p '0' ≠ '1') ∨
          (st.1.out_nghosts_ = 0 ∧ st.2.sends_done = false)) →
        work_left (count_iter g H ev st) < work_left st) ∧
      (work_left (count_iter g H ev st) = work_left st →
        (send_part g H st).1.sent_.drop st.1.sent_.length = [] ∧
        ∀ p, (count_iter g H ev st).1.sreq_.getD p false = true →
          st.1.sreq_.getD p false = true) ∧
      (∀ p ∈ ev.testsome, (count_iter g H ev st).1.sreq_.getD p false = false) ∧
      (count_iter g H ev st).1.pdegree_ = st.1.pdegree_ ∧
      (count_iter g H ev st).1.targets_ = st.1.targets_ := by
  obtain ⟨hq, hsf, hsd, hdn⟩ := hloc
  obtain ⟨c1, c2, c3, c4⟩ := count_iter_fst g H ev st
  have hdn' : (count_iter g H ev st).2.done = true →
      (count_iter g H ev st).2.nbar_active = true := by
    intro h
    rw [c3]
    rw [c4] at h
    by_cases hn : st.2.nbar_active = true
    · rw [hn]; rfl
    · rw [if_neg hn] at h
      exact absurd (hdn h) hn
  have hout0 : 0 ≤ st.1.out_nghosts_ := hq.inv.out_nonneg
  have hw := count_iter_work_eq g H ev st
  have hE : (count_iter g H ev st).1 = recycle (ev.testsome.filter
      (fun i => (process_messages g H ev.probe (send_part g H st).1).sreq_.getD i false))
      (process_messages g H ev.probe (send_part g H st).1) := by rw [c1, hw]
  have hS : (count_iter g H ev st).2.sends_done = (send_part g H st).2 := by rw [c2, hw]
  -- the three cases of the send part
  have key : ∀ s1 : TriangulateAggrBufferedHashPush × Bool, send_part g H st = s1 →
      PassRel st.1 s1.1 → LView.Inv g s1.1.view →
      (∀ p, st.1.sreq_.getD p false = true →
        s1.1.sbuf_ctr_.getD p 0 = st.1.sbuf_ctr_.getD p 0) →
      (s1.2 = false → ∀ p, s1.1.sreq_.getD p false = true → s1.1.stat_.getD p '0' = '1') →
      (s1.2 = true → s1.1.out_nghosts_ = 0 ∧
        ∀ p, s1.1.sreq_.getD p false = true ∨ s1.1.sbuf_ctr_.getD p 0 = 0) →
      Loc g B r (count_iter g H ev st) ∧
      (count_iter g H ev st).1.sent_ = s1.1.sent_ ∧
      (∀ R, owed g st.1 R ≤ owed g (count_iter g H ev st).1 R +
        B * (((s1.1.sent_.drop st.1.sent_.length).countP
          (fun msg => decide (msg.1 = R)) : Nat) : Int)) ∧
      (count_iter g H ev st).1.in_nghosts_ = in_after B st.1.in_nghosts_ ev.probe ∧
      work_left (count_iter g H ev st) =
        s1.1.out_nghosts_.toNat + (if s1.2 then 0 else 1) ∧
      (∀ p, (count_iter g H ev st).1.sreq_.getD p false = true →
        s1.1.sreq_.getD p false = true) ∧
      (∀ p ∈ ev.testsome, (count_iter g H ev st).1.sreq_.getD p false = false) ∧
      (count_iter g H ev st).1.pdegree_ = st.1.pdegree_ ∧
      (count_iter g H ev st).1.targets_ = st.1.targets_ := by
    intro s1 hs1 hr hinv hk ha hb
    rw [hs1] at hE hS
    obtain ⟨q1, q2, q3, q4, q5, q6, q7, q8, q9, q10⟩ := steady_after g H B r st.1 s1.1 _ _
      ev.probe ev.testsome hq hr hinv hk rfl hE
    refine ⟨⟨q1, ?_, ?_, hdn'⟩, q3, q5, q4, ?_, ?_, ?_, q9, q10⟩
    · intro h p hp
      rw [hS] at h
      rw [q7 p] at hp
      rw [q8 p]
      by_cases hm : p ∈ ev.testsome ∧ s1.1.sreq_.getD p false = true
      · rw [if_pos hm] at hp
        cases hp
      · rw [if_neg hm] at hp
        rw [if_neg hm]
        exact ha h p hp
    · intro h
      rw [hS] at h
      obtain ⟨b1, b2⟩ := hb h
      refine ⟨q2.trans b1, fun p => ?_⟩
      rw [q6 p, q7 p]
      by_cases hm : p ∈ ev.testsome ∧ s1.1.sreq_.getD p false = true
      · rw [if_pos hm, if_pos hm]
        exact Or.inr rfl
      · rw [if_neg hm, if_neg hm]
        exact b2 p
    · unfold work_left
      rw [q2, hS]
    · intro p hp
      rw [q7 p] at hp
      by_cases hm : p ∈ ev.testsome ∧ s1.1.sreq_.getD p false = true
      · rw [if_pos hm] at hp
        cases hp
      · rw [if_neg hm] at hp
        exact hp
    · intro p hp
      rw [q7 p]
      by_cases hm : p ∈ ev.testsome ∧ s1.1.sreq_.getD p false = true
      · rw [if_pos hm]
      · rw [if_neg hm]
        cases h : s1.1.sreq_.getD p false
        · rfl
        · exact absurd ⟨hp, h⟩ hm
  by_cases ho : st.1.out_nghosts_ = 0
  · by_cases hs : st.2.sends_done = true
    · -- nothing left to send
      have hsp : send_part g H st = (st.1, st.2.sends_done) := by
        unfold send_part
        rw [if_pos ho, hs]
        rfl
      obtain ⟨k1, k2, k3, k4, k5, k6, k7, k8⟩ := key _ hsp (PassRel.rel_refl st.1) hq.inv
        (fun _ _ => rfl) hsf hsd
      rw [hsp]
      refine ⟨k1, k2, k3, k4, ?_, ?_, ?_, k7, k8⟩
      · rw [k5]
        exact le_refl _
      · intro h
        rcases h with h | h
        · exact absurd ho h.1
        · rw [hs] at h
          cases h.2
      · intro _
        refine ⟨?_, k6⟩
        show st.1.sent_.drop st.1.sent_.length = []
        rw [List.drop_length]
    · -- the final flush
      have hs' : st.2.sends_done = false := by simpa using hs
      have hsp : send_part g H st = (st.1.nbsend_all, true) := by
        unfold send_part
        rw [if_pos ho, hs']
        rfl
      obtain ⟨f1, f2⟩ := nbsend_fold_rel st.1.targets_ st.1 (by
        intro o hmem
        obtain ⟨n, hn, hget⟩ := List.getElem_of_mem hmem
        have hn' : n < st.1.pdegree_ := by rw [← hq.len_tg]; exact hn
        refine ⟨n, ?_, by rw [hq.len_sreq]; exact hn'⟩
        have := hq.tg n hn'
        rw [List.getD_eq_getElem _ _ hn, hget] at this
        exact this)
      have hvw : st.1.nbsend_all.view = st.1.view := view_nbsend_all st.1
      have hout1 : st.1.nbsend_all.out_nghosts_ = st.1.out_nghosts_ :=
        congrArg LView.out_nghosts_ hvw
      have hctr1 : st.1.nbsend_all.sbuf_ctr_ = st.1.sbuf_ctr_ := congrArg LView.sbuf_ctr_ hvw
      obtain ⟨k1, k2, k3, k4, k5, k6, k7, k8⟩ := key (st.1.nbsend_all, true) hsp f1
        (by rw [hvw]; exact hq.inv) (fun p _ => by rw [hctr1])
        (fun h => by cases h)
        (fun _ => ⟨hout1.trans ho, fun p => by
          show st.1.nbsend_all.sreq_.getD p false = true ∨ st.1.nbsend_all.sbuf_ctr_.getD p 0 = 0
          rw [hctr1]
          by_cases hpos : 0 < st.1.sbuf_ctr_.getD p 0
          · left
            have hp : p < st.1.pdegree_ := by
              by_contra hc
              have hlen : st.1.sbuf_ctr_.length = st.1.stat_.length := hq.inv.len_ctr
              rw [list_getD_of_le _ _ _ (by rw [hlen, hq.len_stat]; omega)] at hpos
              exact absurd hpos (lt_irrefl _)
            refine f2 (st.1.targets_.getD p 0) ?_ p (hq.tg p hp) hpos
            rw [List.getD_eq_getElem _ _ (by rw [hq.len_tg]; exact hp)]
            exact List.getElem_mem _
          · right
            have := (hq.ctr.2.2.1 p).1
            omega⟩)
      rw [hsp]
      have hwl : work_left (count_iter g H ev st) < work_left st := by
        rw [k5]
        unfold work_left
        rw [hs']
        show st.1.nbsend_all.out_nghosts_.toNat + 0 < _
        rw [hout1]
        simp
      refine ⟨k1, k2, k3, k4, le_of_lt hwl, fun _ => hwl, ?_, k7, k8⟩
      intro h
      rw [h] at hwl
      exact absurd hwl (lt_irrefl _)
  · -- a pass of the enumerator
    have hsp : send_part g H st = (lookup_edges g H st.1, st.2.sends_done) := by
      unfold send_part
      rw [if_neg ho]
    have hsf' : st.2.sends_done = false := by
      cases h : st.2.sends_done
      · rfl
      · exact absurd (hsd h).1 ho
    have hp := (lookup_edges_reach g H st.1 hq.hyp).reach_rel
    have hr := hp.rel
    have hi1 : LView.Inv g (lookup_edges g H st.1).view := by
      rw [view_lookup_edges]
      exact (LView.lookup_edges_inv g st.1.view hq.inv).1
    have hci1 := hr.ctr_inv hq.ctr
    obtain ⟨new, hins, hctr, hout⟩ := hr.log
    obtain ⟨k1, k2, k3, k4, k5, k6, k7, k8⟩ := key (lookup_edges g H st.1, st.2.sends_done) hsp hr
      hi1
      (fun p hp0 => by
        have h1 := hq.ctr.2.2.2 p (hsf hsf' p hp0)
        have h2 := (hci1.2.2.1 p).2.1
        have h3 := hctr p
        rw [hr.bufsize] at h2
        show (lookup_edges g H st.1).sbuf_ctr_.getD p 0 = _
        omega)
      (fun _ p hp1 => by
        rcases hp.fresh p hp1 with h | h
        · exact hp.stat_mono p (hsf hsf' p h)
        · exact h.1)
      (fun h => by
        have h' : st.2.sends_done = true := h
        rw [hsf'] at h'
        cases h')
    have hout1 : 0 ≤ (lookup_edges g H st.1).out_nghosts_ := hi1.out_nonneg
    have hle : (lookup_edges g H st.1).out_nghosts_ ≤ st.1.out_nghosts_ := by
      rw [hout]
      omega
    have k5' : work_left (count_iter g H ev st) =
        (lookup_edges g H st.1).out_nghosts_.toNat + 1 := by
      rw [k5]
      show (lookup_edges g H st.1).out_nghosts_.toNat +
        (if st.2.sends_done = true then 0 else 1) = _
      rw [hsf']
      rfl
    have hwl : work_left st = st.1.out_nghosts_.toNat + 1 := by
      unfold work_left
      rw [hsf']
      rfl
    rw [hsp]
    refine ⟨k1, k2, k3, k4, ?_, ?_, ?_, k7, k8⟩
    · rw [k5', hwl]
      omega
    · intro h
      rcases h with h | h
      · have hprog := pass_progress g H st.1 hq.inv hq.hyp hq.ctr h.2 ho
        rw [k5', hwl]
        omega
      · exact absurd h.1 ho
    · intro h
      rw [k5', hwl] at h
      have hsame : (lookup_edges g H st.1).out_nghosts_ = st.1.out_nghosts_ := by
        omega
      obtain ⟨n1, n2⟩ := pass_no_insert g H st.1 hq.inv hq.hyp hq.ctr hsame
      exact ⟨n1, fun p hp3 => n2 p (k6 p hp3)⟩

end TriangulateAggrBufferedHashPush

/-! ## A process that has finished sending holds nothing for its peers -/

namespace Graph

/-- Summing over the edge ranges of the first `k` local vertices is summing over
the edge positions below the range of vertex `k`. -/
theorem sum_edge_ranges (g : Graph) (rank : Nat) (f : Nat → Nat) : ∀ k,
    ((List.range k).map (fun i =>
      ((List.range' (g.edge_range rank i).1
        ((g.edge_range rank i).2 - (g.edge_range rank i).1)).map f).sum)).sum =
      ((List.range (g.edge_range rank k).1).map f).sum := by
  intro k
  induction k with
  | zero =>
    have : (g.edge_range rank 0).1 = 0 := by
      unfold edge_range
      simp
    rw [this]
    rfl
  | succ k ih =>
    rw [List.range_succ, List.map_append, List.sum_append, ih, g.edge_range_succ rank k]
    have hle := g.edge_range_le rank k
    have h1 : (g.edge_range rank k).2 =
        (g.edge_range rank k).1 + ((g.edge_range rank k).2 - (g.edge_range rank k).1) := by
      omega
    have h2 : List.range (g.edge_range rank k).2 =
        List.range (g.edge_range rank k).1 ++
          List.range' (g.edge_range rank k).1
            ((g.edge_range rank k).2 - (g.edge_range rank k).1) := by
      rw [List.range_eq_range', List.range_eq_range']
      have h3 := List.range'_append_1 0 (g.edge_range rank k).1
        ((g.edge_range rank k).2 - (g.edge_range rank k).1)
      rw [zero_add] at h3
      rw [h3]
      congr 1
      omega
    rw [h2, List.map_append, List.sum_append]
    simp

end Graph

/-- Entries of a log counted per edge position, for the positions that satisfy
`Q`, do not exceed the entries whose position satisfies `Q`. -/
theorem sum_countP_positions (Q : Nat → Bool) (N : Nat) : ∀ (L : List (Nat × Nat × Nat)),
    ((List.range N).map (fun m =>
      if Q m = true then L.countP (fun x => decide (x.2.1 = m)) else 0)).sum ≤
      L.countP (fun x => Q x.2.1) := by
  intro L
  induction L with
  | nil => simp
  | cons x t ih =>
    have hsplit : ((List.range N).map (fun m =>
        if Q m = true then (x :: t).countP (fun x => decide (x.2.1 = m)) else 0)).sum =
        ((List.range N).map (fun m =>
          if Q m = true then t.countP (fun x => decide (x.2.1 = m)) else 0)).sum +
        ((List.range N).map (fun m => if m = x.2.1 ∧ Q m = true then 1 else 0)).sum := by
      rw [list_sum_map_range, list_sum_map_range, list_sum_map_range, ← Finset.sum_add_distrib]
      apply Finset.sum_congr rfl
      intro m _
      rw [List.countP_cons]
      by_cases hq : Q m = true
      · by_cases hm : m = x.2.1
        · subst hm
          simp [hq]
        · have : ¬ x.2.1 = m := fun h => hm h.symm
          simp [hq, hm, this]
      · simp [hq]
    have hone : ((List.range N).map (fun m => if m = x.2.1 ∧ Q m = true then 1 else 0)).sum ≤
        if Q x.2.1 = true then 1 else 0 := by
      rw [list_sum_map_range]
      by_cases hx : x.2.1 < N
      · rw [sum_ite_eq_single N x.2.1 hx (fun m => Q m = true)]
      · apply le_of_eq_of_le _ (Nat.zero_le _)
        apply Finset.sum_eq_zero
        intro m hm
        have := Finset.mem_range.1 hm
        rw [if_neg]
        intro h
        omega
    rw [hsplit, List.countP_cons]
    have : (if Q x.2.1 = true then 1 else 0) = (if Q x.2.1 = true then 1 else 0 : Nat) := rfl
    omega

namespace LView

/-- When `out_nghosts_` is zero the log holds all candidate pairs of every source
edge. -/
theorem Inv.done_all {g : Graph} {v : LView} (h : Inv g v) (hout : v.out_nghosts_ = 0)
    (i m : Nat) (hi : i < g.get_lnv v.rank_) (hr : in_range g v i m) :
    v.done m = cands g v i m := by
  have hsum : v.vcount_.sum = 0 := by rw [← h.d4o]; exact hout
  have hil : i < v.vcount_.length := by rw [h.len_vcount]; exact hi
  have hnn : ∀ x ∈ v.vcount_, 0 ≤ x := by
    intro x hx
    obtain ⟨j, hj, hget⟩ := List.getElem_of_mem hx
    have := h.d4 j (by rw [← h.len_vcount]; exact hj)
    rw [List.getD_eq_getElem _ _ hj, hget] at this
    rw [this]
    exact Int.ofNat_nonneg _
  have hz := list_int_sum_zero v.vcount_ hnn hsum (v.vcount_.getD i 0)
    (by rw [List.getD_eq_getElem _ _ hil]; exact List.getElem_mem _)
  have hp : pending g v i = 0 := by
    have := h.d4 i hi
    rw [hz] at this
    omega
  rw [h.d1 i hi m hr]
  exact List.filter_eq_self.2 (pending_zero g v i h hi hp m hr)

end LView

namespace TriangulateAggrBufferedHashPush

/-- Once every candidate pair is inserted, the pairs logged for peer `R` are at
least the pairs that the constructor counted for `R`. -/
theorem logged_complete (g : Graph) (B : Int) (r : Nat) (e : TriangulateAggrBufferedHashPush)
    (hq : Steady g B r e) (hout : e.out_nghosts_ = 0) (R : Nat) :
    peer_total g e.rank_ R ≤ logged g e R := by
  have hinv := hq.inv
  have hstep : peer_total g e.rank_ R =
      ((List.range (g.get_lnv e.rank_)).map (fun i =>
        ((List.range' (g.edge_range e.rank_ i).1
          ((g.edge_range e.rank_ i).2 - (g.edge_range e.rank_ i).1)).map
          (fun m => if decide (g.get_owner (g.get_edge e.rank_ m) = R) = true then
            e.inserted_.countP (fun x => decide (x.2.1 = m)) else 0)).sum)).sum := by
    unfold peer_total peer_cands
    congr 1
    apply List.map_congr_left
    intro i hi
    have hi' : i < g.get_lnv e.view.rank_ := List.mem_range.1 hi
    congr 1
    apply List.map_congr_left
    intro m hm
    have hm' := List.mem_range'_1.1 hm
    have hr : LView.in_range g e.view i m :=
      ⟨hm'.1, by have := g.edge_range_le e.rank_ i; show m < (g.edge_range e.rank_ i).2; omega⟩
    have hd := hinv.done_all hout i m hi' hr
    have hlen : (LView.cands g e.view i m).length =
        e.inserted_.countP (fun x => decide (x.2.1 = m)) := by
      rw [← hd]
      unfold LView.done
      rw [List.length_map, List.countP_eq_length_filter]
      rfl
    have hc : LView.cands g e.view i m =
        cand_edge g e.rank_ (erange_allreduce g) (g.edge_range e.rank_ i).2 m := by
      unfold LView.cands
      show cand_edge g e.rank_ e.erange_ _ m = _
      rw [hq.erange]
      rfl
    rw [← hc, hlen]
    by_cases ho : g.get_owner (g.get_edge e.rank_ m) = R
    · simp [ho]
    · simp [ho]
  rw [hstep, g.sum_edge_ranges e.rank_ (fun m =>
    if decide (g.get_owner (g.get_edge e.rank_ m) = R) = true then
      e.inserted_.countP (fun x => decide (x.2.1 = m)) else 0)]
  exact sum_countP_positions (fun m => decide (g.get_owner (g.get_edge e.rank_ m) = R)) _
    e.inserted_

/-- A process that has inserted all its pairs, and whose slots are empty or being
sent, holds nothing for any peer. -/
theorem owed_finished (g : Graph) (B : Int) (r : Nat) (e : TriangulateAggrBufferedHashPush)
    (hq : Steady g B r e) (hout : e.out_nghosts_ = 0)
    (hctr : ∀ p, e.sreq_.getD p false = true ∨ e.sbuf_ctr_.getD p 0 = 0) (R : Nat) :
    owed g e R ≤ 0 := by
  have h1 := logged_complete g B r e hq hout R
  have h2 : unsent e R = 0 := by
    unfold unsent
    cases e.pindex_.lookup R with
    | none => rfl
    | some p =>
      show (if e.sreq_.getD p false = true then 0 else e.sbuf_ctr_.getD p 0) = 0
      rcases hctr p with h | h
      · rw [if_pos h]
      · rw [h]
        split <;> rfl
  unfold owed
  rw [h2]
  have : (peer_total g e.rank_ R : Int) ≤ (logged g e R : Int) := by exact_mod_cast h1
  omega

end TriangulateAggrBufferedHashPush

/-! ## The constructed object is quiet -/

theorem list_lookup_mem (o p : Nat) : ∀ (l : List (Nat × Nat)), l.lookup o = some p →
    (o, p) ∈ l := by
  intro l
  induction l with
  | nil => intro h; cases h
  | cons a t ih =>
    intro h
    obtain ⟨k, b⟩ := a
    rw [List.lookup_cons] at h
    by_cases hk : o = k
    · subst hk
      simp only [beq_self_eq_true, Option.some.injEq] at h
      subst h
      exact List.mem_cons_self _ _
    · have hf : (o == k) = false := by simpa using hk
      rw [hf] at h
      exact List.mem_cons_of_mem _ (ih h)

theorem list_lookup_of_nodup (o p : Nat) : ∀ (l : List (Nat × Nat)),
    (l.map Prod.fst).Nodup → (o, p) ∈ l → l.lookup o = some p := by
  intro l
  induction l with
  | nil => intro _ h; cases h
  | cons a t ih =>
    intro hnd hmem
    obtain ⟨k, b⟩ := a
    rw [List.map_cons, List.nodup_cons] at hnd
    rw [List.lookup_cons]
    rcases List.mem_cons.1 hmem with h | h
    · cases h
      simp
    · have hk : o ≠ k := by
        intro hok
        subst hok
        exact hnd.1 (List.mem_map.2 ⟨(o, p), h, rfl⟩)
      have hf : (o == k) = false := by simpa using hk
      rw [hf]
      exact ih hnd.2 h

theorem list_map_getD_range (t : List Nat) :
    (List.range t.length).map (fun i => t.getD i 0) = t := by
  apply List.ext_getElem
  · simp
  · intro n h1 h2
    simp only [List.getElem_map, List.getElem_range]
    rw [List.getD_eq_getElem _ _ h2]

namespace TriangulateAggrBufferedHashPush

theorem ctor_bufsize_even (g : Graph) (hint : Int) : ctor_bufsize g hint % 2 = 0 := by
  unfold ctor_bufsize
  simp only
  split <;> omega

/-- The object that the constructor returns is steady: no slot is paused, no send
is active, the fill counters are zero, and every peer of `targets_` has its own
slot. -/
theorem ctor_steady (g : Graph) (hv : g.Valid) (F : FloatOps) (hint : Int) (rank : Nat)
    (e0 : TriangulateAggrBufferedHashPush) (hc : ctor g F hint rank = some e0) :
    Steady g (ctor_bufsize g hint) rank e0 ∧ e0.inserted_ = [] ∧
      (∀ p, e0.sbuf_ctr_.getD p 0 = 0) ∧ (∀ p, e0.sreq_.getD p false = false) ∧
      e0.in_nghosts_ = accumulate_int (ctor_recv_count g rank) := by
  have hinv := ctor_view_inv g F hint rank e0 hc
  have hc0 := hc
  unfold ctor at hc
  simp only at hc
  cases hbf : Bloomfilter.mk1 F (ctor_bufsize g hint) with
  | none =>
    rw [hbf] at hc
    cases hc
  | some bf =>
    rw [hbf] at hc
    simp only [Option.some.injEq] at hc
    obtain ⟨hrk, her, -, hins, -, -, -, htg⟩ :=
      ctor_fold_spec g rank (g.get_lnv rank) (le_refl _) (ctor_pass g rank).1 rfl
    obtain ⟨-, -, hnd⟩ := ctor_pass_count g hv rank
    have hpos : 0 < ctor_bufsize g hint := by
      by_contra hle
      unfold Bloomfilter.mk1 at hbf
      rw [if_pos (by omega)] at hbf
      cases hbf
    have e_rank : e0.rank_ = rank := by rw [← hc]; exact hrk
    have e_buf : e0.bufsize_ = ctor_bufsize g hint := by rw [← hc]
    have e_pdeg : e0.pdegree_ = (ctor_pass g rank).1.targets_.length := by rw [← hc]
    have e_tg : e0.targets_ = (ctor_pass g rank).1.targets_ := by rw [← hc]
    have e_stat : e0.stat_ = List.replicate (ctor_pass g rank).1.targets_.length '0' := by
      rw [← hc]
    have e_sreq : e0.sreq_ = List.replicate (ctor_pass g rank).1.targets_.length false := by
      rw [← hc]
    have e_ctr : e0.sbuf_ctr_ = List.replicate (ctor_pass g rank).1.targets_.length 0 := by
      rw [← hc]
    have e_pi : e0.pindex_ = (List.range (ctor_pass g rank).1.targets_.length).map
        (fun i => ((ctor_pass g rank).1.targets_.getD i 0, i)) := by rw [← hc]
    have hkeys : (e0.pindex_.map Prod.fst).Nodup := by
      rw [e_pi, List.map_map]
      have : (Prod.fst ∘ fun i => ((ctor_pass g rank).1.targets_.getD i 0, i)) =
          fun i => (ctor_pass g rank).1.targets_.getD i 0 := rfl
      rw [this, list_map_getD_range]
      exact hnd
    have htgl : ∀ p < e0.pdegree_, e0.pindex_.lookup (e0.targets_.getD p 0) = some p := by
      intro p hp
      apply list_lookup_of_nodup _ _ _ hkeys
      rw [e_pi, e_tg]
      exact List.mem_map.2 ⟨p, List.mem_range.2 (by rw [← e_pdeg]; exact hp), rfl⟩
    have hctr0 : ∀ p, e0.sbuf_ctr_.getD p 0 = 0 := by
      intro p
      rw [e_ctr]
      exact list_getD_replicate_self _ p 0
    have hidle : ∀ p, e0.stat_.getD p '0' ≠ '1' := by
      intro p
      rw [e_stat, list_getD_replicate_self]
      decide
    have hns : ∀ p, e0.sreq_.getD p false = false := by
      intro p
      rw [e_sreq]
      exact list_getD_replicate_self _ p false
    refine ⟨?_, by rw [← hc]; exact hins, hctr0, hns, by rw [← hc]⟩
    exact
      { inv := hinv
        rank := e_rank
        buf := e_buf
        erange := by rw [← hc]; exact her
        len_stat := by rw [e_stat, e_pdeg, List.length_replicate]
        len_sreq := by rw [e_sreq, e_pdeg, List.length_replicate]
        len_tg := by rw [e_tg, e_pdeg]
        hyp := by
          refine ⟨by rw [e_buf]; exact hpos, ?_⟩
          intro i hi m h1 h2 hg
          rw [e_rank] at hi h1 h2 hg ⊢
          have hmem := htg i hi m h1 h2 hg
          obtain ⟨n, hn, hget⟩ := List.getElem_of_mem hmem
          have hn' : n < e0.pdegree_ := by rw [e_pdeg]; exact hn
          refine ⟨n, ?_, by rw [e_ctr, List.length_replicate]; exact hn,
            by rw [e_sreq, List.length_replicate]; exact hn,
            by rw [e_stat, List.length_replicate]; exact hn⟩
          have := htgl n hn'
          rw [e_tg, List.getD_eq_getElem _ _ hn, hget] at this
          exact this
        pi := by
          intro o p hl
          have hm := list_lookup_mem o p _ hl
          rw [e_pi] at hm
          obtain ⟨j, hj, hjp⟩ := List.mem_map.1 hm
          have h1 : (ctor_pass g rank).1.targets_.getD j 0 = o := congrArg Prod.fst hjp
          have h2 : j = p := congrArg Prod.snd hjp
          subst h2
          exact ⟨by rw [e_pdeg]; exact List.mem_range.1 hj, by rw [e_tg]; exact h1⟩
        tg := htgl
        flight := fun p hp => absurd hp (hidle p)
        ctr := by
          refine ⟨by rw [e_buf]; exact hpos, by rw [e_buf]; exact ctor_bufsize_even g hint,
            fun p => ?_, fun p hp => absurd hp (hidle p)⟩
          rw [hctr0 p, e_buf]
          exact ⟨le_refl _, le_of_lt hpos, rfl⟩ }

end TriangulateAggrBufferedHashPush

/-! ## The processes together: one iteration of one process -/

theorem sum_range_le (f f' : Nat → Nat) (n : Nat) (h : ∀ q < n, f' q ≤ f q) :
    ((List.range n).map f').sum ≤ ((List.range n).map f).sum := by
  rw [list_sum_map_range, list_sum_map_range]
  exact Finset.sum_le_sum (fun q hq => h q (Finset.mem_range.1 hq))

theorem sum_range_lt (f f' : Nat → Nat) (n r : Nat) (h : ∀ q < n, f' q ≤ f q) (hr : r < n)
    (hlt : f' r < f r) : ((List.range n).map f').sum < ((List.range n).map f).sum := by
  rw [list_sum_map_range, list_sum_map_range]
  exact Finset.sum_lt_sum (fun q hq => h q (Finset.mem_range.1 hq))
    ⟨r, Finset.mem_range.2 hr, hlt⟩

theorem int_sum_range_change (f f' : Nat → Int) : ∀ (n r : Nat), r < n →
    (∀ q < n, q ≠ r → f' q = f q) →
    ((List.range n).map f').sum = ((List.range n).map f).sum - f r + f' r := by
  intro n
  induction n with
  | zero => intro r hr; omega
  | succ k ih =>
    intro r hr h
    rw [List.range_succ, List.map_append, List.sum_append, List.map_append, List.sum_append]
    simp only [List.map_cons, List.map_nil, List.sum_cons, List.sum_nil, add_zero]
    by_cases hrk : r = k
    · subst hrk
      have : ((List.range r).map f').sum = ((List.range r).map f).sum := by
        congr 1
        apply List.map_congr_left
        intro q hq
        have := List.mem_range.1 hq
        exact h q (by omega) (by omega)
      rw [this]
      ring
    · rw [ih r (by omega) (fun q hq hqr => h q (by omega) hqr), h k (by omega) (fun e => hrk e.symm)]
      ring

theorem int_sum_range_nonpos (f : Nat → Int) (n : Nat) (h : ∀ q < n, f q ≤ 0) :
    ((List.range n).map f).sum ≤ 0 := by
  induction n with
  | zero => simp
  | succ k ih =>
    rw [List.range_succ, List.map_append, List.sum_append]
    have h1 := ih (fun q hq => h q (by omega))
    have h2 := h k (by omega)
    simp only [List.map_cons, List.map_nil, List.sum_cons, List.sum_nil, add_zero]
    omega

theorem list_getD_set_ite {α : Type} (l : List α) (r q : Nat) (a d : α) (hr : r < l.length) :
    (l.set r a).getD q d = if q = r then a else l.getD q d := by
  by_cases h : q = r
  · subst h
    rw [if_pos rfl]
    exact list_getD_set_eq _ _ _ _ hr
  · rw [if_neg h]
    exact list_getD_set_ne _ _ _ _ _ (fun e => h e.symm)

namespace World

/-- Posting messages appends each to the mailbox of its destination. -/
theorem mail_post : ∀ (posted : List (Nat × List Char)) (ml : List (List (List Char))),
    (posted.foldl (fun ml msg => ml.set msg.1 (ml.getD msg.1 [] ++ [msg.2])) ml).length =
        ml.length ∧
      ∀ R < ml.length,
        ((posted.foldl (fun ml msg => ml.set msg.1 (ml.getD msg.1 [] ++ [msg.2])) ml).getD R
          []).length = (ml.getD R []).length + posted.countP (fun msg => decide (msg.1 = R)) := by
  intro posted
  induction posted with
  | nil =>
    intro ml
    exact ⟨rfl, fun R _ => by simp⟩
  | cons a t ih =>
    intro ml
    rw [List.foldl_cons]
    obtain ⟨k1, k2⟩ := ih (ml.set a.1 (ml.getD a.1 [] ++ [a.2]))
    rw [List.length_set] at k1 k2
    refine ⟨k1, fun R hR => ?_⟩
    rw [k2 R hR, List.countP_cons]
    by_cases ha : a.1 = R
    · subst ha
      rw [list_getD_set_eq _ _ _ _ hR]
      simp
      omega
    · rw [list_getD_set_ne _ _ _ _ _ ha]
      simp [ha]

/-- The state after an iteration of process `r` whose loop is running. -/
theorem step_with_spec (g : Graph) (H : Hash128) (w : World) (r : Nat) (o : Oracle)
    (hr : r < w.procs.length) (hm : w.mail.length = w.procs.length)
    (hnd : (w.procs.getD r default).2.done = false) :
    (step_with g H w r o).procs.length = w.procs.length ∧
      (step_with g H w r o).mail.length = w.mail.length ∧
      (∀ q, (step_with g H w r o).procs.getD q default =
        if q = r then count_iter g H (events g H w r o) (w.procs.getD r default)
        else w.procs.getD q default) ∧
      (∀ R < w.mail.length, ((step_with g H w r o).mail.getD R []).length =
        (if R = r then
            (w.mail.getD r []).length - (if (events g H w r o).probe = none then 0 else 1)
          else (w.mail.getD R []).length) +
          ((send_part g H (w.procs.getD r default)).1.sent_.drop
            (w.procs.getD r default).1.sent_.length).countP
            (fun msg => decide (msg.1 = R))) ∧
      ((events g H w r o).probe ≠ none → w.mail.getD r [] ≠ []) ∧
      (o.see = true → w.mail.getD r [] ≠ [] → (events g H w r o).probe ≠ none) ∧
      (∀ p < (w.procs.getD r default).1.pdegree_, o.settle = true →
        (step_with g H w r o).mail.getD ((w.procs.getD r default).1.targets_.getD p 0) [] = [] →
        p ∈ (events g H w r o).testsome) ∧
      (events g H w r o).nbar_test = (o.bar && w.procs.all (fun p => p.2.nbar_active)) := by
  have hs : step_with g H w r o =
      { procs := w.procs.set r (count_iter g H (events g H w r o) (w.procs.getD r default))
        mail := mail_after g H w r o } := by
    unfold step_with
    simp only [hnd, Bool.false_eq_true, if_false]
  rw [hs]
  have hpr : (events g H w r o).probe =
      if o.see then (w.mail.getD r []).get? (o.pick % (w.mail.getD r []).length) else none := rfl
  refine ⟨?_, ?_, ?_, ?_, ?_, ?_, ?_, rfl⟩
  · exact List.length_set _ _ _
  · exact (mail_post _ _).1.trans (List.length_set _ _ _)
  · intro q
    exact list_getD_set_ite _ _ _ _ _ hr
  · intro R hR
    obtain ⟨-, k2⟩ := mail_post ((send_part g H (w.procs.getD r default)).1.sent_.drop
      (w.procs.getD r default).1.sent_.length)
      (w.mail.set r (if o.see then
        (w.mail.getD r []).eraseIdx (o.pick % (w.mail.getD r []).length)
        else w.mail.getD r []))
    rw [List.length_set] at k2
    show ((mail_after g H w r o).getD R []).length = _
    unfold mail_after
    simp only
    rw [k2 R hR, list_getD_set_ite _ _ _ _ _ (by rw [hm]; exact hr), hpr]
    by_cases hRr : R = r
    · rw [if_pos hRr, if_pos hRr]
      congr 1
      cases hsee : o.see
      · simp
      · simp only [if_true]
        rw [List.length_eraseIdx]
        cases hin : w.mail.getD r [] with
        | nil => simp
        | cons a t =>
          have hlt : o.pick % (a :: t).length < (a :: t).length :=
            Nat.mod_lt _ (by simp)
          rw [if_pos hlt]
          have : (a :: t).get? (o.pick % (a :: t).length) ≠ none := by
            rw [Ne, List.get?_eq_none]
            omega
          rw [if_neg this]
    · rw [if_neg hRr, if_neg hRr]
  · intro h hnil
    rw [hpr, hnil] at h
    cases hsee : o.see <;> simp [hsee] at h
  · intro hsee hne
    rw [hpr]
    simp only [hsee, if_true]
    rw [Ne, List.get?_eq_none]
    have := List.length_pos.2 hne
    have := Nat.mod_lt o.pick this
    omega
  · intro p hp hst hmt
    have hmt' : (mail_after g H w r o).getD
        ((w.procs.getD r default).1.targets_.getD p 0) [] = [] := hmt
    unfold events
    simp only
    rw [List.mem_filter]
    refine ⟨List.mem_range.2 hp, ?_⟩
    rw [hst, hmt']
    simp

end World

namespace World

theorem all_nbar_iff (w : World) :
    w.procs.all (fun p => p.2.nbar_active) = true ↔
      ∀ q < w.procs.length, (w.procs.getD q default).2.nbar_active = true := by
  rw [List.all_eq_true]
  constructor
  · intro h q hq
    rw [List.getD_eq_getElem _ _ hq]
    exact h _ (List.getElem_mem _)
  · intro h x hx
    obtain ⟨q, hq, hget⟩ := List.getElem_of_mem hx
    have := h q hq
    rw [List.getD_eq_getElem _ _ hq, hget] at this
    exact this

theorem potential_le (w w' : World) (h1 : w'.work ≤ w.work)
    (h2 : w'.work = w.work → w'.waiting ≤ w.waiting ∧ w'.flying ≤ w.flying)
    (h3 : w'.unstarted ≤ w.unstarted) (h4 : w'.running ≤ w.running) :
    w'.potential ≤ w.potential := by
  unfold potential
  simp only [Prod.Lex.le_iff, Prod.Lex.lt_iff]
  by_cases a : w'.work = w.work
  · obtain ⟨h5, h6⟩ := h2 a
    omega
  · omega

theorem potential_lt (w w' : World) (h1 : w'.work ≤ w.work)
    (h2 : w'.work = w.work → w'.waiting ≤ w.waiting ∧ w'.flying ≤ w.flying)
    (h3 : w'.unstarted ≤ w.unstarted) (h4 : w'.running ≤ w.running)
    (h5 : w'.work = w.work → w'.waiting < w.waiting ∨ w'.flying < w.flying ∨
      w'.unstarted < w.unstarted ∨ w'.running < w.running) :
    w'.potential < w.potential := by
  unfold potential
  simp only [Prod.Lex.lt_iff]
  by_cases a : w'.work = w.work
  · obtain ⟨h6, h7⟩ := h2 a
    have h8 := h5 a
    omega
  · omega

/-- An iteration of one process, whatever the message layer does, keeps the
invariant of the processes together and does not raise the measure; a process
that could make progress still can, unless the measure went down; and the
iteration lowers the measure when the process can make progress and the message
layer is prompt. -/
theorem step_with_good (g : Graph) (H : Hash128) (B : Int) (w : World) (r : Nat) (o : Oracle)
    (hg : Good g B w) (hr : r < g.get_size) :
    Good g B (step_with g H w r o) ∧ (step_with g H w r o).potential ≤ w.potential ∧
      (∀ q < g.get_size, Enabled w q →
        (step_with g H w r o).potential < w.potential ∨ Enabled (step_with g H w r o) q) ∧
      (Enabled w r → o.prompt = true → (step_with g H w r o).potential < w.potential) := by
  by_cases hd : (w.procs.getD r default).2.done = true
  · have hs : step_with g H w r o = w := by
      unfold step_with
      simp only [hd, if_true]
    rw [hs]
    refine ⟨hg, le_refl _, fun q _ h => Or.inr h, fun he => ?_⟩
    have := he.1
    rw [hd] at this
    cases this
  · have hnd : (w.procs.getD r default).2.done = false := by simpa using hd
    have hrp : r < w.procs.length := by rw [hg.len_procs]; exact hr
    have hml : w.mail.length = w.procs.length := by rw [hg.len_mail, hg.len_procs]
    obtain ⟨s1, s2, s3, s4, s5, s6, s7, s8⟩ := step_with_spec g H w r o hrp hml hnd
    obtain ⟨l1, -, l3, l4, l5, l6, l7, l8, l9, l10⟩ := count_iter_loc g H B r (events g H w r o)
      (w.procs.getD r default) (hg.loc r hr)
    obtain ⟨c1, -, c3, c4⟩ := count_iter_fst g H (events g H w r o) (w.procs.getD r default)
    rw [← c1] at c3
    generalize events g H w r o = ev at s3 s4 s5 s6 s7 s8 l1 l3 l4 l5 l6 l7 l8 l9 l10 c3 c4
    generalize count_iter g H ev (w.procs.getD r default) = st'
      at s3 l1 l3 l4 l5 l6 l7 l8 l9 l10 c3 c4
    generalize step_with g H w r o = w' at s1 s2 s3 s4 s7
    generalize hP : (send_part g H (w.procs.getD r default)).1.sent_.drop
      (w.procs.getD r default).1.sent_.length = posted at s4 l3 l7
    have hst := (hg.loc r hr).1
    have hB : 0 < B := by
      have := hst.ctr.1
      rw [hst.buf] at this
      exact this
    have hn1 : w'.procs.length = g.get_size := s1.trans hg.len_procs
    have hn2 : w'.mail.length = g.get_size := s2.trans hg.len_mail
    have hpr : w'.procs.getD r default = st' := by rw [s3 r, if_pos rfl]
    have hpq : ∀ q, q ≠ r → w'.procs.getD q default = w.procs.getD q default := by
      intro q hq
      rw [s3 q, if_neg hq]
    -- the barrier flags
    have hnb_mono : ∀ q, (w.procs.getD q default).2.nbar_active = true →
        (w'.procs.getD q default).2.nbar_active = true := by
      intro q hq
      by_cases hqr : q = r
      · subst hqr
        rw [hpr, c3, hq]
        rfl
      · rw [hpq q hqr]
        exact hq
    -- what is due to a process does not go down, except by a receive
    have hdue : ∀ R < g.get_size, due g B w R ≤ due g B w' R +
        (if R = r ∧ ev.probe ≠ none then B else 0) := by
      intro R hR
      unfold due
      rw [s1, int_sum_range_change (fun q => owed g (w.procs.getD q default).1 R)
        (fun q => owed g (w'.procs.getD q default).1 R) w.procs.length r hrp
        (fun q _ hq => by
          show owed g (w'.procs.getD q default).1 R = _
          rw [hpq q hq]), hpr, s4 R (by rw [hg.len_mail]; exact hR)]
      have h2 := l3 R
      push_cast
      by_cases hRr : R = r
      · subst hRr
        rw [if_pos rfl]
        by_cases hpn : ev.probe = none
        · rw [if_pos hpn, if_neg (fun h => h.2 hpn)]
          simp only [Nat.sub_zero]
          nlinarith
        · rw [if_neg hpn, if_pos ⟨rfl, hpn⟩]
          have hpos := List.length_pos.2 (s5 hpn)
          have hc : (((w.mail.getD R []).length - 1 : Nat) : Int) =
              ((w.mail.getD R []).length : Int) - 1 := by omega
          rw [hc]
          nlinarith
      · rw [if_neg hRr, if_neg (fun h => hRr h.1)]
        nlinarith
    have hgood : Good g B w' :=
      { len_procs := hn1
        len_mail := hn2
        loc := by
          intro q hq
          by_cases hqr : q = r
          · subst hqr
            rw [hpr]
            exact l1
          · rw [hpq q hqr]
            exact hg.loc q hq
        bar := by
          rintro ⟨q, hq, hdq⟩ q2 hq2
          apply hnb_mono
          by_cases hqr : q = r
          · subst hqr
            rw [hpr, c4] at hdq
            by_cases hn : (w.procs.getD q default).2.nbar_active = true
            · rw [if_pos hn, s8, Bool.and_eq_true] at hdq
              exact (all_nbar_iff w).1 hdq.2 q2 (by rw [hg.len_procs]; exact hq2)
            · rw [if_neg hn, hnd] at hdq
              cases hdq
          · rw [hpq q hqr] at hdq
            exact hg.bar ⟨q, hq, hdq⟩ q2 hq2
        acc := by
          intro R hR
          have hd1 := hdue R hR
          by_cases hRr : R = r
          · subst hRr
            rw [hpr, l4]
            cases hin : ev.probe with
            | none =>
              rw [if_neg (fun h => h.2 hin)] at hd1
              unfold in_after
              simp only
              rcases hg.acc R hR with h | ⟨h1, h2⟩
              · exact Or.inl h
              · exact Or.inr ⟨by omega, by omega⟩
            | some m =>
              rw [if_pos ⟨rfl, by rw [hin]; exact Option.some_ne_none m⟩] at hd1
              unfold in_after
              simp only
              by_cases hge : (w.procs.getD R default).1.in_nghosts_ ≥ B
              · rw [if_pos hge]
                rcases hg.acc R hR with h | ⟨h1, h2⟩
                · omega
                · by_cases hz : (w.procs.getD R default).1.in_nghosts_ - B = 0
                  · exact Or.inl hz
                  · exact Or.inr ⟨by omega, by omega⟩
              · rw [if_neg hge]
                exact Or.inl rfl
          · rw [if_neg (fun h => hRr h.1)] at hd1
            rw [hpq R hRr]
            rcases hg.acc R hR with h | ⟨h1, h2⟩
            · exact Or.inl h
            · exact Or.inr ⟨by omega, by omega⟩ }
    -- the components of the measure
    have hwl_le : ∀ q < w.procs.length,
        work_left (w'.procs.getD q default) ≤ work_left (w.procs.getD q default) := by
      intro q _
      by_cases hqr : q = r
      · subst hqr
        rw [hpr]
        exact l5
      · rw [hpq q hqr]
    have hwork : w'.work ≤ w.work := by
      unfold work
      rw [s1]
      exact sum_range_le _ _ _ hwl_le
    have hwl : w'.work = w.work → work_left st' = work_left (w.procs.getD r default) := by
      intro h
      by_contra hne
      have hlt : work_left st' < work_left (w.procs.getD r default) := lt_of_le_of_ne l5 hne
      have : w'.work < w.work := by
        unfold work
        rw [s1]
        apply sum_range_lt _ _ _ r hwl_le hrp
        rw [hpr]
        exact hlt
      omega
    have hmail : w'.work = w.work → ∀ R < w.mail.length, (w'.mail.getD R []).length =
        if R = r then (w.mail.getD r []).length - (if ev.probe = none then 0 else 1)
        else (w.mail.getD R []).length := by
      intro h R hR
      rw [s4 R hR, (l7 (hwl h)).1]
      simp
    have hmail_le : w'.work = w.work → ∀ R < w.mail.length,
        (w'.mail.getD R []).length ≤ (w.mail.getD R []).length := by
      intro h R hR
      rw [hmail h R hR]
      by_cases hRr : R = r
      · subst hRr
        rw [if_pos rfl]
        omega
      · rw [if_neg hRr]
    have hempty : w'.work = w.work → ∀ T, w.mail.getD T [] = [] → w'.mail.getD T [] = [] := by
      intro h T hT
      by_cases hlt : T < w.mail.length
      · have := hmail_le h T hlt
        rw [hT] at this
        exact List.length_eq_zero.1 (Nat.le_zero.1 this)
      · exact list_getD_of_le _ _ _ (by rw [s2]; omega)
    have hwait : w'.work = w.work → w'.waiting ≤ w.waiting := by
      intro h
      unfold waiting
      rw [s2]
      exact sum_range_le _ _ _ (hmail_le h)
    have hwait_lt : w'.work = w.work → ev.probe ≠ none → w'.waiting < w.waiting := by
      intro h hpn
      unfold waiting
      rw [s2]
      apply sum_range_lt _ _ _ r (hmail_le h) (by rw [hml]; exact hrp)
      rw [hmail h r (by rw [hml]; exact hrp), if_pos rfl, if_neg hpn]
      have := List.length_pos.2 (s5 hpn)
      omega
    have hact_le : w'.work = w.work → ∀ p < (w.procs.getD r default).1.pdegree_,
        (if st'.1.sreq_.getD p false = true then 1 else 0) ≤
          (if (w.procs.getD r default).1.sreq_.getD p false = true then 1 else 0) := by
      intro h p _
      by_cases hs : st'.1.sreq_.getD p false = true
      · rw [if_pos hs, if_pos ((l7 (hwl h)).2 p hs)]
      · rw [if_neg hs]
        exact Nat.zero_le _
    have hfly_q : w'.work = w.work → ∀ q < w.procs.length,
        active (w'.procs.getD q default).1 ≤ active (w.procs.getD q default).1 := by
      intro h q _
      by_cases hqr : q = r
      · subst hqr
        rw [hpr]
        unfold active
        rw [l9]
        exact sum_range_le _ _ _ (hact_le h)
      · rw [hpq q hqr]
    have hfly : w'.work = w.work → w'.flying ≤ w.flying := by
      intro h
      unfold flying
      rw [s1]
      exact sum_range_le _ _ _ (hfly_q h)
    have hfly_lt : w'.work = w.work → ∀ p < (w.procs.getD r default).1.pdegree_,
        (w.procs.getD r default).1.sreq_.getD p false = true →
        st'.1.sreq_.getD p false = false → w'.flying < w.flying := by
      intro h p hp h1 h2
      unfold flying
      rw [s1]
      apply sum_range_lt _ _ _ r (hfly_q h) hrp
      rw [hpr]
      unfold active
      rw [l9]
      apply sum_range_lt _ _ _ p (hact_le h) hp
      rw [h1, h2]
      simp
    have hun : w'.unstarted ≤ w.unstarted := by
      unfold unstarted
      rw [s1]
      apply sum_range_le
      intro q _
      by_cases hq : (w.procs.getD q default).2.nbar_active = true
      · rw [hnb_mono q hq]
        simp
      · have hq' : (w.procs.getD q default).2.nbar_active = false := by simpa using hq
        rw [hq']
        split <;> simp
    have hun_lt : (w.procs.getD r default).2.nbar_active = false →
        (w.procs.getD r default).1.in_nghosts_ = 0 → w'.unstarted < w.unstarted := by
      intro h1 h2
      have hin' : st'.1.in_nghosts_ = 0 := by
        rw [l4, h2]
        unfold in_after
        cases ev.probe with
        | none => rfl
        | some m =>
          simp only
          rw [if_neg (by omega)]
      unfold unstarted
      rw [s1]
      apply sum_range_lt _ _ _ r _ hrp
      · rw [hpr, c3, h1, hin']
        simp
      · intro q _
        by_cases hq : (w.procs.getD q default).2.nbar_active = true
        · rw [hnb_mono q hq]
          simp
        · have hq' : (w.procs.getD q default).2.nbar_active = false := by simpa using hq
          rw [hq']
          split <;> simp
    have hrun_q : ∀ q < w.procs.length,
        (if (w'.procs.getD q default).2.done = true then 0 else 1) ≤
          (if (w.procs.getD q default).2.done = true then 0 else 1) := by
      intro q _
      by_cases hqr : q = r
      · subst hqr
        rw [hnd]
        split <;> simp
      · rw [hpq q hqr]
    have hrun : w'.running ≤ w.running := by
      unfold running
      rw [s1]
      exact sum_range_le _ _ _ hrun_q
    have hrun_lt : st'.2.done = true → w'.running < w.running := by
      intro h
      unfold running
      rw [s1]
      apply sum_range_lt _ _ _ r hrun_q hrp
      rw [hpr, h, hnd]
      simp
    have hle := potential_le w w' hwork (fun h => ⟨hwait h, hfly h⟩) hun hrun
    have hlt := potential_lt w w' hwork (fun h => ⟨hwait h, hfly h⟩) hun hrun
    refine ⟨hgood, hle, ?_, ?_⟩
    · intro q hq hen
      by_cases hW : w'.work = w.work
      · obtain ⟨e0, e1⟩ := hen
        by_cases hqr : q = r
        · subst hqr
          by_cases hd' : st'.2.done = true
          · exact Or.inl (hlt (fun _ => Or.inr (Or.inr (Or.inr (hrun_lt hd')))))
          · have hd'' : st'.2.done = false := by simpa using hd'
            rcases e1 with e1 | e1 | e1 | e1 | e1 | e1
            · have := l6 (Or.inl e1)
              have := hwl hW
              omega
            · have := l6 (Or.inr e1)
              have := hwl hW
              omega
            · by_cases hpn : ev.probe = none
              · right
                refine ⟨by rw [hpr]; exact hd'', Or.inr (Or.inr (Or.inl ?_))⟩
                have := hmail hW q (by rw [hml]; exact hrp)
                rw [if_pos rfl, if_pos hpn] at this
                have hpos := List.length_pos.2 e1
                apply List.length_pos.1
                omega
              · exact Or.inl (hlt (fun h => Or.inl (hwait_lt h hpn)))
            · obtain ⟨p, hp, hs, hm⟩ := e1
              by_cases hs' : st'.1.sreq_.getD p false = true
              · right
                refine ⟨by rw [hpr]; exact hd'', Or.inr (Or.inr (Or.inr (Or.inl ?_)))⟩
                rw [hpr]
                refine ⟨p, by rw [l9]; exact hp, hs', ?_⟩
                rw [l10]
                exact hempty hW _ hm
              · have hs'' : st'.1.sreq_.getD p false = false := by simpa using hs'
                exact Or.inl (hlt (fun h => Or.inr (Or.inl (hfly_lt h p hp hs hs''))))
            · exact Or.inl (hlt (fun _ => Or.inr (Or.inr (Or.inl (hun_lt e1.1 e1.2)))))
            · right
              refine ⟨by rw [hpr]; exact hd'',
                Or.inr (Or.inr (Or.inr (Or.inr (Or.inr ⟨hnb_mono q e1.1, ?_⟩))))⟩
              intro q2 hq2
              rw [s1] at hq2
              exact hnb_mono q2 (e1.2 q2 hq2)
        · right
          refine ⟨by rw [hpq q hqr]; exact e0, ?_⟩
          rw [hpq q hqr]
          rcases e1 with e1 | e1 | e1 | e1 | e1 | e1
          · exact Or.inl e1
          · exact Or.inr (Or.inl e1)
          · refine Or.inr (Or.inr (Or.inl ?_))
            have h4 := s4 q (by rw [hg.len_mail]; exact hq)
            rw [if_neg hqr] at h4
            have := List.length_pos.2 e1
            apply List.length_pos.1
            omega
          · obtain ⟨p, hp, hs, hm⟩ := e1
            exact Or.inr (Or.inr (Or.inr (Or.inl ⟨p, hp, hs, hempty hW _ hm⟩)))
          · exact Or.inr (Or.inr (Or.inr (Or.inr (Or.inl e1))))
          · refine Or.inr (Or.inr (Or.inr (Or.inr (Or.inr ⟨e1.1, ?_⟩))))
            intro q2 hq2
            rw [s1] at hq2
            exact hnb_mono q2 (e1.2 q2 hq2)
      · exact Or.inl (hlt (fun h => absurd h hW))
    · intro hen hpo
      unfold Oracle.prompt at hpo
      rw [Bool.and_eq_true, Bool.and_eq_true] at hpo
      obtain ⟨⟨o1, o2⟩, o3⟩ := hpo
      apply hlt
      intro hW
      obtain ⟨e0, e1⟩ := hen
      rcases e1 with e1 | e1 | e1 | e1 | e1 | e1
      · have := l6 (Or.inl e1)
        have := hwl hW
        omega
      · have := l6 (Or.inr e1)
        have := hwl hW
        omega
      · exact Or.inl (hwait_lt hW (s6 o1 e1))
      · obtain ⟨p, hp, hs, hm⟩ := e1
        have hin := s7 p hp o3 (hempty hW _ hm)
        exact Or.inr (Or.inl (hfly_lt hW p hp hs (l8 p hin)))
      · exact Or.inr (Or.inr (Or.inl (hun_lt e1.1 e1.2)))
      · refine Or.inr (Or.inr (Or.inr (hrun_lt ?_)))
        rw [c4, if_pos e1.1, s8, o2, (all_nbar_iff w).2 e1.2]
        rfl

end World

/-! ## Termination of the driver loops -/

theorem wrap32_le (y : Int) (h : -2 ^ 31 ≤ y) : wrap32 y ≤ y ∧ -2 ^ 31 ≤ wrap32 y := by
  unfold wrap32
  constructor <;> omega

theorem accumulate_fold_le : ∀ (l : List Int) (acc s : Int), -2 ^ 31 ≤ acc → acc ≤ s →
    (s = 0 → acc = 0) → 0 ≤ s → (∀ x ∈ l, 0 ≤ x) →
    l.foldl (fun acc c => wrap32 (acc + c)) acc ≤ s + l.sum ∧
      (s + l.sum = 0 → l.foldl (fun acc c => wrap32 (acc + c)) acc = 0) := by
  intro l
  induction l with
  | nil =>
    intro acc s _ h2 h3 _ _
    simp only [List.foldl_nil, List.sum_nil, add_zero]
    exact ⟨h2, h3⟩
  | cons a t ih =>
    intro acc s h1 h2 h3 h4 h5
    have ha := h5 a (List.mem_cons_self _ _)
    obtain ⟨w1, w2⟩ := wrap32_le (acc + a) (by omega)
    rw [List.foldl_cons, List.sum_cons]
    have := ih (wrap32 (acc + a)) (s + a) w2 (by omega) (by
      intro h0
      have hs : s = 0 := by omega
      have ha0 : a = 0 := by omega
      rw [h3 hs, ha0]
      decide) (by omega) (fun x hx => h5 x (List.mem_cons_of_mem _ hx))
    rw [← add_assoc]
    exact this

/-- The `int` sum of counts that are not negative is at most their sum, and is
zero when their sum is. -/
theorem accumulate_int_le (l : List Int) (h : ∀ x ∈ l, 0 ≤ x) :
    accumulate_int l ≤ l.sum ∧ (l.sum = 0 → accumulate_int l = 0) := by
  have := accumulate_fold_le l 0 0 (by decide) (le_refl _) (fun _ => rfl) (le_refl _) h
  rw [zero_add] at this
  exact this

namespace World

/-- The state in which `count()` is entered satisfies the invariant of the
processes together. -/
theorem init_good (g : Graph) (hv : g.Valid) (F : FloatOps) (hint : Int) (w : World)
    (hw : init g F hint = some w) : Good g (ctor_bufsize g hint) w := by
  unfold init at hw
  simp only at hw
  by_cases hall : ((List.range g.get_size).map (ctor g F hint)).all Option.isSome = true
  · rw [if_pos hall] at hw
    simp only [Option.some.injEq] at hw
    have hproc : ∀ r < g.get_size, ∃ e0, ctor g F hint r = some e0 ∧
        w.procs.getD r default =
          (e0, { done := false, nbar_active := false, sends_done := false }) := by
      intro r hr
      rw [List.all_eq_true] at hall
      have hs := hall (ctor g F hint r) (List.mem_map.2 ⟨r, List.mem_range.2 hr, rfl⟩)
      obtain ⟨e0, he0⟩ := Option.isSome_iff_exists.1 hs
      refine ⟨e0, he0, ?_⟩
      rw [← hw]
      simp only [List.map_map]
      rw [List.getD_eq_getElem _ _ (by simp; exact hr)]
      simp only [List.getElem_map, List.getElem_range, Function.comp]
      rw [he0]
      rfl
    have hlenp : w.procs.length = g.get_size := by
      rw [← hw]
      simp
    have hmail : ∀ R, w.mail.getD R [] = [] := by
      intro R
      rw [← hw]
      exact list_getD_replicate_self _ R []
    exact
      { len_procs := hlenp
        len_mail := by rw [← hw]; simp
        loc := by
          intro r hr
          obtain ⟨e0, he0, hp⟩ := hproc r hr
          rw [hp]
          obtain ⟨k1, -, -, k4, -⟩ := ctor_steady g hv F hint r e0 he0
          refine ⟨k1, fun _ p hp => ?_, fun h => ?_, fun h => ?_⟩
          · have hp' : e0.sreq_.getD p false = true := hp
            rw [k4 p] at hp'
            cases hp'
          · cases h
          · cases h
        bar := by
          rintro ⟨q, hq, hd⟩
          obtain ⟨e0, -, hp⟩ := hproc q hq
          rw [hp] at hd
          cases hd
        acc := by
          intro R hR
          obtain ⟨e0, he0, hp⟩ := hproc R hR
          obtain ⟨-, -, -, -, hin⟩ := ctor_steady g hv F hint R e0 he0
          have hdue : due g (ctor_bufsize g hint) w R =
              ((List.range g.get_size).map (fun q => 2 * (peer_total g q R : Int))).sum := by
            unfold due
            rw [hmail R, hlenp]
            simp only [List.length_nil, Nat.cast_zero, mul_zero, add_zero]
            congr 1
            apply List.map_congr_left
            intro q hq
            obtain ⟨e1, he1, hp1⟩ := hproc q (List.mem_range.1 hq)
            obtain ⟨k1, k2, k3, -⟩ := ctor_steady g hv F hint q e1 he1
            rw [hp1]
            unfold owed logged
            have hsc : unsent e1 R = 0 := by
              unfold unsent
              cases e1.pindex_.lookup R with
              | none => rfl
              | some p =>
                show (if e1.sreq_.getD p false = true then 0 else e1.sbuf_ctr_.getD p 0) = 0
                rw [k3 p]
                split <;> rfl
            rw [hsc, k2, k1.rank]
            simp
          have hrc : ctor_recv_count g R =
              (List.range g.get_size).map (fun q => (peer_total g q R : Int)) := by
            unfold ctor_recv_count
            apply List.map_congr_left
            intro q _
            exact (ctor_pass_count g hv q).2.1 R
          have hsum2 : ((List.range g.get_size).map (fun q => 2 * (peer_total g q R : Int))).sum =
              2 * ((List.range g.get_size).map (fun q => (peer_total g q R : Int))).sum := by
            generalize List.range g.get_size = l
            induction l with
            | nil => simp
            | cons a t ih =>
              simp only [List.map_cons, List.sum_cons]
              rw [ih]
              ring
          obtain ⟨a1, a2⟩ := accumulate_int_le (ctor_recv_count g R) (by
            intro x hx
            rw [hrc] at hx
            obtain ⟨q, -, rfl⟩ := List.mem_map.1 hx
            exact Int.ofNat_nonneg _)
          have hnn : 0 ≤ ((List.range g.get_size).map (fun q => (peer_total g q R : Int))).sum := by
            apply List.sum_nonneg
            intro x hx
            obtain ⟨q, -, rfl⟩ := List.mem_map.1 hx
            exact Int.ofNat_nonneg _
          rw [hp, hdue, hsum2]
          show e0.in_nghosts_ = 0 ∨ _
          rw [hin]
          rw [hrc] at a1 a2
          rw [hrc]
          by_cases hz : ((List.range g.get_size).map (fun q => (peer_total g q R : Int))).sum = 0
          · exact Or.inl (a2 hz)
          · right
            constructor <;> omega }
  · rw [if_neg hall] at hw
    cases hw

/-- While a loop is running, some process can make progress. -/
theorem exists_enabled (g : Graph) (B : Int) (w : World) (hg : Good g B w) (r : Nat)
    (hr : r < g.get_size) (hnd : (w.procs.getD r default).2.done = false) :
    ∃ q < g.get_size, Enabled w q := by
  by_contra hno
  have hno' : ∀ q < g.get_size, ¬ Enabled w q := fun q hq he => hno ⟨q, hq, he⟩
  -- no loop has ended
  have hrun : ∀ q < g.get_size, (w.procs.getD q default).2.done = false := by
    intro q hq
    cases hd : (w.procs.getD q default).2.done
    · rfl
    · exfalso
      have hall := hg.bar ⟨q, hq, hd⟩
      apply hno' r hr
      refine ⟨hnd, Or.inr (Or.inr (Or.inr (Or.inr (Or.inr ⟨hall r hr, ?_⟩))))⟩
      intro q2 hq2
      rw [hg.len_procs] at hq2
      exact hall q2 hq2
  -- no message is waiting
  have hmail : ∀ T, w.mail.getD T [] = [] := by
    intro T
    by_cases hT : T < g.get_size
    · by_contra h
      exact hno' T hT ⟨hrun T hT, Or.inr (Or.inr (Or.inl h))⟩
    · exact list_getD_of_le _ _ _ (by rw [hg.len_mail]; omega)
  -- no send is active
  have hsreq : ∀ q < g.get_size, ∀ p, (w.procs.getD q default).1.sreq_.getD p false = false := by
    intro q hq p
    cases hs : (w.procs.getD q default).1.sreq_.getD p false
    · rfl
    · exfalso
      have hp : p < (w.procs.getD q default).1.pdegree_ := by
        by_contra hc
        rw [list_getD_of_le _ _ _ (by rw [(hg.loc q hq).1.len_sreq]; omega)] at hs
        cases hs
      exact hno' q hq ⟨hrun q hq, Or.inr (Or.inr (Or.inr (Or.inl ⟨p, hp, hs, hmail _⟩)))⟩
  have hfin : ∀ q < g.get_size, (w.procs.getD q default).1.out_nghosts_ = 0 ∧
      (w.procs.getD q default).2.sends_done = true := by
    intro q hq
    have hne := hno' q hq
    have ho : (w.procs.getD q default).1.out_nghosts_ = 0 := by
      by_contra h
      apply hne
      refine ⟨hrun q hq, Or.inl ⟨h, fun p hp => ?_⟩⟩
      have := (hg.loc q hq).1.flight p hp
      rw [hsreq q hq p] at this
      cases this
    refine ⟨ho, ?_⟩
    cases hs : (w.procs.getD q default).2.sends_done
    · exact absurd ⟨hrun q hq, Or.inr (Or.inl ⟨ho, hs⟩)⟩ hne
    · rfl
  have hdue : ∀ R < g.get_size, due g B w R ≤ 0 := by
    intro R hR
    unfold due
    rw [hmail R]
    simp only [List.length_nil, Nat.cast_zero, mul_zero, add_zero]
    apply int_sum_range_nonpos
    intro q hq
    rw [hg.len_procs] at hq
    obtain ⟨h1, h2⟩ := hfin q hq
    obtain ⟨k1, -, k2, -⟩ := hg.loc q hq
    exact owed_finished g B q _ k1 h1 (k2 h2).2 R
  have hnb : ∀ q < g.get_size, (w.procs.getD q default).2.nbar_active = true := by
    intro q hq
    cases hn : (w.procs.getD q default).2.nbar_active
    · exfalso
      rcases hg.acc q hq with h | ⟨-, h⟩
      · exact hno' q hq ⟨hrun q hq, Or.inr (Or.inr (Or.inr (Or.inr (Or.inl ⟨hn, h⟩))))⟩
      · have := hdue q hq
        omega
    · rfl
  apply hno' r hr
  refine ⟨hnd, Or.inr (Or.inr (Or.inr (Or.inr (Or.inr ⟨hnb r hr, ?_⟩))))⟩
  intro q2 hq2
  rw [hg.len_procs] at hq2
  exact hnb q2 hq2

/-- A sequence of iterations keeps the invariant and does not raise the measure;
it lowers the measure when it holds an iteration, with a prompt message layer,
of a process that can make progress. -/
theorem fold_good (g : Graph) (H : Hash128) (B : Int) : ∀ (l : List (Nat × Oracle))
    (w : World), Good g B w → (∀ x ∈ l, x.1 < g.get_size) →
    Good g B (l.foldl (fun w x => step_with g H w x.1 x.2) w) ∧
      (l.foldl (fun w x => step_with g H w x.1 x.2) w).potential ≤ w.potential ∧
      (∀ q < g.get_size, Enabled w q → (∃ x ∈ l, x.1 = q ∧ x.2.prompt = true) →
        (l.foldl (fun w x => step_with g H w x.1 x.2) w).potential < w.potential) := by
  intro l
  induction l with
  | nil =>
    intro w hg _
    refine ⟨hg, le_refl _, ?_⟩
    rintro q - - ⟨x, hx, -⟩
    cases hx
  | cons a t ih =>
    intro w hg hl
    have ha := hl a (List.mem_cons_self _ _)
    obtain ⟨s1, s2, s3, s4⟩ := step_with_good g H B w a.1 a.2 hg ha
    obtain ⟨k1, k2, k3⟩ := ih (step_with g H w a.1 a.2) s1
      (fun x hx => hl x (List.mem_cons_of_mem _ hx))
    rw [List.foldl_cons]
    refine ⟨k1, le_trans k2 s2, ?_⟩
    rintro q hq he ⟨x, hx, hxq, hxp⟩
    rcases List.mem_cons.1 hx with h | h
    · subst h
      subst hxq
      exact lt_of_le_of_lt k2 (s4 he hxp)
    · rcases s3 q hq he with h1 | h1
      · exact lt_of_le_of_lt k2 h1
      · exact lt_of_lt_of_le (k3 q hq h1 ⟨x, h, hxq, hxp⟩) s2

/-- From a state that satisfies the invariant, every schedule of rounds in which
each round holds, for every process, an iteration with a prompt message layer
reaches a state where every loop has ended. -/
theorem sched_terminates (g : Graph) (H : Hash128) (B : Int) :
    ∀ (x : Lex (Nat × Lex (Nat × Lex (Nat × Lex (Nat × Nat))))) (w : World),
    w.potential = x → Good g B w → ∀ (sched : Nat → List (Nat × Oracle)),
      (∀ k, ∀ r < g.get_size, ∃ x ∈ sched k, x.1 = r ∧ x.2.prompt = true) →
      (∀ k, ∀ x ∈ sched k, x.1 < g.get_size) →
      ∃ N, ∀ r < g.get_size,
        ((run_with g H ((List.range N).map sched) w).procs.getD r default).2.done = true := by
  intro x
  induction x using (@wellFounded_lt
    (Lex (Nat × Lex (Nat × Lex (Nat × Lex (Nat × Nat))))) _ _).induction with
  | _ x ih =>
    intro w hx hg sched hfair hin
    by_cases hall : ∀ r < g.get_size, (w.procs.getD r default).2.done = true
    · exact ⟨0, hall⟩
    · have hex : ∃ r, r < g.get_size ∧ (w.procs.getD r default).2.done = false := by
        by_contra hc
        apply hall
        intro r hr
        cases hd : (w.procs.getD r default).2.done
        · exact absurd ⟨r, hr, hd⟩ hc
        · rfl
      obtain ⟨r, hr, hnd⟩ := hex
      obtain ⟨q, hq, hen⟩ := exists_enabled g B w hg r hr hnd
      obtain ⟨k1, -, k3⟩ := fold_good g H B (sched 0) w hg (hin 0)
      have hlt := k3 q hq hen (hfair 0 q hq)
      rw [hx] at hlt
      generalize hw1 : (sched 0).foldl (fun w x => step_with g H w x.1 x.2) w = w1 at k1 hlt
      obtain ⟨N, hN⟩ := ih w1.potential hlt w1 rfl k1
        (fun k => sched (k + 1)) (fun k => hfair (k + 1)) (fun k => hin (k + 1))
      refine ⟨N + 1, ?_⟩
      have hr : (List.range (N + 1)).map sched =
          sched 0 :: (List.range N).map (fun k => sched (k + 1)) := by
        rw [List.range_succ_eq_map, List.map_cons, List.map_map]
        rfl
      rw [hr]
      show ∀ r < g.get_size, ((run_with g H ((List.range N).map (fun k => sched (k + 1)))
        ((sched 0).foldl (fun w x => step_with g H w x.1 x.2) w)).procs.getD r default).2.done =
          true
      rw [hw1]
      exact hN

end World

namespace TriangulateAggrBufferedHashPush

/-- What an iteration posts does not depend on what the message layer reports. -/
theorem count_iter_sent (g : Graph) (H : Hash128) (ev : MPIEvents)
    (st : TriangulateAggrBufferedHashPush × CountLocals) :
    (count_iter g H ev st).1.sent_ = (send_part g H st).1.sent_ := by
  rw [(count_iter_fst g H ev st).1, count_iter_work_eq]
  show (recycle _ _).sent_ = _
  rw [(recycle_spec _ _).sent, (process_messages_frame g H ev.probe _).2.1]

end TriangulateAggrBufferedHashPush

namespace World

/-- The iteration `World.step` is the iteration with the eager message layer. -/
theorem step_eq_step_with (g : Graph) (H : Hash128) (w : World) (r : Nat) :
    step g H w r = step_with g H w r Oracle.eager := by
  unfold step step_with
  simp only
  by_cases hd : (w.procs.getD r default).2.done = true
  · rw [if_pos hd, if_pos hd]
  · rw [if_neg hd, if_neg hd]
    have hev : events g H w r Oracle.eager =
        { probe := (w.mail.getD r []).head?
          testsome := List.range (w.procs.getD r default).1.pdegree_
          nbar_test := w.procs.all (fun p => p.2.nbar_active) } := by
      unfold events Oracle.eager
      simp only [if_true, Bool.true_or, Bool.true_and, List.filter_true, Nat.zero_mod]
      congr 1
      cases w.mail.getD r [] <;> rfl
    have hml : mail_after g H w r Oracle.eager =
        ((send_part g H (w.procs.getD r default)).1.sent_.drop
          (w.procs.getD r default).1.sent_.length).foldl
          (fun ml msg => ml.set msg.1 (ml.getD msg.1 [] ++ [msg.2]))
          (w.mail.set r (w.mail.getD r []).tail) := by
      unfold mail_after Oracle.eager
      simp only [if_true, Nat.zero_mod]
      congr 2
      cases w.mail.getD r [] <;> rfl
    rw [hev, hml, count_iter_sent]

theorem run_with_good (g : Graph) (H : Hash128) (B : Int) :
    ∀ (rds : List (List (Nat × Oracle))) (w : World), Good g B w →
    (∀ rd ∈ rds, ∀ x ∈ rd, x.1 < g.get_size) → Good g B (run_with g H rds w) := by
  intro rds
  induction rds with
  | nil => intro w hg _; exact hg
  | cons rd rest ih =>
    intro w hg h
    obtain ⟨k1, -, -⟩ := fold_good g H B rd w hg (h rd (List.mem_cons_self _ _))
    exact ih _ k1 (fun rd' hrd => h rd' (List.mem_cons_of_mem _ hrd))

theorem foldl_step_eq (g : Graph) (H : Hash128) : ∀ (l : List Nat) (w : World),
    l.foldl (step g H) w =
      (l.map (fun r => (r, Oracle.eager))).foldl (fun w x => step_with g H w x.1 x.2) w := by
  intro l
  induction l with
  | nil => intro w; rfl
  | cons a t ih =>
    intro w
    rw [List.foldl_cons, List.map_cons, List.foldl_cons, ih, step_eq_step_with]

/-- Rounds in rank order with the eager message layer are a schedule. -/
theorem run_eq_run_with (g : Graph) (H : Hash128) (B : Int) : ∀ (N : Nat) (w : World),
    Good g B w → run g H N w = run_with g H
      (List.replicate N ((List.range g.get_size).map (fun r => (r, Oracle.eager)))) w := by
  intro N
  induction N with
  | zero => intro w _; rfl
  | succ k ih =>
    intro w hg
    have hrd : round g H w = ((List.range g.get_size).map (fun r => (r, Oracle.eager))).foldl
        (fun w x => step_with g H w x.1 x.2) w := by
      unfold round
      rw [hg.len_procs, foldl_step_eq]
    obtain ⟨k1, -, -⟩ := fold_good g H B
      ((List.range g.get_size).map (fun r => (r, Oracle.eager))) w hg
      (fun x hx => by
        obtain ⟨r, hr, rfl⟩ := List.mem_map.1 hx
        exact List.mem_range.1 hr)
    rw [← hrd] at k1
    show run g H k (round g H w) = run_with g H
      ((List.range g.get_size).map (fun r => (r, Oracle.eager)) ::
        List.replicate k ((List.range g.get_size).map (fun r => (r, Oracle.eager)))) w
    rw [ih _ k1, hrd]
    rfl

/-- With the processes taking turns in rank order and the eager message layer,
`count()` returns on rank 0 after finitely many rounds. -/
theorem count_returns (g : Graph) (F : FloatOps) (H : Hash128) (hint : Int) (hv : g.Valid)
    (w : World) (hw : init g F hint = some w) :
    ∃ fuel, (run_count g F H hint fuel).isSome = true := by
  have hg := init_good g hv F hint w hw
  have hmem : ∀ x ∈ (List.range g.get_size).map (fun r => (r, Oracle.eager)),
      x.1 < g.get_size := by
    intro x hx
    obtain ⟨r, hr, rfl⟩ := List.mem_map.1 hx
    exact List.mem_range.1 hr
  obtain ⟨N, hN⟩ := sched_terminates g H (ctor_bufsize g hint) _ w rfl hg
    (fun _ => (List.range g.get_size).map (fun r => (r, Oracle.eager)))
    (fun _ r hr => ⟨(r, Oracle.eager), List.mem_map.2 ⟨r, List.mem_range.2 hr, rfl⟩, rfl, rfl⟩)
    (fun _ => hmem)
  refine ⟨N, ?_⟩
  have hmap : (List.range N).map
      (fun _ => (List.range g.get_size).map (fun r => (r, Oracle.eager))) =
      List.replicate N ((List.range g.get_size).map (fun r => (r, Oracle.eager))) := by
    simp
  rw [hmap, ← run_eq_run_with g H _ N w hg] at hN
  unfold run_count
  rw [hw]
  simp only
  unfold result
  have hlen : (run g H N w).procs.length = g.get_size := by
    rw [run_eq_run_with g H _ N w hg]
    apply (run_with_good g H _ _ w hg _).len_procs
    intro rd hrd x hx
    rw [List.eq_of_mem_replicate hrd] at hx
    exact hmem x hx
  have hall : (run g H N w).procs.all (fun p => p.2.done) = true := by
    rw [List.all_eq_true]
    intro x hx
    obtain ⟨q, hq, hget⟩ := List.getElem_of_mem hx
    have := hN q (by rw [← hlen]; exact hq)
    rw [List.getD_eq_getElem _ _ hq, hget] at this
    exact this
  rw [if_pos hall]
  rfl

end World

/-- C16: for every valid graph and partition on which the constructors return,
the driver loop of `count()` ends on every process.  Messages are delivered
reliably: a message that is posted stays in the mailbox of its destination until
an `MPI_Iprobe` of the destination finds it.  Apart from that the message layer
is free at every iteration (`World.Oracle`): the probe may miss a waiting
message or find any of them, `MPI_Testsome` may report any of the active sends
complete or none, and `MPI_Test` may report the barrier complete only after
every process has started it.  The processes take their iterations in any order
and any number.  What is assumed is that the iterations can be cut into rounds
such that in every round every process has an iteration at which the message
layer is prompt: the probe finds a message if one is waiting, `MPI_Testsome`
reports the sends whose destination has nothing left to receive, and `MPI_Test`
reports the barrier once every process has started it.  Then after finitely many
rounds `done` is set on every process, so none waits forever for a send
completion, for `in_nghosts_` to reach 0, or for the barrier. -/
theorem driver_loops_terminate (g : Graph) (F : FloatOps) (H : Hash128) (hint : Int)
    (w : World) (sched : Nat → List (Nat × World.Oracle)) (hv : g.Valid)
    (hw : World.init g F hint = some w)
    (hfair : ∀ k, ∀ r < g.get_size, ∃ x ∈ sched k, x.1 = r ∧ x.2.prompt = true)
    (hin : ∀ k, ∀ x ∈ sched k, x.1 < g.get_size) :
    ∃ N, ∀ r < g.get_size,
      ((World.run_with g H ((List.range N).map sched) w).procs.getD r default).2.done = true :=
  World.sched_terminates g H (ctor_bufsize g hint) _ w rfl (World.init_good g hv F hint w hw)
    sched hfair hin

theorem driver_loops_terminate_witness :
    graph_shared_edge.Valid ∧
      World.init graph_shared_edge ieee_1e_09 1000 = some world_shared_edge ∧
      ∃ N, ∀ r < graph_shared_edge.get_size,
        ((World.run_with graph_shared_edge pair_hash ((List.range N).map (fun _ =>
            [(1, World.Oracle.idle), (0, World.Oracle.rendezvous), (1, World.Oracle.rendezvous)]))
          world_shared_edge).procs.getD r default).2.done = true :=
  ⟨by decide, by decide,
    driver_loops_terminate graph_shared_edge ieee_1e_09 pair_hash 1000 world_shared_edge
      (fun _ => [(1, World.Oracle.idle), (0, World.Oracle.rendezvous),
        (1, World.Oracle.rendezvous)]) (by decide) (by decide)
      (by
        intro k r hr
        have h2 : graph_shared_edge.get_size = 2 := by decide
        rw [h2] at hr
        interval_cases r
        · exact ⟨(0, World.Oracle.rendezvous),
            List.mem_cons_of_mem _ (List.mem_cons_self _ _), rfl, rfl⟩
        · exact ⟨(1, World.Oracle.rendezvous),
            List.mem_cons_of_mem _ (List.mem_cons_of_mem _ (List.mem_cons_self _ _)), rfl, rfl⟩)
      (by
        intro k x hx
        have h2 : graph_shared_edge.get_size = 2 := by decide
        rw [h2]
        have hx' : x ∈ [(1, World.Oracle.idle), (0, World.Oracle.rendezvous),
          (1, World.Oracle.rendezvous)] := hx
        simp only [List.mem_cons, List.mem_singleton, List.not_mem_nil, or_false] at hx'
        rcases hx' with h | h | h <;> rw [h] <;> decide)⟩

end Termination

section DriverSteps

open TriangulateAggrBufferedHashPush

/-! ## The indices computed by `Bloomfilter::hash` -/

/-- Setting the entries at the indices `idx` to `c` changes an entry exactly when
its index is among `idx`. -/
theorem Bloomfilter.foldl_set_all (idx : List Nat) (c d : Char) (bits : List Char) (i : Nat) :
    (idx.foldl (fun b i => b.set i c) bits).getD i d =
      if i ∈ idx ∧ i < bits.length then c else bits.getD i d := by
  by_cases hi : i < bits.length
  · rw [Bloomfilter.foldl_set_get idx c d bits i hi]
    by_cases hm : i ∈ idx
    · rw [if_pos hm, if_pos ⟨hm, hi⟩]
    · rw [if_neg hm, if_neg (fun h => hm h.1)]
  · rw [if_neg (fun h => hi h.2)]
    have hlen := Bloomfilter.foldl_set_length idx c bits
    rw [list_getD_of_le _ _ _ (by rw [hlen]; omega), list_getD_of_le _ _ _ (by omega)]

/-- The `safe_` forms of the calls: for every pair `(u, v)` and every filter with an
even number `k_ ≥ 2` of hash slots, `safe_hash` leaves in every slot `j < k_` the index of slot `j % 2`: the
even slots hold the index of slot 0 and the odd slots that of slot 1, because
every call of `MurmurHash3_x64_128` hashes the same key with the same seed.
Hence `insert` changes no byte apart from those at the two indices, which become
`'1'`, and `contains` is the test of the bytes at the two indices. -/
theorem Bloomfilter.safe_hash_two_indices (H : Hash128) (bf : Bloomfilter) (u v : Nat)
    (hwf : bf.WF) (hk : 2 ≤ bf.k_) (heven : bf.k_ % 2 = 0) :
    (∀ j < bf.k_, (bf.safe_hash H u v).hashes_.getD j 0 =
      (bf.safe_hash H u v).hashes_.getD (j % 2) 0) ∧
    (∀ i, (bf.safe_insert H u v).bits_.getD i '0' =
      if (i = (bf.safe_hash H u v).hashes_.getD 0 0 ∨ i = (bf.safe_hash H u v).hashes_.getD 1 0) ∧
        i < bf.bits_.length then '1' else bf.bits_.getD i '0') ∧
    bf.safe_contains H u v =
      (!(bf.bits_.getD ((bf.safe_hash H u v).hashes_.getD 0 0) '0' == '0') &&
        !(bf.bits_.getD ((bf.safe_hash H u v).hashes_.getD 1 0) '0' == '0')) := by
  obtain ⟨-, hlen⟩ := hwf
  have h0 := Bloomfilter.hash_get H bf u v 0 hlen (by omega)
  have h1 := Bloomfilter.hash_get H bf u v 1 hlen (by omega)
  have hslot : ∀ j, Bloomfilter.slot_index H bf.m_ u v j =
      Bloomfilter.slot_index H bf.m_ u v (j % 2) := by
    intro j
    unfold Bloomfilter.slot_index
    rw [Nat.mod_mod]
  have hcase : ∀ j, j % 2 = 0 ∨ j % 2 = 1 := fun j => by omega
  have hmem : ∀ i, i ∈ (List.range bf.k_).map (Bloomfilter.slot_index H bf.m_ u v) ↔
      (i = Bloomfilter.slot_index H bf.m_ u v 0 ∨ i = Bloomfilter.slot_index H bf.m_ u v 1) := by
    intro i
    rw [List.mem_map]
    constructor
    · rintro ⟨j, -, rfl⟩
      rw [hslot j]
      rcases hcase j with h | h <;> rw [h]
      · exact Or.inl rfl
      · exact Or.inr rfl
    · rintro (h | h)
      · exact ⟨0, List.mem_range.2 (by omega), h.symm⟩
      · exact ⟨1, List.mem_range.2 (by omega), h.symm⟩
  refine ⟨?_, ?_, ?_⟩
  · intro j hj
    rw [Bloomfilter.hash_get H bf u v j hlen hj,
      Bloomfilter.hash_get H bf u v (j % 2) hlen (by omega)]
    exact hslot j
  · intro i
    rw [Bloomfilter.insert_bits H bf u v hlen, Bloomfilter.foldl_set_all, h0, h1]
    by_cases hc : (i = Bloomfilter.slot_index H bf.m_ u v 0 ∨
        i = Bloomfilter.slot_index H bf.m_ u v 1) ∧ i < bf.bits_.length
    · rw [if_pos hc, if_pos ⟨(hmem i).2 hc.1, hc.2⟩]
    · rw [if_neg hc, if_neg (fun h => hc ⟨(hmem i).1 h.1, h.2⟩)]
  · rw [Bloomfilter.contains_eq H bf u v hlen, h0, h1]
    rw [Bool.eq_iff_iff, List.all_eq_true, Bool.and_eq_true]
    constructor
    · intro h
      exact ⟨h 0 (List.mem_range.2 (by omega)), h 1 (List.mem_range.2 (by omega))⟩
    · rintro ⟨a, b⟩ j -
      rw [hslot j]
      rcases hcase j with h | h <;> rw [h]
      · exact a
      · exact b

theorem Bloomfilter.safe_hash_two_indices_witness :
    bf_example_four.WF ∧ 2 ≤ bf_example_four.k_ ∧ bf_example_four.k_ % 2 = 0 ∧
      ((∀ j < bf_example_four.k_, (bf_example_four.safe_hash pair_hash 1 3).hashes_.getD j 0 =
        (bf_example_four.safe_hash pair_hash 1 3).hashes_.getD (j % 2) 0) ∧
      (∀ i, (bf_example_four.safe_insert pair_hash 1 3).bits_.getD i '0' =
        if (i = (bf_example_four.safe_hash pair_hash 1 3).hashes_.getD 0 0 ∨
            i = (bf_example_four.safe_hash pair_hash 1 3).hashes_.getD 1 0) ∧
          i < bf_example_four.bits_.length then '1' else bf_example_four.bits_.getD i '0') ∧
      bf_example_four.safe_contains pair_hash 1 3 =
        (!(bf_example_four.bits_.getD ((bf_example_four.safe_hash pair_hash 1 3).hashes_.getD 0 0) '0'
            == '0') &&
          !(bf_example_four.bits_.getD ((bf_example_four.safe_hash pair_hash 1 3).hashes_.getD 1 0) '0'
            == '0'))) :=
  ⟨by decide, by decide, by decide,
    Bloomfilter.safe_hash_two_indices pair_hash bf_example_four 1 3 (by decide) (by decide) (by decide)⟩

/-! ## The recycle loop -/

theorem Bloomfilter.zfill_bits (bf : Bloomfilter) :
    bf.zfill.bits_ = List.replicate bf.bits_.length '0' ∧ bf.zfill.n_ = bf.n_ ∧
      bf.zfill.m_ = bf.m_ ∧ bf.zfill.k_ = bf.k_ ∧ bf.zfill.hashes_ = bf.hashes_ ∧
      bf.zfill.zfill = bf.zfill := by
  unfold Bloomfilter.zfill
  refine ⟨?_, rfl, rfl, rfl, rfl, ?_⟩
  · show bf.bits_.map (fun _ => '0') = _
    induction bf.bits_ with
    | nil => rfl
    | cons a t ih =>
      rw [List.map_cons, ih, List.length_cons, List.replicate_succ]
  · simp only [List.map_map]
    rfl

namespace TriangulateAggrBufferedHashPush

/-- The recycle loop leaves the bookmarks alone, clears the filter of every index
it is given and leaves the filters of the other slots alone. -/
theorem recycle_filters : ∀ (inds : List Nat) (e : TriangulateAggrBufferedHashPush),
    (recycle inds e).prev_m_ = e.prev_m_ ∧ (recycle inds e).prev_k_ = e.prev_k_ ∧
      (recycle inds e).sebf_.length = e.sebf_.length ∧
      ∀ p, (recycle inds e).sebf_.getD p default =
        if p ∈ inds then (e.sebf_.getD p default).zfill else e.sebf_.getD p default := by
  intro inds
  induction inds with
  | nil =>
    intro e
    refine ⟨rfl, rfl, rfl, fun p => ?_⟩
    rw [if_neg (List.not_mem_nil _)]
    rfl
  | cons a t ih =>
    intro e
    have he : recycle (a :: t) e = recycle t
        { e with sbuf_ctr_ := e.sbuf_ctr_.set a 0
                 stat_ := e.stat_.set a '0'
                 sebf_ := e.sebf_.set a (e.sebf_.getD a default).zfill
                 sreq_ := e.sreq_.set a false } := by
      unfold recycle
      rw [List.foldl_cons]
    obtain ⟨k1, k2, k3, k4⟩ := ih { e with sbuf_ctr_ := e.sbuf_ctr_.set a 0
                                           stat_ := e.stat_.set a '0'
                                           sebf_ := e.sebf_.set a (e.sebf_.getD a default).zfill
                                           sreq_ := e.sreq_.set a false }
    rw [he]
    refine ⟨k1, k2, k3.trans (List.length_set _ _ _), fun p => ?_⟩
    rw [k4 p]
    show (if p ∈ t then ((e.sebf_.set a (e.sebf_.getD a default).zfill).getD p default).zfill
      else (e.sebf_.set a (e.sebf_.getD a default).zfill).getD p default) = _
    by_cases hpa : p = a
    · subst hpa
      rw [if_pos (List.mem_cons_self _ _)]
      by_cases hl : p < e.sebf_.length
      · rw [list_getD_set_eq _ _ _ _ hl, (Bloomfilter.zfill_bits _).2.2.2.2.2]
        split <;> rfl
      · rw [list_getD_of_le _ _ _ (by rw [List.length_set]; omega),
          list_getD_of_le _ _ _ (by omega)]
        split <;> rfl
    · rw [list_getD_set_ne _ _ _ _ _ (fun h => hpa h.symm)]
      by_cases hp : p ∈ t
      · rw [if_pos hp, if_pos (List.mem_cons_of_mem _ hp)]
      · rw [if_neg hp, if_neg (by simp [hpa, hp])]

end TriangulateAggrBufferedHashPush

/-- C24: the recycle loop for the indices `inds` that `MPI_Testsome` reports
(source lines 434-439).  For every slot `p` among them the fill counter becomes
0, the status `'0'` (idle) and every byte of the filter `'0'` (the filter keeps
its size and parameters); the bookmarks `prev_m_` and `prev_k_` of all slots are
unchanged, and for every slot that is not among `inds` so are the fill counter,
the status and the filter. -/
theorem TriangulateAggrBufferedHashPush.recycle_resets_slot (inds : List Nat)
    (e : TriangulateAggrBufferedHashPush) (p : Nat) :
    (recycle inds e).prev_m_ = e.prev_m_ ∧ (recycle inds e).prev_k_ = e.prev_k_ ∧
    (p ∈ inds →
      (recycle inds e).sbuf_ctr_.getD p 0 = 0 ∧ (recycle inds e).stat_.getD p '0' = '0' ∧
      ((recycle inds e).sebf_.getD p default).bits_ =
        List.replicate (e.sebf_.getD p default).bits_.length '0' ∧
      ((recycle inds e).sebf_.getD p default).m_ = (e.sebf_.getD p default).m_ ∧
      ((recycle inds e).sebf_.getD p default).k_ = (e.sebf_.getD p default).k_) ∧
    (p ∉ inds →
      (recycle inds e).sbuf_ctr_.getD p 0 = e.sbuf_ctr_.getD p 0 ∧
      (recycle inds e).stat_.getD p '0' = e.stat_.getD p '0' ∧
      (recycle inds e).sebf_.getD p default = e.sebf_.getD p default) := by
  obtain ⟨k1, k2, -, k4⟩ := recycle_filters inds e
  have hr := recycle_spec inds e
  refine ⟨k1, k2, fun hp => ?_, fun hp => ?_⟩
  · have hc := hr.ctr p
    have hs := hr.stat p
    have hf := k4 p
    rw [if_pos hp] at hc hs hf
    obtain ⟨z1, -, z3, z4, -, -⟩ := Bloomfilter.zfill_bits (e.sebf_.getD p default)
    rw [hf]
    exact ⟨hc, hs, z1, z3, z4⟩
  · have hc := hr.ctr p
    have hs := hr.stat p
    have hf := k4 p
    rw [if_neg hp] at hc hs hf
    exact ⟨hc, hs, hf⟩

theorem TriangulateAggrBufferedHashPush.recycle_resets_slot_witness :
    (0 ∈ [0] ∧ 1 ∉ [0]) ∧
      (lookup_edges graph_one_way pair_hash engine_one_way_rank0).sbuf_ctr_.getD 0 0 = 2 ∧
      (lookup_edges graph_one_way pair_hash engine_one_way_rank0).stat_.getD 0 '0' = '1' ∧
      (recycle [0] (lookup_edges graph_one_way pair_hash engine_one_way_rank0)).sbuf_ctr_.getD 0 0
        = 0 ∧
      (recycle [0] (lookup_edges graph_one_way pair_hash engine_one_way_rank0)).stat_.getD 0 '0'
        = '0' ∧
      (recycle [0] (lookup_edges graph_one_way pair_hash engine_one_way_rank0)).prev_m_ =
        (lookup_edges graph_one_way pair_hash engine_one_way_rank0).prev_m_ :=
  ⟨by decide, by decide, by decide,
    ((TriangulateAggrBufferedHashPush.recycle_resets_slot [0]
      (lookup_edges graph_one_way pair_hash engine_one_way_rank0) 0).2.2.1 (by decide)).1,
    ((TriangulateAggrBufferedHashPush.recycle_resets_slot [0]
      (lookup_edges graph_one_way pair_hash engine_one_way_rank0) 0).2.2.1 (by decide)).2.1,
    (TriangulateAggrBufferedHashPush.recycle_resets_slot [0]
      (lookup_edges graph_one_way pair_hash engine_one_way_rank0) 0).1⟩

/-! ## The probe of `process_messages` -/

namespace TriangulateAggrBufferedHashPush

theorem probe_m_loop_count (g : Graph) (H : Hash128) (rank i : Nat) (rebf : Bloomfilter) :
    ∀ (fuel m nt : Nat), probe_m_loop g H rank i rebf fuel m nt =
      nt + (List.range' m fuel).countP
        (fun m => rebf.safe_contains H (g.local_to_global rank i) (g.get_edge rank m)) := by
  intro fuel
  induction fuel with
  | zero => intro m nt; rfl
  | succ k ih =>
    intro m nt
    unfold probe_m_loop
    rw [ih, List.range'_succ, List.countP_cons]
    by_cases h : rebf.safe_contains H (g.local_to_global rank i) (g.get_edge rank m) = true
    · rw [if_pos h, if_pos h]
      omega
    · rw [if_neg h, if_neg h]
      omega

theorem probe_fold_count (g : Graph) (H : Hash128) (rank : Nat) (rebf : Bloomfilter) :
    ∀ (k nt : Nat), (List.range k).foldl (fun nt i => probe_i_body g H rank rebf i nt) nt =
      nt + ((List.range k).map (fun i =>
        if (g.edge_range rank i).1 + 1 = (g.edge_range rank i).2 then 0
        else
          (List.range' (g.edge_range rank i).1
              ((g.edge_range rank i).2 - (g.edge_range rank i).1)).countP
            (fun m => rebf.safe_contains H (g.local_to_global rank i) (g.get_edge rank m)))).sum := by
  intro k
  induction k with
  | zero => intro nt; rfl
  | succ k ih =>
    intro nt
    rw [List.range_succ, List.foldl_append, List.map_append, List.sum_append, ih]
    simp only [List.foldl_cons, List.foldl_nil, List.map_cons, List.map_nil, List.sum_cons,
      List.sum_nil, add_zero]
    unfold probe_i_body
    simp only
    by_cases h : (g.edge_range rank k).1 + 1 = (g.edge_range rank k).2
    · rw [if_pos h, if_pos h, add_zero]
    · rw [if_neg h, if_neg h, probe_m_loop_count]
      omega

end TriangulateAggrBufferedHashPush

/-- C23, as the code has it: when `process_messages()` receives a message, the
filter `rebf_` becomes the received bytes and `ntriangles_` grows by the number
of local half-edges `(i, a)` for which that filter reports `(global(i), a)`,
counted over the local vertices whose edge range does not hold exactly one
half-edge (source lines 395-396 skip those); the object is unchanged when no
message is found. -/
theorem TriangulateAggrBufferedHashPush.process_messages_counts (g : Graph) (H : Hash128)
    (payload : List Char) (e : TriangulateAggrBufferedHashPush) :
    (process_messages g H (some payload) e).rebf_ =
        e.rebf_.copy_to (payload.take e.rebf_.nbits ++
          e.rbuf_.drop (min payload.length e.rebf_.nbits)) ∧
      (process_messages g H (some payload) e).ntriangles_ =
        e.ntriangles_ + probe_hits g H e.rank_ (process_messages g H (some payload) e).rebf_ ∧
      process_messages g H none e = e := by
  refine ⟨rfl, ?_, rfl⟩
  show (List.range (g.get_lnv e.rank_)).foldl
    (fun nt i => probe_i_body g H e.rank_ _ i nt) e.ntriangles_ = _
  rw [probe_fold_count]
  rfl

/-- C23, as stated, fails: process 1 of `graph_one_way` owns vertex 5, which has
the single half-edge `(5, 3)`.  On a message whose bytes are all `'1'` the filter
reports every pair, also `(5, 3)`: six local half-edges are reported, and
`ntriangles_` grows by five. -/
theorem probe_skips_single_edge_vertex :
    (process_messages graph_one_way pair_hash (some (List.replicate 87 '1'))
        engine_one_way_rank1).ntriangles_ = engine_one_way_rank1.ntriangles_ + 5 ∧
      probe_hits_all graph_one_way pair_hash engine_one_way_rank1.rank_
        (process_messages graph_one_way pair_hash (some (List.replicate 87 '1'))
          engine_one_way_rank1).rebf_ = 6 ∧
      (process_messages graph_one_way pair_hash (some (List.replicate 87 '1'))
          engine_one_way_rank1).rebf_.contains pair_hash 5 3 = some true ∧
      graph_one_way.edge_range 1 2 = (5, 6) ∧ graph_one_way.get_edge 1 5 = 3 ∧
      graph_one_way.local_to_global 1 2 = 5 := by
  decide

/-! ## The counters `out_nghosts_` and `in_nghosts_` across the steps of the driver -/

theorem wrap32_id (y : Int) (h1 : -2 ^ 31 ≤ y) (h2 : y < 2 ^ 31) : wrap32 y = y := by
  unfold wrap32
  omega

theorem accumulate_fold_exact : ∀ (l : List Int) (acc : Int), 0 ≤ acc →
    (∀ x ∈ l, 0 ≤ x) → acc + l.sum < 2 ^ 31 →
    l.foldl (fun acc c => wrap32 (acc + c)) acc = acc + l.sum := by
  intro l
  induction l with
  | nil =>
    intro acc _ _ _
    simp
  | cons a t ih =>
    intro acc h0 hl hs
    have ha := hl a (List.mem_cons_self _ _)
    have ht : 0 ≤ t.sum := List.sum_nonneg (fun x hx => hl x (List.mem_cons_of_mem _ hx))
    rw [List.sum_cons] at hs
    rw [List.foldl_cons, List.sum_cons, wrap32_id (acc + a) (by omega) (by omega),
      ih (acc + a) (by omega) (fun x hx => hl x (List.mem_cons_of_mem _ hx)) (by omega)]
    omega

/-- The `int` sum of counts that are not negative is their sum as long as that is
below `2^31`. -/
theorem accumulate_int_exact (l : List Int) (h : ∀ x ∈ l, 0 ≤ x) (hs : l.sum < 2 ^ 31) :
    accumulate_int l = l.sum := by
  have := accumulate_fold_exact l 0 (le_refl _) h (by omega)
  rw [zero_add] at this
  exact this

namespace TriangulateAggrBufferedHashPush

/-- The value that the constructor leaves in `in_nghosts_` (source line 272). -/
theorem ctor_in_nghosts (g : Graph) (F : FloatOps) (hint : Int) (rank : Nat)
    (e0 : TriangulateAggrBufferedHashPush) (hc : ctor g F hint rank = some e0) :
    e0.in_nghosts_ = accumulate_int (ctor_recv_count g rank) := by
  unfold ctor at hc
  simp only at hc
  cases hbf : Bloomfilter.mk1 F (ctor_bufsize g hint) with
  | none =>
    rw [hbf] at hc
    cases hc
  | some bf =>
    rw [hbf] at hc
    simp only [Option.some.injEq] at hc
    rw [← hc]

/-- A steady state stays steady across a pass of `lookup_edges()` and across the
flush. -/
theorem steady_of_rel (g : Graph) (B : Int) (r : Nat) (e s1 : TriangulateAggrBufferedHashPush)
    (hq : Steady g B r e) (hr : PassRel e s1) (hinv : LView.Inv g s1.view) :
    Steady g B r s1 :=
  { inv := hinv
    rank := hr.rank.trans hq.rank
    buf := hr.bufsize.trans hq.buf
    erange := hr.erange.trans hq.erange
    len_stat := by rw [hr.len_stat, hr.pdegree]; exact hq.len_stat
    len_sreq := by rw [hr.len_sreq, hr.pdegree]; exact hq.len_sreq
    len_tg := by rw [hr.targets, hr.pdegree]; exact hq.len_tg
    hyp := PassHyp.of_rel hr hq.hyp
    pi := by
      rw [hr.pindex, hr.pdegree, hr.targets]
      exact hq.pi
    tg := by
      rw [hr.pindex, hr.pdegree, hr.targets]
      exact hq.tg
    ctr := hr.ctr_inv hq.ctr
    flight := by
      intro p hp
      rcases hr.paused p hp with h | h
      · exact hr.sreq_mono p (hq.flight p h)
      · exact h }

/-- A steady state stays steady across the recycle loop, whatever the indices. -/
theorem steady_recycle (g : Graph) (B : Int) (r : Nat) (inds : List Nat)
    (e : TriangulateAggrBufferedHashPush) (hq : Steady g B r e) :
    Steady g B r (recycle inds e) := by
  have hrec := recycle_spec inds e
  exact
    { inv := by
        rw [view_recycle]
        exact (LView.recycle_inv g inds e.view hq.inv).1
      rank := hrec.rank.trans hq.rank
      buf := hrec.bufsize.trans hq.buf
      erange := hrec.erange.trans hq.erange
      len_stat := by rw [hrec.len_stat, hrec.pdegree]; exact hq.len_stat
      len_sreq := by rw [hrec.len_sreq, hrec.pdegree]; exact hq.len_sreq
      len_tg := by rw [hrec.targets, hrec.pdegree]; exact hq.len_tg
      hyp := by
        obtain ⟨h1, h2⟩ := hq.hyp
        refine ⟨by rw [hrec.bufsize]; exact h1, ?_⟩
        rw [hrec.rank, hrec.pindex, hrec.len_ctr, hrec.len_sreq, hrec.len_stat]
        exact h2
      pi := by
        rw [hrec.pindex, hrec.pdegree, hrec.targets]
        exact hq.pi
      tg := by
        rw [hrec.pindex, hrec.pdegree, hrec.targets]
        exact hq.tg
      ctr := by
        obtain ⟨c1, c2, c3, c4⟩ := hq.ctr
        refine ⟨by rw [hrec.bufsize]; exact c1, by rw [hrec.bufsize]; exact c2,
          fun p => ?_, fun p hp => ?_⟩
        · rw [hrec.ctr p, hrec.bufsize]
          by_cases hm : p ∈ inds
          · rw [if_pos hm]
            exact ⟨le_refl _, le_of_lt c1, rfl⟩
          · rw [if_neg hm]
            exact c3 p
        · rw [hrec.stat p] at hp
          by_cases hm : p ∈ inds
          · rw [if_pos hm] at hp
            exact absurd hp (by decide)
          · rw [if_neg hm] at hp
            rw [hrec.ctr p, if_neg hm, hrec.bufsize]
            exact c4 p hp
      flight := by
        intro p hp
        rw [hrec.stat p] at hp
        rw [hrec.sreq p]
        by_cases hm : p ∈ inds
        · rw [if_pos hm] at hp
          exact absurd hp (by decide)
        · rw [if_neg hm] at hp
          rw [if_neg hm]
          exact hq.flight p hp }

/-- A steady state stays steady across `process_messages()`. -/
theorem steady_receive (g : Graph) (H : Hash128) (B : Int) (r : Nat)
    (msg : Option (List Char)) (e : TriangulateAggrBufferedHashPush) (hq : Steady g B r e) :
    Steady g B r (process_messages g H msg e) :=
  (steady_after g H B r e e (process_messages g H msg e) (process_messages g H msg e) msg []
    hq (PassRel.rel_refl e) hq.inv (fun _ _ => rfl) rfl rfl).1

/-- The flush `nbsend()` from a steady state relates the states as a pass does. -/
theorem flush_rel (g : Graph) (B : Int) (r : Nat) (e : TriangulateAggrBufferedHashPush)
    (hq : Steady g B r e) : PassRel e e.nbsend_all :=
  (nbsend_fold_rel e.targets_ e (by
    intro o hmem
    obtain ⟨n, hn, hget⟩ := List.getElem_of_mem hmem
    have hn' : n < e.pdegree_ := by rw [← hq.len_tg]; exact hn
    refine ⟨n, ?_, by rw [hq.len_sreq]; exact hn'⟩
    have := hq.tg n hn'
    rw [List.getD_eq_getElem _ _ hn, hget] at this
    exact this)).1

/-- Every step of the driver keeps a steady state steady. -/
theorem apply_steady (g : Graph) (H : Hash128) (B : Int) (r : Nat) (ev : DriverEvent)
    (e : TriangulateAggrBufferedHashPush) (hq : Steady g B r e) :
    Steady g B r (ev.apply g H e) := by
  cases ev with
  | pass =>
    exact steady_of_rel g B r e _ hq (lookup_edges_reach g H e hq.hyp).reach_rel.rel
      (apply_inv g H DriverEvent.pass e hq.inv).1
  | flush =>
    exact steady_of_rel g B r e _ hq (flush_rel g B r e hq)
      (apply_inv g H DriverEvent.flush e hq.inv).1
  | receive payload => exact steady_receive g H B r (some payload) e hq
  | recycle inds => exact steady_recycle g B r inds e hq

theorem drive_steady (g : Graph) (H : Hash128) (B : Int) (r : Nat) :
    ∀ (evs : List DriverEvent) (e : TriangulateAggrBufferedHashPush), Steady g B r e →
      Steady g B r (drive g H evs e) := by
  intro evs
  induction evs with
  | nil => intro e h; exact h
  | cons ev rest ih =>
    intro e h
    exact ih _ (apply_steady g H B r ev e h)

/-- How one step of the driver moves the two counters and the log of inserts. -/
theorem apply_counters (g : Graph) (H : Hash128) (B : Int) (r : Nat) (ev : DriverEvent)
    (e : TriangulateAggrBufferedHashPush) (hq : Steady g B r e) :
    (∃ new, (ev.apply g H e).inserted_ = e.inserted_ ++ new ∧
      (ev.apply g H e).out_nghosts_ = e.out_nghosts_ - (new.length : Int) ∧
      (ev ≠ DriverEvent.pass → new = [])) ∧
    (∀ payload, ev = DriverEvent.receive payload →
      (ev.apply g H e).in_nghosts_ = max (e.in_nghosts_ - e.bufsize_) 0) ∧
    ((∀ payload, ev ≠ DriverEvent.receive payload) →
      (ev.apply g H e).in_nghosts_ = e.in_nghosts_) := by
  cases ev with
  | pass =>
    have hr := (lookup_edges_reach g H e hq.hyp).reach_rel.rel
    obtain ⟨new, h1, -, h3⟩ := hr.log
    refine ⟨⟨new, h1, h3, fun h => absurd rfl h⟩, (fun p hp => by cases hp), fun _ => hr.inn⟩
  | flush =>
    have hv : e.nbsend_all.view = e.view := view_nbsend_all e
    refine ⟨⟨[], ?_, ?_, fun _ => rfl⟩, (fun p hp => by cases hp),
      fun _ => (flush_rel g B r e hq).inn⟩
    · rw [List.append_nil]
      exact congrArg LView.inserted_ hv
    · have ho : e.nbsend_all.out_nghosts_ = e.out_nghosts_ := congrArg LView.out_nghosts_ hv
      show e.nbsend_all.out_nghosts_ = e.out_nghosts_ - ((0 : Nat) : Int)
      omega
  | receive payload =>
    have hv : (process_messages g H (some payload) e).view = e.view :=
      view_process_messages g H (some payload) e
    refine ⟨⟨[], ?_, ?_, fun _ => rfl⟩, fun p _ => ?_, fun h => absurd rfl (h payload)⟩
    · rw [List.append_nil]
      exact congrArg LView.inserted_ hv
    · have ho : (process_messages g H (some payload) e).out_nghosts_ = e.out_nghosts_ :=
        congrArg LView.out_nghosts_ hv
      show (process_messages g H (some payload) e).out_nghosts_ =
        e.out_nghosts_ - ((0 : Nat) : Int)
      omega
    · show (if e.in_nghosts_ ≥ e.bufsize_ then e.in_nghosts_ - e.bufsize_ else 0) = _
      by_cases h : e.in_nghosts_ ≥ e.bufsize_
      · rw [if_pos h]
        omega
      · rw [if_neg h]
        omega
  | recycle inds =>
    have hrec := recycle_spec inds e
    refine ⟨⟨[], ?_, ?_, fun _ => rfl⟩, (fun p hp => by cases hp), fun _ => hrec.inn⟩
    · rw [List.append_nil]
      exact hrec.inserted
    · have ho := hrec.out
      show (recycle inds e).out_nghosts_ = e.out_nghosts_ - ((0 : Nat) : Int)
      omega

/-- No step of the driver makes `in_nghosts_` negative. -/
theorem drive_in_nonneg (g : Graph) (H : Hash128) (B : Int) (r : Nat) :
    ∀ (evs : List DriverEvent) (e : TriangulateAggrBufferedHashPush), Steady g B r e →
      0 ≤ e.in_nghosts_ → 0 ≤ (drive g H evs e).in_nghosts_ := by
  intro evs
  induction evs with
  | nil => intro e _ h; exact h
  | cons ev rest ih =>
    intro e hq h
    apply ih _ (apply_steady g H B r ev e hq)
    obtain ⟨-, a2, a3⟩ := apply_counters g H B r ev e hq
    cases ev with
    | receive payload =>
      rw [a2 payload rfl]
      exact le_max_right _ _
    | pass => rw [a3 (fun p hp => by cases hp)]; exact h
    | flush => rw [a3 (fun p hp => by cases hp)]; exact h
    | recycle inds => rw [a3 (fun p hp => by cases hp)]; exact h

end TriangulateAggrBufferedHashPush

/-- C22, at the failing input: `std::accumulate(recv_count.begin(),
recv_count.end(), 0)` (source line 272) adds in `int`, the type of its initial
value.  When one process announces `2^31` candidate pairs the value stored in
`in_nghosts_` is `-2^31`, and so it is when two processes announce `2^31 - 1`
pairs and one pair; below `2^31` the `int` sum is the sum. -/
theorem in_pending_wraps_at_two_pow_31 :
    accumulate_int [2147483648] = -2147483648 ∧
      accumulate_int [2147483647, 1] = -2147483648 ∧
      accumulate_int [2147483647] = 2147483647 := by
  decide

/-- The counters below the wrap of the `int` accumulation: in every state that the
driver reaches from the constructed object (for
a valid graph whose candidate-pair counts received at setup sum to less than
`2^31`), every step of the driver - a pass of `lookup_edges()`, the flush, a
receive by `process_messages()`, a recycle loop - leaves `out_nghosts_` and
`in_nghosts_` not negative and not larger than before; `out_nghosts_` goes down
by the number of pairs that the step inserts, which is none unless the step is a
pass; a receive replaces `in_nghosts_` by `max (in_nghosts_ - bufsize_) 0`, and
no other step changes it. -/
theorem TriangulateAggrBufferedHashPush.pending_counters_monotone (g : Graph) (hv : g.Valid)
    (F : FloatOps) (H : Hash128) (hint : Int) (rank : Nat)
    (e0 : TriangulateAggrBufferedHashPush) (hc : ctor g F hint rank = some e0)
    (hsum : (ctor_recv_count g rank).sum < 2 ^ 31) (evs : List DriverEvent)
    (ev : DriverEvent) :
    (0 ≤ (ev.apply g H (drive g H evs e0)).out_nghosts_ ∧
      (ev.apply g H (drive g H evs e0)).out_nghosts_ ≤ (drive g H evs e0).out_nghosts_ ∧
      0 ≤ (ev.apply g H (drive g H evs e0)).in_nghosts_ ∧
      (ev.apply g H (drive g H evs e0)).in_nghosts_ ≤ (drive g H evs e0).in_nghosts_) ∧
    (∃ new, (ev.apply g H (drive g H evs e0)).inserted_ = (drive g H evs e0).inserted_ ++ new ∧
      (ev.apply g H (drive g H evs e0)).out_nghosts_ =
        (drive g H evs e0).out_nghosts_ - (new.length : Int) ∧
      (ev ≠ DriverEvent.pass → new = [])) ∧
    (∀ payload, ev = DriverEvent.receive payload →
      (ev.apply g H (drive g H evs e0)).in_nghosts_ =
        max ((drive g H evs e0).in_nghosts_ - (drive g H evs e0).bufsize_) 0) ∧
    ((∀ payload, ev ≠ DriverEvent.receive payload) →
      (ev.apply g H (drive g H evs e0)).in_nghosts_ = (drive g H evs e0).in_nghosts_) := by
  obtain ⟨hs0, -, -, -, hin0⟩ := ctor_steady g hv F hint rank e0 hc
  have hnn : ∀ x ∈ ctor_recv_count g rank, (0 : Int) ≤ x := by
    intro x hx
    unfold ctor_recv_count at hx
    obtain ⟨q, -, rfl⟩ := List.mem_map.1 hx
    rw [(ctor_pass_count g hv q).2.1 rank]
    exact Int.ofNat_nonneg _
  have hin : 0 ≤ e0.in_nghosts_ := by
    rw [hin0, accumulate_int_exact _ hnn hsum]
    exact List.sum_nonneg hnn
  have hq := drive_steady g H _ rank evs e0 hs0
  have hq' := apply_steady g H _ rank ev _ hq
  have hi := drive_in_nonneg g H _ rank evs e0 hs0 hin
  have hi' : 0 ≤ (ev.apply g H (drive g H evs e0)).in_nghosts_ :=
    drive_in_nonneg g H _ rank [ev] _ hq hi
  obtain ⟨⟨new, a1, a2, a3⟩, b, c⟩ := apply_counters g H _ rank ev _ hq
  have hB : 0 < (drive g H evs e0).bufsize_ := hq.ctr.1
  refine ⟨⟨hq'.inv.out_nonneg, ?_, hi', ?_⟩, ⟨new, a1, a2, a3⟩, b, c⟩
  · rw [a2]
    omega
  · cases ev with
    | receive payload =>
      rw [b payload rfl]
      omega
    | pass => rw [c (fun p hp => by cases hp)]
    | flush => rw [c (fun p hp => by cases hp)]
    | recycle inds => rw [c (fun p hp => by cases hp)]

theorem TriangulateAggrBufferedHashPush.pending_counters_monotone_witness :
    graph_one_way.Valid ∧ ctor graph_one_way ieee_1e_09 2 1 = some engine_one_way_rank1 ∧
      (ctor_recv_count graph_one_way 1).sum < 2 ^ 31 ∧
      ((DriverEvent.receive (List.replicate 87 '1')).apply graph_one_way pair_hash
          (drive graph_one_way pair_hash [DriverEvent.pass] engine_one_way_rank1)).in_nghosts_ =
        max ((drive graph_one_way pair_hash [DriverEvent.pass] engine_one_way_rank1).in_nghosts_ -
          (drive graph_one_way pair_hash [DriverEvent.pass] engine_one_way_rank1).bufsize_) 0 :=
  ⟨by decide, by decide, by decide,
    (TriangulateAggrBufferedHashPush.pending_counters_monotone graph_one_way (by decide)
      ieee_1e_09 pair_hash 2 1 engine_one_way_rank1 (by decide) (by decide)
      [DriverEvent.pass] (DriverEvent.receive (List.replicate 87 '1'))).2.2.1 _ rfl⟩

/-! ## A slot in flight is left alone by a pass -/

namespace TriangulateAggrBufferedHashPush

theorem SlotKept.kept_refl (g : Graph) (p : Nat) (e : TriangulateAggrBufferedHashPush) :
    SlotKept g p e e :=
  { rank := rfl, pindex := rfl, stat := rfl, sebf := rfl, ctr := rfl, pm := rfl, pk := rfl
    ins := rfl, act := fun _ _ => rfl }

theorem SlotKept.kept_trans {g : Graph} {p : Nat} {a b c : TriangulateAggrBufferedHashPush}
    (h1 : SlotKept g p a b) (h2 : SlotKept g p b c) : SlotKept g p a c :=
  { rank := h2.rank.trans h1.rank
    pindex := h2.pindex.trans h1.pindex
    stat := h2.stat.trans h1.stat
    sebf := h2.sebf.trans h1.sebf
    ctr := h2.ctr.trans h1.ctr
    pm := h2.pm.trans h1.pm
    pk := h2.pk.trans h1.pk
    ins := h2.ins.trans h1.ins
    act := by
      intro m hm
      have hm' : b.pindex (g.get_owner (g.get_edge b.rank_ m)) = p := by
        unfold TriangulateAggrBufferedHashPush.pindex
        rw [h1.pindex, h1.rank]
        exact hm
      exact (h2.act m hm').trans (h1.act m hm) }

/-- `nbsend(owner)` changes no slot state of the enumerator. -/
theorem kept_nbsend (g : Graph) (p : Nat) (e : TriangulateAggrBufferedHashPush) (owner : Nat) :
    SlotKept g p e (nbsend e owner) := by
  unfold nbsend
  simp only
  split
  · exact { rank := rfl, pindex := rfl, stat := rfl, sebf := rfl, ctr := rfl, pm := rfl
            pk := rfl, ins := rfl, act := fun _ _ => rfl }
  · exact SlotKept.kept_refl g p e

/-- The pause of a slot other than `p`. -/
theorem kept_pause (g : Graph) (p q : Nat) (hne : q ≠ p) (e : TriangulateAggrBufferedHashPush)
    (m : Nat) (k : Int) (owner : Nat) :
    SlotKept g p e (nbsend { e with prev_m_ := e.prev_m_.set q (m : Int)
                                    prev_k_ := e.prev_k_.set q k
                                    stat_ := e.stat_.set q '1' } owner) := by
  refine SlotKept.kept_trans ?_ (kept_nbsend g p _ owner)
  exact
    { rank := rfl, pindex := rfl
      stat := list_getD_set_ne _ _ _ _ _ hne
      sebf := rfl, ctr := rfl
      pm := list_getD_set_ne _ _ _ _ _ hne
      pk := list_getD_set_ne _ _ _ _ _ hne
      ins := rfl, act := fun _ _ => rfl }

theorem kept_n_loop (g : Graph) (H : Hash128) (p i m owner q tail_m : Nat) (hne : q ≠ p) :
    ∀ (fuel n : Nat) (e : TriangulateAggrBufferedHashPush),
      SlotKept g p e (lookup_n_loop g H i m owner q tail_m fuel n e) := by
  intro fuel
  induction fuel with
  | zero => intro n e; exact SlotKept.kept_refl g p e
  | succ f ih =>
    intro n e
    unfold lookup_n_loop
    simp only
    split
    · exact SlotKept.kept_refl g p e
    · split
      · exact ih (n + 1) e
      · split
        · exact kept_pause g p q hne e m (n : Int) owner
        · refine SlotKept.kept_trans ?_ (ih (n + 1) _)
          exact
            { rank := rfl, pindex := rfl, stat := rfl
              sebf := list_getD_set_ne _ _ _ _ _ hne
              ctr := list_getD_set_ne _ _ _ _ _ hne
              pm := rfl, pk := rfl
              ins := by
                show (e.inserted_ ++ [(q, m, n)]).filter _ = _
                rw [List.filter_append]
                have : [(q, m, n)].filter (fun x => decide (x.1 = p)) = [] := by
                  simp [hne]
                rw [this, List.append_nil]
              act := fun _ _ => rfl }

/-- The visit of any source edge leaves a slot alone that is in flight. -/
theorem kept_m_body (g : Graph) (H : Hash128) (p i e1 m : Nat)
    (e : TriangulateAggrBufferedHashPush) (hp : e.stat_.getD p '0' = '1') :
    SlotKept g p e (lookup_m_body g H i e1 m e) := by
  unfold lookup_m_body
  by_cases hc1 : g.get_owner (g.get_edge e.rank_ m) ≠ e.rank_ ∧ e.active_.getD m true = true
  · simp only [if_pos hc1]
    by_cases hc2 : e.stat_.getD (e.pindex (g.get_owner (g.get_edge e.rank_ m))) '0' = '1'
    · simp only [if_pos hc2]
      exact SlotKept.kept_refl g p e
    · simp only [if_neg hc2]
      have hne : e.pindex (g.get_owner (g.get_edge e.rank_ m)) ≠ p := by
        intro h
        rw [h] at hc2
        exact hc2 hp
      generalize hq : e.pindex (g.get_owner (g.get_edge e.rank_ m)) = q at hc2 hne
      by_cases hc3 : (m : Int) ≥ e.prev_m_.getD q (-1)
      · simp only [if_pos hc3]
        by_cases hc4 : e.sbuf_ctr_.getD q 0 = e.bufsize_
        · simp only [if_pos hc4]
          exact kept_pause g p q hne e m (-1) _
        · simp only [if_neg hc4]
          have hn := kept_n_loop g H p i m (g.get_owner (g.get_edge e.rank_ m)) q
            (g.get_edge e.rank_ m) hne
            (e1 - (if e.prev_k_.getD q (-1) = -1 then m + 1 else (e.prev_k_.getD q (-1)).toNat))
            (if e.prev_k_.getD q (-1) = -1 then m + 1 else (e.prev_k_.getD q (-1)).toNat) e
          generalize lookup_n_loop g H i m (g.get_owner (g.get_edge e.rank_ m)) q
            (g.get_edge e.rank_ m) _ _ e = e' at hn
          have hmark : SlotKept g p e' { e' with prev_m_ := e'.prev_m_.set q (m : Int)
                                                 prev_k_ := e'.prev_k_.set q (-1)
                                                 active_ := e'.active_.set m false } :=
            { rank := rfl, pindex := rfl, stat := rfl, sebf := rfl, ctr := rfl
              pm := list_getD_set_ne _ _ _ _ _ hne
              pk := list_getD_set_ne _ _ _ _ _ hne
              ins := rfl
              act := by
                intro m' hm'
                have hmm : m ≠ m' := by
                  intro h
                  subst h
                  apply hne
                  have h1 : e'.pindex (g.get_owner (g.get_edge e'.rank_ m)) = p := hm'
                  unfold pindex at h1
                  rw [hn.pindex, hn.rank] at h1
                  rw [← hq]
                  exact h1
                exact list_getD_set_ne _ _ _ _ _ hmm }
          by_cases hc5 : e'.stat_.getD q '0' = '0'
          · simp only [if_pos hc5]
            by_cases hc6 : e'.sbuf_ctr_.getD q 0 = e'.bufsize_
            · simp only [if_pos hc6]
              refine hn.kept_trans (hmark.kept_trans ?_)
              refine SlotKept.kept_trans ?_ (kept_nbsend g p _ _)
              exact
                { rank := rfl, pindex := rfl
                  stat := list_getD_set_ne _ _ _ _ _ hne
                  sebf := rfl, ctr := rfl, pm := rfl, pk := rfl, ins := rfl
                  act := fun _ _ => rfl }
            · simp only [if_neg hc6]
              exact hn.kept_trans hmark
          · simp only [if_neg hc5]
            exact hn
      · simp only [if_neg hc3]
        exact SlotKept.kept_refl g p e
  · simp only [if_neg hc1]
    exact SlotKept.kept_refl g p e

theorem kept_m_loop (g : Graph) (H : Hash128) (p i e1 : Nat) :
    ∀ (fuel m : Nat) (e : TriangulateAggrBufferedHashPush), e.stat_.getD p '0' = '1' →
      SlotKept g p e (lookup_m_loop g H i e1 fuel m e) := by
  intro fuel
  induction fuel with
  | zero => intro m e _; exact SlotKept.kept_refl g p e
  | succ f ih =>
    intro m e hp
    have h1 := kept_m_body g H p i e1 m e hp
    show SlotKept g p e (lookup_m_loop g H i e1 f (m + 1) (lookup_m_body g H i e1 m e))
    exact h1.kept_trans (ih (m + 1) _ (h1.stat.trans hp))

theorem kept_i_body (g : Graph) (H : Hash128) (p i : Nat)
    (e : TriangulateAggrBufferedHashPush) (hp : e.stat_.getD p '0' = '1') :
    SlotKept g p e (lookup_i_body g H i e) := by
  unfold lookup_i_body
  simp only
  split
  · exact SlotKept.kept_refl g p e
  · split
    · exact SlotKept.kept_refl g p e
    · exact kept_m_loop g H p i _ _ _ e hp

theorem kept_fold (g : Graph) (H : Hash128) (p : Nat) :
    ∀ (l : List Nat) (e : TriangulateAggrBufferedHashPush), e.stat_.getD p '0' = '1' →
      SlotKept g p e (l.foldl (fun e i => lookup_i_body g H i e) e) := by
  intro l
  induction l with
  | nil => intro e _; exact SlotKept.kept_refl g p e
  | cons a t ih =>
    intro e hp
    have h1 := kept_i_body g H p a e hp
    rw [List.foldl_cons]
    exact h1.kept_trans (ih _ (h1.stat.trans hp))

/-- A pass of `lookup_edges()` leaves a slot alone that is in flight when the
pass starts. -/
theorem kept_lookup_edges (g : Graph) (H : Hash128) (p : Nat)
    (e : TriangulateAggrBufferedHashPush) (hp : e.stat_.getD p '0' = '1') :
    SlotKept g p e (lookup_edges g H e) :=
  kept_fold g H p _ e hp

/-- The visit of a source edge whose slot is in flight changes nothing. -/
theorem m_body_in_flight (g : Graph) (H : Hash128) (i e1 m : Nat)
    (e : TriangulateAggrBufferedHashPush)
    (hp : e.stat_.getD (e.pindex (g.get_owner (g.get_edge e.rank_ m))) '0' = '1') :
    lookup_m_body g H i e1 m e = e := by
  unfold lookup_m_body
  by_cases hc1 : g.get_owner (g.get_edge e.rank_ m) ≠ e.rank_ ∧ e.active_.getD m true = true
  · simp only [if_pos hc1, if_pos hp]
  · simp only [if_neg hc1]

/-! ## The fill counter of a slot -/

/-- The fill counter of slot `p` is twice the number of pairs inserted into the
slot since it was last recycled. -/
theorem drive_fill (g : Graph) (H : Hash128) (B : Int) (r p : Nat) :
    ∀ (evs : List DriverEvent) (e : TriangulateAggrBufferedHashPush) (base : Nat),
      Steady g B r e → base ≤ e.inserted_into p →
      e.sbuf_ctr_.getD p 0 = 2 * (((e.inserted_into p - base : Nat)) : Int) →
      (drive g H evs e).sbuf_ctr_.getD p 0 = 2 * ((inserted_since g H p evs e base : Nat) : Int) := by
  intro evs
  induction evs with
  | nil =>
    intro e base _ _ h
    exact h
  | cons ev rest ih =>
    intro e base hq hb h
    show (drive g H rest (ev.apply g H e)).sbuf_ctr_.getD p 0 =
      2 * ((inserted_since g H p rest (ev.apply g H e)
        (if ev.recycles p then (ev.apply g H e).inserted_into p else base) : Nat) : Int)
    have hq' := apply_steady g H B r ev e hq
    cases ev with
    | pass =>
      have hr := (lookup_edges_reach g H e hq.hyp).reach_rel.rel
      obtain ⟨new, h1, h2, -⟩ := hr.log
      have hins : (lookup_edges g H e).inserted_into p =
          e.inserted_into p + new.countP (fun x => decide (x.1 = p)) := by
        unfold inserted_into
        rw [h1, List.countP_append]
      apply ih _ base hq'
      · show base ≤ (lookup_edges g H e).inserted_into p
        omega
      · show (lookup_edges g H e).sbuf_ctr_.getD p 0 =
          2 * (((lookup_edges g H e).inserted_into p - base : Nat) : Int)
        rw [h2 p, h, hins]
        omega
    | flush =>
      have hv : e.nbsend_all.view = e.view := view_nbsend_all e
      have h1 : e.nbsend_all.inserted_ = e.inserted_ := congrArg LView.inserted_ hv
      have h2 : e.nbsend_all.sbuf_ctr_ = e.sbuf_ctr_ := congrArg LView.sbuf_ctr_ hv
      apply ih _ base hq'
      · show base ≤ e.nbsend_all.inserted_into p
        unfold inserted_into
        rw [h1]
        exact hb
      · show e.nbsend_all.sbuf_ctr_.getD p 0 = 2 * ((e.nbsend_all.inserted_into p - base : Nat) : Int)
        unfold inserted_into
        rw [h1, h2]
        exact h
    | receive payload =>
      have hv : (process_messages g H (some payload) e).view = e.view :=
        view_process_messages g H (some payload) e
      have h1 : (process_messages g H (some payload) e).inserted_ = e.inserted_ :=
        congrArg LView.inserted_ hv
      have h2 : (process_messages g H (some payload) e).sbuf_ctr_ = e.sbuf_ctr_ :=
        congrArg LView.sbuf_ctr_ hv
      apply ih _ base hq'
      · show base ≤ (process_messages g H (some payload) e).inserted_into p
        unfold inserted_into
        rw [h1]
        exact hb
      · show (process_messages g H (some payload) e).sbuf_ctr_.getD p 0 =
          2 * (((process_messages g H (some payload) e).inserted_into p - base : Nat) : Int)
        unfold inserted_into
        rw [h1, h2]
        exact h
    | recycle inds =>
      have hrec := recycle_spec inds e
      have h1 : (recycle inds e).inserted_into p = e.inserted_into p := by
        unfold inserted_into
        rw [hrec.inserted]
      by_cases hm : p ∈ inds
      · have hrc : (DriverEvent.recycle inds).recycles p = true := by
          unfold DriverEvent.recycles
          exact decide_eq_true hm
        rw [hrc, if_pos rfl]
        apply ih _ _ hq' (le_refl _)
        show (recycle inds e).sbuf_ctr_.getD p 0 = _
        rw [hrec.ctr p, if_pos hm]
        simp
      · have hrc : (DriverEvent.recycle inds).recycles p = false := by
          unfold DriverEvent.recycles
          exact decide_eq_false hm
        rw [hrc]
        simp only [Bool.false_eq_true, if_false]
        apply ih _ base hq'
        · show base ≤ (recycle inds e).inserted_into p
          rw [h1]
          exact hb
        · show (recycle inds e).sbuf_ctr_.getD p 0 =
            2 * (((recycle inds e).inserted_into p - base : Nat) : Int)
          rw [hrec.ctr p, if_neg hm, h1]
          exact h

end TriangulateAggrBufferedHashPush

/-- C25.  (1) The visit of a source edge whose slot is in flight (`stat_` is
`'1'`) changes nothing: no pair is inserted, fill counter and bookmark stay, and
the half-edge stays active.  (2) Across a whole pass of `lookup_edges()` a slot
that is in flight when the pass starts keeps its status, filter, fill counter and
bookmark; no insert into it is logged and the `active_` flags of the source edges
of its peer stay.  (3) In every state that the driver reaches from the
constructed object of a valid graph, the fill counter of every slot is even, lies
between `0` and `bufsize_`, and is twice the number of pairs inserted into the
slot since the slot was last recycled. -/
theorem TriangulateAggrBufferedHashPush.in_flight_slot_kept (g : Graph) (H : Hash128) :
    (∀ (i e1 m : Nat) (e : TriangulateAggrBufferedHashPush),
      e.stat_.getD (e.pindex (g.get_owner (g.get_edge e.rank_ m))) '0' = '1' →
      lookup_m_body g H i e1 m e = e) ∧
    (∀ (p : Nat) (e : TriangulateAggrBufferedHashPush), e.stat_.getD p '0' = '1' →
      SlotKept g p e (lookup_edges g H e)) ∧
    (g.Valid → ∀ (F : FloatOps) (hint : Int) (rank : Nat) (e0 : TriangulateAggrBufferedHashPush),
      ctor g F hint rank = some e0 → ∀ (evs : List DriverEvent) (p : Nat),
      (drive g H evs e0).sbuf_ctr_.getD p 0 % 2 = 0 ∧
      0 ≤ (drive g H evs e0).sbuf_ctr_.getD p 0 ∧
      (drive g H evs e0).sbuf_ctr_.getD p 0 ≤ (drive g H evs e0).bufsize_ ∧
      (drive g H evs e0).sbuf_ctr_.getD p 0 =
        2 * ((inserted_since g H p evs e0 0 : Nat) : Int)) := by
  refine ⟨fun i e1 m e hp => m_body_in_flight g H i e1 m e hp,
    fun p e hp => kept_lookup_edges g H p e hp, ?_⟩
  intro hv F hint rank e0 hc evs p
  obtain ⟨hs0, hins, hctr, -, -⟩ := ctor_steady g hv F hint rank e0 hc
  have hq := drive_steady g H _ rank evs e0 hs0
  obtain ⟨c1, c2, c3⟩ := hq.ctr.2.2.1 p
  refine ⟨c3, c1, c2, ?_⟩
  apply drive_fill g H _ rank p evs e0 0 hs0 (Nat.zero_le _)
  rw [hctr p]
  unfold inserted_into
  rw [hins]
  rfl

theorem TriangulateAggrBufferedHashPush.in_flight_slot_kept_witness :
    graph_one_way.Valid ∧ ctor graph_one_way ieee_1e_09 2 0 = some engine_one_way_rank0 ∧
      (lookup_edges graph_one_way pair_hash engine_one_way_rank0).stat_.getD 0 '0' = '1' ∧
      SlotKept graph_one_way 0 (lookup_edges graph_one_way pair_hash engine_one_way_rank0)
        (lookup_edges graph_one_way pair_hash
          (lookup_edges graph_one_way pair_hash engine_one_way_rank0)) ∧
      (drive graph_one_way pair_hash [DriverEvent.pass] engine_one_way_rank0).sbuf_ctr_.getD 0 0 =
        2 * ((inserted_since graph_one_way pair_hash 0 [DriverEvent.pass]
          engine_one_way_rank0 0 : Nat) : Int) ∧
      inserted_since graph_one_way pair_hash 0 [DriverEvent.pass] engine_one_way_rank0 0 = 1 ∧
      inserted_since graph_one_way pair_hash 0
        [DriverEvent.pass, DriverEvent.recycle [0], DriverEvent.pass]
        engine_one_way_rank0 0 = 1 :=
  ⟨by decide, by decide, by decide,
    (TriangulateAggrBufferedHashPush.in_flight_slot_kept graph_one_way pair_hash).2.1 0 _
      (by decide),
    ((TriangulateAggrBufferedHashPush.in_flight_slot_kept graph_one_way pair_hash).2.2
      (by decide) ieee_1e_09 2 0 engine_one_way_rank0 (by decide) [DriverEvent.pass] 0).2.2.2,
    by decide, by decide⟩

/-! ## The final flush and a slot in flight -/

/-- C26, at the failing input: rank 0 of `graph_one_way` with buffer hint 1000
(`bufsize_ = 4`).  The pass of the first iteration inserts both candidate pairs,
which fills slot 0: the slot is paused and sent (one message posted, handle
active, `out_nghosts_ = 0`).  `MPI_Testsome` reports no completion, so nothing is
recycled.  In the second iteration `out_nghosts_ == 0` and `sends_done` is false:
the flush calls `nbsend` for the peer, whose fill counter is still 4, and a
second message with the same destination and bytes is posted while the handle of
the first is still active. -/
theorem flush_resends_slot_in_flight :
    engine_one_way_rank0_wide.bufsize_ = 4 ∧
      engine_one_way_rank0_wide.sent_ = [] ∧
      one_way_wide_iter1.1.out_nghosts_ = 0 ∧ one_way_wide_iter1.2.sends_done = false ∧
      one_way_wide_iter1.1.sbuf_ctr_ = [4] ∧ one_way_wide_iter1.1.stat_ = ['1'] ∧
      one_way_wide_iter1.1.sreq_ = [true] ∧ one_way_wide_iter1.1.sent_.length = 1 ∧
      one_way_wide_iter2.1.sent_.length = 2 ∧
      one_way_wide_iter2.1.sent_.getD 1 default = one_way_wide_iter2.1.sent_.getD 0 default ∧
      one_way_wide_iter2.1.sent_.take 1 = one_way_wide_iter1.1.sent_ ∧
      one_way_wide_iter2.1.sreq_ = [true] ∧ one_way_wide_iter2.1.stat_ = ['1'] ∧
      one_way_wide_iter2.2.sends_done = true := by
  decide

end DriverSteps

section OtherVariants

open TriangulateAggrBufferedHashPush

/-! ## The batches of `TriangulateHashRemote` -/

namespace TriangulateHashRemote

theorem nbatches_loop_spec (m : Int) (hm : m ≤ INT_MAX * INT_MAX) :
    ∀ (fuel : Nat) (nb bs : Int), bs = nb * INT_MAX → 1 ≤ nb → nb ≤ INT_MAX →
      m - bs ≤ (fuel : Int) * INT_MAX →
      ∃ nb', nbatches_loop m fuel (nb, bs) = some (nb', nb' * INT_MAX) ∧ 1 ≤ nb' ∧
        nb' ≤ INT_MAX ∧ m ≤ nb' * INT_MAX := by
  unfold INT_MAX at hm
  intro fuel
  induction fuel with
  | zero =>
    intro nb bs hbs h1 h2 hf
    unfold INT_MAX at hbs h2 hf
    refine ⟨nb, ?_, h1, h2, ?_⟩
    · unfold nbatches_loop
      simp only
      rw [if_neg (by omega), hbs]
      rfl
    · unfold INT_MAX
      simp only [Nat.cast_zero, zero_mul] at hf
      omega
  | succ f ih =>
    intro nb bs hbs h1 h2 hf
    unfold nbatches_loop
    simp only
    by_cases hlt : bs < m
    · rw [if_pos hlt]
      unfold INT_MAX at hbs h2 hf
      have hnb : nb < 2147483647 := by omega
      have hw1 : wrap32 (nb + 1) = nb + 1 := wrap32_id _ (by omega) (by omega)
      have hw2 : wrap64 (bs + INT_MAX) = bs + 2147483647 := by
        unfold wrap64 INT_MAX
        omega
      rw [hw1, hw2]
      apply ih (nb + 1) (bs + 2147483647)
      · unfold INT_MAX
        omega
      · omega
      · unfold INT_MAX
        omega
      · unfold INT_MAX
        push_cast at hf
        omega
    · rw [if_neg hlt]
      refine ⟨nb, by rw [hbs], h1, h2, ?_⟩
      rw [← hbs]
      omega

theorem batch_row_spec : ∀ (n : Nat) (s : Int), 0 ≤ s → s ≤ (n : Int) * INT_MAX →
    (batch_row n s).1.length = n ∧ (∀ c ∈ (batch_row n s).1, 0 ≤ c ∧ c ≤ INT_MAX) ∧
      (batch_row n s).1.sum = s ∧ (batch_row n s).2 = 0 := by
  intro n
  induction n with
  | zero =>
    intro s h0 h1
    simp only [Nat.cast_zero, zero_mul] at h1
    have : s = 0 := by omega
    subst this
    exact ⟨rfl, (fun c hc => by cases hc), rfl, rfl⟩
  | succ k ih =>
    intro s h0 h1
    unfold INT_MAX at h1
    push_cast at h1
    have hc : wrap32 (MIN INT_MAX s) = min 2147483647 s := by
      unfold MIN INT_MAX
      by_cases h : (2147483647 : Int) < s
      · rw [if_pos h, wrap32_id _ (by omega) (by omega)]
        omega
      · rw [if_neg h, wrap32_id _ (by omega) (by omega)]
        omega
    obtain ⟨k1, k2, k3, k4⟩ := ih (s - min 2147483647 s) (by omega) (by
      unfold INT_MAX
      omega)
    unfold batch_row
    simp only
    rw [hc]
    refine ⟨by rw [List.length_cons, k1], ?_, ?_, k4⟩
    · intro c hmem
      rcases List.mem_cons.1 hmem with h | h
      · rw [h]
        unfold INT_MAX
        omega
      · exact k2 c h
    · rw [List.sum_cons, k3]
      omega

theorem max_send_count_ge (fleet : List (List Int)) (hne : ∀ l ∈ fleet, l ≠ [])
    (h0 : fleet ≠ []) :
    ∃ m, max_send_count fleet = some m ∧ (∀ l ∈ fleet, ∀ s ∈ l, s ≤ m) ∧
      ∃ l ∈ fleet, m ∈ l := by
  have hall : (fleet.map max_element).all Option.isSome = true := by
    rw [List.all_eq_true]
    intro x hx
    obtain ⟨l, hl, rfl⟩ := List.mem_map.1 hx
    cases l with
    | nil => exact absurd rfl (hne [] hl)
    | cons a t => rfl
  have hloc : ∀ l ∈ fleet, ∃ v, max_element l = some v ∧ (∀ s ∈ l, s ≤ v) ∧ v ∈ l := by
    intro l hl
    cases l with
    | nil => exact absurd rfl (hne [] hl)
    | cons a t =>
      refine ⟨t.foldl max a, rfl, ?_, ?_⟩
      · intro s hs
        rcases List.mem_cons.1 hs with h | h
        · rw [h]
          exact (list_foldl_max_ge t a).1
        · exact (list_foldl_max_ge t a).2 s h
      · rcases list_foldl_max_mem t a with h | h
        · rw [h]
          exact List.mem_cons_self _ _
        · exact List.mem_cons_of_mem _ h
  unfold max_send_count
  simp only
  rw [if_pos hall]
  generalize hL : (fleet.map max_element).map (fun m => m.getD 0) = L
  have hmemL : ∀ l ∈ fleet, ∃ v ∈ L, max_element l = some v := by
    intro l hl
    obtain ⟨v, hv, -, -⟩ := hloc l hl
    refine ⟨v, ?_, hv⟩
    rw [← hL, List.map_map]
    refine List.mem_map.2 ⟨l, hl, ?_⟩
    show (max_element l).getD 0 = v
    rw [hv]
    rfl
  have hLmem : ∀ v ∈ L, ∃ l ∈ fleet, max_element l = some v := by
    intro v hv
    rw [← hL, List.map_map] at hv
    obtain ⟨l, hl, hlv⟩ := List.mem_map.1 hv
    obtain ⟨w, hw, -, -⟩ := hloc l hl
    refine ⟨l, hl, ?_⟩
    have : (max_element l).getD 0 = v := hlv
    rw [hw] at this ⊢
    exact congrArg some this
  have hLne : L ≠ [] := by
    cases fleet with
    | nil => exact absurd rfl h0
    | cons a t =>
      rw [← hL]
      simp
  refine ⟨_, rfl, ?_, ?_⟩
  · intro l hl s hs
    obtain ⟨v, hvL, hv⟩ := hmemL l hl
    obtain ⟨w, hw, hle, -⟩ := hloc l hl
    rw [hv] at hw
    have hvw : v = w := Option.some.inj hw
    have := (list_foldl_max_ge L (L.headD 0)).2 v hvL
    have := hle s hs
    omega
  · have hin : L.foldl max (L.headD 0) ∈ L := by
      rcases list_foldl_max_mem L (L.headD 0) with h | h
      · rw [h]
        cases L with
        | nil => exact absurd rfl hLne
        | cons a t => exact List.mem_cons_self _ _
      · exact h
    obtain ⟨l, hl, hv⟩ := hLmem _ hin
    obtain ⟨w, hw, -, hwl⟩ := hloc l hl
    rw [hv] at hw
    refine ⟨l, hl, ?_⟩
    rw [Option.some.inj hw]
    exact hwl

end TriangulateHashRemote

/-- The batches of the filter exchange of `TriangulateHashRemote` (source lines
411-434) when every process has a peer.  `fleet` holds for every process the vector `scounts`: for every
peer the bit count `nbits()` of the outgoing filter, one `char` per bit.  Every
process has a peer, and no filter has more than `INT_MAX * INT_MAX` bits.  Then the loop that chooses `nbatches` from the
largest count of all processes ends, with `1 ≤ nbatches ≤ INT_MAX`, the same on
every process; and on every process, for every peer `p`, the `nbatches` entries
of `batch_send_counts` for `p` lie between `0` and `INT_MAX` and sum to the bit
count of the filter for `p`, so that `scounts[p]` is `0` afterwards: no byte is
left out. -/
theorem TriangulateHashRemote.batch_counts_cover (fleet : List (List Int))
    (h0 : fleet ≠ []) (hne : ∀ l ∈ fleet, l ≠ [])
    (hsz : ∀ l ∈ fleet, ∀ s ∈ l, 0 ≤ s ∧ s ≤ INT_MAX * INT_MAX) :
    ∃ fuel0, ∀ fuel ≥ fuel0, ∃ nb, 1 ≤ nb ∧ nb ≤ INT_MAX ∧
      ∀ rank < fleet.length, ∃ b, batching fleet rank fuel = some b ∧ b.nbatches = nb ∧
        b.batch_send_counts.length = (fleet.getD rank []).length ∧
        ∀ p < (fleet.getD rank []).length,
          (b.batch_send_counts.getD p []).length = nb.toNat ∧
          (∀ c ∈ b.batch_send_counts.getD p [], 0 ≤ c ∧ c ≤ INT_MAX) ∧
          (b.batch_send_counts.getD p []).sum = (fleet.getD rank []).getD p 0 ∧
          b.scounts.getD p 0 = 0 := by
  obtain ⟨m, hm, hge, l0, hl0, hml0⟩ := max_send_count_ge fleet hne h0
  have hmb := (hsz l0 hl0 m hml0).2
  refine ⟨(m - INT_MAX).toNat, fun fuel hfuel => ?_⟩
  obtain ⟨nb, hloop, h1, h2, h3⟩ := nbatches_loop_spec m hmb fuel 1 INT_MAX (by ring)
    (le_refl _) (by unfold INT_MAX; decide) (by
      unfold INT_MAX at hfuel ⊢
      have : (m - 2147483647).toNat ≤ fuel := hfuel
      omega)
  refine ⟨nb, h1, h2, fun rank hr => ?_⟩
  have hb : batching fleet rank fuel = some
      { nbatches := nb
        batch_send_counts := (fleet.getD rank []).map (fun c => (batch_row nb.toNat c).1)
        scounts := (fleet.getD rank []).map (fun c => (batch_row nb.toNat c).2) } := by
    unfold batching
    rw [hm]
    simp only
    rw [hloop]
  refine ⟨_, hb, rfl, List.length_map _ _, fun p hp => ?_⟩
  have hmem : fleet.getD rank [] ∈ fleet := by
    rw [List.getD_eq_getElem _ _ hr]
    exact List.getElem_mem _
  have hs : (fleet.getD rank []).getD p 0 ∈ fleet.getD rank [] := by
    rw [List.getD_eq_getElem _ _ hp]
    exact List.getElem_mem _
  obtain ⟨s0, -⟩ := hsz _ hmem _ hs
  have hsm := hge _ hmem _ hs
  have hnb : ((nb.toNat : Nat) : Int) = nb := Int.toNat_of_nonneg (by omega)
  obtain ⟨r1, r2, r3, r4⟩ := batch_row_spec nb.toNat ((fleet.getD rank []).getD p 0) s0 (by
    rw [hnb]
    omega)
  have g1 : ((fleet.getD rank []).map (fun c => (batch_row nb.toNat c).1)).getD p [] =
      (batch_row nb.toNat ((fleet.getD rank []).getD p 0)).1 := by
    rw [List.getD_eq_getElem _ _ (by rw [List.length_map]; exact hp), List.getElem_map,
      List.getD_eq_getElem _ _ hp]
  have g2 : ((fleet.getD rank []).map (fun c => (batch_row nb.toNat c).2)).getD p 0 =
      (batch_row nb.toNat ((fleet.getD rank []).getD p 0)).2 := by
    rw [List.getD_eq_getElem _ _ (by rw [List.length_map]; exact hp), List.getElem_map,
      List.getD_eq_getElem _ _ hp]
  show (((fleet.getD rank []).map _).getD p []).length = _ ∧ _
  rw [g1]
  refine ⟨r1, r2, r3, ?_⟩
  show ((fleet.getD rank []).map _).getD p 0 = 0
  rw [g2]
  exact r4

/-- Example for `batch_counts_cover`: two processes, the first with a filter of 3000000000 bits;
two batches, of 2147483647 and 852516353 bytes for that filter. -/
theorem TriangulateHashRemote.batch_counts_cover_witness :
    (fleet_large ≠ [] ∧ (∀ l ∈ fleet_large, l ≠ []) ∧
      (∀ l ∈ fleet_large, ∀ s ∈ l, 0 ≤ s ∧ s ≤ INT_MAX * INT_MAX)) ∧
    batching fleet_large 0 1 = some
      { nbatches := 2, batch_send_counts := [[5, 0], [2147483647, 852516353]],
        scounts := [0, 0] } ∧
    ∃ fuel0, ∀ fuel ≥ fuel0, ∃ nb, 1 ≤ nb ∧ nb ≤ INT_MAX ∧
      ∀ rank < fleet_large.length, ∃ b, batching fleet_large rank fuel = some b ∧
        b.nbatches = nb ∧
        b.batch_send_counts.length = (fleet_large.getD rank []).length ∧
        ∀ p < (fleet_large.getD rank []).length,
          (b.batch_send_counts.getD p []).length = nb.toNat ∧
          (∀ c ∈ b.batch_send_counts.getD p [], 0 ≤ c ∧ c ≤ INT_MAX) ∧
          (b.batch_send_counts.getD p []).sum = (fleet_large.getD rank []).getD p 0 ∧
          b.scounts.getD p 0 = 0 :=
  ⟨⟨by decide, by decide, by decide⟩, by decide,
    TriangulateHashRemote.batch_counts_cover fleet_large (by decide) (by decide) (by decide)⟩

/-! ## `Triangulate`: `nghosts_` against the searches sent -/

namespace Triangulate

theorem ghost_loop_add (g : Graph) (rank : Nat) : ∀ (fuel e : Nat) (c : Int),
    ghost_loop g rank fuel e c = c + ghost_loop g rank fuel e 0 := by
  intro fuel
  induction fuel with
  | zero =>
    intro e c
    simp [ghost_loop]
  | succ n ih =>
    intro e c
    unfold ghost_loop
    by_cases h : g.get_owner (g.get_edge rank e) ≠ rank
    · rw [if_pos h, if_pos h, ih (e + 1) (c + 1), ih (e + 1) (0 + 1)]
      omega
    · rw [if_neg h, if_neg h]
      exact ih (e + 1) c

theorem ghost_loop_snoc (g : Graph) (rank : Nat) : ∀ (fuel e : Nat) (c : Int),
    ghost_loop g rank (fuel + 1) e c =
      ghost_loop g rank fuel e c +
        (if g.get_owner (g.get_edge rank (e + fuel)) ≠ rank then 1 else 0) := by
  intro fuel
  induction fuel with
  | zero =>
    intro e c
    simp only [ghost_loop, Nat.add_zero]
    split <;> omega
  | succ n ih =>
    intro e c
    rw [ghost_loop, ih (e + 1), show e + 1 + n = e + (n + 1) from by omega]
    conv_rhs => rw [ghost_loop]

theorem lookup_e_loop_sent (g : Graph) : ∀ (fuel e : Nat) (t : Triangulate),
    (lookup_e_loop g fuel (e + 1) t).rank_ = t.rank_ ∧
    (lookup_e_loop g fuel (e + 1) t).nghosts_ = t.nghosts_ ∧
    (((lookup_e_loop g fuel (e + 1) t).sent_.length : Nat) : Int) =
      (t.sent_.length : Int) + ghost_loop g t.rank_ fuel e 0 := by
  intro fuel
  induction fuel with
  | zero =>
    intro e t
    simp [lookup_e_loop, ghost_loop]
  | succ n ih =>
    intro e t
    unfold lookup_e_loop ghost_loop
    simp only [Nat.add_sub_cancel]
    by_cases h : g.get_owner (g.get_edge t.rank_ e) = t.rank_
    · rw [if_pos h, if_neg (not_not.2 h)]
      obtain ⟨k1, k2, k3⟩ := ih (e + 1)
        { t with ntriangles_ := (check_edgelist g t.rank_ t.ntriangles_
            (g.get_edge t.rank_ e) (g.get_edge t.rank_ (e + 1))).2 }
      exact ⟨k1, k2, k3⟩
    · rw [if_neg h, if_pos h]
      obtain ⟨k1, k2, k3⟩ := ih (e + 1)
        { t with sent_ := t.sent_ ++ [(EDGE_SEARCH_TAG, g.get_owner (g.get_edge t.rank_ e),
            g.get_edge t.rank_ e, g.get_edge t.rank_ (e + 1))] }
      refine ⟨k1, k2, ?_⟩
      rw [k3, ghost_loop_add g t.rank_ n (e + 1) (0 + 1)]
      simp only [List.length_append, List.length_singleton]
      push_cast
      omega

theorem lookup_i_body_sent (g : Graph) (i : Nat) (t : Triangulate) (s : CtorState)
    (h0 : s.ghost_count_.getD i 0 = 0)
    (hne : (g.edge_range t.rank_ i).1 < (g.edge_range t.rank_ i).2) :
    (lookup_i_body g i t).rank_ = t.rank_ ∧
    ∃ s1, ctor_i_body g t.rank_ i s = some s1 ∧
      s1.g_nmsgs - s.g_nmsgs =
        (((lookup_i_body g i t).sent_.length : Nat) : Int) - (t.sent_.length : Int) ∧
      ∀ j, j ≠ i → s1.ghost_count_.getD j 0 = s.ghost_count_.getD j 0 := by
  unfold lookup_i_body ctor_i_body
  simp only
  generalize g.edge_range t.rank_ i = r at hne
  by_cases hg : r.1 + 1 = r.2
  · rw [if_pos hg, if_pos hg]
    exact ⟨rfl, s, rfl, by omega, fun j _ => rfl⟩
  · rw [if_neg hg, if_neg hg, if_neg (by omega)]
    obtain ⟨n, hn⟩ : ∃ n, r.2 = r.1 + 1 + n := ⟨r.2 - (r.1 + 1), by omega⟩
    obtain ⟨k1, -, k3⟩ := lookup_e_loop_sent g n r.1 t
    have e1 : r.2 - (r.1 + 1) = n := by omega
    have e2 : r.2 - r.1 = n + 1 := by omega
    have e3 : r.2 - 1 = r.1 + n := by omega
    rw [e1, e2, e3]
    refine ⟨k1, _, rfl, ?_, ?_⟩
    · rw [k3, h0, ghost_loop_snoc]
      by_cases hl : g.get_owner (g.get_edge t.rank_ (r.1 + n)) ≠ t.rank_
      · simp only [if_pos hl]
        omega
      · simp only [if_neg hl]
        omega
    · intro j hj
      show (s.ghost_count_.set i _).getD j 0 = _
      rw [List.getD_eq_getElem?_getD, List.getElem?_set_ne (Ne.symm hj)]
      exact (List.getD_eq_getElem?_getD _ _ _).symm

theorem ctor_i_loop_sent (g : Graph) : ∀ (fuel i : Nat) (t : Triangulate) (s : CtorState),
    (∀ j, i ≤ j → s.ghost_count_.getD j 0 = 0) →
    (∀ j, i ≤ j → j < i + fuel → (g.edge_range t.rank_ j).1 < (g.edge_range t.rank_ j).2) →
    ∃ s1, ctor_i_loop g t.rank_ fuel i s = some s1 ∧
      s1.g_nmsgs - s.g_nmsgs =
        (((lookup_i_loop g fuel i t).sent_.length : Nat) : Int) - (t.sent_.length : Int) := by
  intro fuel
  induction fuel with
  | zero =>
    intro i t s _ _
    exact ⟨s, rfl, by simp [lookup_i_loop]⟩
  | succ n ih =>
    intro i t s h0 hne
    obtain ⟨k1, s1, k2, k3, k4⟩ := lookup_i_body_sent g i t s (h0 i (le_refl _))
      (hne i (le_refl _) (by omega))
    obtain ⟨s2, m1, m2⟩ := ih (i + 1) (lookup_i_body g i t) s1
      (fun j hj => by rw [k4 j (by omega)]; exact h0 j (by omega))
      (fun j hj hj2 => by rw [k1]; exact hne j (by omega) (by omega))
    rw [k1] at m1
    refine ⟨s2, ?_, ?_⟩
    · unfold ctor_i_loop
      rw [k2]
      exact m1
    · unfold lookup_i_loop
      omega

/-- On a process none of whose vertices has an empty adjacency, the constructor
returns and `nghosts_` is the number of messages that `lookup_edges` posts. -/
theorem nghosts_counts_searches (g : Graph) (rank : Nat)
    (hne : ∀ j < g.get_lnv rank, (g.edge_range rank j).1 < (g.edge_range rank j).2) :
    ∃ t, ctor g rank = some t ∧
      t.nghosts_ = (((lookup_edges g t).sent_.length : Nat) : Int) := by
  have hz : ∀ j, 0 ≤ j → (List.replicate (g.get_lnv rank) (0 : Int)).getD j 0 = 0 := by
    intro j _
    rw [List.getD_eq_getElem?_getD, List.getElem?_replicate]
    split <;> rfl
  obtain ⟨s0, k0, -⟩ := ctor_i_loop_sent g (g.get_lnv rank) 0
    { rank_ := rank, ntriangles_ := 0, ghost_count_ := [], tot_ghosts_ := 0, nghosts_ := 0,
      sent_ := [] }
    { ghost_count_ := List.replicate (g.get_lnv rank) 0, tot_ghosts_ := 0, g_nmsgs := 0 }
    hz (fun j _ hj => hne j (by omega))
  obtain ⟨s1, k1, k2⟩ := ctor_i_loop_sent g (g.get_lnv rank) 0
    { rank_ := rank, ntriangles_ := 0, ghost_count_ := s0.ghost_count_,
      tot_ghosts_ := s0.tot_ghosts_, nghosts_ := s0.g_nmsgs, sent_ := [] }
    { ghost_count_ := List.replicate (g.get_lnv rank) 0, tot_ghosts_ := 0, g_nmsgs := 0 }
    hz (fun j _ hj => hne j (by omega))
  simp only at k0 k1 k2
  rw [k0] at k1
  have hs : s1 = s0 := (Option.some.inj k1).symm
  rw [hs] at k2
  refine ⟨_, by unfold ctor; rw [k0], ?_⟩
  unfold lookup_edges
  simp only [List.length_nil, Nat.cast_zero, sub_zero] at k2 ⊢
  exact k2

end Triangulate

/-- C29: the code at a process whose last vertex has no edge.  On `graph_one_way`
process 0 owns the vertices `0`, `1` with adjacency `3, 4` each (both tails on
process 1) and the vertex `2` without any edge.  The constructor leaves
`nghosts_ = 1`: each of the first two vertices counts `2 - 1`, and for vertex `2`
the test `(e0 + 1) == e1` does not hold, no half-edge is counted, and
`get_edge(e1 - 1)` is the last half-edge of vertex `1`, a ghost, so one more is
taken off.  `lookup_edges` posts two messages with `EDGE_SEARCH_TAG`. -/
theorem nghosts_short_of_searches_sent :
    (Triangulate.ctor graph_one_way 0).map (fun t => t.nghosts_) = some 1 ∧
    (Triangulate.ctor graph_one_way 0).map
        (fun t => (Triangulate.lookup_edges graph_one_way t).sent_) =
      some [(EDGE_SEARCH_TAG, 1, 3, 4), (EDGE_SEARCH_TAG, 1, 3, 4)] ∧
    graph_one_way.Valid ∧ graph_one_way.edge_range 0 2 = (4, 4) ∧
    graph_one_way.get_owner (graph_one_way.get_edge 0 3) = 1 := by
  decide

/-! ## `TriangulateAggrFatCompressed`: the delimiters in the send buffer -/

/-- C30: the code on `graph_shared_edge`, process 0, which owns the vertices `0`
and `1`, both with adjacency `2, 3` on process 1.  The constructor allots six
entries to peer 1 (two heads, two later tails, two delimiters).  Two records
`2, 3, -1` are announced.  After `lookup_edges` the region of peer 1 holds
`2, 3, 2, 3, -1` and an entry that was never written: `sbuf_ctr_[1]` is left at
the index of the delimiter, so the head of the second record is stored over the
delimiter of the first.  Five entries are written, `sbuf_ctr_[1]` is `4`. -/
theorem compressed_record_overwrites_delimiter :
    (TriangulateAggrFatCompressed.ctor graph_shared_edge 0).send_counts_ = [0, 6] ∧
    (TriangulateAggrFatCompressed.ctor graph_shared_edge 0).sbuf_disp_ = [0, 0] ∧
    (TriangulateAggrFatCompressed.ctor graph_shared_edge 0).sbuf_.length = 6 ∧
    TriangulateAggrFatCompressed.delimited_records graph_shared_edge 0 1 =
      [2, 3, -1, 2, 3, -1] ∧
    (TriangulateAggrFatCompressed.lookup_edges graph_shared_edge
        (TriangulateAggrFatCompressed.ctor graph_shared_edge 0)).map
      (fun t => (t.send_region 1, t.sbuf_ctr_)) =
      some ([some 2, some 3, some 2, some 3, some (-1), none], [0, 4]) ∧
    graph_shared_edge.Valid := by
  decide

end OtherVariants

section DefinedCalls

open TriangulateAggrBufferedHashPush

/-! ## The calls of `Bloomfilter` and their `safe_` forms -/

theorem Bloomfilter.hash_loop_eq (H : Hash128) (m_ k_ lhs rhs : Nat) (hk : k_ % 2 = 0)
    (hm : 0 < k_ → 0 < m_) :
    ∀ (fuel n : Nat) (hs : List Nat), hs.length = k_ → n % 2 = 0 → k_ ≤ n + 2 * fuel →
      Bloomfilter.hash_loop H m_ k_ lhs rhs fuel n hs =
        some (Bloomfilter.safe_hash_loop H m_ k_ lhs rhs fuel n hs) := by
  intro fuel
  induction fuel with
  | zero =>
    intro n hs _ _ hf
    unfold Bloomfilter.hash_loop Bloomfilter.safe_hash_loop
    rw [if_neg (by omega)]
  | succ f ih =>
    intro n hs hl hn hf
    unfold Bloomfilter.hash_loop Bloomfilter.safe_hash_loop
    by_cases h : n < k_
    · rw [if_pos h, if_pos h, if_pos (by omega), if_neg (by omega)]
      exact ih (n + 2) _ (by simp only [List.length_set]; exact hl) (by omega) (by omega)
    · rw [if_neg h, if_neg h]

theorem Bloomfilter.hash_loop_odd (H : Hash128) (m_ k_ lhs rhs : Nat) (hk : k_ % 2 = 1) :
    ∀ (fuel n : Nat) (hs : List Nat), hs.length = k_ → n % 2 = 0 → n ≤ k_ →
      Bloomfilter.hash_loop H m_ k_ lhs rhs fuel n hs = none := by
  intro fuel
  induction fuel with
  | zero =>
    intro n hs _ hn hle
    unfold Bloomfilter.hash_loop
    rw [if_pos (by omega)]
  | succ f ih =>
    intro n hs hl hn hle
    unfold Bloomfilter.hash_loop
    rw [if_pos (by omega)]
    by_cases h1 : n + 1 < hs.length
    · rw [if_pos h1]
      by_cases h2 : m_ = 0
      · rw [if_pos h2]
      · rw [if_neg h2]
        exact ih (n + 2) _ (by simp only [List.length_set]; exact hl) (by omega) (by omega)
    · rw [if_neg h1]

theorem Bloomfilter.hash_loop_no_bits (H : Hash128) (k_ lhs rhs : Nat) (hk : 0 < k_)
    (fuel : Nat) (hs : List Nat) :
    Bloomfilter.hash_loop H 0 k_ lhs rhs fuel 0 hs = none := by
  cases fuel with
  | zero =>
    unfold Bloomfilter.hash_loop
    rw [if_pos hk]
  | succ f =>
    unfold Bloomfilter.hash_loop
    rw [if_pos hk]
    by_cases h1 : 0 + 1 < hs.length
    · rw [if_pos h1, if_pos rfl]
    · rw [if_neg h1]

/-- When `hash` has a result, and which: on a filter that satisfies the class
invariant the call returns exactly when `k_` is even and `m_ > 0` (or `k_ = 0`),
and then leaves the filter `safe_hash`. -/
theorem Bloomfilter.hash_eq (H : Hash128) (bf : Bloomfilter) (u v : Nat) (hwf : bf.WF) :
    bf.hash H u v = if bf.HashDefined then some (bf.safe_hash H u v) else none := by
  unfold Bloomfilter.hash
  by_cases hd : bf.HashDefined
  · rw [if_pos hd, Bloomfilter.hash_loop_eq H bf.m_ bf.k_ u v hd.1 hd.2 bf.k_ 0 bf.hashes_
      hwf.2 rfl (by omega)]
    rfl
  · rw [if_neg hd]
    by_cases hk : bf.k_ % 2 = 1
    · rw [Bloomfilter.hash_loop_odd H bf.m_ bf.k_ u v hk bf.k_ 0 bf.hashes_ hwf.2 rfl
        (Nat.zero_le _)]
    · have hm : 0 < bf.k_ ∧ bf.m_ = 0 := by
        unfold Bloomfilter.HashDefined at hd
        by_cases h0 : 0 < bf.k_
        · refine ⟨h0, ?_⟩
          by_contra hne
          exact hd ⟨by omega, fun _ => by omega⟩
        · exact absurd ⟨by omega, fun h => absurd h h0⟩ hd
      rw [hm.2, Bloomfilter.hash_loop_no_bits H bf.k_ u v hm.1]

theorem Bloomfilter.set_bits_eq (hashes : List Nat) :
    ∀ (l : List Nat) (bits : List Char),
      (∀ k ∈ l, k < hashes.length ∧ hashes.getD k 0 < bits.length) →
      Bloomfilter.set_bits hashes l bits =
        some (l.foldl (fun b k => b.set (hashes.getD k 0) '1') bits) := by
  intro l
  induction l with
  | nil => intro bits _; rfl
  | cons a t ih =>
    intro bits h
    obtain ⟨h1, h2⟩ := h a (List.mem_cons_self _ _)
    unfold Bloomfilter.set_bits
    rw [List.getElem?_eq_getElem h1]
    simp only
    rw [List.getD_eq_getElem _ _ h1] at h2
    rw [if_pos h2, List.foldl_cons, List.getD_eq_getElem _ _ h1]
    apply ih
    intro k hk
    rw [List.length_set]
    exact h k (List.mem_cons_of_mem _ hk)

theorem Bloomfilter.test_bits_eq (hashes : List Nat) (bits : List Char) :
    ∀ (l : List Nat), (∀ k ∈ l, k < hashes.length ∧ hashes.getD k 0 < bits.length) →
      Bloomfilter.test_bits hashes bits l =
        some (l.all (fun k => !(bits.getD (hashes.getD k 0) '0' == '0'))) := by
  intro l
  induction l with
  | nil => intro _; rfl
  | cons a t ih =>
    intro h
    obtain ⟨h1, h2⟩ := h a (List.mem_cons_self _ _)
    unfold Bloomfilter.test_bits
    rw [List.getElem?_eq_getElem h1]
    simp only
    rw [List.getD_eq_getElem _ _ h1] at h2
    rw [List.getElem?_eq_getElem h2]
    simp only
    rw [List.all_cons, List.getD_eq_getElem _ _ h1, List.getD_eq_getElem _ _ h2]
    by_cases hc : (bits[hashes[a]] == '0') = true
    · rw [if_pos hc, hc]
      rfl
    · rw [if_neg hc, ih (fun k hk => h k (List.mem_cons_of_mem _ hk))]
      rw [Bool.not_eq_true] at hc
      rw [hc]
      rfl

theorem Bloomfilter.safe_hash_in_bounds (H : Hash128) (bf : Bloomfilter) (u v : Nat)
    (hwf : bf.WF) (hd : bf.HashDefined) :
    ∀ k ∈ List.range (bf.safe_hash H u v).k_,
      k < (bf.safe_hash H u v).hashes_.length ∧
        (bf.safe_hash H u v).hashes_.getD k 0 < (bf.safe_hash H u v).bits_.length := by
  intro k hk
  have hk' : k < bf.k_ := List.mem_range.1 hk
  refine ⟨?_, ?_⟩
  · rw [(Bloomfilter.hash_m H bf u v).2.2.2, hwf.2]
    exact hk'
  · rw [Bloomfilter.hash_get H bf u v k hwf.2 hk', (Bloomfilter.hash_m H bf u v).2.2.1, hwf.1]
    unfold Bloomfilter.slot_index
    exact Nat.mod_lt _ (hd.2 (by omega))

/-- When `insert` has a result, and which. -/
theorem Bloomfilter.insert_eq (H : Hash128) (bf : Bloomfilter) (u v : Nat) (hwf : bf.WF) :
    bf.insert H u v = if bf.HashDefined then some (bf.safe_insert H u v) else none := by
  unfold Bloomfilter.insert
  rw [Bloomfilter.hash_eq H bf u v hwf]
  by_cases hd : bf.HashDefined
  · rw [if_pos hd, if_pos hd]
    simp only
    rw [Bloomfilter.set_bits_eq _ _ _ (Bloomfilter.safe_hash_in_bounds H bf u v hwf hd)]
    rfl
  · rw [if_neg hd, if_neg hd]

/-- When `contains` has a result, and which. -/
theorem Bloomfilter.contains_eq_safe (H : Hash128) (bf : Bloomfilter) (u v : Nat)
    (hwf : bf.WF) :
    bf.contains H u v = if bf.HashDefined then some (bf.safe_contains H u v) else none := by
  unfold Bloomfilter.contains
  rw [Bloomfilter.hash_eq H bf u v hwf]
  by_cases hd : bf.HashDefined
  · rw [if_pos hd, if_pos hd]
    simp only
    rw [Bloomfilter.test_bits_eq _ _ _ (Bloomfilter.safe_hash_in_bounds H bf u v hwf hd)]
    rfl
  · rw [if_neg hd, if_neg hd]

theorem Bloomfilter.insert_all_eq (H : Hash128) :
    ∀ (ps : List (Nat × Nat)) (bf : Bloomfilter), bf.WF → bf.HashDefined →
      Bloomfilter.insert_all H ps bf =
        some (ps.foldl (fun b p => b.safe_insert H p.1 p.2) bf) := by
  intro ps
  induction ps with
  | nil => intro bf _ _; rfl
  | cons p t ih =>
    intro bf hwf hd
    obtain ⟨hwf', hm', hk'⟩ := Bloomfilter.insert_wf H bf p.1 p.2 hwf
    unfold Bloomfilter.insert_all
    rw [Bloomfilter.insert_eq H bf p.1 p.2 hwf, if_pos hd]
    simp only
    rw [List.foldl_cons]
    apply ih _ hwf'
    unfold Bloomfilter.HashDefined
    rw [hm', hk']
    exact hd

/-- On a filter with an even number of hash slots and `m_ > 0` bits (or no slot
at all), `insert(u, v)` returns and `contains(u, v)` is true afterwards. -/
theorem Bloomfilter.contains_insert (H : Hash128) (bf : Bloomfilter) (u v : Nat)
    (hwf : bf.WF) (hd : bf.HashDefined) :
    ∃ b, bf.insert H u v = some b ∧ b.contains H u v = some true := by
  obtain ⟨hwf', hm', hk'⟩ := Bloomfilter.insert_wf H bf u v hwf
  have hd' : (bf.safe_insert H u v).HashDefined := by
    unfold Bloomfilter.HashDefined
    rw [hm', hk']
    exact hd
  refine ⟨bf.safe_insert H u v, by rw [Bloomfilter.insert_eq H bf u v hwf, if_pos hd], ?_⟩
  rw [Bloomfilter.contains_eq_safe H _ u v hwf', if_pos hd']
  by_cases hk : 0 < bf.k_
  · rw [Bloomfilter.safe_contains_insert H bf u v hwf (hd.2 hk) hk]
  · rw [Bloomfilter.contains_eq H _ u v hwf'.2, hk', show bf.k_ = 0 from by omega]
    rfl

/-- C3 (evaluation at the failing input): `Bloomfilter(4, 0.5)` returns a filter
of 6 bits with a single hash slot.  On it `insert(u, v)` has no result, whatever
the hash function and the pair: the first pass of the loop of `hash` stores the
two lanes of the hash at `&hashes_[0]`, and entry 1 is past the end of the vector
of length 1.  `contains(u, v)` has no result for the same reason. -/
theorem Bloomfilter.insert_has_no_result_on_odd_k (H : Hash128) (u v : Nat) :
    Bloomfilter.construct1 ieee_0_5 4 = CtorOutcome.ok bf_one_slot ∧
    bf_one_slot.WF ∧ (bf_one_slot.m_, bf_one_slot.k_, bf_one_slot.hashes_.length) = (6, 1, 1) ∧
    bf_one_slot.insert H u v = none ∧ bf_one_slot.contains H u v = none :=
  ⟨by decide, by decide, by decide, rfl, rfl⟩

/-- C11: for every filter state (with `bits_` of length `m_` and `hashes_` of
length `k_`), every pair `(x, y)` for which `contains` returns true and every
finite sequence `ps` of further `insert` calls, of any length: every one of the
calls returns, `contains(x, y)` returns true afterwards, and `bits_` still has
length `m_`, with `m_` and `k_` unchanged. -/
theorem Bloomfilter.contains_monotone (H : Hash128) (x y : Nat) (ps : List (Nat × Nat))
    (bf : Bloomfilter) (hwf : bf.WF) (hc : bf.contains H x y = some true) :
    ∃ b, Bloomfilter.insert_all H ps bf = some b ∧ b.contains H x y = some true ∧
      b.bits_.length = bf.m_ ∧ b.m_ = bf.m_ ∧ b.k_ = bf.k_ := by
  rw [Bloomfilter.contains_eq_safe H bf x y hwf] at hc
  by_cases hd : bf.HashDefined
  · rw [if_pos hd] at hc
    have hc' : bf.safe_contains H x y = true := Option.some.inj hc
    obtain ⟨k1, k2, k3, k4⟩ := Bloomfilter.safe_contains_monotone H x y ps bf hwf hc'
    refine ⟨_, Bloomfilter.insert_all_eq H ps bf hwf hd, ?_, k2, k3, k4⟩
    have hwf' : (ps.foldl (fun b p => b.safe_insert H p.1 p.2) bf).WF := by
      clear k1 k2 k3 k4 hc hc' hd
      induction ps generalizing bf with
      | nil => exact hwf
      | cons p t ih => exact ih _ (Bloomfilter.insert_wf H bf p.1 p.2 hwf).1
    have hd' : (ps.foldl (fun b p => b.safe_insert H p.1 p.2) bf).HashDefined := by
      unfold Bloomfilter.HashDefined
      rw [k3, k4]
      exact hd
    rw [Bloomfilter.contains_eq_safe H _ x y hwf', if_pos hd', k1]
  · rw [if_neg hd] at hc
    cases hc

/-- Witness for C11: the filter `bf_example_A`, which reports `(0, 1)`, and three
further inserts. -/
theorem Bloomfilter.contains_monotone_witness :
    bf_example_A.WF ∧ bf_example_A.contains pair_hash 0 1 = some true ∧
    ∃ b, Bloomfilter.insert_all pair_hash [(0, 2), (0, 3), (0, 2)] bf_example_A = some b ∧
      b.contains pair_hash 0 1 = some true ∧
      b.bits_.length = bf_example_A.m_ ∧ b.m_ = bf_example_A.m_ ∧ b.k_ = bf_example_A.k_ :=
  ⟨by decide, by decide,
    Bloomfilter.contains_monotone pair_hash 0 1 [(0, 2), (0, 3), (0, 2)] bf_example_A
      (by decide) (by decide)⟩

/-- On a filter with an even number `k_ > 0` of hash slots and `m_ > 0` bits,
`contains` returns false for every pair after `zfill()`. -/
theorem Bloomfilter.zfill_clears (H : Hash128) (bf : Bloomfilter) (hwf : bf.WF)
    (hd : bf.HashDefined) (hk : 0 < bf.k_) (u v : Nat) :
    bf.zfill.contains H u v = some false := by
  have hz := Bloomfilter.safe_zfill_clears H bf hwf hk
  have hwf' : bf.zfill.WF := ⟨hz.2.1, hwf.2⟩
  rw [Bloomfilter.contains_eq_safe H _ u v hwf', if_pos (show bf.zfill.HashDefined from hd),
    hz.2.2.2.2 u v]

/-- C12 (evaluation at the failing inputs): `Bloomfilter(0, 2, p)` returns, for
every tolerance, a filter with `k_ = 2` hash slots and `m_ = 0` bits.  `zfill()`
leaves it as it is; `contains(u, v)` then has no result, whatever the hash
function and the pair: `hash` computes `hashes_[0] % m_` with `m_ = 0`.  On the
filter of `Bloomfilter(4, 0.5)`, with its single hash slot, `contains(u, v)` after
`zfill()` has no result either: `hash` stores past the end of `hashes_`. -/
theorem Bloomfilter.contains_has_no_result_after_zfill (F : FloatOps) (H : Hash128)
    (u v : Nat) :
    Bloomfilter.construct2 F 0 2 = CtorOutcome.ok bf_no_bits ∧
    bf_no_bits.WF ∧ 0 < bf_no_bits.k_ ∧ bf_no_bits.zfill = bf_no_bits ∧
    bf_no_bits.zfill.contains H u v = none ∧
    0 < bf_one_slot.k_ ∧ bf_one_slot.zfill.bits_ = List.replicate 6 '0' ∧
    bf_one_slot.zfill.contains H u v = none :=
  ⟨rfl, by decide, by decide, rfl, rfl, by decide, rfl, rfl⟩

/-- On a filter with an even number `k_ ≥ 2` of hash slots and `m_ > 0` bits,
`hash` returns and leaves in every slot `j < k_` the index of slot `j % 2`;
`insert` returns and changes no byte apart from those at the two indices, which
become `'1'`; `contains` returns the test of the bytes at the two indices. -/
theorem Bloomfilter.hash_two_indices (H : Hash128) (bf : Bloomfilter) (u v : Nat)
    (hwf : bf.WF) (hm : 0 < bf.m_) (hk : 2 ≤ bf.k_) (heven : bf.k_ % 2 = 0) :
    ∃ h b, bf.hash H u v = some h ∧ bf.insert H u v = some b ∧
      (∀ j < bf.k_, h.hashes_.getD j 0 = h.hashes_.getD (j % 2) 0) ∧
      (∀ i, b.bits_.getD i '0' =
        if (i = h.hashes_.getD 0 0 ∨ i = h.hashes_.getD 1 0) ∧ i < bf.bits_.length then '1'
        else bf.bits_.getD i '0') ∧
      bf.contains H u v =
        some (!(bf.bits_.getD (h.hashes_.getD 0 0) '0' == '0') &&
          !(bf.bits_.getD (h.hashes_.getD 1 0) '0' == '0')) := by
  have hd : bf.HashDefined := ⟨heven, fun _ => hm⟩
  obtain ⟨k1, k2, k3⟩ := Bloomfilter.safe_hash_two_indices H bf u v hwf hk heven
  refine ⟨bf.safe_hash H u v, bf.safe_insert H u v, ?_, ?_, k1, k2, ?_⟩
  · rw [Bloomfilter.hash_eq H bf u v hwf, if_pos hd]
  · rw [Bloomfilter.insert_eq H bf u v hwf, if_pos hd]
  · rw [Bloomfilter.contains_eq_safe H bf u v hwf, if_pos hd, k3]

/-- C10: for filters `A` and `B` with the same `m_` and `k_`, copying the bytes of
`A` with `copy_from` into a buffer of `m_` bytes and that buffer into `B` with
`copy_to` makes `B.contains(u, v)` end as `A.contains(u, v)` does for every pair,
whatever `B` held before: with the same answer, or both without result. -/
theorem Bloomfilter.copy_roundtrip (H : Hash128) (A B : Bloomfilter) (dest : List Char)
    (hA : A.WF) (hB : B.WF) (hm : A.m_ = B.m_) (hk : A.k_ = B.k_)
    (hd : dest.length = A.m_) (u v : Nat) :
    (B.copy_to (A.copy_from dest)).contains H u v = A.contains H u v := by
  have hs := Bloomfilter.safe_copy_roundtrip H A B dest hA hB hm hk hd u v
  have hbits : (B.copy_to (A.copy_from dest)).bits_.length = B.m_ := by
    unfold Bloomfilter.copy_to Bloomfilter.copy_from
    simp only [List.length_append, List.length_take, List.length_drop]
    rw [hA.1, hB.1, hd]
    omega
  have hwf : (B.copy_to (A.copy_from dest)).WF := ⟨hbits, hB.2⟩
  have hdef : (B.copy_to (A.copy_from dest)).HashDefined ↔ A.HashDefined := by
    unfold Bloomfilter.HashDefined
    show (B.k_ % 2 = 0 ∧ (0 < B.k_ → 0 < B.m_)) ↔ _
    rw [hm, hk]
  rw [Bloomfilter.contains_eq_safe H _ u v hwf, Bloomfilter.contains_eq_safe H A u v hA, hs]
  by_cases h : A.HashDefined
  · rw [if_pos h, if_pos (hdef.2 h)]
  · rw [if_neg h, if_neg (fun h' => h (hdef.1 h'))]

/-- Witness for C10: two filters of 4 bits and 2 hash slots with different
contents. -/
theorem Bloomfilter.copy_roundtrip_witness :
    (bf_example_B.copy_to (bf_example_A.copy_from ['x', 'x', 'x', 'x'])).contains
      pair_hash 0 2 = bf_example_A.contains pair_hash 0 2 :=
  Bloomfilter.copy_roundtrip pair_hash bf_example_A bf_example_B ['x', 'x', 'x', 'x']
    (by decide) (by decide) rfl rfl rfl 0 2

/-! ## A receive on a negative `in_nghosts_` -/

/-- C21 (evaluation at the failing input): the constructor stores in `in_nghosts_`
the `int` accumulation of the received counts (line 272); for the counts
`{2147483647, 1}`, which sum to `2^31`, that is `-2147483648`: the counter starts
negative.  A receive on an object whose `in_nghosts_` is `-2147483648`, whatever
its other fields and its `bufsize_ ≥ 0`, leaves `in_nghosts_ = 0` (lines 381-384):
the counter has increased. -/
theorem in_pending_negative_then_raised (g : Graph) (F : FloatOps) (H : Hash128) (hint : Int)
    (rank b : Nat) (payload : List Char) (e : TriangulateAggrBufferedHashPush) :
    (ctor g F hint rank).map (fun e0 => e0.in_nghosts_) =
      (ctor g F hint rank).map (fun _ => accumulate_int (ctor_recv_count g rank)) ∧
    accumulate_int [2147483647, 1] = -2147483648 ∧
    (process_messages g H (some payload)
      { e with in_nghosts_ := -2147483648, bufsize_ := (b : Int) }).in_nghosts_ = 0 := by
  refine ⟨?_, by decide, ?_⟩
  · cases hc : ctor g F hint rank with
    | none => rfl
    | some e0 =>
      show some e0.in_nghosts_ = some _
      rw [ctor_in_nghosts g F hint rank e0 hc]
  · show (if (-2147483648 : Int) ≥ (b : Int) then (-2147483648 : Int) - (b : Int) else 0) = 0
    rw [if_neg (by omega)]

/-! ## The batches of a process without peer -/

/-- C28 (evaluation at the failing input): on a process without peer the vector
`scounts` is empty and `*std::max_element(scounts.begin(), scounts.end())` (line
410) dereferences the end iterator: the batching code has no result there.  So
for a run on one process, and for a fleet of three in which the third process
has no peer. -/
theorem TriangulateHashRemote.batching_has_no_result_without_peer (fuel : Nat) :
    TriangulateHashRemote.max_element [] = none ∧
    TriangulateHashRemote.batching [[]] 0 fuel = none ∧
    TriangulateHashRemote.batching [[3000000000], [5], []] 2 fuel = none :=
  ⟨rfl, rfl, rfl⟩

/-! ## The pairs of a triangle at the processes that test them -/

namespace Graph

theorem two_neighbours_not_single (g : Graph) (hv : g.Valid) (a b c : Nat)
    (hab : g.has_edge a b = true) (hac : g.has_edge a c = true) (hbc : b ≠ c) :
    (g.edge_range (g.get_owner a) (a - g.get_base (g.get_owner a))).1 + 1 ≠
      (g.edge_range (g.get_owner a) (a - g.get_base (g.get_owner a))).2 := by
  have ha := g.has_edge_lt a b hab
  obtain ⟨o1, o2⟩ := g.owner_local hv a ha
  have hlen := g.edge_range_len _ _ o1
  rw [o2] at hlen
  obtain ⟨jb, hjb, hdb, -, -⟩ := g.position_of_neighbour hv a b hab
  obtain ⟨jc, hjc, hdc, -, -⟩ := g.position_of_neighbour hv a c hac
  have hne : jb ≠ jc := by
    intro h
    rw [h, hdc] at hdb
    exact hbc hdb.symm
  omega

/-- A filter that reports the edge `(a, b)` is counted by the owner of `a`, when
`a` has a second neighbour. -/
theorem probe_hits_pos (g : Graph) (hv : g.Valid) (H : Hash128) (rebf : Bloomfilter)
    (a b c : Nat) (hab : g.has_edge a b = true) (hac : g.has_edge a c = true) (hbc : b ≠ c)
    (hr : rebf.safe_contains H a b = true) :
    1 ≤ probe_hits g H (g.get_owner a) rebf := by
  have ha := g.has_edge_lt a b hab
  obtain ⟨o1, o2⟩ := g.owner_local hv a ha
  have hns := g.two_neighbours_not_single hv a b c hab hac hbc
  obtain ⟨jb, hjb, hdb, hrb, heb⟩ := g.position_of_neighbour hv a b hab
  unfold probe_hits
  have hmem : (if (g.edge_range (g.get_owner a) (a - g.get_base (g.get_owner a))).1 + 1 =
        (g.edge_range (g.get_owner a) (a - g.get_base (g.get_owner a))).2 then 0
      else
        (List.range' (g.edge_range (g.get_owner a) (a - g.get_base (g.get_owner a))).1
          ((g.edge_range (g.get_owner a) (a - g.get_base (g.get_owner a))).2 -
            (g.edge_range (g.get_owner a) (a - g.get_base (g.get_owner a))).1)).countP
          (fun m => rebf.safe_contains H
            (g.local_to_global (g.get_owner a) (a - g.get_base (g.get_owner a)))
            (g.get_edge (g.get_owner a) m))) ∈
      (List.range (g.get_lnv (g.get_owner a))).map (fun i =>
        if (g.edge_range (g.get_owner a) i).1 + 1 = (g.edge_range (g.get_owner a) i).2 then 0
        else
          (List.range' (g.edge_range (g.get_owner a) i).1
            ((g.edge_range (g.get_owner a) i).2 - (g.edge_range (g.get_owner a) i).1)).countP
            (fun m => rebf.safe_contains H (g.local_to_global (g.get_owner a) i)
              (g.get_edge (g.get_owner a) m))) :=
    List.mem_map.2 ⟨_, List.mem_range.2 o1, rfl⟩
  refine le_trans ?_ (List.single_le_sum (fun _ _ => Nat.zero_le _) _ hmem)
  rw [if_neg hns]
  apply List.countP_pos_iff.2
  refine ⟨(g.edge_range (g.get_owner a) (a - g.get_base (g.get_owner a))).1 + jb, ?_, ?_⟩
  · rw [List.mem_range'_1]
    omega
  · have hg : g.local_to_global (g.get_owner a) (a - g.get_base (g.get_owner a)) = a := by
      unfold Graph.local_to_global
      omega
    rw [hg, heb]
    exact hr

theorem receive_counts_pair (g : Graph) (hv : g.Valid) (H : Hash128) (a b c : Nat)
    (hab : g.has_edge a b = true) (hac : g.has_edge a c = true) (hbc : b ≠ c)
    (e : TriangulateAggrBufferedHashPush) (payload : List Char)
    (hrk : e.rank_ = g.get_owner a)
    (hr : (process_messages g H (some payload) e).rebf_.safe_contains H a b = true) :
    e.ntriangles_ + 1 ≤ (process_messages g H (some payload) e).ntriangles_ := by
  have h := g.probe_hits_pos hv H _ a b c hab hac hbc hr
  have hn : (process_messages g H (some payload) e).ntriangles_ =
      e.ntriangles_ + probe_hits g H e.rank_ (process_messages g H (some payload) e).rebf_ := by
    show (List.range (g.get_lnv e.rank_)).foldl
      (fun nt i => probe_i_body g H e.rank_ _ i nt) e.ntriangles_ = _
    rw [probe_fold_count]
    rfl
  rw [hn, hrk]
  omega

/-- C9 (amended): in a valid graph, for every triangle `x < y < z` in which `y`
and `z` are owned by other processes than `x` (so whenever the three owners
differ), the enumerators have three candidate pairs on its account and none of
the reversed pairs: the owner of `x` has `(y, z)`, the owner of `y` has `(x, z)`
and the owner of `z` has `(x, y)`.  A process that owns the first vertex of one
of these pairs and receives a filter which reports the pair increments its
counter in `process_messages`: the owner of `y` for `(y, z)`, the owner of `x` for
`(x, z)` and for `(x, y)`.  So the owner of the middle vertex is incremented on
account of the triangle as well as the owner of the smallest vertex, whenever
the filters that hold the pairs are received. -/
theorem three_owner_triangle_credits (g : Graph) (hv : g.Valid) (x y z : Nat)
    (hxy : x < y) (hyz : y < z)
    (e1 : g.has_edge x y = true) (e2 : g.has_edge x z = true) (e3 : g.has_edge y z = true)
    (o1 : g.get_owner x ≠ g.get_owner y) (o2 : g.get_owner x ≠ g.get_owner z) :
    (g.sends x y z ∧ g.sends y x z ∧ g.sends z x y ∧
      ¬ g.sends x z y ∧ ¬ g.sends y z x ∧ ¬ g.sends z y x) ∧
    ∀ (H : Hash128) (e : TriangulateAggrBufferedHashPush) (payload : List Char),
      (e.rank_ = g.get_owner y →
        (process_messages g H (some payload) e).rebf_.safe_contains H y z = true →
        e.ntriangles_ + 1 ≤ (process_messages g H (some payload) e).ntriangles_) ∧
      (e.rank_ = g.get_owner x →
        (process_messages g H (some payload) e).rebf_.safe_contains H x z = true →
        e.ntriangles_ + 1 ≤ (process_messages g H (some payload) e).ntriangles_) ∧
      (e.rank_ = g.get_owner x →
        (process_messages g H (some payload) e).rebf_.safe_contains H x y = true →
        e.ntriangles_ + 1 ≤ (process_messages g H (some payload) e).ntriangles_) := by
  obtain ⟨⟨s1, -⟩, ⟨s2, -⟩, ⟨s3, -⟩, n1, n2, n3⟩ :=
    g.three_owner_triangle_pairs hv x y z hxy hyz e1 e2 e3 o1 o2
  have e1' : g.has_edge y x = true := by rw [g.has_edge_symm hv]; exact e1
  refine ⟨⟨s1, s2, s3, n1, n2, n3⟩, fun H e payload => ⟨?_, ?_, ?_⟩⟩
  · intro hrk hr
    exact g.receive_counts_pair hv H y z x e3 e1' (by omega) e payload hrk hr
  · intro hrk hr
    exact g.receive_counts_pair hv H x z y e2 e1 (by omega) e payload hrk hr
  · intro hrk hr
    exact g.receive_counts_pair hv H x y z e1 e2 (by omega) e payload hrk hr

/-- Witness for C9 (amended): the triangle `0 < 1 < 2` of `graph_k3_three`. -/
theorem three_owner_triangle_credits_witness :
    graph_k3_three.Valid ∧
    (graph_k3_three.sends 0 1 2 ∧ graph_k3_three.sends 1 0 2 ∧ graph_k3_three.sends 2 0 1 ∧
      ¬ graph_k3_three.sends 0 2 1 ∧ ¬ graph_k3_three.sends 1 2 0 ∧
      ¬ graph_k3_three.sends 2 1 0) ∧
    ∀ (H : Hash128) (e : TriangulateAggrBufferedHashPush) (payload : List Char),
      (e.rank_ = graph_k3_three.get_owner 1 →
        (process_messages graph_k3_three H (some payload) e).rebf_.safe_contains H 1 2 = true →
        e.ntriangles_ + 1 ≤ (process_messages graph_k3_three H (some payload) e).ntriangles_) ∧
      (e.rank_ = graph_k3_three.get_owner 0 →
        (process_messages graph_k3_three H (some payload) e).rebf_.safe_contains H 0 2 = true →
        e.ntriangles_ + 1 ≤ (process_messages graph_k3_three H (some payload) e).ntriangles_) ∧
      (e.rank_ = graph_k3_three.get_owner 0 →
        (process_messages graph_k3_three H (some payload) e).rebf_.safe_contains H 0 1 = true →
        e.ntriangles_ + 1 ≤ (process_messages graph_k3_three H (some payload) e).ntriangles_) :=
  ⟨by decide, three_owner_triangle_credits graph_k3_three (by decide) 0 1 2 (by decide)
    (by decide) (by decide) (by decide) (by decide) (by decide) (by decide)⟩

end Graph

end DefinedCalls

section EngineCalls

open TriangulateAggrBufferedHashPush

/-! ## The filter calls of the engine have a result -/

namespace TriangulateAggrBufferedHashPush

theorem FiltersDefined.of_same (e e' : TriangulateAggrBufferedHashPush)
    (h1 : e'.sebf_ = e.sebf_) (h2 : e'.rebf_ = e.rebf_) (h3 : e'.rbuf_ = e.rbuf_)
    (h : e.FiltersDefined) : e'.FiltersDefined :=
  { se := by rw [h1]; exact h.se
    re := by rw [h2]; exact h.re
    rbuf := by rw [h2, h3]; exact h.rbuf }

theorem nbsend_filters (e : TriangulateAggrBufferedHashPush) (owner : Nat) :
    (e.nbsend owner).sebf_ = e.sebf_ ∧ (e.nbsend owner).rebf_ = e.rebf_ ∧
      (e.nbsend owner).rbuf_ = e.rbuf_ := by
  unfold nbsend
  dsimp only
  split <;> exact ⟨rfl, rfl, rfl⟩

theorem defined_nbsend (e : TriangulateAggrBufferedHashPush) (owner : Nat)
    (h : e.FiltersDefined) : (e.nbsend owner).FiltersDefined :=
  FiltersDefined.of_same e _ (nbsend_filters e owner).1 (nbsend_filters e owner).2.1
    (nbsend_filters e owner).2.2 h

theorem defined_nbsend_all (e : TriangulateAggrBufferedHashPush) (h : e.FiltersDefined) :
    e.nbsend_all.FiltersDefined := by
  unfold nbsend_all
  generalize e.targets_ = l
  induction l generalizing e with
  | nil => exact h
  | cons a t ih => exact ih _ (defined_nbsend e a h)

theorem defined_set_slot (sebf : List Bloomfilter) (q : Nat) (b : Bloomfilter)
    (hb : b.WF ∧ b.HashDefined)
    (h : ∀ p, (sebf.getD p default).WF ∧ (sebf.getD p default).HashDefined) :
    ∀ p, ((sebf.set q b).getD p default).WF ∧ ((sebf.set q b).getD p default).HashDefined := by
  intro p
  by_cases hq : q < sebf.length
  · rw [list_getD_set_ite _ _ _ _ _ hq]
    by_cases hp : p = q
    · rw [if_pos hp]
      exact hb
    · rw [if_neg hp]
      exact h p
  · rw [List.set_eq_of_length_le (by omega)]
    exact h p

theorem defined_insert (H : Hash128) (b : Bloomfilter) (u v : Nat)
    (h : b.WF ∧ b.HashDefined) :
    (b.safe_insert H u v).WF ∧ (b.safe_insert H u v).HashDefined := by
  obtain ⟨hwf', hm', hk'⟩ := Bloomfilter.insert_wf H b u v h.1
  refine ⟨hwf', ?_⟩
  unfold Bloomfilter.HashDefined
  rw [hm', hk']
  exact h.2

theorem defined_n_loop (g : Graph) (H : Hash128) (i m owner q tail_m : Nat) :
    ∀ (fuel n : Nat) (e : TriangulateAggrBufferedHashPush), e.FiltersDefined →
      (lookup_n_loop g H i m owner q tail_m fuel n e).FiltersDefined := by
  intro fuel
  induction fuel with
  | zero => intro n e h; exact h
  | succ f ih =>
    intro n e h
    unfold lookup_n_loop
    simp only
    split
    · exact h
    · split
      · exact ih (n + 1) e h
      · split
        · exact defined_nbsend _ owner (FiltersDefined.of_same e _ rfl rfl rfl h)
        · apply ih (n + 1)
          exact
            { se := defined_set_slot e.sebf_ q _ (defined_insert H _ _ _ (h.se q)) h.se
              re := h.re
              rbuf := h.rbuf }

theorem defined_m_body (g : Graph) (H : Hash128) (i e1 m : Nat)
    (e : TriangulateAggrBufferedHashPush) (h : e.FiltersDefined) :
    (lookup_m_body g H i e1 m e).FiltersDefined := by
  unfold lookup_m_body
  simp only
  split
  · split
    · exact h
    · split
      · split
        · exact defined_nbsend _ _ (FiltersDefined.of_same e _ rfl rfl rfl h)
        · have hn := defined_n_loop g H i m (g.get_owner (g.get_edge e.rank_ m))
            (e.pindex (g.get_owner (g.get_edge e.rank_ m))) (g.get_edge e.rank_ m)
            (e1 - (if e.prev_k_.getD (e.pindex (g.get_owner (g.get_edge e.rank_ m))) (-1) = -1
              then m + 1
              else (e.prev_k_.getD (e.pindex (g.get_owner (g.get_edge e.rank_ m))) (-1)).toNat))
            (if e.prev_k_.getD (e.pindex (g.get_owner (g.get_edge e.rank_ m))) (-1) = -1
              then m + 1
              else (e.prev_k_.getD (e.pindex (g.get_owner (g.get_edge e.rank_ m))) (-1)).toNat)
            e h
          generalize lookup_n_loop g H i m (g.get_owner (g.get_edge e.rank_ m))
            (e.pindex (g.get_owner (g.get_edge e.rank_ m))) (g.get_edge e.rank_ m) _ _ e = e'
            at hn
          split
          · split
            · exact defined_nbsend _ _ (FiltersDefined.of_same e' _ rfl rfl rfl hn)
            · exact FiltersDefined.of_same e' _ rfl rfl rfl hn
          · exact hn
      · exact h
  · exact h

theorem defined_m_loop (g : Graph) (H : Hash128) (i e1 : Nat) :
    ∀ (fuel m : Nat) (e : TriangulateAggrBufferedHashPush), e.FiltersDefined →
      (lookup_m_loop g H i e1 fuel m e).FiltersDefined := by
  intro fuel
  induction fuel with
  | zero => intro m e h; exact h
  | succ f ih =>
    intro m e h
    unfold lookup_m_loop
    exact ih (m + 1) _ (defined_m_body g H i e1 m e h)

theorem defined_i_body (g : Graph) (H : Hash128) (i : Nat)
    (e : TriangulateAggrBufferedHashPush) (h : e.FiltersDefined) :
    (lookup_i_body g H i e).FiltersDefined := by
  unfold lookup_i_body
  simp only
  split
  · exact h
  · split
    · exact h
    · exact defined_m_loop g H i _ _ _ e h

theorem defined_lookup_edges (g : Graph) (H : Hash128)
    (e : TriangulateAggrBufferedHashPush) (h : e.FiltersDefined) :
    (lookup_edges g H e).FiltersDefined := by
  unfold lookup_edges
  generalize List.range (g.get_lnv e.rank_) = l
  induction l generalizing e with
  | nil => exact h
  | cons a t ih => exact ih _ (defined_i_body g H a e h)

theorem defined_process_messages (g : Graph) (H : Hash128) (msg : Option (List Char))
    (e : TriangulateAggrBufferedHashPush) (h : e.FiltersDefined) :
    (process_messages g H msg e).FiltersDefined := by
  cases msg with
  | none => exact h
  | some payload =>
    have hlen : (payload.take e.rebf_.nbits ++
        e.rbuf_.drop (min payload.length e.rebf_.nbits)).length = e.rebf_.m_ := by
      rw [List.length_append, List.length_take, List.length_drop, h.rbuf]
      unfold Bloomfilter.nbits
      omega
    have hb : (e.rebf_.copy_to (payload.take e.rebf_.nbits ++
        e.rbuf_.drop (min payload.length e.rebf_.nbits))).bits_.length = e.rebf_.m_ := by
      unfold Bloomfilter.copy_to
      simp only [List.length_append, List.length_take, List.length_drop]
      rw [h.re.1.1, h.rbuf]
      unfold Bloomfilter.nbits
      omega
    exact
      { se := h.se
        re := ⟨⟨hb, h.re.1.2⟩, h.re.2⟩
        rbuf := hlen }

theorem defined_recycle (inds : List Nat) (e : TriangulateAggrBufferedHashPush)
    (h : e.FiltersDefined) : (recycle inds e).FiltersDefined := by
  unfold recycle
  induction inds generalizing e with
  | nil => exact h
  | cons a t ih =>
    apply ih
    have hz : (e.sebf_.getD a default).zfill.WF ∧ (e.sebf_.getD a default).zfill.HashDefined := by
      refine ⟨⟨?_, (h.se a).1.2⟩, (h.se a).2⟩
      show ((e.sebf_.getD a default).bits_.map (fun _ => '0')).length = _
      rw [List.length_map]
      exact (h.se a).1.1
    exact
      { se := defined_set_slot e.sebf_ a _ hz h.se
        re := h.re
        rbuf := h.rbuf }

theorem defined_apply (g : Graph) (H : Hash128) (ev : DriverEvent)
    (e : TriangulateAggrBufferedHashPush) (h : e.FiltersDefined) :
    (ev.apply g H e).FiltersDefined := by
  cases ev with
  | pass => exact defined_lookup_edges g H e h
  | flush => exact defined_nbsend_all e h
  | receive payload => exact defined_process_messages g H (some payload) e h
  | recycle inds => exact defined_recycle inds e h

theorem defined_drive (g : Graph) (H : Hash128) (evs : List DriverEvent)
    (e : TriangulateAggrBufferedHashPush) (h : e.FiltersDefined) :
    (drive g H evs e).FiltersDefined := by
  unfold drive
  induction evs generalizing e with
  | nil => exact h
  | cons a t ih => exact ih _ (defined_apply g H a e h)

theorem defined_ctor (g : Graph) (F : FloatOps) (hint : Int) (rank : Nat)
    (e0 : TriangulateAggrBufferedHashPush) (hc : ctor g F hint rank = some e0)
    (hd : ∀ bf, Bloomfilter.mk1 F (ctor_bufsize g hint) = some bf → bf.HashDefined) :
    e0.FiltersDefined := by
  unfold ctor at hc
  simp only at hc
  cases hbf : Bloomfilter.mk1 F (ctor_bufsize g hint) with
  | none =>
    rw [hbf] at hc
    cases hc
  | some bf =>
    rw [hbf] at hc
    simp only [Option.some.injEq] at hc
    have hwf : bf.WF := by
      unfold Bloomfilter.mk1 at hbf
      split at hbf
      · cases hbf
      · simp only at hbf
        split at hbf
        · cases hbf
        · split at hbf
          · cases hbf
          · simp only [Option.some.injEq] at hbf
            rw [← hbf]
            exact ⟨List.length_replicate _ _, List.length_replicate _ _⟩
    rw [← hc]
    exact
      { se := fun p => by
          show ((List.replicate _ bf).getD p default).WF ∧
            ((List.replicate _ bf).getD p default).HashDefined
          rw [List.getD_eq_getElem?_getD, List.getElem?_replicate]
          split
          · exact ⟨hwf, hd bf hbf⟩
          · exact ⟨by decide, by decide⟩
        re := ⟨hwf, hd bf hbf⟩
        rbuf := by
          show (List.replicate bf.nbits (Char.ofNat 0)).length = bf.m_
          rw [List.length_replicate]
          rfl }

/-- The engine definitions take the calls `insert` and `contains` in their `safe_`
form.  When the filter that the constructor builds is one on which `hash` has a
result (`k_` even, `m_ > 0`), then in every state that the driver reaches from
the constructed object, by any sequence of steps, the calls on every send filter
and on the receive filter have a result, and it is the one of the `safe_` form. -/
theorem filter_calls_defined (g : Graph) (F : FloatOps) (H : Hash128) (hint : Int)
    (rank : Nat) (e0 : TriangulateAggrBufferedHashPush) (hc : ctor g F hint rank = some e0)
    (hd : ∀ bf, Bloomfilter.mk1 F (ctor_bufsize g hint) = some bf → bf.HashDefined)
    (evs : List DriverEvent) (p u v : Nat) :
    ((drive g H evs e0).sebf_.getD p default).insert H u v =
        some (((drive g H evs e0).sebf_.getD p default).safe_insert H u v) ∧
      (drive g H evs e0).rebf_.contains H u v =
        some ((drive g H evs e0).rebf_.safe_contains H u v) := by
  have h := defined_drive g H evs e0 (defined_ctor g F hint rank e0 hc hd)
  constructor
  · rw [Bloomfilter.insert_eq H _ u v (h.se p).1, if_pos (h.se p).2]
  · rw [Bloomfilter.contains_eq_safe H _ u v h.re.1, if_pos h.re.2]

theorem pow2_ge_power (n : Nat) : ∀ (fuel p : Nat), ∃ j ≤ fuel, pow2_ge n fuel p = p * 2 ^ j := by
  intro fuel
  induction fuel with
  | zero => intro p; exact ⟨0, le_refl _, by simp [pow2_ge]⟩
  | succ f ih =>
    intro p
    unfold pow2_ge
    by_cases h : n ≤ p
    · rw [if_pos h]
      exact ⟨0, Nat.zero_le _, by simp⟩
    · rw [if_neg h]
      obtain ⟨j, hj, he⟩ := ih (2 * p)
      exact ⟨j + 1, by omega, by rw [he, pow_succ]; ring⟩

theorem pow2_ge_values (n : Nat) :
    pow2_ge n 10 1 ∈ [1, 2, 4, 8, 16, 32, 64, 128, 256, 512, 1024] := by
  obtain ⟨j, hj, he⟩ := pow2_ge_power n 10 1
  rw [he]
  interval_cases j <;> decide

/-- With the floating-point values of the default tolerance, the constructor
builds for every capacity `n ≥ 1` of the table a filter with `m_ > 0` bits and 30
hash slots: one on which `hash` has a result. -/
theorem default_filter_defined (n : Int) (bf : Bloomfilter)
    (h : Bloomfilter.mk1 ieee_1e_09 n = some bf) : 0 < bf.m_ ∧ bf.k_ = 30 ∧ bf.HashDefined := by
  have key : ∀ q ∈ [1, 2, 4, 8, 16, 32, 64, 128, 256, 512, 1024],
      0 < ieee_1e_09.nbits q ∧ ieee_1e_09.round_mul_log2 (ieee_1e_09.nbits q / q) = 30 ∧
        q ≠ 0 := by
    decide
  unfold Bloomfilter.mk1 at h
  split at h
  · cases h
  · simp only at h
    obtain ⟨k1, k2, k3⟩ := key (ieee_1e_09.pow2_ceil_log2 n.toNat) (pow2_ge_values n.toNat)
    rw [if_neg k3, k2] at h
    simp only [Nat.reduceEqDiff, if_false, Option.some.injEq] at h
    rw [← h]
    exact ⟨k1, rfl, show (30 : Nat) % 2 = 0 from rfl, fun _ => k1⟩

/-- The same for an engine constructed with the floating-point values of the
default tolerance: every filter call of every reachable state has a result, the
one of its `safe_` form. -/
theorem filter_calls_defined_default (g : Graph) (H : Hash128) (hint : Int) (rank : Nat)
    (e0 : TriangulateAggrBufferedHashPush) (hc : ctor g ieee_1e_09 hint rank = some e0)
    (evs : List DriverEvent) (p u v : Nat) :
    ((drive g H evs e0).sebf_.getD p default).insert H u v =
        some (((drive g H evs e0).sebf_.getD p default).safe_insert H u v) ∧
      (drive g H evs e0).rebf_.contains H u v =
        some ((drive g H evs e0).rebf_.safe_contains H u v) :=
  filter_calls_defined g ieee_1e_09 H hint rank e0 hc
    (fun bf h => (default_filter_defined _ bf h).2.2) evs p u v

end TriangulateAggrBufferedHashPush

end EngineCalls

end TriC
